import Mathlib

/-!
# The per-seed mutation engine `fuzz_one` (src/fuzz_one.c)

A shallow embedding of the redundancy oracles (`could_be_bitflip`,
`could_be_arith`, `could_be_interest`), of the deterministic stages and of the
havoc loop of `fuzz_one`, followed by the properties established about them.

Conventions: machine integers are natural numbers reduced modulo `2 ^ w`
where the C code can wrap; buffers are lists of bytes (`List Nat`, every
entry below 256); multi-byte accesses `*(u16 *)(buf + i)` and
`*(u32 *)(buf + i)` are little-endian loads and stores.
-/

namespace FuzzOne

/-! ## Constants of the configuration header (not part of src/) -/

/-- Modelled from the spec: `ARITH_MAX` (config header, absent from src/), design value 35. -/
def ARITH_MAX : Nat := 35

/-- Modelled from the spec: `MAX_FILE` (config header, absent from src/), 1 MiB. -/
def MAX_FILE : Nat := 1048576

/-- Modelled from the spec: `MIN_AUTO_EXTRA` (config header, absent from src/), 3. -/
def MIN_AUTO_EXTRA : Nat := 3

/-- Modelled from the spec: `MAX_AUTO_EXTRA` (config header, absent from src/), 32. -/
def MAX_AUTO_EXTRA : Nat := 32

/-- Modelled from the spec: `EFF_MAP_SCALE2` (config header, absent from src/), 3. -/
def EFF_MAP_SCALE2 : Nat := 3

/-- Modelled from the spec: `EFF_MIN_LEN` (config header, absent from src/), 128. -/
def EFF_MIN_LEN : Nat := 128

/-- Modelled from the spec: `EFF_MAX_PERC` (config header, absent from src/), 90. -/
def EFF_MAX_PERC : Nat := 90

/-- Modelled from the spec: `HAVOC_BLK_XL` (config header, absent from src/), 32 KiB. -/
def HAVOC_BLK_XL : Nat := 32768

/-- Modelled from the spec: `HAVOC_STACK_POW2` (config header, absent from src/), 7. -/
def HAVOC_STACK_POW2 : Nat := 7

/-- Modelled from the spec: `MAX_DET_EXTRAS` (config header, absent from src/), 200. -/
def MAX_DET_EXTRAS : Nat := 200

/-- Modelled from the spec: `USE_AUTO_EXTRAS` (config header, absent from src/), 50. -/
def USE_AUTO_EXTRAS : Nat := 50

/-- Modelled from the spec: `MAX_DICT_FILE` (config header, absent from src/), 128. -/
def MAX_DICT_FILE : Nat := 128

/-- Modelled from the spec: `HAVOC_CYCLES_INIT` (config header, absent from src/), 1024. -/
def HAVOC_CYCLES_INIT : Nat := 1024

/-- Modelled from the spec: `HAVOC_CYCLES` (config header, absent from src/), 256. -/
def HAVOC_CYCLES : Nat := 256

/-- Modelled from the spec: `HAVOC_MIN` (config header, absent from src/), 16. -/
def HAVOC_MIN : Nat := 16

/-- Modelled from the spec: `HAVOC_MAX_MULT` (config header, absent from src/), 16. -/
def HAVOC_MAX_MULT : Nat := 16

/-- The number of values of a `u32`. -/
def U32 : Nat := 4294967296

/-- Subtraction of two `u32` values, wrapping as in C. -/
def sub32 (a b : Nat) : Nat := (a % U32 + U32 - b % U32) % U32

/-- Addition of two `u32` values, wrapping as in C. -/
def add32 (a b : Nat) : Nat := (a + b) % U32

/-- Modelled from the spec: the `SWAP16` macro (types header, absent from src/):
the 16-bit value with its two bytes exchanged. -/
def SWAP16 (x : Nat) : Nat := (x % 256) * 256 + (x / 256) % 256

/-- Modelled from the spec: the `SWAP32` macro (types header, absent from src/):
the 32-bit value with its four bytes in reverse order. -/
def SWAP32 (x : Nat) : Nat :=
  (x % 256) * 16777216 + ((x / 256) % 256) * 65536 + ((x / 65536) % 256) * 256
    + (x / 16777216) % 256

/-- Conversion of a signed table entry to `u8`. -/
def toU8 (v : Int) : Nat := (v % 256).toNat

/-- Conversion of a signed table entry to `u16`. -/
def toU16 (v : Int) : Nat := (v % 65536).toNat

/-- Conversion of a signed table entry to `u32`. -/
def toU32 (v : Int) : Nat := (v % 4294967296).toNat

/-- The tables `interesting_8` (`s8[]`), `interesting_16` (`s16[]`) and
`interesting_32` (`s32[]`); they are declared outside src/, so the code is
modelled over arbitrary tables. `sizeof(interesting_8)`,
`sizeof(interesting_16) / 2` and `sizeof(interesting_32) / 4` are the lengths
of the lists. -/
structure Tables where
  interesting_8 : List Int
  interesting_16 : List Int
  interesting_32 : List Int

/-- The tables of the upstream configuration header (`INTERESTING_8`,
`INTERESTING_8, INTERESTING_16`, and `INTERESTING_8, INTERESTING_16,
INTERESTING_32`); used for concrete evaluations only. -/
def afl_tables : Tables where
  interesting_8 := [-128, -1, 0, 1, 16, 32, 64, 100, 127]
  interesting_16 := [-128, -1, 0, 1, 16, 32, 64, 100, 127,
    -32768, -129, 128, 255, 256, 512, 1000, 1024, 4096, 32767]
  interesting_32 := [-128, -1, 0, 1, 16, 32, 64, 100, 127,
    -32768, -129, 128, 255, 256, 512, 1000, 1024, 4096, 32767,
    -2147483648, -100663046, -32769, 32768, 65535, 65536, 100663045, 2147483647]

/-! ## The redundancy oracle -/

/-- The loop `while (!(xor_val & 1)) { sh++; xor_val >>= 1; }` of
`could_be_bitflip`, returning `(sh, xor_val)` at exit. The first argument
bounds the number of iterations; 32 suffice for a non-zero `u32`
(`shift_loop_spec`). -/
def shift_loop : Nat → Nat → Nat → Nat × Nat
  | 0, sh, x => (sh, x)
  | fuel + 1, sh, x =>
    if x &&& 1 = 0 then shift_loop fuel (sh + 1) (x >>> 1) else (sh, x)

/-- The function `could_be_bitflip(u32 xor_val)`. -/
def could_be_bitflip (xor_val : Nat) : Bool :=
  if xor_val = 0 then true
  else
    let r := shift_loop 32 0 xor_val
    let sh := r.1
    let x := r.2
    if x = 1 ∨ x = 3 ∨ x = 15 then true
    else if sh &&& 7 ≠ 0 then false
    else if x = 0xff ∨ x = 0xffff ∨ x = 0xffffffff then true
    else false

/-- One iteration of the byte loop of `could_be_arith`; the accumulator is
`(diffs, ov, nv)`. -/
def arith_byte_step (old_val new_val : Nat) (acc : Nat × Nat × Nat) (i : Nat) :
    Nat × Nat × Nat :=
  let a := (old_val >>> (8 * i)) % 256
  let b := (new_val >>> (8 * i)) % 256
  if a ≠ b then (acc.1 + 1, a, b) else acc

/-- One iteration of the word loop of `could_be_arith`; the accumulator is
`(diffs, ov, nv)`. -/
def arith_word_step (old_val new_val : Nat) (acc : Nat × Nat × Nat) (i : Nat) :
    Nat × Nat × Nat :=
  let a := (old_val >>> (16 * i)) % 65536
  let b := (new_val >>> (16 * i)) % 65536
  if a ≠ b then (acc.1 + 1, a, b) else acc

/-- The function `could_be_arith(u32 old_val, u32 new_val, u8 blen)`. -/
def could_be_arith (old_val new_val blen : Nat) : Bool :=
  if old_val = new_val then true
  else
    let r1 := (List.range blen).foldl (arith_byte_step old_val new_val) (0, 0, 0)
    let ov := r1.2.1
    let nv := r1.2.2
    if r1.1 = 1 ∧ ((sub32 ov nv) % 256 ≤ ARITH_MAX ∨ (sub32 nv ov) % 256 ≤ ARITH_MAX) then
      true
    else if blen = 1 then false
    else
      let r2 := (List.range (blen / 2)).foldl (arith_word_step old_val new_val) (0, ov, nv)
      let ov := r2.2.1
      let nv := r2.2.2
      if r2.1 = 1 ∧
          ((sub32 ov nv) % 65536 ≤ ARITH_MAX ∨ (sub32 nv ov) % 65536 ≤ ARITH_MAX) then true
      else if r2.1 = 1 ∧
          ((sub32 (SWAP16 ov) (SWAP16 nv)) % 65536 ≤ ARITH_MAX ∨
           (sub32 (SWAP16 nv) (SWAP16 ov)) % 65536 ≤ ARITH_MAX) then true
      else if blen = 4 then
        if sub32 old_val new_val ≤ ARITH_MAX ∨ sub32 new_val old_val ≤ ARITH_MAX then true
        else if sub32 (SWAP32 old_val) (SWAP32 new_val) ≤ ARITH_MAX ∨
            sub32 (SWAP32 new_val) (SWAP32 old_val) ≤ ARITH_MAX then true
        else false
      else false

/-- The value `old_val & ~(mask << (i * 8))` of `could_be_interest`, as a `u32`. -/
def clear_lane (old_val mask i : Nat) : Nat :=
  old_val &&& (0xffffffff ^^^ ((mask <<< (i * 8)) % U32))

/-- The candidate `(old_val & ~(mask << (i * 8))) | (v << (i * 8))` of
`could_be_interest`, as a `u32`. -/
def insert_lane (old_val mask i v : Nat) : Nat :=
  clear_lane old_val mask i ||| ((v <<< (i * 8)) % U32)

/-- The function `could_be_interest(u32 old_val, u32 new_val, u8 blen, u8 check_le)`. -/
def could_be_interest (T : Tables) (old_val new_val blen : Nat) (check_le : Bool) : Bool :=
  if old_val = new_val then true
  else if (List.range blen).any (fun i =>
      T.interesting_8.any (fun v => decide (new_val = insert_lane old_val 0xff i (toU8 v))))
    then true
  else if blen = 2 ∧ check_le = false then false
  else if (List.range (blen - 1)).any (fun i =>
      T.interesting_16.any (fun v =>
        decide (new_val = insert_lane old_val 0xffff i (toU16 v)) ||
        (decide (blen > 2) &&
          decide (new_val = insert_lane old_val 0xffff i (SWAP16 (toU16 v))))))
    then true
  else if blen = 4 ∧ check_le = true then
    T.interesting_32.any (fun v => decide (new_val = toU32 v))
  else false

/-- The value `x` with the byte at byte offset `i` replaced by `b` (the
specification's "one-byte lane overwritten"). -/
def set_byte (x i b : Nat) : Nat :=
  x % 256 ^ i + 256 ^ i * b + 256 ^ (i + 1) * (x / 256 ^ (i + 1))

/-- The 16-bit lane of `x` at byte offset `k`. -/
def lane16 (x k : Nat) : Nat := (x / 256 ^ k) % 65536

/-- The value `x` with the 16-bit lane at byte offset `k` replaced by `v`, all
other bytes unchanged. -/
def set_lane16 (x k v : Nat) : Nat :=
  x % 256 ^ k + 256 ^ k * v + 256 ^ (k + 2) * (x / 256 ^ (k + 2))

/-! ## Buffers -/

/-- The little-endian load `*(u16 *)(buf + i)`. -/
def rd16 (buf : List Nat) (i : Nat) : Nat :=
  buf.getD i 0 + 256 * buf.getD (i + 1) 0

/-- The little-endian store `*(u16 *)(buf + i) = v`. -/
def wr16 (buf : List Nat) (i v : Nat) : List Nat :=
  (buf.set i (v % 256)).set (i + 1) ((v / 256) % 256)

/-- The little-endian load `*(u32 *)(buf + i)`. -/
def rd32 (buf : List Nat) (i : Nat) : Nat :=
  buf.getD i 0 + 256 * buf.getD (i + 1) 0 + 65536 * buf.getD (i + 2) 0
    + 16777216 * buf.getD (i + 3) 0

/-- The little-endian store `*(u32 *)(buf + i) = v`. -/
def wr32 (buf : List Nat) (i v : Nat) : List Nat :=
  (((buf.set i (v % 256)).set (i + 1) ((v / 256) % 256)).set (i + 2)
    ((v / 65536) % 256)).set (i + 3) ((v / 16777216) % 256)

/-- The little-endian value of the `w` bytes of `buf` at offset `i`. -/
def rdLE (buf : List Nat) (i : Nat) : Nat → Nat
  | 0 => 0
  | w + 1 => buf.getD i 0 + 256 * rdLE buf (i + 1) w

/-- The buffer `buf` with the `w`-byte little-endian value `v` written at offset `i`. -/
def wrLE (buf : List Nat) (i : Nat) : Nat → Nat → List Nat
  | 0, _ => buf
  | w + 1, v => wrLE (buf.set i (v % 256)) (i + 1) w (v / 256)

/-- Every entry of the buffer is a byte. -/
def Bytes (buf : List Nat) : Prop := ∀ b ∈ buf, b < 256

/-- The macro `FLIP_BIT(_ar, _b)`: `_arf[_bf >> 3] ^= (128 >> (_bf & 7))`. -/
def FLIP_BIT (ar : List Nat) (b : Nat) : List Nat :=
  ar.set (b >>> 3) (ar.getD (b >>> 3) 0 ^^^ (128 >>> (b &&& 7)))

/-- The call `memcpy(dst + off, src, src.length)`. -/
def write_at (dst : List Nat) (off : Nat) (src : List Nat) : List Nat :=
  dst.take off ++ src ++ dst.drop (off + src.length)

/-- The bytes `buf[off .. off + n)`. -/
def slice (buf : List Nat) (off n : Nat) : List Nat := (buf.drop off).take n

/-- The macro `EFF_APOS(_p)`. -/
def EFF_APOS (p : Nat) : Nat := p >>> EFF_MAP_SCALE2

/-- The macro `EFF_REM(_x)`. -/
def EFF_REM (x : Nat) : Nat := x &&& ((1 <<< EFF_MAP_SCALE2) - 1)

/-- The macro `EFF_ALEN(_l)`. -/
def EFF_ALEN (l : Nat) : Nat := EFF_APOS l + (if EFF_REM l ≠ 0 then 1 else 0)

/-- The macro `EFF_SPAN_ALEN(_p, _l)`. -/
def EFF_SPAN_ALEN (p l : Nat) : Nat := EFF_APOS (p + l - 1) - EFF_APOS p + 1

/-! ## Environment and state of one pass -/

/-- What one call of `common_fuzz_stuff` does besides running the target: its
return value (non-zero means abandon the seed), the hash
`hash32(trace_bits, MAP_SIZE, HASH_CONST)` of the coverage map it leaves behind,
and by how much it raised `queued_paths` and `unique_crashes`. -/
structure Answer where
  abandon : Bool
  cksum : Nat
  new_paths : Nat
  new_crashes : Nat

/-- The stage indices `STAGE_FLIP1` ... `STAGE_SPLICE`. -/
inductive StageId where
  | FLIP1 | FLIP2 | FLIP4 | FLIP8 | FLIP16 | FLIP32
  | ARITH8 | ARITH16 | ARITH32
  | INTEREST8 | INTEREST16 | INTEREST32
  | EXTRAS_UO | EXTRAS_UI | EXTRAS_AO
  | HAVOC | SPLICE
  deriving DecidableEq

/-- Everything `fuzz_one` reads and does not write: the external collaborators
(the harness behind `common_fuzz_stuff`, indexed by the number of earlier
executions and the bytes submitted; the generator behind `UR`, indexed by the
number of earlier draws; `choose_block_len`), the global settings, the two
dictionaries, the tables of interesting values and the constant
`SPLICE_HAVOC` (`splice_havoc`), whose value the specification does not give. -/
structure Ctx where
  harness : Nat → List Nat → Answer
  random : Nat → Nat
  choose_block_len : Nat → Nat → Nat
  exec_cksum : Nat
  dumb_mode : Bool
  no_arith : Bool
  havoc_div : Nat
  splice_havoc : Nat
  extras : List (List Nat)
  a_extras : List (List Nat)
  T : Tables

/-- The variables `fuzz_one` writes. `execs` records, in order, the arguments
`(buf[0 .. len), len)` of every call of `common_fuzz_stuff`; `autos` records
the arguments `(a_collect, a_len)` of every call of `maybe_add_auto`; an
entry `none` of `a_collect` is a byte of the stack array never written. -/
structure FState where
  in_buf : List Nat
  len : Nat
  out_buf : List Nat
  temp_len : Nat
  execs : List (List Nat × Nat)
  rnd : Nat
  cksum : Nat
  queued_paths : Nat
  unique_crashes : Nat
  orig_hit_cnt : Nat
  new_hit_cnt : Nat
  stage_cur : Int
  stage_max : Int
  stage_cur_byte : Int
  stage_cur_val : Int
  stage_finds : StageId → Nat
  stage_cycles : StageId → Int
  eff_map : List Nat
  eff_cnt : Nat
  a_collect : List (Option Nat)
  a_len : Nat
  prev_cksum : Nat
  autos : List (List (Option Nat) × Nat)
  last_len : Nat
  ex_tmp : List Nat
  perf_score : Nat
  orig_perf : Nat
  havoc_queued : Nat
  doing_det : Bool
  splice_cycle : Nat

/-- The state after `memcpy(out_buf, in_buf, len)`, before the first stage. -/
def init_state (seed : List Nat) : FState where
  in_buf := seed
  len := seed.length
  out_buf := seed
  temp_len := 0
  execs := []
  rnd := 0
  cksum := 0
  queued_paths := 0
  unique_crashes := 0
  orig_hit_cnt := 0
  new_hit_cnt := 0
  stage_cur := 0
  stage_max := 0
  stage_cur_byte := 0
  stage_cur_val := 0
  stage_finds := fun _ => 0
  stage_cycles := fun _ => 0
  eff_map := []
  eff_cnt := 1
  a_collect := List.replicate MAX_AUTO_EXTRA none
  a_len := 0
  prev_cksum := 0
  autos := []
  last_len := 0
  ex_tmp := []
  perf_score := 100
  orig_perf := 100
  havoc_queued := 0
  doing_det := false
  splice_cycle := 0

/-- How a block of code ends: `next` when control reaches its end, `abandon`
when it leaves through `goto abandon_entry`. -/
inductive Ctl (σ : Type) where
  | next (s : σ) : Ctl σ
  | abandon (s : σ) : Ctl σ

/-- Sequencing: the second block runs only if the first did not abandon. -/
def Ctl.bind {σ : Type} (x : Ctl σ) (f : σ → Ctl σ) : Ctl σ :=
  match x with
  | Ctl.next s => f s
  | Ctl.abandon s => Ctl.abandon s

/-- The state at the end of a block, however it ended. -/
def Ctl.state {σ : Type} : Ctl σ → σ
  | Ctl.next s => s
  | Ctl.abandon s => s

/-- A `for` loop whose variable runs through `xs`; a body that abandons ends it. -/
def for_each {α σ : Type} (body : α → σ → Ctl σ) : List α → σ → Ctl σ
  | [], s => Ctl.next s
  | x :: xs, s => (body x s).bind (for_each body xs)

/-- The loop `for (i = start; i < start + count; i++) body`. -/
def for_loop {σ : Type} (body : Nat → σ → Ctl σ) (start count : Nat) (s : σ) : Ctl σ :=
  for_each body (List.range' start count) s

/-- The call `common_fuzz_stuff(argv, buf, len, in_tree, track)` and its return value. -/
def common_fuzz_stuff (c : Ctx) (s : FState) (buf : List Nat) (len : Nat) : FState × Bool :=
  let a := c.harness s.execs.length (buf.take len)
  ({ s with
      execs := s.execs ++ [(buf.take len, len)]
      cksum := a.cksum
      queued_paths := s.queued_paths + a.new_paths
      unique_crashes := s.unique_crashes + a.new_crashes }, a.abandon)

/-- The statement `if (common_fuzz_stuff(argv, out_buf, len, in_tree, track)) goto abandon_entry;`. -/
def submit (c : Ctx) (s : FState) : Ctl FState :=
  let r := common_fuzz_stuff c s s.out_buf s.len
  if r.2 then Ctl.abandon r.1 else Ctl.next r.1

/-- The recurring block
`if (cond) { <store giving buf>; if (common_fuzz_stuff(...)) goto abandon_entry; stage_cur++; } else stage_max--;`. -/
def attempt (c : Ctx) (cond : Bool) (buf : List Nat) (val : Int) (s : FState) : Ctl FState :=
  if cond then
    (submit c { s with stage_cur_val := val, out_buf := buf }).bind
      (fun s => Ctl.next { s with stage_cur := s.stage_cur + 1 })
  else Ctl.next { s with stage_max := s.stage_max - 1 }

/-- The statements `new_hit_cnt = queued_paths + unique_crashes;
stage_finds[id] += new_hit_cnt - orig_hit_cnt; stage_cycles[id] += cycles;` -/
def account (id : StageId) (cycles : Int) (s : FState) : FState :=
  let n := s.queued_paths + s.unique_crashes
  { s with
      new_hit_cnt := n
      stage_finds := fun k => if k = id then s.stage_finds k + (n - s.orig_hit_cnt) else s.stage_finds k
      stage_cycles := fun k => if k = id then s.stage_cycles k + cycles else s.stage_cycles k }

/-! ## The walking bit flips -/

/-- The call `maybe_add_auto(a_collect, a_len)`. -/
def maybe_add_auto (s : FState) : FState :=
  { s with autos := s.autos ++ [(s.a_collect, s.a_len)] }

/-- The statements `if (a_len < MAX_AUTO_EXTRA) a_collect[a_len] = out_buf[stage_cur >> 3]; a_len++;`. -/
def a_collect_push (i : Nat) (s : FState) : FState :=
  let s1 :=
    if s.a_len < MAX_AUTO_EXTRA then
      { s with a_collect := s.a_collect.set s.a_len (some (s.out_buf.getD (i >>> 3) 0)) }
    else s
  { s1 with a_len := s1.a_len + 1 }

/-- The statement `if (a_len >= MIN_AUTO_EXTRA && a_len <= MAX_AUTO_EXTRA) maybe_add_auto(a_collect, a_len);`. -/
def a_collect_emit (s : FState) : FState :=
  if s.a_len ≥ MIN_AUTO_EXTRA ∧ s.a_len ≤ MAX_AUTO_EXTRA then maybe_add_auto s else s

/-- The auto-dictionary block of the `flip1` loop, entered when
`!dumb_mode && (stage_cur & 7) == 7`; `s.cksum` is the hash of `trace_bits`. -/
def auto_collect (c : Ctx) (i : Nat) (s : FState) : FState :=
  let cksum := s.cksum
  let s1 :=
    if (i : Int) = s.stage_max - 1 ∧ cksum = s.prev_cksum then
      a_collect_emit (a_collect_push i s)
    else if cksum ≠ s.prev_cksum then
      { a_collect_emit s with a_len := 0, prev_cksum := cksum }
    else s
  if cksum ≠ c.exec_cksum then a_collect_push i s1 else s1

/-- The body of the `flip1` loop at `stage_cur = i`. -/
def flip1_body (c : Ctx) (i : Nat) (s : FState) : Ctl FState :=
  (submit c { s with
      stage_cur := i, stage_cur_byte := i >>> 3, out_buf := FLIP_BIT s.out_buf i }).bind
    (fun s =>
      let s1 := { s with out_buf := FLIP_BIT s.out_buf i }
      if c.dumb_mode = false ∧ i &&& 7 = 7 then Ctl.next (auto_collect c i s1)
      else Ctl.next s1)

/-- The stage `flip1` ("bitflip 1/1"). -/
def flip1_stage (c : Ctx) (s : FState) : Ctl FState :=
  let s0 := { s with
    stage_max := ((s.len <<< 3 : Nat) : Int)
    orig_hit_cnt := s.queued_paths + s.unique_crashes
    prev_cksum := c.exec_cksum }
  (for_loop (flip1_body c) 0 (s.len <<< 3) s0).bind
    (fun s => Ctl.next (account StageId.FLIP1 s.stage_max { s with stage_cur := s.stage_max }))

/-- The body of the `flip2` loop at `stage_cur = i`. -/
def flip2_body (c : Ctx) (i : Nat) (s : FState) : Ctl FState :=
  (submit c { s with
      stage_cur := i, stage_cur_byte := i >>> 3
      out_buf := FLIP_BIT (FLIP_BIT s.out_buf i) (i + 1) }).bind
    (fun s => Ctl.next { s with out_buf := FLIP_BIT (FLIP_BIT s.out_buf i) (i + 1) })

/-- The stage `flip2` ("bitflip 2/1"). -/
def flip2_stage (c : Ctx) (s : FState) : Ctl FState :=
  let s0 := { s with
    stage_max := ((s.len <<< 3 : Nat) : Int) - 1
    orig_hit_cnt := s.new_hit_cnt }
  (for_loop (flip2_body c) 0 ((s.len <<< 3) - 1) s0).bind
    (fun s => Ctl.next (account StageId.FLIP2 (((s.len <<< 3 : Nat) : Int) - 1)
      { s with stage_cur := s.stage_max }))

/-- The body of the `flip4` loop at `stage_cur = i`. -/
def flip4_body (c : Ctx) (i : Nat) (s : FState) : Ctl FState :=
  (submit c { s with
      stage_cur := i, stage_cur_byte := i >>> 3
      out_buf := FLIP_BIT (FLIP_BIT (FLIP_BIT (FLIP_BIT s.out_buf i) (i + 1)) (i + 2)) (i + 3) }).bind
    (fun s => Ctl.next { s with
      out_buf := FLIP_BIT (FLIP_BIT (FLIP_BIT (FLIP_BIT s.out_buf i) (i + 1)) (i + 2)) (i + 3) })

/-- The stage `flip4` ("bitflip 4/1"). -/
def flip4_stage (c : Ctx) (s : FState) : Ctl FState :=
  let s0 := { s with
    stage_max := ((s.len <<< 3 : Nat) : Int) - 3
    orig_hit_cnt := s.new_hit_cnt }
  (for_loop (flip4_body c) 0 ((s.len <<< 3) - 3) s0).bind
    (fun s => Ctl.next (account StageId.FLIP4 s.stage_max { s with stage_cur := s.stage_max }))

/-! ## The effector map and the walking byte flips -/

/-- The statements `eff_map = ck_alloc(EFF_ALEN(len)); eff_map[0] = 1;
if (EFF_APOS(len - 1) != 0) { eff_map[EFF_APOS(len - 1)] = 1; eff_cnt++; }`. -/
def eff_init (s : FState) : FState :=
  let m := (List.replicate (EFF_ALEN s.len) 0).set 0 1
  if EFF_APOS (s.len - 1) ≠ 0 then
    { s with eff_map := m.set (EFF_APOS (s.len - 1)) 1, eff_cnt := s.eff_cnt + 1 }
  else { s with eff_map := m }

/-- The effector block of the `flip8` loop: `if (!eff_map[EFF_APOS(stage_cur)]) { ... }`. -/
def eff_mark (c : Ctx) (i : Nat) (s : FState) : FState :=
  if s.eff_map.getD (EFF_APOS i) 0 = 0 then
    let cksum :=
      if c.dumb_mode = false ∧ s.len ≥ EFF_MIN_LEN then s.cksum
      else 0xffffffff ^^^ c.exec_cksum
    if cksum ≠ c.exec_cksum then
      { s with eff_map := s.eff_map.set (EFF_APOS i) 1, eff_cnt := s.eff_cnt + 1 }
    else s
  else s

/-- The body of the `flip8` loop at `stage_cur = i`. -/
def flip8_body (c : Ctx) (i : Nat) (s : FState) : Ctl FState :=
  (submit c { s with
      stage_cur := i, stage_cur_byte := i
      out_buf := s.out_buf.set i (s.out_buf.getD i 0 ^^^ 0xFF) }).bind
    (fun s =>
      let s1 := eff_mark c i s
      Ctl.next { s1 with out_buf := s1.out_buf.set i (s1.out_buf.getD i 0 ^^^ 0xFF) })

/-- The statement after the `flip8` loop: a map more than `EFF_MAX_PERC`
percent dense is set to 1 throughout. -/
def eff_saturate (s : FState) : FState :=
  if s.eff_cnt ≠ EFF_ALEN s.len ∧ s.eff_cnt * 100 / EFF_ALEN s.len > EFF_MAX_PERC then
    { s with eff_map := List.replicate (EFF_ALEN s.len) 1 }
  else s

/-- The stage `flip8` ("bitflip 8/8"), with the set-up of the effector map before it. -/
def flip8_stage (c : Ctx) (s : FState) : Ctl FState :=
  let s0 := { eff_init s with stage_max := (s.len : Int), orig_hit_cnt := s.new_hit_cnt }
  (for_loop (flip8_body c) 0 s.len s0).bind
    (fun s => Ctl.next (account StageId.FLIP8 s.stage_max
      (eff_saturate { s with stage_cur := s.stage_max })))

/-- The test `!eff_map[EFF_APOS(i)] && !eff_map[EFF_APOS(i + 1)]`. -/
def eff_skip2 (s : FState) (i : Nat) : Bool :=
  s.eff_map.getD (EFF_APOS i) 0 == 0 && s.eff_map.getD (EFF_APOS (i + 1)) 0 == 0

/-- The test `!eff_map[EFF_APOS(i)] && ... && !eff_map[EFF_APOS(i + 3)]`. -/
def eff_skip4 (s : FState) (i : Nat) : Bool :=
  s.eff_map.getD (EFF_APOS i) 0 == 0 && s.eff_map.getD (EFF_APOS (i + 1)) 0 == 0 &&
  s.eff_map.getD (EFF_APOS (i + 2)) 0 == 0 && s.eff_map.getD (EFF_APOS (i + 3)) 0 == 0

/-- The body of the `flip16` loop at offset `i`. -/
def flip16_body (c : Ctx) (i : Nat) (s : FState) : Ctl FState :=
  if eff_skip2 s i then Ctl.next { s with stage_max := s.stage_max - 1 }
  else
    (submit c { s with
        stage_cur_byte := i
        out_buf := wr16 s.out_buf i (rd16 s.out_buf i ^^^ 0xFFFF) }).bind
      (fun s => Ctl.next { s with
        stage_cur := s.stage_cur + 1
        out_buf := wr16 s.out_buf i (rd16 s.out_buf i ^^^ 0xFFFF) })

/-- The stage `flip16` ("bitflip 16/8"); it is jumped over when `len < 2`. -/
def flip16_stage (c : Ctx) (s : FState) : Ctl FState :=
  if s.len < 2 then Ctl.next s
  else
    let s0 := { s with
      stage_cur := 0, stage_max := (s.len : Int) - 1, orig_hit_cnt := s.new_hit_cnt }
    (for_loop (flip16_body c) 0 (s.len - 1) s0).bind
      (fun s => Ctl.next (account StageId.FLIP16 s.stage_max s))

/-- The body of the `flip32` loop at offset `i`. -/
def flip32_body (c : Ctx) (i : Nat) (s : FState) : Ctl FState :=
  if eff_skip4 s i then Ctl.next { s with stage_max := s.stage_max - 1 }
  else
    (submit c { s with
        stage_cur_byte := i
        out_buf := wr32 s.out_buf i (rd32 s.out_buf i ^^^ 0xFFFFFFFF) }).bind
      (fun s => Ctl.next { s with
        stage_cur := s.stage_cur + 1
        out_buf := wr32 s.out_buf i (rd32 s.out_buf i ^^^ 0xFFFFFFFF) })

/-- The stage `flip32` ("bitflip 32/8"); it is jumped over when `len < 4`. -/
def flip32_stage (c : Ctx) (s : FState) : Ctl FState :=
  if s.len < 4 then Ctl.next s
  else
    let s0 := { s with
      stage_cur := 0, stage_max := (s.len : Int) - 3, orig_hit_cnt := s.new_hit_cnt }
    (for_loop (flip32_body c) 0 (s.len - 3) s0).bind
      (fun s => Ctl.next (account StageId.FLIP32 s.stage_max s))

/-- The six bit-flip stages in the order of `fuzz_one`, from `flip1` up to the
label `skip_bitflip`. -/
def flip_stages (c : Ctx) (s : FState) : Ctl FState :=
  (flip1_stage c s).bind (fun s =>
  (flip2_stage c s).bind (fun s =>
  (flip4_stage c s).bind (fun s =>
  (flip8_stage c s).bind (fun s =>
  (flip16_stage c s).bind (fun s =>
  flip32_stage c s)))))

/-! ## The arithmetic stages -/

/-- One round `j` of the inner loop of `arith8` at offset `i`, `orig` being
the byte found there. -/
def arith8_inner (c : Ctx) (i orig j : Nat) (s : FState) : Ctl FState :=
  (attempt c (!could_be_bitflip ((orig ^^^ (orig + j)) % 256))
      (s.out_buf.set i ((orig + j) % 256)) (j : Int) s).bind (fun s =>
  (attempt c (!could_be_bitflip ((orig ^^^ sub32 orig j) % 256))
      (s.out_buf.set i ((sub32 orig j) % 256)) (-(j : Int)) s).bind (fun s =>
  Ctl.next { s with out_buf := s.out_buf.set i orig }))

/-- The body of the outer loop of `arith8` at offset `i`. -/
def arith8_body (c : Ctx) (i : Nat) (s : FState) : Ctl FState :=
  let orig := s.out_buf.getD i 0
  if s.eff_map.getD (EFF_APOS i) 0 = 0 then
    Ctl.next { s with stage_max := s.stage_max - 2 * (ARITH_MAX : Int) }
  else
    for_loop (arith8_inner c i orig) 1 ARITH_MAX { s with stage_cur_byte := i }

/-- The stage `arith8` ("arith 8/8"). -/
def arith8_stage (c : Ctx) (s : FState) : Ctl FState :=
  let s0 := { s with
    stage_cur := 0, stage_max := 2 * (s.len : Int) * (ARITH_MAX : Int)
    orig_hit_cnt := s.new_hit_cnt }
  (for_loop (arith8_body c) 0 s.len s0).bind
    (fun s => Ctl.next (account StageId.ARITH8 s.stage_max s))

/-- One round `j` of the inner loop of `arith16` at offset `i`, `orig` being
the word found there. -/
def arith16_inner (c : Ctx) (i orig j : Nat) (s : FState) : Ctl FState :=
  let r1 := (orig ^^^ (orig + j)) % 65536
  let r2 := (orig ^^^ sub32 orig j) % 65536
  let r3 := (orig ^^^ SWAP16 (SWAP16 orig + j)) % 65536
  let r4 := (orig ^^^ SWAP16 (sub32 (SWAP16 orig) j)) % 65536
  (attempt c (decide ((orig &&& 0xff) + j > 0xff) && !could_be_bitflip r1)
      (wr16 s.out_buf i ((orig + j) % 65536)) (j : Int) s).bind (fun s =>
  (attempt c (decide ((orig &&& 0xff) < j) && !could_be_bitflip r2)
      (wr16 s.out_buf i ((sub32 orig j) % 65536)) (-(j : Int)) s).bind (fun s =>
  (attempt c (decide ((orig >>> 8) + j > 0xff) && !could_be_bitflip r3)
      (wr16 s.out_buf i (SWAP16 (SWAP16 orig + j))) (j : Int) s).bind (fun s =>
  (attempt c (decide ((orig >>> 8) < j) && !could_be_bitflip r4)
      (wr16 s.out_buf i (SWAP16 (sub32 (SWAP16 orig) j))) (-(j : Int)) s).bind (fun s =>
  Ctl.next { s with out_buf := wr16 s.out_buf i orig }))))

/-- The body of the outer loop of `arith16` at offset `i`. -/
def arith16_body (c : Ctx) (i : Nat) (s : FState) : Ctl FState :=
  let orig := rd16 s.out_buf i
  if eff_skip2 s i then
    Ctl.next { s with stage_max := s.stage_max - 4 * (ARITH_MAX : Int) }
  else
    for_loop (arith16_inner c i orig) 1 ARITH_MAX { s with stage_cur_byte := i }

/-- The stage `arith16` ("arith 16/8"); it is jumped over when `len < 2`. -/
def arith16_stage (c : Ctx) (s : FState) : Ctl FState :=
  if s.len < 2 then Ctl.next s
  else
    let s0 := { s with
      stage_cur := 0, stage_max := 4 * ((s.len : Int) - 1) * (ARITH_MAX : Int)
      orig_hit_cnt := s.new_hit_cnt }
    (for_loop (arith16_body c) 0 (s.len - 1) s0).bind
      (fun s => Ctl.next (account StageId.ARITH16 s.stage_max s))

/-- One round `j` of the inner loop of `arith32` at offset `i`, `orig` being
the dword found there. -/
def arith32_inner (c : Ctx) (i orig j : Nat) (s : FState) : Ctl FState :=
  let r1 := orig ^^^ add32 orig j
  let r2 := orig ^^^ sub32 orig j
  let r3 := orig ^^^ SWAP32 (add32 (SWAP32 orig) j)
  let r4 := orig ^^^ SWAP32 (sub32 (SWAP32 orig) j)
  (attempt c (decide ((orig &&& 0xffff) + j > 0xffff) && !could_be_bitflip r1)
      (wr32 s.out_buf i (add32 orig j)) (j : Int) s).bind (fun s =>
  (attempt c (decide ((orig &&& 0xffff) < j) && !could_be_bitflip r2)
      (wr32 s.out_buf i (sub32 orig j)) (-(j : Int)) s).bind (fun s =>
  (attempt c (decide ((SWAP32 orig &&& 0xffff) + j > 0xffff) && !could_be_bitflip r3)
      (wr32 s.out_buf i (SWAP32 (add32 (SWAP32 orig) j))) (j : Int) s).bind (fun s =>
  (attempt c (decide ((SWAP32 orig &&& 0xffff) < j) && !could_be_bitflip r4)
      (wr32 s.out_buf i (SWAP32 (sub32 (SWAP32 orig) j))) (-(j : Int)) s).bind (fun s =>
  Ctl.next { s with out_buf := wr32 s.out_buf i orig }))))

/-- The body of the outer loop of `arith32` at offset `i`. -/
def arith32_body (c : Ctx) (i : Nat) (s : FState) : Ctl FState :=
  let orig := rd32 s.out_buf i
  if eff_skip4 s i then
    Ctl.next { s with stage_max := s.stage_max - 4 * (ARITH_MAX : Int) }
  else
    for_loop (arith32_inner c i orig) 1 ARITH_MAX { s with stage_cur_byte := i }

/-- The stage `arith32` ("arith 32/8"); it is jumped over when `len < 4`. -/
def arith32_stage (c : Ctx) (s : FState) : Ctl FState :=
  if s.len < 4 then Ctl.next s
  else
    let s0 := { s with
      stage_cur := 0, stage_max := 4 * ((s.len : Int) - 3) * (ARITH_MAX : Int)
      orig_hit_cnt := s.new_hit_cnt }
    (for_loop (arith32_body c) 0 (s.len - 3) s0).bind
      (fun s => Ctl.next (account StageId.ARITH32 s.stage_max s))

/-! ## The interesting-value stages -/

/-- One round of the inner loop of `int8` at offset `i` for the table entry `v`. -/
def interest8_inner (c : Ctx) (i orig : Nat) (v : Int) (s : FState) : Ctl FState :=
  if could_be_bitflip (orig ^^^ toU8 v) || could_be_arith orig (toU8 v) 1 then
    Ctl.next { s with stage_max := s.stage_max - 1 }
  else
    (submit c { s with stage_cur_val := v, out_buf := s.out_buf.set i (toU8 v) }).bind
      (fun s => Ctl.next { s with
        out_buf := s.out_buf.set i orig, stage_cur := s.stage_cur + 1 })

/-- The body of the outer loop of `int8` at offset `i`. -/
def interest8_body (c : Ctx) (i : Nat) (s : FState) : Ctl FState :=
  let orig := s.out_buf.getD i 0
  if s.eff_map.getD (EFF_APOS i) 0 = 0 then
    Ctl.next { s with stage_max := s.stage_max - (c.T.interesting_8.length : Int) }
  else
    for_each (interest8_inner c i orig) c.T.interesting_8 { s with stage_cur_byte := i }

/-- The stage `int8` ("interest 8/8"). -/
def interest8_stage (c : Ctx) (s : FState) : Ctl FState :=
  let s0 := { s with
    stage_cur := 0, stage_max := (s.len : Int) * (c.T.interesting_8.length : Int)
    orig_hit_cnt := s.new_hit_cnt }
  (for_loop (interest8_body c) 0 s.len s0).bind
    (fun s => Ctl.next (account StageId.INTEREST8 s.stage_max s))

/-- One round of the inner loop of `int16` at offset `i` for the table entry `v`. -/
def interest16_inner (c : Ctx) (i orig : Nat) (v : Int) (s : FState) : Ctl FState :=
  (attempt c
      (!could_be_bitflip (orig ^^^ toU16 v) && !could_be_arith orig (toU16 v) 2 &&
        !could_be_interest c.T orig (toU16 v) 2 false)
      (wr16 s.out_buf i (toU16 v)) v { s with stage_cur_val := v }).bind (fun s =>
  attempt c
      (decide (toU16 v ≠ SWAP16 (toU16 v)) &&
        !could_be_bitflip (orig ^^^ SWAP16 (toU16 v)) &&
        !could_be_arith orig (SWAP16 (toU16 v)) 2 &&
        !could_be_interest c.T orig (SWAP16 (toU16 v)) 2 true)
      (wr16 s.out_buf i (SWAP16 (toU16 v))) v s)

/-- The body of the outer loop of `int16` at offset `i`. -/
def interest16_body (c : Ctx) (i : Nat) (s : FState) : Ctl FState :=
  let orig := rd16 s.out_buf i
  if eff_skip2 s i then
    Ctl.next { s with stage_max := s.stage_max - 2 * (c.T.interesting_16.length : Int) }
  else
    (for_each (interest16_inner c i orig) c.T.interesting_16 { s with stage_cur_byte := i }).bind
      (fun s => Ctl.next { s with out_buf := wr16 s.out_buf i orig })

/-- The stage `int16` ("interest 16/8"); it is jumped over when `no_arith || len < 2`. -/
def interest16_stage (c : Ctx) (s : FState) : Ctl FState :=
  if c.no_arith = true ∨ s.len < 2 then Ctl.next s
  else
    let s0 := { s with
      stage_cur := 0
      stage_max := 2 * ((s.len : Int) - 1) * (c.T.interesting_16.length : Int)
      orig_hit_cnt := s.new_hit_cnt }
    (for_loop (interest16_body c) 0 (s.len - 1) s0).bind
      (fun s => Ctl.next (account StageId.INTEREST16 s.stage_max s))

/-- One round of the inner loop of `int32` at offset `i` for the table entry `v`. -/
def interest32_inner (c : Ctx) (i orig : Nat) (v : Int) (s : FState) : Ctl FState :=
  (attempt c
      (!could_be_bitflip (orig ^^^ toU32 v) && !could_be_arith orig (toU32 v) 4 &&
        !could_be_interest c.T orig (toU32 v) 4 false)
      (wr32 s.out_buf i (toU32 v)) v { s with stage_cur_val := v }).bind (fun s =>
  attempt c
      (decide (toU32 v ≠ SWAP32 (toU32 v)) &&
        !could_be_bitflip (orig ^^^ SWAP32 (toU32 v)) &&
        !could_be_arith orig (SWAP32 (toU32 v)) 4 &&
        !could_be_interest c.T orig (SWAP32 (toU32 v)) 4 true)
      (wr32 s.out_buf i (SWAP32 (toU32 v))) v s)

/-- The body of the outer loop of `int32` at offset `i`. -/
def interest32_body (c : Ctx) (i : Nat) (s : FState) : Ctl FState :=
  let orig := rd32 s.out_buf i
  if eff_skip4 s i then
    Ctl.next { s with stage_max := s.stage_max - 2 * (c.T.interesting_32.length : Int) }
  else
    (for_each (interest32_inner c i orig) c.T.interesting_32 { s with stage_cur_byte := i }).bind
      (fun s => Ctl.next { s with out_buf := wr32 s.out_buf i orig })

/-- The stage `int32` ("interest 32/8"); it is reached only when
`!no_arith && len >= 2` and jumped over when `len < 4`. -/
def interest32_stage (c : Ctx) (s : FState) : Ctl FState :=
  if c.no_arith = true ∨ s.len < 2 ∨ s.len < 4 then Ctl.next s
  else
    let s0 := { s with
      stage_cur := 0
      stage_max := 2 * ((s.len : Int) - 3) * (c.T.interesting_32.length : Int)
      orig_hit_cnt := s.new_hit_cnt }
    (for_loop (interest32_body c) 0 (s.len - 3) s0).bind
      (fun s => Ctl.next (account StageId.INTEREST32 s.stage_max s))

/-! ## The dictionary stages -/

/-- Modelled from the spec: the macro `UR(limit)` (absent from src/), a draw
in `[0, limit)`: the next output of the generator reduced modulo `limit`. -/
def UR_val (c : Ctx) (s : FState) (limit : Nat) : Nat := c.random s.rnd % limit

/-- The generator has been advanced by one draw. -/
def tick (s : FState) : FState := { s with rnd := s.rnd + 1 }

/-- The test `memchr(eff_map + EFF_APOS(i), 1, EFF_SPAN_ALEN(i, n)) != NULL`. -/
def eff_span_set (s : FState) (i n : Nat) : Bool :=
  (slice s.eff_map (EFF_APOS i) (EFF_SPAN_ALEN i n)).contains 1

/-- The last three disjuncts of the skip test of the overwrite stages:
`tok.len > len - i || !memcmp(tok.data, out_buf + i, tok.len) || !memchr(...)`. -/
def extras_skip (s : FState) (i : Nat) (tok : List Nat) : Bool :=
  decide (tok.length > s.len - i) || (slice s.out_buf i tok.length == tok) ||
    !eff_span_set s i tok.length

/-- The statements `last_len = tok.len; memcpy(out_buf + i, tok.data, last_len);
if (common_fuzz_stuff(...)) goto abandon_entry; stage_cur++;`. -/
def extras_write (c : Ctx) (i : Nat) (tok : List Nat) (s : FState) : Ctl FState :=
  (submit c { s with last_len := tok.length, out_buf := write_at s.out_buf i tok }).bind
    (fun s => Ctl.next { s with stage_cur := s.stage_cur + 1 })

/-- One round of the inner loop of `ext_UO` at offset `i` for the token `tok`;
`UR(extras_cnt)` is drawn only when `extras_cnt > MAX_DET_EXTRAS`. -/
def ext_UO_inner (c : Ctx) (i : Nat) (tok : List Nat) (s : FState) : Ctl FState :=
  let big := decide (c.extras.length > MAX_DET_EXTRAS)
  let r := UR_val c s c.extras.length
  let s1 := if big then tick s else s
  if (big && decide (r ≥ MAX_DET_EXTRAS)) || extras_skip s1 i tok then
    Ctl.next { s1 with stage_max := s1.stage_max - 1 }
  else extras_write c i tok s1

/-- The body of the outer loop of `ext_UO` at offset `i`, ending with
`memcpy(out_buf + i, in_buf + i, last_len)`. -/
def ext_UO_body (c : Ctx) (i : Nat) (s : FState) : Ctl FState :=
  (for_each (ext_UO_inner c i) c.extras { s with last_len := 0, stage_cur_byte := i }).bind
    (fun s => Ctl.next { s with out_buf := write_at s.out_buf i (slice s.in_buf i s.last_len) })

/-- The stage `ext_UO` ("user extras (over)"); it is jumped over when `extras_cnt` is 0. -/
def ext_UO_stage (c : Ctx) (s : FState) : Ctl FState :=
  if c.extras.length = 0 then Ctl.next s
  else
    let s0 := { s with
      stage_cur := 0, stage_max := (c.extras.length : Int) * (s.len : Int)
      orig_hit_cnt := s.new_hit_cnt }
    (for_loop (ext_UO_body c) 0 s.len s0).bind
      (fun s => Ctl.next (account StageId.EXTRAS_UO s.stage_max s))

/-- One round of the inner loop of `ext_UI` at gap `i` for the token `tok`. -/
def ext_UI_inner (c : Ctx) (i : Nat) (tok : List Nat) (s : FState) : Ctl FState :=
  if s.len + tok.length > MAX_FILE then Ctl.next { s with stage_max := s.stage_max - 1 }
  else
    let t1 := write_at s.ex_tmp i tok
    let t2 := write_at t1 (i + tok.length) (slice s.out_buf i (s.len - i))
    let r := common_fuzz_stuff c { s with ex_tmp := t2 } t2 (s.len + tok.length)
    if r.2 then Ctl.abandon r.1 else Ctl.next { r.1 with stage_cur := r.1.stage_cur + 1 }

/-- The body of the outer loop of `ext_UI` at gap `i`, ending with
`ex_tmp[i] = out_buf[i]`. -/
def ext_UI_body (c : Ctx) (i : Nat) (s : FState) : Ctl FState :=
  (for_each (ext_UI_inner c i) c.extras { s with stage_cur_byte := i }).bind
    (fun s => Ctl.next { s with ex_tmp := s.ex_tmp.set i (s.out_buf.getD i 0) })

/-- The stage `ext_UI` ("user extras (insert)"); it is jumped over when `extras_cnt` is 0. -/
def ext_UI_stage (c : Ctx) (s : FState) : Ctl FState :=
  if c.extras.length = 0 then Ctl.next s
  else
    let s0 := { s with
      stage_cur := 0, stage_max := (c.extras.length : Int) * ((s.len : Int) + 1)
      orig_hit_cnt := s.new_hit_cnt
      ex_tmp := List.replicate (s.len + MAX_DICT_FILE) 0 }
    (for_loop (ext_UI_body c) 0 (s.len + 1) s0).bind
      (fun s => Ctl.next (account StageId.EXTRAS_UI s.stage_max s))

/-- The tokens `a_extras[0 .. MIN(a_extras_cnt, USE_AUTO_EXTRAS))`. -/
def auto_tokens (c : Ctx) : List (List Nat) :=
  c.a_extras.take (min c.a_extras.length USE_AUTO_EXTRAS)

/-- One round of the inner loop of `ext_AO` at offset `i` for the token `tok`. -/
def ext_AO_inner (c : Ctx) (i : Nat) (tok : List Nat) (s : FState) : Ctl FState :=
  if extras_skip s i tok then Ctl.next { s with stage_max := s.stage_max - 1 }
  else extras_write c i tok s

/-- The body of the outer loop of `ext_AO` at offset `i`, ending with
`memcpy(out_buf + i, in_buf + i, last_len)`. -/
def ext_AO_body (c : Ctx) (i : Nat) (s : FState) : Ctl FState :=
  (for_each (ext_AO_inner c i) (auto_tokens c) { s with last_len := 0, stage_cur_byte := i }).bind
    (fun s => Ctl.next { s with out_buf := write_at s.out_buf i (slice s.in_buf i s.last_len) })

/-- The stage `ext_AO` ("auto extras (over)"); it is jumped over when `a_extras_cnt` is 0. -/
def ext_AO_stage (c : Ctx) (s : FState) : Ctl FState :=
  if c.a_extras.length = 0 then Ctl.next s
  else
    let s0 := { s with
      stage_cur := 0
      stage_max := ((min c.a_extras.length USE_AUTO_EXTRAS : Nat) : Int) * (s.len : Int)
      orig_hit_cnt := s.new_hit_cnt }
    (for_loop (ext_AO_body c) 0 s.len s0).bind
      (fun s => Ctl.next (account StageId.EXTRAS_AO s.stage_max s))

/-- The token lengths never decrease along the list ("sorted by size, from
smallest to largest"). -/
def SortedByLen (d : List (List Nat)) : Prop :=
  d.Pairwise (fun a b => a.length ≤ b.length)

/-! ## The havoc stage -/

/-- The value `UR(2) ? UR(256) : out_buf[UR(temp_len)]` passed to `memset`,
drawn from the state `s`; two draws are consumed. -/
def havoc_fill (c : Ctx) (s : FState) : Nat :=
  if UR_val c s 2 ≠ 0 then UR_val c (tick s) 256
  else s.out_buf.getD (UR_val c (tick s) s.temp_len) 0

/-- Case 0: flip a single bit. -/
def havoc_case0 (c : Ctx) (s : FState) : FState :=
  { tick s with out_buf := FLIP_BIT s.out_buf (UR_val c s (s.temp_len <<< 3)) }

/-- Case 1: set a byte to an interesting value. -/
def havoc_case1 (c : Ctx) (s : FState) : FState :=
  let pos := UR_val c s s.temp_len
  let v := c.T.interesting_8.getD (UR_val c (tick s) c.T.interesting_8.length) 0
  { tick (tick s) with out_buf := s.out_buf.set pos (toU8 v) }

/-- Case 2: set a word to an interesting value, in either byte order. -/
def havoc_case2 (c : Ctx) (s : FState) : FState :=
  if s.temp_len < 2 then s
  else
    let le := UR_val c s 2
    let pos := UR_val c (tick s) (s.temp_len - 1)
    let v := c.T.interesting_16.getD (UR_val c (tick (tick s)) c.T.interesting_16.length) 0
    { tick (tick (tick s)) with
      out_buf := wr16 s.out_buf pos (if le ≠ 0 then toU16 v else SWAP16 (toU16 v)) }

/-- Case 3: set a dword to an interesting value, in either byte order. -/
def havoc_case3 (c : Ctx) (s : FState) : FState :=
  if s.temp_len < 4 then s
  else
    let le := UR_val c s 2
    let pos := UR_val c (tick s) (s.temp_len - 3)
    let v := c.T.interesting_32.getD (UR_val c (tick (tick s)) c.T.interesting_32.length) 0
    { tick (tick (tick s)) with
      out_buf := wr32 s.out_buf pos (if le ≠ 0 then toU32 v else SWAP32 (toU32 v)) }

/-- Case 4: subtract from a byte. -/
def havoc_case4 (c : Ctx) (s : FState) : FState :=
  let pos := UR_val c s s.temp_len
  let d := 1 + UR_val c (tick s) ARITH_MAX
  { tick (tick s) with out_buf := s.out_buf.set pos ((sub32 (s.out_buf.getD pos 0) d) % 256) }

/-- Case 5: add to a byte. -/
def havoc_case5 (c : Ctx) (s : FState) : FState :=
  let pos := UR_val c s s.temp_len
  let d := 1 + UR_val c (tick s) ARITH_MAX
  { tick (tick s) with out_buf := s.out_buf.set pos ((s.out_buf.getD pos 0 + d) % 256) }

/-- Case 6: subtract from a word, in either byte order. -/
def havoc_case6 (c : Ctx) (s : FState) : FState :=
  if s.temp_len < 2 then s
  else
    let le := UR_val c s 2
    let pos := UR_val c (tick s) (s.temp_len - 1)
    let d := 1 + UR_val c (tick (tick s)) ARITH_MAX
    let w := rd16 s.out_buf pos
    { tick (tick (tick s)) with
      out_buf := wr16 s.out_buf pos
        (if le ≠ 0 then (sub32 w d) % 65536 else SWAP16 (sub32 (SWAP16 w) d)) }

/-- Case 7: add to a word, in either byte order. -/
def havoc_case7 (c : Ctx) (s : FState) : FState :=
  if s.temp_len < 2 then s
  else
    let le := UR_val c s 2
    let pos := UR_val c (tick s) (s.temp_len - 1)
    let d := 1 + UR_val c (tick (tick s)) ARITH_MAX
    let w := rd16 s.out_buf pos
    { tick (tick (tick s)) with
      out_buf := wr16 s.out_buf pos
        (if le ≠ 0 then (w + d) % 65536 else SWAP16 (SWAP16 w + d)) }

/-- Case 8: subtract from a dword, in either byte order. -/
def havoc_case8 (c : Ctx) (s : FState) : FState :=
  if s.temp_len < 4 then s
  else
    let le := UR_val c s 2
    let pos := UR_val c (tick s) (s.temp_len - 3)
    let d := 1 + UR_val c (tick (tick s)) ARITH_MAX
    let w := rd32 s.out_buf pos
    { tick (tick (tick s)) with
      out_buf := wr32 s.out_buf pos
        (if le ≠ 0 then sub32 w d else SWAP32 (sub32 (SWAP32 w) d)) }

/-- Case 9: add to a dword, in either byte order. -/
def havoc_case9 (c : Ctx) (s : FState) : FState :=
  if s.temp_len < 4 then s
  else
    let le := UR_val c s 2
    let pos := UR_val c (tick s) (s.temp_len - 3)
    let d := 1 + UR_val c (tick (tick s)) ARITH_MAX
    let w := rd32 s.out_buf pos
    { tick (tick (tick s)) with
      out_buf := wr32 s.out_buf pos
        (if le ≠ 0 then add32 w d else SWAP32 (add32 (SWAP32 w) d)) }

/-- Case 10: xor a byte with a value in `[1, 255]`. -/
def havoc_case10 (c : Ctx) (s : FState) : FState :=
  let pos := UR_val c s s.temp_len
  let d := 1 + UR_val c (tick s) 255
  { tick (tick s) with out_buf := s.out_buf.set pos (s.out_buf.getD pos 0 ^^^ d) }

/-- Cases 11 and 12: delete a block. -/
def havoc_case11 (c : Ctx) (s : FState) : FState :=
  if s.temp_len < 2 then s
  else
    let del_len := c.choose_block_len s.rnd (s.temp_len - 1)
    let del_from := UR_val c (tick s) (s.temp_len - del_len + 1)
    { tick (tick s) with
      out_buf := write_at s.out_buf del_from
        (slice s.out_buf (del_from + del_len) (s.temp_len - del_from - del_len))
      temp_len := s.temp_len - del_len }

/-- Case 13: clone a block, or insert a block of constant bytes. -/
def havoc_case13 (c : Ctx) (s : FState) : FState :=
  if s.temp_len + HAVOC_BLK_XL < MAX_FILE then
    let actually_clone := UR_val c s 4
    let s1 := tick s
    let clone_len :=
      if actually_clone ≠ 0 then c.choose_block_len s1.rnd s.temp_len
      else c.choose_block_len s1.rnd HAVOC_BLK_XL
    let s2 := tick s1
    let clone_from := if actually_clone ≠ 0 then UR_val c s2 (s.temp_len - clone_len + 1) else 0
    let s3 := if actually_clone ≠ 0 then tick s2 else s2
    let clone_to := UR_val c s3 s.temp_len
    let s4 := tick s3
    let inserted :=
      if actually_clone ≠ 0 then slice s.out_buf clone_from clone_len
      else List.replicate clone_len (havoc_fill c s4)
    let s5 := if actually_clone ≠ 0 then s4 else tick (tick s4)
    let new_buf := List.replicate (s.temp_len + clone_len) 0
    let new_buf := write_at new_buf 0 (slice s.out_buf 0 clone_to)
    let new_buf := write_at new_buf clone_to inserted
    let new_buf := write_at new_buf (clone_to + clone_len)
      (slice s.out_buf clone_to (s.temp_len - clone_to))
    { s5 with out_buf := new_buf, temp_len := s.temp_len + clone_len }
  else s

/-- Case 14: overwrite a block with another block or with constant bytes. -/
def havoc_case14 (c : Ctx) (s : FState) : FState :=
  if s.temp_len < 2 then s
  else
    let copy_len := c.choose_block_len s.rnd (s.temp_len - 1)
    let s1 := tick s
    let copy_from := UR_val c s1 (s.temp_len - copy_len + 1)
    let copy_to := UR_val c (tick s1) (s.temp_len - copy_len + 1)
    let s3 := tick (tick s1)
    if UR_val c s3 4 ≠ 0 then
      if copy_from ≠ copy_to then
        { tick s3 with out_buf := write_at s.out_buf copy_to (slice s.out_buf copy_from copy_len) }
      else tick s3
    else
      { tick (tick (tick s3)) with
        out_buf := write_at s.out_buf copy_to (List.replicate copy_len (havoc_fill c (tick s3))) }

/-- The test `!extras_cnt || (a_extras_cnt && UR(2))` of cases 15 and 16;
`UR(2)` is drawn only when both dictionaries are non-empty. -/
def use_auto (c : Ctx) (s : FState) : Bool :=
  decide (c.extras.length = 0) ||
    (decide (c.a_extras.length ≠ 0) && decide (UR_val c s 2 ≠ 0))

/-- The state after the test `!extras_cnt || (a_extras_cnt && UR(2))`. -/
def use_auto_tick (c : Ctx) (s : FState) : FState :=
  if c.extras.length ≠ 0 ∧ c.a_extras.length ≠ 0 then tick s else s

/-- Case 15: overwrite bytes with a token of one of the dictionaries. -/
def havoc_case15 (c : Ctx) (s : FState) : FState :=
  let dict := if use_auto c s then c.a_extras else c.extras
  let s1 := use_auto_tick c s
  let tok := dict.getD (UR_val c s1 dict.length) []
  let s2 := tick s1
  if tok.length > s.temp_len then s2
  else
    let insert_at := UR_val c s2 (s.temp_len - tok.length + 1)
    { tick s2 with out_buf := write_at s.out_buf insert_at tok }

/-- Case 16: insert a token of one of the dictionaries; the sum
`temp_len + extra_len` is a `u32`. -/
def havoc_case16 (c : Ctx) (s : FState) : FState :=
  let insert_at := UR_val c s (s.temp_len + 1)
  let s0 := tick s
  let dict := if use_auto c s0 then c.a_extras else c.extras
  let s1 := use_auto_tick c s0
  let tok := dict.getD (UR_val c s1 dict.length) []
  let s2 := tick s1
  if add32 s.temp_len tok.length ≥ MAX_FILE then s2
  else
    let new_buf := List.replicate (s.temp_len + tok.length) 0
    let new_buf := write_at new_buf 0 (slice s.out_buf 0 insert_at)
    let new_buf := write_at new_buf insert_at tok
    let new_buf := write_at new_buf (insert_at + tok.length)
      (slice s.out_buf insert_at (s.temp_len - insert_at))
    { s2 with out_buf := new_buf, temp_len := add32 s.temp_len tok.length }

/-- One stacked mutation: the `switch (UR(15 + ((extras_cnt + a_extras_cnt) ? 2 : 0)))`. -/
def havoc_op (c : Ctx) (s : FState) : FState :=
  let num := UR_val c s (15 + (if c.extras.length + c.a_extras.length ≠ 0 then 2 else 0))
  let s1 := tick s
  match num with
  | 0 => havoc_case0 c s1
  | 1 => havoc_case1 c s1
  | 2 => havoc_case2 c s1
  | 3 => havoc_case3 c s1
  | 4 => havoc_case4 c s1
  | 5 => havoc_case5 c s1
  | 6 => havoc_case6 c s1
  | 7 => havoc_case7 c s1
  | 8 => havoc_case8 c s1
  | 9 => havoc_case9 c s1
  | 10 => havoc_case10 c s1
  | 11 => havoc_case11 c s1
  | 12 => havoc_case11 c s1
  | 13 => havoc_case13 c s1
  | 14 => havoc_case14 c s1
  | 15 => havoc_case15 c s1
  | 16 => havoc_case16 c s1
  | _ => s1

/-- The loop `for (i = 0; i < use_stacking; i++)` of stacked mutations. -/
def havoc_stack (c : Ctx) : Nat → FState → FState
  | 0, s => s
  | n + 1, s => havoc_stack c n (havoc_op c s)

/-- The statements after the harness call of a havoc round: the buffer is
restored (`ck_realloc` when it shrank, `temp_len = len`,
`memcpy(out_buf, in_buf, len)`) and the budget is doubled when
`queued_paths` moved. -/
def havoc_restore (s : FState) : FState :=
  let buf :=
    if s.temp_len < s.len then (s.out_buf ++ List.replicate s.len 0).take s.len else s.out_buf
  let s1 := { s with out_buf := write_at buf 0 (slice s.in_buf 0 s.len), temp_len := s.len }
  if s1.queued_paths ≠ s1.havoc_queued then
    if s1.perf_score ≤ HAVOC_MAX_MULT * 100 then
      { s1 with
        stage_max := s1.stage_max * 2, perf_score := s1.perf_score * 2
        havoc_queued := s1.queued_paths }
    else { s1 with havoc_queued := s1.queued_paths }
  else s1

/-- One round of the havoc loop: the stacked mutations, the harness call with
`(out_buf, temp_len)`, the restoration. -/
def havoc_iter (c : Ctx) (s : FState) : Ctl FState :=
  let use_stacking := 1 <<< (1 + UR_val c s HAVOC_STACK_POW2)
  let s1 := havoc_stack c use_stacking { tick s with stage_cur_val := (use_stacking : Int) }
  let r := common_fuzz_stuff c s1 s1.out_buf s1.temp_len
  if r.2 then Ctl.abandon r.1 else Ctl.next (havoc_restore r.1)

/-- The loop `for (stage_cur = 0; stage_cur < stage_max; stage_cur++)` of the
havoc stage, cut off after `fuel` rounds (`stage_max` can grow inside the loop). -/
def havoc_loop (c : Ctx) : Nat → FState → Ctl FState
  | 0, s => Ctl.next s
  | fuel + 1, s =>
    if s.stage_cur < s.stage_max then
      (havoc_iter c s).bind (fun s => havoc_loop c fuel { s with stage_cur := s.stage_cur + 1 })
    else Ctl.next s

/-- The havoc stage from the label `havoc_stage` to the end of its loop. -/
def havoc_stage (c : Ctx) (fuel : Nat) (s : FState) : Ctl FState :=
  let s1 :=
    if s.splice_cycle = 0 then
      { s with
        stage_cur_byte := -1
        stage_max := (((if s.doing_det then HAVOC_CYCLES_INIT else HAVOC_CYCLES) * s.perf_score
          / c.havoc_div / 100 : Nat) : Int) }
    else
      { s with
        stage_cur_byte := -1
        perf_score := s.orig_perf
        stage_max := ((c.splice_havoc * s.orig_perf / c.havoc_div / 100 : Nat) : Int) }
  let s2 := if s1.stage_max < (HAVOC_MIN : Int) then { s1 with stage_max := (HAVOC_MIN : Int) } else s1
  let s3 := { s2 with
    temp_len := s2.len
    orig_hit_cnt := s2.queued_paths + s2.unique_crashes
    havoc_queued := s2.queued_paths
    stage_cur := 0 }
  (havoc_loop c fuel s3).bind (fun s =>
    Ctl.next (account (if s.splice_cycle = 0 then StageId.HAVOC else StageId.SPLICE) s.stage_max s))

/-! ## The stages that mutate the buffer in place -/

/-- The twelve deterministic stages that write into `out_buf` and undo their
writes: the bit flips, the arithmetic stages, the interesting-value stages. -/
inductive DetStage where
  | flip1 | flip2 | flip4 | flip8 | flip16 | flip32
  | arith8 | arith16 | arith32
  | interest8 | interest16 | interest32
  deriving DecidableEq

/-- The stage as a whole. -/
def DetStage.run : DetStage → Ctx → FState → Ctl FState
  | DetStage.flip1 => flip1_stage
  | DetStage.flip2 => flip2_stage
  | DetStage.flip4 => flip4_stage
  | DetStage.flip8 => flip8_stage
  | DetStage.flip16 => flip16_stage
  | DetStage.flip32 => flip32_stage
  | DetStage.arith8 => arith8_stage
  | DetStage.arith16 => arith16_stage
  | DetStage.arith32 => arith32_stage
  | DetStage.interest8 => interest8_stage
  | DetStage.interest16 => interest16_stage
  | DetStage.interest32 => interest32_stage

/-- The body of the outer loop of the stage, one offset (one bit position
for the walking bit flips). -/
def DetStage.body : DetStage → Ctx → Nat → FState → Ctl FState
  | DetStage.flip1 => flip1_body
  | DetStage.flip2 => flip2_body
  | DetStage.flip4 => flip4_body
  | DetStage.flip8 => flip8_body
  | DetStage.flip16 => flip16_body
  | DetStage.flip32 => flip32_body
  | DetStage.arith8 => arith8_body
  | DetStage.arith16 => arith16_body
  | DetStage.arith32 => arith32_body
  | DetStage.interest8 => interest8_body
  | DetStage.interest16 => interest16_body
  | DetStage.interest32 => interest32_body

/-- The number of rounds of the outer loop of the stage on a seed of `len` bytes. -/
def DetStage.rounds : DetStage → Nat → Nat
  | DetStage.flip1, len => len <<< 3
  | DetStage.flip2, len => (len <<< 3) - 1
  | DetStage.flip4, len => (len <<< 3) - 3
  | DetStage.flip8, len => len
  | DetStage.flip16, len => len - 1
  | DetStage.flip32, len => len - 3
  | DetStage.arith8, len => len
  | DetStage.arith16, len => len - 1
  | DetStage.arith32, len => len - 3
  | DetStage.interest8, len => len
  | DetStage.interest16, len => len - 1
  | DetStage.interest32, len => len - 3

/-- An environment for concrete evaluations: a harness that never asks to
abandon and reports the hash 0 and no find, a generator that always returns 0,
`choose_block_len` returning 1, the upstream tables, the given dictionaries. -/
def quiet_ctx (extras a_extras : List (List Nat)) : Ctx where
  harness := fun _ _ => { abandon := false, cksum := 0, new_paths := 0, new_crashes := 0 }
  random := fun _ => 0
  choose_block_len := fun _ _ => 1
  exec_cksum := 0
  dumb_mode := false
  no_arith := false
  havoc_div := 1
  splice_havoc := 32
  extras := extras
  a_extras := a_extras
  T := afl_tables

/-- The stages `flip1`, `flip2`, `flip4`, `flip8` in sequence; the state they
end in holds the effector map consulted by `flip16` and `flip32`. -/
def flip_upto8 (c : Ctx) (s : FState) : Ctl FState :=
  (flip1_stage c s).bind (fun s =>
  (flip2_stage c s).bind (fun s =>
  (flip4_stage c s).bind (fun s =>
  flip8_stage c s)))

/-- The buffer `buf` with the `w` bytes from offset `i` on xor-ed with the
`w` little-endian bytes of `y`. -/
def xorAt (buf : List Nat) (i : Nat) : Nat → Nat → List Nat
  | 0, _ => buf
  | w + 1, y => xorAt (buf.set i (buf.getD i 0 ^^^ (y % 256))) (i + 1) w (y / 256)

/-! ## Invariants used in the proofs -/

/-- What a round of the inner loop of an overwrite stage may do: keep
`in_buf` and `len`, and either leave `out_buf` and `last_len` alone or write a
token that fits at offset `i` and record its length. -/
def OverStep (i : Nat) (tok : List Nat) (s t : FState) : Prop :=
  t.in_buf = s.in_buf ∧ t.len = s.len ∧
    ((t.out_buf = s.out_buf ∧ t.last_len = s.last_len) ∨
     (tok.length ≤ s.len - i ∧ t.out_buf = write_at s.out_buf i tok ∧ t.last_len = tok.length))

/-- The state inside the inner loop of an overwrite stage at offset `i`: the
buffer differs from the seed `B` at most in the `last_len` bytes from `i` on. -/
def OverInv (B : List Nat) (i : Nat) (s : FState) : Prop :=
  s.in_buf = B ∧ s.len = B.length ∧ s.out_buf.length = B.length ∧
    i + s.last_len ≤ B.length ∧ s.out_buf.take i = B.take i ∧
    s.out_buf.drop (i + s.last_len) = B.drop (i + s.last_len)

/-- A call `maybe_add_auto(a_collect, a_len)` is in bounds: the length is
between `MIN_AUTO_EXTRA` and `MAX_AUTO_EXTRA` and the first `a_len` bytes of
the array have been written. -/
def EmitOk (e : List (Option Nat) × Nat) : Prop :=
  MIN_AUTO_EXTRA ≤ e.2 ∧ e.2 ≤ MAX_AUTO_EXTRA ∧ ∀ k, k < e.2 → ∃ b, e.1[k]? = some (some b)

/-- The invariant of the collection: the array has `MAX_AUTO_EXTRA` cells, the
first `min(a_len, MAX_AUTO_EXTRA)` of them have been written, and every call
of `maybe_add_auto` so far was in bounds. -/
def AutoInv (s : FState) : Prop :=
  s.a_collect.length = MAX_AUTO_EXTRA ∧
    (∀ k, k < s.a_len → k < MAX_AUTO_EXTRA → ∃ b, s.a_collect[k]? = some (some b)) ∧
    ∀ e ∈ s.autos, EmitOk e

/-- The invariant of the stacked havoc mutations: the working length is
between 1 and `MAX_FILE`. -/
def HavocInv (s : FState) : Prop := 1 ≤ s.temp_len ∧ s.temp_len ≤ MAX_FILE

/-- What a stacked havoc mutation leaves alone: `len` and the record of
harness calls. -/
def HavocFrame (s t : FState) : Prop := t.len = s.len ∧ t.execs = s.execs

/-- The harness calls made since the record was `E0` all passed a length of
at most `MAX_FILE`. -/
def ExecsOk (E0 : List (List Nat × Nat)) (s : FState) : Prop :=
  ∃ new, s.execs = E0 ++ new ∧ ∀ e ∈ new, e.2 ≤ MAX_FILE

/-- The hypothesis on `choose_block_len`: for a limit of at least 1 it returns a
value in `[1, min(limit, HAVOC_BLK_XL)]`. -/
def BlockLenOk (c : Ctx) : Prop :=
  ∀ k limit, 1 ≤ limit →
    1 ≤ c.choose_block_len k limit ∧ c.choose_block_len k limit ≤ min limit HAVOC_BLK_XL

/-- The token lengths are `u32` values that leave room for `MAX_FILE`, so that
`temp_len + extra_len` does not wrap. -/
def DictOk (c : Ctx) : Prop :=
  ∀ tok ∈ c.extras ++ c.a_extras, tok.length + MAX_FILE < U32


/-! ## Environments and blocks used by the scenarios -/

/-- An environment for the magic-number scenario: the harness never asks to
abandon and reports the hash 0 (the baseline `exec_cksum`) when the input still
starts with `magic`, and the hash 1 otherwise; the rest is as in `quiet_ctx`. -/
def magic_ctx (magic : List Nat) : Ctx where
  harness := fun _ buf =>
    { abandon := false, cksum := if buf.take magic.length = magic then 0 else 1
      new_paths := 0, new_crashes := 0 }
  random := fun _ => 0
  choose_block_len := fun _ _ => 1
  exec_cksum := 0
  dumb_mode := false
  no_arith := false
  havoc_div := 1
  splice_havoc := 32
  extras := []
  a_extras := []
  T := afl_tables

/-- The invariant of the effector map between its set-up and the end of
`flip8`: it has `EFF_ALEN(len)` entries, each 0 or 1, and `eff_cnt` is the number
of entries equal to 1. -/
def EffInv (s : FState) : Prop :=
  s.eff_map.length = EFF_ALEN s.len ∧ (∀ x ∈ s.eff_map, x = 0 ∨ x = 1) ∧
    s.eff_cnt = s.eff_map.count 1

/-- The order on effector maps: every entry that is 1 in the map of `s` is
1 in the map of `t`. -/
def EffLe (s t : FState) : Prop :=
  ∀ k, s.eff_map.getD k 0 = 1 → t.eff_map.getD k 0 = 1

/-- An environment for the effector scenarios: the harness never asks to
abandon and reports the baseline hash 0 as long as every byte at an offset
`k < n` with `p k` is 0, and the hash 1 otherwise; the rest is as in `quiet_ctx`. -/
def region_ctx (n : Nat) (p : Nat → Bool) : Ctx where
  harness := fun _ buf =>
    { abandon := false
      cksum := if ∀ k, k < n → p k = true → buf.getD k 0 = 0 then 0 else 1
      new_paths := 0, new_crashes := 0 }
  random := fun _ => 0
  choose_block_len := fun _ _ => 1
  exec_cksum := 0
  dumb_mode := false
  no_arith := false
  havoc_div := 1
  splice_havoc := 32
  extras := []
  a_extras := []
  T := afl_tables

/-! ## The stages that follow `flip8` -/

/-- The stages of one pass that run after `flip8` and consult the effector
map, and the havoc stage (cut off after `fuel` rounds) that follows them. -/
inductive LaterStage where
  | flip16 | flip32
  | arith8 | arith16 | arith32
  | interest8 | interest16 | interest32
  | ext_UO | ext_UI | ext_AO
  | havoc (fuel : Nat)

/-- The stage as a whole. -/
def LaterStage.run : LaterStage → Ctx → FState → Ctl FState
  | LaterStage.flip16 => flip16_stage
  | LaterStage.flip32 => flip32_stage
  | LaterStage.arith8 => arith8_stage
  | LaterStage.arith16 => arith16_stage
  | LaterStage.arith32 => arith32_stage
  | LaterStage.interest8 => interest8_stage
  | LaterStage.interest16 => interest16_stage
  | LaterStage.interest32 => interest32_stage
  | LaterStage.ext_UO => ext_UO_stage
  | LaterStage.ext_UI => ext_UI_stage
  | LaterStage.ext_AO => ext_AO_stage
  | LaterStage.havoc fuel => fun c s => havoc_stage c fuel s

/-- What the stacked mutations of a havoc round leave alone besides `len` and
the record of harness calls: the effector map and the variables of the budget. -/
def Kept (s t : FState) : Prop :=
  t.eff_map = s.eff_map ∧ t.stage_max = s.stage_max ∧ t.perf_score = s.perf_score ∧
    t.havoc_queued = s.havoc_queued

/-! ## From the label `skip_bitflip` to the label `skip_interest` -/

/-- The arithmetic stages, entered unless `no_arith` is set
(`if (no_arith) goto skip_arith;`); `arith16` and `arith32` are jumped over on
short seeds by the tests inside their definitions. -/
def arith_stages (c : Ctx) (s : FState) : Ctl FState :=
  if c.no_arith = true then Ctl.next s
  else
    (arith8_stage c s).bind (fun s =>
    (arith16_stage c s).bind (fun s =>
    arith32_stage c s))

/-- The interesting-value stages from the label `skip_arith` on: `int8`
always, `int16` and `int32` unless `no_arith || len < 2` (and `len < 4`). -/
def interest_stages (c : Ctx) (s : FState) : Ctl FState :=
  (interest8_stage c s).bind (fun s =>
  (interest16_stage c s).bind (fun s =>
  interest32_stage c s))

/-- The part of the deterministic pass between the labels `skip_bitflip` and
`skip_interest`. -/
def numeric_stages (c : Ctx) (s : FState) : Ctl FState :=
  (arith_stages c s).bind (interest_stages c)

/-- The index of `stage_finds` and `stage_cycles` that a stage accounts to. -/
def DetStage.id : DetStage → StageId
  | DetStage.flip1 => StageId.FLIP1
  | DetStage.flip2 => StageId.FLIP2
  | DetStage.flip4 => StageId.FLIP4
  | DetStage.flip8 => StageId.FLIP8
  | DetStage.flip16 => StageId.FLIP16
  | DetStage.flip32 => StageId.FLIP32
  | DetStage.arith8 => StageId.ARITH8
  | DetStage.arith16 => StageId.ARITH16
  | DetStage.arith32 => StageId.ARITH32
  | DetStage.interest8 => StageId.INTEREST8
  | DetStage.interest16 => StageId.INTEREST16
  | DetStage.interest32 => StageId.INTEREST32

/-! ## Splicing -/

/-- Modelled from the spec: `locate_diffs(ptr1, ptr2, len, &first, &last)`
(absent from src/), the first and the last offset below `len` at which the two
buffers differ, both -1 if there is none. -/
def locate_diffs (a b : List Nat) (len : Nat) : Int × Int :=
  let d := (List.range len).filter (fun k => a.getD k 0 != b.getD k 0)
  (match d.head? with
    | some f => (f : Int)
    | none => -1,
   match d.getLast? with
    | some l => (l : Int)
    | none => -1)

/-- The splicing block from the call of `locate_diffs` to `goto havoc_stage`,
for the current seed in `in_buf` and the bytes `target` read from the chosen
queue entry: `none` stands for `goto retry_splicing`, otherwise the state at the
jump and the value of `split_at`. -/
def splice (c : Ctx) (s : FState) (target : List Nat) : Option (FState × Nat) :=
  let fl := locate_diffs s.in_buf target (min s.len target.length)
  if fl.1 < 0 ∨ fl.2 < 2 ∨ fl.1 = fl.2 then none
  else
    let split_at := fl.1.toNat + UR_val c s (fl.2 - fl.1).toNat
    let new_buf := write_at target 0 (slice s.in_buf 0 split_at)
    some ({ tick s with
      len := target.length, in_buf := new_buf
      out_buf := write_at (List.replicate target.length 0) 0 (slice new_buf 0 target.length) },
      split_at)

/-- The part of `stage_max` not yet matched by harness calls: `stage_max`
minus the number of calls recorded so far. -/
def budget_gap (s : FState) : Int := s.stage_max - (s.execs.length : Int)

/-- A block that takes the state `u` to `v` has dealt with `d` candidates: the
gap went down by `d`, and `stage_cycles` was left alone. -/
def GapStep (d : Int) (u v : FState) : Prop :=
  budget_gap v = budget_gap u - d ∧ v.stage_cycles = u.stage_cycles

/-- The state of the auto-dictionary collection of `flip1` in scenario S1 once
the last bits of the first `m` bytes of the seed `B` have been flipped: nothing
collected before the first byte; the bytes seen so far while inside the 4 magic
bytes, the hash to beat being the one of a rejected input, `hr`; and from byte
5 on the one token handed over, made of the 4 magic bytes, the hash to beat
being the baseline `ha` again. -/
def MagicPhase (B : List Nat) (hr ha : Nat) (m : Nat) (u : FState) : Prop :=
  u.a_collect.length = MAX_AUTO_EXTRA ∧
  ((m = 0 ∧ u.a_len = 0 ∧ u.prev_cksum = ha ∧ u.autos = []) ∨
   (1 ≤ m ∧ m ≤ 4 ∧ u.a_len = m ∧ u.prev_cksum = hr ∧ u.autos = [] ∧
      ∀ k, k < m → u.a_collect[k]? = some (some (B.getD k 0))) ∨
   (5 ≤ m ∧ (m < 1028 → u.a_len = 0) ∧ u.prev_cksum = ha ∧
      ∃ coll, u.autos = [(coll, 4)] ∧ ∀ k, k < 4 → coll[k]? = some (some (B.getD k 0))))

/-! ## The head and the tail of `fuzz_one` -/

/-- Modelled from the spec: `SKIP_TO_NEW_PROB` (config header, absent from src/), 99. -/
def SKIP_TO_NEW_PROB : Nat := 99

/-- Modelled from the spec: `SKIP_NFAV_OLD_PROB` (config header, absent from src/), 95. -/
def SKIP_NFAV_OLD_PROB : Nat := 95

/-- Modelled from the spec: `SKIP_NFAV_NEW_PROB` (config header, absent from src/), 75. -/
def SKIP_NFAV_NEW_PROB : Nat := 75

/-- What the head of `fuzz_one` reads of the queue entry and of the globals, and
the answers of the external calls it makes before the byte-level stages:
`res` is the value of the local `res` at the test `stop_soon || res != crash_mode`
of the calibration block, `stop_cal` the value of `stop_soon` there, `in_tree`
and `track` tell whether `parse_struture_file` and `parse_constraint_file`
returned a non-null pointer, and `stop_trim` is the value of `stop_soon` after
`trim_case`. -/
structure Head where
  pending_favored : Nat
  was_fuzzed : Bool
  favored : Bool
  queued_paths : Nat
  queue_cycle : Nat
  cal_failed : Nat
  res : Nat
  crash_mode : Nat
  stop_cal : Bool
  in_tree : Bool
  track : Bool
  trim_done : Bool
  stop_trim : Bool

/-- The admission gate of the build without `IGNORE_FINDS`, `true` standing for
`return 1`; `r` is the value of the call `UR(100)`, which is made at one place
at most. -/
def admission_gate (dumb_mode : Bool) (h : Head) (r : Nat) : Bool :=
  if h.pending_favored ≠ 0 then
    if (h.was_fuzzed || !h.favored) && decide (r < SKIP_TO_NEW_PROB) then true else false
  else if !dumb_mode && !h.favored && decide (h.queued_paths > 10) then
    if decide (h.queue_cycle > 1) && !h.was_fuzzed then
      if r < SKIP_NFAV_NEW_PROB then true else false
    else
      if r < SKIP_NFAV_OLD_PROB then true else false
  else false

/-- The value returned by `fuzz_one`, whose local `ret_val` is 1 until the
statement `ret_val = 0` right before the label `abandon_entry`. `stages` is the
outcome of the byte-level stages, from `memcpy(out_buf, in_buf, len)` to that
statement: `abandon` when one of their calls of `common_fuzz_stuff` made them
jump to `abandon_entry`. The structure-aware stages return nothing and are
followed by `goto abandon_entry`. -/
def fuzz_one_ret (dumb_mode : Bool) (h : Head) (r : Nat) (stages : Ctl FState) : Nat :=
  if admission_gate dumb_mode h r then 1
  else if h.cal_failed ≠ 0 ∧ (h.stop_cal = true ∨ h.res ≠ h.crash_mode) then 1
  else if h.in_tree = true ∨ h.track = true then 1
  else if dumb_mode = false ∧ h.trim_done = false ∧ h.stop_trim = true then 1
  else
    match stages with
    | Ctl.next _ => 0
    | Ctl.abandon _ => 1

/-- The 8-byte window `[8k, 8k + 8)` of the map entry `k` intersects the span
`[p, p + l)` of the file. -/
def Overlaps (k p l : Nat) : Prop := ∃ b, p ≤ b ∧ b < p + l ∧ 8 * k ≤ b ∧ b < 8 * k + 8

/-- The hash of the run of `flip1` on the seed `B` in which the last bit of
byte `j` is flipped; that run is the call number `8 j + 7` of the stage. -/
def last_bit_hash (c : Ctx) (B : List Nat) (j : Nat) : Nat :=
  (c.harness (8 * j + 7) (FLIP_BIT B (8 * j + 7))).cksum

/-- The pair `(a_collect, a_len)` handed to `maybe_add_auto` is a slice
`B[s, s + a_len)` of the seed all of whose bytes gave one hash, different from
the baseline, when their last bit was flipped. -/
def TokenOk (c : Ctx) (B : List Nat) (e : List (Option Nat) × Nat) : Prop :=
  ∃ s h, h ≠ c.exec_cksum ∧ s + e.2 ≤ B.length ∧
    ∀ k, k < e.2 → e.1[k]? = some (some (B.getD (s + k) 0)) ∧ last_bit_hash c B (s + k) = h

/-- The state of the collection of `flip1` once the last bits of the first `m`
bytes of the seed `B` have been flipped: the `a_len` bytes before byte `m` gave
the hash `prev_cksum`, the first `MAX_AUTO_EXTRA` of them are in `a_collect`,
and nothing is being collected while `prev_cksum` is the baseline. -/
def RunOk (c : Ctx) (B : List Nat) (m : Nat) (u : FState) : Prop :=
  u.a_len ≤ m ∧ (u.prev_cksum = c.exec_cksum → u.a_len = 0) ∧
  ∀ k, k < u.a_len → last_bit_hash c B (m - u.a_len + k) = u.prev_cksum ∧
    (k < MAX_AUTO_EXTRA → u.a_collect[k]? = some (some (B.getD (m - u.a_len + k) 0)))

/-! ## The memory accesses of the stage `ext_UI` -/

/-- The indices of `out_buf` read by one round of the inner loop of `ext_UI`
at gap `i` for the token `tok`: none when the token is skipped
(`len + extras[j].len > MAX_FILE`), else those of the tail copy
`memcpy(ex_tmp + i + extras[j].len, out_buf + i, len - i)`. -/
def ext_UI_inner_reads (len i : Nat) (tok : List Nat) : List Nat :=
  if len + tok.length > MAX_FILE then [] else List.range' i (len - i)

/-- The indices of `ex_tmp` written by one round of the inner loop of `ext_UI`
at gap `i` for the token `tok`: none when the token is skipped, else those of
`memcpy(ex_tmp + i, extras[j].data, extras[j].len)` followed by those of the
tail copy `memcpy(ex_tmp + i + extras[j].len, out_buf + i, len - i)`. -/
def ext_UI_inner_writes (len i : Nat) (tok : List Nat) : List Nat :=
  if len + tok.length > MAX_FILE then []
  else List.range' i tok.length ++ List.range' (i + tok.length) (len - i)

/-- The indices of `out_buf` read by the body of the outer loop of `ext_UI` at
gap `i` when no run asks to abandon: the reads of the inner loop over the
dictionary, then the one of the head copy `ex_tmp[i] = out_buf[i]`. -/
def ext_UI_body_reads (c : Ctx) (len i : Nat) : List Nat :=
  (c.extras.map (ext_UI_inner_reads len i)).flatten ++ [i]

/-- The indices of `ex_tmp` written by the body of the outer loop of `ext_UI`
at gap `i` when no run asks to abandon: the writes of the inner loop over the
dictionary, then the one of the head copy `ex_tmp[i] = out_buf[i]`. -/
def ext_UI_body_writes (c : Ctx) (len i : Nat) : List Nat :=
  (c.extras.map (ext_UI_inner_writes len i)).flatten ++ [i]

/-- The indices of `out_buf` read by a completed stage `ext_UI` over a seed of
`len` bytes (`for (i = 0; i <= len; i++)`); the stage is jumped over when
`extras_cnt` is 0. -/
def ext_UI_reads (c : Ctx) (len : Nat) : List Nat :=
  if c.extras.length = 0 then []
  else ((List.range (len + 1)).map (ext_UI_body_reads c len)).flatten

/-- The indices of `ex_tmp` written by a completed stage `ext_UI` over a seed
of `len` bytes; the stage is jumped over when `extras_cnt` is 0. -/
def ext_UI_writes (c : Ctx) (len : Nat) : List Nat :=
  if c.extras.length = 0 then []
  else ((List.range (len + 1)).map (ext_UI_body_writes c len)).flatten

/-! ## The values tried by `int16` at one offset -/

/-- The values that one round of the inner loop of `int16` stores and submits
for the table entry `v` over the original word `orig`: the little-endian
candidate `(u16)interesting_16[j]` when its test passes, then the
byte-swapped candidate when its test passes. -/
def interest16_tries (T : Tables) (orig : Nat) (v : Int) : List Nat :=
  (if (!could_be_bitflip (orig ^^^ toU16 v) && !could_be_arith orig (toU16 v) 2 &&
        !could_be_interest T orig (toU16 v) 2 false) = true then [toU16 v] else []) ++
  (if (decide (toU16 v ≠ SWAP16 (toU16 v)) &&
        !could_be_bitflip (orig ^^^ SWAP16 (toU16 v)) &&
        !could_be_arith orig (SWAP16 (toU16 v)) 2 &&
        !could_be_interest T orig (SWAP16 (toU16 v)) 2 true) = true
    then [SWAP16 (toU16 v)] else [])

/-- The values that the inner loop of `int16` stores and submits at an offset
whose original word is `orig`, in the order of submission. -/
def interest16_values (T : Tables) (orig : Nat) : List Nat :=
  (T.interesting_16.map (interest16_tries T orig)).flatten

/-- The block that ends as `r`, started in the state `s`, has appended to the
record of harness calls an initial part of the list `l`, and the whole of `l`
if it was not abandoned, in which case its final state satisfies `P`. -/
def Submits (r : Ctl FState) (s : FState) (l : List (List Nat × Nat)) (P : FState → Prop) :
    Prop :=
  ∃ p, p <+: l ∧ r.state.execs = s.execs ++ p ∧ ∀ t, r = Ctl.next t → p = l ∧ P t

/-! ## Invariants of the havoc loop -/

/-- The budget of the havoc loop after `d` doublings, `d` at most 11, from the
initial `perf_score = P0` and `stage_max = M0`; after a doubling `perf_score`
is at most twice `HAVOC_MAX_MULT * 100`. -/
def Inflation (P0 : Nat) (M0 : Int) (s : FState) : Prop :=
  ∃ d : Nat, d ≤ 11 ∧ s.perf_score = P0 * 2 ^ d ∧ s.stage_max = M0 * (2 : Int) ^ d ∧
    (d = 0 ∨ s.perf_score ≤ 3200)

/-- The havoc loop has run to its end: it was left through `goto abandon_entry`
or its test `stage_cur < stage_max` has failed. -/
def LoopDone (r : Ctl FState) : Prop :=
  match r with
  | Ctl.abandon _ => True
  | Ctl.next t => ¬ (t.stage_cur < t.stage_max)

/-- The working buffer of the stacked havoc mutations: its length `temp_len`
is at least 1, is an `s32` value, and does not exceed the size of `out_buf`. -/
def HavocLive (s : FState) : Prop :=
  1 ≤ s.temp_len ∧ s.temp_len < 2147483648 ∧ s.temp_len ≤ s.out_buf.length

/-! ## The stages that count their submissions in `stage_cur` -/

/-- A block that takes the state `u` to `v` has dealt with `d` candidates: it
has only appended calls to the record, `stage_max` went down by the
candidates it did not submit, `stage_cur` went up by the number of calls, and
`stage_cycles` was left alone. -/
def Tally (d : Int) (u v : FState) : Prop :=
  (∃ new : List (List Nat × Nat), v.execs = u.execs ++ new ∧
    v.stage_max = u.stage_max - d + (new.length : Int) ∧
    v.stage_cur = u.stage_cur + (new.length : Int)) ∧
  v.stage_cycles = u.stage_cycles

/-- The deterministic stages that set `stage_cur` to 0 and increment it after
every harness call. -/
inductive CountedStage where
  | flip16 | flip32
  | arith8 | arith16 | arith32
  | interest8 | interest16 | interest32
  | ext_UO | ext_UI | ext_AO
  deriving DecidableEq

/-- The stage as a whole. -/
def CountedStage.run : CountedStage → Ctx → FState → Ctl FState
  | CountedStage.flip16 => flip16_stage
  | CountedStage.flip32 => flip32_stage
  | CountedStage.arith8 => arith8_stage
  | CountedStage.arith16 => arith16_stage
  | CountedStage.arith32 => arith32_stage
  | CountedStage.interest8 => interest8_stage
  | CountedStage.interest16 => interest16_stage
  | CountedStage.interest32 => interest32_stage
  | CountedStage.ext_UO => ext_UO_stage
  | CountedStage.ext_UI => ext_UI_stage
  | CountedStage.ext_AO => ext_AO_stage

/-- The index of `stage_finds` and `stage_cycles` that the stage accounts to. -/
def CountedStage.id : CountedStage → StageId
  | CountedStage.flip16 => StageId.FLIP16
  | CountedStage.flip32 => StageId.FLIP32
  | CountedStage.arith8 => StageId.ARITH8
  | CountedStage.arith16 => StageId.ARITH16
  | CountedStage.arith32 => StageId.ARITH32
  | CountedStage.interest8 => StageId.INTEREST8
  | CountedStage.interest16 => StageId.INTEREST16
  | CountedStage.interest32 => StageId.INTEREST32
  | CountedStage.ext_UO => StageId.EXTRAS_UO
  | CountedStage.ext_UI => StageId.EXTRAS_UI
  | CountedStage.ext_AO => StageId.EXTRAS_AO

/-- The stage is not jumped over: the test in front of it (`len < 2`,
`len < 4`, `no_arith || len < 2`, `!extras_cnt`, `!a_extras_cnt`) fails. -/
def CountedStage.entered : CountedStage → Ctx → FState → Bool
  | CountedStage.flip16, _, s => decide (¬ s.len < 2)
  | CountedStage.flip32, _, s => decide (¬ s.len < 4)
  | CountedStage.arith8, _, _ => true
  | CountedStage.arith16, _, s => decide (¬ s.len < 2)
  | CountedStage.arith32, _, s => decide (¬ s.len < 4)
  | CountedStage.interest8, _, _ => true
  | CountedStage.interest16, c, s => decide (¬ (c.no_arith = true ∨ s.len < 2))
  | CountedStage.interest32, c, s => decide (¬ (c.no_arith = true ∨ s.len < 2 ∨ s.len < 4))
  | CountedStage.ext_UO, c, _ => decide (¬ c.extras.length = 0)
  | CountedStage.ext_UI, c, _ => decide (¬ c.extras.length = 0)
  | CountedStage.ext_AO, c, _ => decide (¬ c.a_extras.length = 0)

/-! ## The values tried by `arith16` at one offset -/

/-- The values that round `j` of the inner loop of `arith16` stores and submits
over the original word `orig`, in order: `orig + j`, `orig - j`,
`SWAP16(SWAP16(orig) + j)` and `SWAP16(SWAP16(orig) - j)`, each only when its
carry test (`(orig & 0xff) + j > 0xff`, `(orig & 0xff) < j`,
`(orig >> 8) + j > 0xff`, `(orig >> 8) < j`) passes and `could_be_bitflip` fails
on its xor with `orig`. -/
def arith16_tries (orig j : Nat) : List Nat :=
  (if (decide ((orig &&& 0xff) + j > 0xff) &&
        !could_be_bitflip ((orig ^^^ (orig + j)) % 65536)) = true
    then [(orig + j) % 65536] else []) ++
  ((if (decide ((orig &&& 0xff) < j) &&
        !could_be_bitflip ((orig ^^^ sub32 orig j) % 65536)) = true
    then [(sub32 orig j) % 65536] else []) ++
  ((if (decide ((orig >>> 8) + j > 0xff) &&
        !could_be_bitflip ((orig ^^^ SWAP16 (SWAP16 orig + j)) % 65536)) = true
    then [SWAP16 (SWAP16 orig + j)] else []) ++
  ((if (decide ((orig >>> 8) < j) &&
        !could_be_bitflip ((orig ^^^ SWAP16 (sub32 (SWAP16 orig) j)) % 65536)) = true
    then [SWAP16 (sub32 (SWAP16 orig) j)] else []) ++ [])))

/-- The values that the inner loop of `arith16` (`j = 1 .. ARITH_MAX`) stores
and submits at an offset whose original word is `orig`, in order. -/
def arith16_values (orig : Nat) : List Nat :=
  ((List.range' 1 ARITH_MAX).map (arith16_tries orig)).flatten
/-! ## Properties of the redundancy oracle -/

/-- The loop of `could_be_bitflip` leaves through its exit test within `fuel`
rounds when the value is a non-zero number below `2 ^ fuel`: it returns the
number `k` of trailing zero bits and the odd number `x / 2 ^ k`. -/
theorem shift_loop_spec (fuel : Nat) : ∀ sh x : Nat, 0 < x → x < 2 ^ fuel →
    ∃ k, shift_loop fuel sh x = (sh + k, x / 2 ^ k) ∧ 2 ^ k ∣ x ∧ (x / 2 ^ k) % 2 = 1 := by
  induction fuel with
  | zero => intro sh x h0 h1; simp at h1; omega
  | succ n ih =>
    intro sh x h0 h1
    by_cases hx : x % 2 = 0
    · have h2 : 0 < x / 2 := by omega
      have h3 : x / 2 < 2 ^ n := by rw [pow_succ] at h1; omega
      obtain ⟨k, hk1, hk2, hk3⟩ := ih (sh + 1) (x / 2) h2 h3
      refine ⟨k + 1, ?_, ?_, ?_⟩
      · simp only [shift_loop, Nat.and_one_is_mod, hx, if_true, Nat.shiftRight_eq_div_pow, pow_one]
        rw [hk1, Nat.div_div_eq_div_mul, pow_succ, Nat.mul_comm (2 ^ k) 2]
        exact Prod.ext (by simp only; omega) rfl
      · have h4 : 2 * 2 ^ k ∣ 2 * (x / 2) := Nat.mul_dvd_mul_left 2 hk2
        have h5 : 2 * (x / 2) = x := by omega
        rw [pow_succ, Nat.mul_comm, ← h5]; exact h4
      · rw [pow_succ, Nat.mul_comm, ← Nat.div_div_eq_div_mul]; exact hk3
    · refine ⟨0, ?_, ?_, ?_⟩
      · simp [shift_loop, Nat.and_one_is_mod, hx]
      · simp
      · simp; omega

/-- A number has one decomposition into an odd factor and a power of two. -/
theorem odd_mul_pow_unique (m y : Nat) (hm : m % 2 = 1) (hy : y % 2 = 1) :
    ∀ s k : Nat, m * 2 ^ s = y * 2 ^ k → s = k ∧ m = y := by
  intro s
  induction s with
  | zero =>
    intro k h
    cases k with
    | zero => simpa using h
    | succ k =>
      have h2 : m = 2 * (y * 2 ^ k) := by rw [pow_succ] at h; simp at h; rw [h]; ring
      omega
  | succ s ih =>
    intro k h
    cases k with
    | zero =>
      have h2 : y = 2 * (m * 2 ^ s) := by rw [pow_succ] at h; simp at h; rw [← h]; ring
      omega
    | succ k =>
      rw [pow_succ, pow_succ, ← Nat.mul_assoc, ← Nat.mul_assoc] at h
      have h2 : m * 2 ^ s = y * 2 ^ k := Nat.eq_of_mul_eq_mul_right (by norm_num) h
      obtain ⟨h3, h4⟩ := ih k h2
      exact ⟨by omega, h4⟩

/-- On a non-zero `u32` the oracle `could_be_bitflip` is a test on the odd part
`y` and the number `k` of trailing zeros of its argument. -/
theorem could_be_bitflip_eval (x : Nat) (h0 : 0 < x) (hx : x < 2 ^ 32) :
    ∃ k y, x = y * 2 ^ k ∧ y % 2 = 1 ∧
      could_be_bitflip x = (decide (y = 1 ∨ y = 3 ∨ y = 15) ||
        (decide (k % 8 = 0) && decide (y = 0xff ∨ y = 0xffff ∨ y = 0xffffffff))) := by
  obtain ⟨k, hk1, hk2, hk3⟩ := shift_loop_spec 32 0 x h0 hx
  refine ⟨k, x / 2 ^ k, (Nat.div_mul_cancel hk2).symm, hk3, ?_⟩
  have h7 : k &&& 7 = k % 8 := Nat.and_pow_two_sub_one_eq_mod k 3
  unfold could_be_bitflip
  rw [hk1]
  simp only [Nat.zero_add, h7]
  have hne : x ≠ 0 := by omega
  simp only [hne, if_false]
  by_cases ha : (x / 2 ^ k = 1 ∨ x / 2 ^ k = 3 ∨ x / 2 ^ k = 15)
  · simp [ha]
  · by_cases hb : k % 8 = 0
    · by_cases hc : (x / 2 ^ k = 0xff ∨ x / 2 ^ k = 0xffff ∨ x / 2 ^ k = 0xffffffff)
      · simp [ha, hb, hc]
      · simp [ha, hb, hc]
    · simp [ha, hb]

/-- C1: for every 32-bit `x`, `could_be_bitflip x` holds exactly when `x = 0`,
or `x = m * 2 ^ s` with `m` one of 1, 3, 15, or `x = m * 2 ^ s` with `m` one of
`0xff`, `0xffff`, `0xffffffff` and `s` a multiple of 8 (the products are exact:
no bit is shifted out). -/
theorem could_be_bitflip_iff (x : Nat) (hx : x < 2 ^ 32) :
    could_be_bitflip x = true ↔
      (x = 0 ∨
       (∃ m s : Nat, (m = 1 ∨ m = 3 ∨ m = 15) ∧ x = m * 2 ^ s) ∨
       (∃ m s : Nat, (m = 0xff ∨ m = 0xffff ∨ m = 0xffffffff) ∧ s % 8 = 0 ∧ x = m * 2 ^ s)) := by
  by_cases h0 : x = 0
  · subst h0; simp [could_be_bitflip]
  · obtain ⟨k, y, hxy, hy, hev⟩ := could_be_bitflip_eval x (by omega) hx
    rw [hev]
    constructor
    · intro h
      right
      simp only [Bool.or_eq_true, Bool.and_eq_true, decide_eq_true_eq] at h
      rcases h with h | ⟨h1, h2⟩
      · left; exact ⟨y, k, h, hxy⟩
      · right; exact ⟨y, k, h2, h1, hxy⟩
    · intro h
      simp only [Bool.or_eq_true, Bool.and_eq_true, decide_eq_true_eq]
      rcases h with h | ⟨m, s, hm, hs⟩ | ⟨m, s, hm, hs8, hs⟩
      · exact absurd h h0
      · have hodd : m % 2 = 1 := by rcases hm with h | h | h <;> subst h <;> rfl
        obtain ⟨e1, e2⟩ := odd_mul_pow_unique m y hodd hy s k (by rw [← hs, ← hxy])
        left; rw [← e2]; exact hm
      · have hodd : m % 2 = 1 := by rcases hm with h | h | h <;> subst h <;> rfl
        obtain ⟨e1, e2⟩ := odd_mul_pow_unique m y hodd hy s k (by rw [← hs, ← hxy])
        right; rw [← e2, ← e1]; exact ⟨hs8, hm⟩

/-- The characterisation of `could_be_bitflip` applied to `0xff00`. -/
theorem could_be_bitflip_iff_witness :
    could_be_bitflip 0xff00 = true ↔
      ((0xff00 : Nat) = 0 ∨
       (∃ m s : Nat, (m = 1 ∨ m = 3 ∨ m = 15) ∧ 0xff00 = m * 2 ^ s) ∨
       (∃ m s : Nat, (m = 0xff ∨ m = 0xffff ∨ m = 0xffffffff) ∧ s % 8 = 0 ∧ 0xff00 = m * 2 ^ s)) :=
  could_be_bitflip_iff 0xff00 (by norm_num)

/-- The value of `could_be_arith` on two bytes with `blen = 1`. -/
theorem could_be_arith_one (old new : Nat) (ho : old < 256) (hn : new < 256) :
    could_be_arith old new 1 =
      decide (old = new ∨ (old + 256 - new) % 256 ≤ 35 ∨ (new + 256 - old) % 256 ≤ 35) := by
  by_cases h : old = new
  · simp [could_be_arith, h]
  · have h1 : old % 256 = old := Nat.mod_eq_of_lt ho
    have h2 : new % 256 = new := Nat.mod_eq_of_lt hn
    have hf : (List.range 1).foldl (arith_byte_step old new) (0, 0, 0) = (1, old, new) := by
      simp [show List.range 1 = [0] from rfl, arith_byte_step, h1, h2, h]
    unfold could_be_arith
    rw [hf]
    simp only [h, if_false, sub32, U32, ARITH_MAX, true_and, false_or, if_true]
    by_cases hc : ((old + 256 - new) % 256 ≤ 35 ∨ (new + 256 - old) % 256 ≤ 35)
    · have : ((old % 4294967296 + 4294967296 - new % 4294967296) % 4294967296 % 256 ≤ 35 ∨
        (new % 4294967296 + 4294967296 - old % 4294967296) % 4294967296 % 256 ≤ 35) := by omega
      simp [this, hc]
    · have : ¬ ((old % 4294967296 + 4294967296 - new % 4294967296) % 4294967296 % 256 ≤ 35 ∨
        (new % 4294967296 + 4294967296 - old % 4294967296) % 4294967296 % 256 ≤ 35) := by omega
      simp [this, hc]

/-- C4: for bytes `old`, `new`, `could_be_arith old new 1` holds exactly when
`new` is `old + delta` or `old - delta` modulo 256 for some `delta` between 0
and `ARITH_MAX`. -/
theorem could_be_arith_byte_iff (old new : Nat) (ho : old < 256) (hn : new < 256) :
    could_be_arith old new 1 = true ↔
      ∃ delta : Nat, delta ≤ ARITH_MAX ∧
        (new = (old + delta) % 256 ∨ new = (old + 256 - delta) % 256) := by
  rw [could_be_arith_one old new ho hn, decide_eq_true_eq]
  unfold ARITH_MAX
  constructor
  · rintro (h | h | h)
    · exact ⟨0, by omega, Or.inl (by omega)⟩
    · exact ⟨(old + 256 - new) % 256, h, Or.inr (by omega)⟩
    · exact ⟨(new + 256 - old) % 256, h, Or.inl (by omega)⟩
  · rintro ⟨d, hd, h | h⟩ <;> omega

/-- The byte characterisation of `could_be_arith` applied to `0x10`, `0x15`. -/
theorem could_be_arith_byte_iff_witness :
    could_be_arith 0x10 0x15 1 = true ↔
      ∃ delta : Nat, delta ≤ ARITH_MAX ∧
        (0x15 = (0x10 + delta) % 256 ∨ 0x15 = (0x10 + 256 - delta) % 256) :=
  could_be_arith_byte_iff 0x10 0x15 (by norm_num) (by norm_num)

/-- C5, evaluated: adding 1 to the 16-bit lane at byte offset 1 of `0x0000FF00`
(the lane `0x00FF` becomes `0x0100`, the other two bytes stay) gives
`0x00010000`, and `could_be_arith` with `blen = 4` does not flag it. -/
theorem could_be_arith_misses_unaligned_lane :
    lane16 0x0000FF00 1 = 0x00FF ∧
    set_lane16 0x0000FF00 1 ((lane16 0x0000FF00 1 + 1) % 65536) = 0x00010000 ∧
    could_be_arith 0x0000FF00 0x00010000 4 = false := by
  decide

/-- The bits of a number at and above its size are clear. -/
theorem testBit_high_false (x n j : Nat) (hx : x < 2 ^ n) (hj : n ≤ j) : x.testBit j = false :=
  Nat.testBit_eq_false_of_lt (lt_of_lt_of_le hx (Nat.pow_le_pow_right (by norm_num) hj))

/-- The candidate built by `could_be_interest` for a lane of `m` bits at byte
offset `i`: the low `8 i` bits of `old`, then `v`, then the bits of `old`
above the lane. -/
theorem insert_lane_eq (old m i v : Nat) (hold : old < 2 ^ 32) (hv : v < 2 ^ m)
    (hfit : i * 8 + m ≤ 32) :
    insert_lane old (2 ^ m - 1) i v
      = 2 ^ (i * 8) * (2 ^ m * (old / 2 ^ (i * 8 + m)) + v) + old % 2 ^ (i * 8) := by
  apply Nat.eq_of_testBit_eq
  intro j
  have hmod : old % 2 ^ (i * 8) < 2 ^ (i * 8) := Nat.mod_lt _ (by positivity)
  rw [Nat.testBit_mul_pow_two_add _ hmod, Nat.testBit_mul_pow_two_add _ hv]
  unfold insert_lane clear_lane U32
  rw [show (4294967296 : Nat) = 2 ^ 32 from by norm_num, show (0xffffffff : Nat) = 2 ^ 32 - 1 from by norm_num]
  simp only [Nat.testBit_or, Nat.testBit_and, Nat.testBit_xor, Nat.testBit_mod_two_pow,
    Nat.testBit_shiftLeft, Nat.testBit_two_pow_sub_one, ← Nat.shiftRight_eq_div_pow,
    Nat.testBit_shiftRight]
  by_cases h1 : j < i * 8
  · have h2 : ¬ (j ≥ i * 8) := by omega
    have h3 : j < 32 := by omega
    simp [h1, h2, h3]
  · have h2 : j ≥ i * 8 := by omega
    by_cases h4 : j - i * 8 < m
    · have h3 : j < 32 := by omega
      simp [h1, h2, h3, h4]
    · have h5 : i * 8 + m + (j - i * 8 - m) = j := by omega
      by_cases h3 : j < 32
      · have h6 : v.testBit (j - i * 8) = false := testBit_high_false v m _ hv (by omega)
        simp [h1, h2, h3, h4, h5, h6]
      · have h6 : v.testBit (j - i * 8) = false := testBit_high_false v m _ hv (by omega)
        have h7 : old.testBit j = false := testBit_high_false old 32 _ hold (by omega)
        simp [h1, h2, h3, h4, h5, h6, h7]

/-- The candidate for the byte lane at offset 0. -/
theorem insert_lane_byte0 (old b : Nat) (hold : old < 2 ^ 32) (hb : b < 256) :
    insert_lane old 0xff 0 b = 256 * (old / 256) + b := by
  have h := insert_lane_eq old 8 0 b hold (by norm_num; exact hb) (by norm_num)
  norm_num at h
  rw [h]; omega

/-- The candidate for the byte lane at offset 1. -/
theorem insert_lane_byte1 (old b : Nat) (hold : old < 2 ^ 32) (hb : b < 256) :
    insert_lane old 0xff 1 b = 65536 * (old / 65536) + 256 * b + old % 256 := by
  have h := insert_lane_eq old 8 1 b hold (by norm_num; exact hb) (by norm_num)
  norm_num at h
  rw [h]; omega

/-- The candidate for the word lane at offset 0. -/
theorem insert_lane_word0 (old w : Nat) (hold : old < 2 ^ 32) (hw : w < 65536) :
    insert_lane old 0xffff 0 w = 65536 * (old / 65536) + w := by
  have h := insert_lane_eq old 16 0 w hold (by norm_num; exact hw) (by norm_num)
  norm_num at h
  rw [h]; omega


/-- A `u8` is below 256. -/
theorem toU8_lt (v : Int) : toU8 v < 256 := by
  unfold toU8; omega

/-- A `u16` is below 65536. -/
theorem toU16_lt (v : Int) : toU16 v < 65536 := by
  unfold toU16; omega

/-- A `u32` is below `2 ^ 32`. -/
theorem toU32_lt (v : Int) : toU32 v < 4294967296 := by
  unfold toU32; omega

/-- C6, amended: for 16-bit `old`, `could_be_interest T old new 2 check_le`
holds exactly when `old = new`, or `new` is `old` with one of its two bytes
overwritten by an entry of `interesting_8`, or `check_le` is set and `new` is an
entry of `interesting_16` in native byte order. -/
theorem could_be_interest_word_iff (T : Tables) (old new : Nat) (check_le : Bool)
    (ho : old < 65536) :
    could_be_interest T old new 2 check_le = true ↔
      (old = new ∨
       (∃ i, i < 2 ∧ ∃ v ∈ T.interesting_8, new = set_byte old i (toU8 v)) ∨
       (check_le = true ∧ ∃ v ∈ T.interesting_16, new = toU16 v)) := by
  have ho32 : old < 2 ^ 32 := by omega
  have hr2 : List.range 2 = [0, 1] := rfl
  have hr1 : List.range (2 - 1) = [0] := rfl
  have hb0 : ∀ v : Int, insert_lane old 0xff 0 (toU8 v) = set_byte old 0 (toU8 v) := by
    intro v
    rw [insert_lane_byte0 old _ ho32 (toU8_lt v)]
    unfold set_byte; norm_num; omega
  have hb1 : ∀ v : Int, insert_lane old 0xff 1 (toU8 v) = set_byte old 1 (toU8 v) := by
    intro v
    rw [insert_lane_byte1 old _ ho32 (toU8_lt v)]
    unfold set_byte; norm_num; omega
  have hw0 : ∀ v : Int, insert_lane old 0xffff 0 (toU16 v) = toU16 v := by
    intro v
    rw [insert_lane_word0 old _ ho32 (toU16_lt v)]
    omega
  unfold could_be_interest
  rw [hr2, hr1]
  simp only [List.any_cons, List.any_nil, Bool.or_false, hb0, hb1, hw0, gt_iff_lt,
    Nat.lt_irrefl, decide_False, Bool.false_and]
  by_cases h1 : old = new
  · simp [h1]
  · simp only [h1, if_false, false_or]
    by_cases h2 : (T.interesting_8.any (fun v => decide (new = set_byte old 0 (toU8 v))) ||
        T.interesting_8.any (fun v => decide (new = set_byte old 1 (toU8 v)))) = true
    · simp only [h2, if_true, true_iff]
      left
      simp only [Bool.or_eq_true, List.any_eq_true, decide_eq_true_eq] at h2
      rcases h2 with ⟨v, hv, e⟩ | ⟨v, hv, e⟩
      · exact ⟨0, by norm_num, v, hv, e⟩
      · exact ⟨1, by norm_num, v, hv, e⟩
    · have h3 : ¬ ∃ i, i < 2 ∧ ∃ v ∈ T.interesting_8, new = set_byte old i (toU8 v) := by
        rintro ⟨i, hi, v, hv, e⟩
        apply h2
        simp only [Bool.or_eq_true, List.any_eq_true, decide_eq_true_eq]
        have : i = 0 ∨ i = 1 := by omega
        rcases this with rfl | rfl
        · exact Or.inl ⟨v, hv, e⟩
        · exact Or.inr ⟨v, hv, e⟩
      simp only [h2, h3, false_or]
      cases check_le
      · simp
      · simp [List.any_eq_true]

/-- The amended characterisation of `could_be_interest` applied to `old = 0`,
`new = 1000` with `check_le` set. -/
theorem could_be_interest_word_iff_witness :
    could_be_interest afl_tables 0 1000 2 true = true ↔
      ((0 : Nat) = 1000 ∨
       (∃ i, i < 2 ∧ ∃ v ∈ afl_tables.interesting_8, 1000 = set_byte 0 i (toU8 v)) ∨
       (true = true ∧ ∃ v ∈ afl_tables.interesting_16, 1000 = toU16 v)) :=
  could_be_interest_word_iff afl_tables 0 1000 true (by norm_num)

/-- C6 as stated fails: with `check_le = 0`, `old = 0` and `new = 1000` (an
entry of `interesting_16`), `could_be_interest` returns 0 although `new` is a
value of `interesting_16` in native byte order. -/
theorem could_be_interest_word_counterexample :
    could_be_interest afl_tables 0 1000 2 false = false ∧
    (1000 : Int) ∈ afl_tables.interesting_16 ∧ toU16 1000 = 1000 := by
  decide

/-! ## Loops and control -/

/-- A loop whose body keeps an invariant and never abandons runs to its end and
keeps the invariant. -/
theorem for_each_next {α σ : Type} (body : α → σ → Ctl σ) (P : σ → Prop) :
    ∀ (xs : List α), (∀ x ∈ xs, ∀ s, P s → ∃ t, body x s = Ctl.next t ∧ P t) →
      ∀ s, P s → ∃ t, for_each body xs s = Ctl.next t ∧ P t := by
  intro xs
  induction xs with
  | nil => intro _ s hs; exact ⟨s, rfl, hs⟩
  | cons x xs ih =>
    intro h s hs
    obtain ⟨t, ht, hPt⟩ := h x (List.mem_cons_self x xs) s hs
    obtain ⟨u, hu, hPu⟩ := ih (fun y hy => h y (List.mem_cons_of_mem x hy)) t hPt
    exact ⟨u, by simp [for_each, ht, Ctl.bind, hu], hPu⟩

/-- A property kept by every round of a loop, however the round ends, holds of
the state in which the loop ends. -/
theorem for_each_state_inv {α σ : Type} (body : α → σ → Ctl σ) (P : σ → Prop) :
    ∀ (xs : List α), (∀ x ∈ xs, ∀ s, P s → P (body x s).state) →
      ∀ s, P s → P (for_each body xs s).state := by
  intro xs
  induction xs with
  | nil => intro _ s hs; exact hs
  | cons x xs ih =>
    intro h s hs
    have h1 := h x (List.mem_cons_self x xs) s hs
    simp only [for_each]
    cases hb : body x s with
    | next t =>
      rw [hb] at h1
      exact ih (fun y hy => h y (List.mem_cons_of_mem x hy)) t h1
    | abandon t =>
      rw [hb] at h1
      exact h1

/-- A loop whose rounds never abandon, keep an invariant and each append a
known list to a log, appends the concatenation of these lists. -/
theorem for_each_log {α σ E : Type} (body : α → σ → Ctl σ) (P : σ → Prop)
    (log : σ → List E) (f : α → List E) :
    ∀ (xs : List α),
      (∀ x ∈ xs, ∀ s, P s → ∃ t, body x s = Ctl.next t ∧ P t ∧ log t = log s ++ f x) →
      ∀ s, P s → ∃ t, for_each body xs s = Ctl.next t ∧ P t ∧
        log t = log s ++ (xs.map f).flatten := by
  intro xs
  induction xs with
  | nil => intro _ s hs; exact ⟨s, rfl, hs, by simp⟩
  | cons x xs ih =>
    intro h s hs
    obtain ⟨t, ht, hPt, hlt⟩ := h x (List.mem_cons_self x xs) s hs
    obtain ⟨u, hu, hPu, hlu⟩ := ih (fun y hy => h y (List.mem_cons_of_mem x hy)) t hPt
    refine ⟨u, by simp [for_each, ht, Ctl.bind, hu], hPu, ?_⟩
    rw [hlu, hlt]; simp

/-- The harness call of a stage, when the harness does not ask to abandon. -/
theorem submit_next (c : Ctx) (s : FState)
    (hna : ∀ n buf, (c.harness n buf).abandon = false) :
    submit c s = Ctl.next (common_fuzz_stuff c s s.out_buf s.len).1 := by
  simp [submit, common_fuzz_stuff, hna]

/-! ## Bytes and buffers -/

/-- Reading a list after one store. -/
theorem getD_set (l : List Nat) (i k v d : Nat) :
    (l.set i v).getD k d = if i = k ∧ i < l.length then v else l.getD k d := by
  simp only [List.getD_eq_getElem?_getD, List.getElem?_set]
  by_cases h : i = k
  · subst h
    by_cases h2 : i < l.length
    · simp [h2]
    · simp [h2, List.getElem?_eq_none (Nat.le_of_not_lt h2)]
  · simp [h]

/-- Two buffers of one length with the same bytes are equal. -/
theorem list_ext_getD (l1 l2 : List Nat) (hl : l1.length = l2.length)
    (h : ∀ k, k < l1.length → l1.getD k 0 = l2.getD k 0) : l1 = l2 := by
  apply List.ext_getElem hl
  intro n h1 h2
  have := h n h1
  rwa [List.getD_eq_getElem _ _ h1, List.getD_eq_getElem _ _ h2] at this

/-- Storing the byte already there changes nothing. -/
theorem set_getD_self (l : List Nat) (i : Nat) : l.set i (l.getD i 0) = l := by
  apply list_ext_getD
  · simp
  · intro k _
    rw [getD_set]
    by_cases h : i = k ∧ i < l.length
    · simp [h, h.1]
    · simp [h]

/-- A byte read from a buffer of bytes is below 256. -/
theorem Bytes.getD_lt {l : List Nat} (h : Bytes l) (i : Nat) : l.getD i 0 < 256 := by
  by_cases hi : i < l.length
  · rw [List.getD_eq_getElem _ _ hi]; exact h _ (List.getElem_mem hi)
  · rw [List.getD_eq_default _ _ (Nat.le_of_not_lt hi)]; norm_num

/-- Flipping all bits of an `n`-bit number. -/
theorem xor_ones (n x : Nat) (hx : x < 2 ^ n) : x ^^^ (2 ^ n - 1) = 2 ^ n - 1 - x := by
  apply Nat.eq_of_testBit_eq
  intro i
  have h1 : 2 ^ n - 1 - x = 2 ^ n - (x + 1) := by omega
  rw [h1, Nat.testBit_two_pow_sub_succ hx, Nat.testBit_xor, Nat.testBit_two_pow_sub_one]
  by_cases hi : i < n
  · simp [hi]
  · simp [hi, testBit_high_false x n i hx (by omega)]

/-- The macro `FLIP_BIT` keeps the length of the buffer. -/
theorem FLIP_BIT_length (ar : List Nat) (b : Nat) : (FLIP_BIT ar b).length = ar.length := by
  simp [FLIP_BIT]

/-- The bytes of a buffer after `FLIP_BIT`. -/
theorem FLIP_BIT_getD (ar : List Nat) (b k : Nat) :
    (FLIP_BIT ar b).getD k 0 =
      if b >>> 3 = k ∧ b >>> 3 < ar.length then ar.getD k 0 ^^^ (128 >>> (b &&& 7))
      else ar.getD k 0 := by
  unfold FLIP_BIT
  rw [getD_set]
  by_cases h : b >>> 3 = k ∧ b >>> 3 < ar.length
  · simp [h, h.1]
  · simp [h]

/-- Two applications of `FLIP_BIT` commute. -/
theorem FLIP_BIT_comm (ar : List Nat) (a b : Nat) :
    FLIP_BIT (FLIP_BIT ar a) b = FLIP_BIT (FLIP_BIT ar b) a := by
  apply list_ext_getD
  · simp [FLIP_BIT_length]
  · intro k hk
    simp only [FLIP_BIT_length] at hk
    simp only [FLIP_BIT_getD, FLIP_BIT_length]
    by_cases h1 : a >>> 3 = k <;> by_cases h2 : b >>> 3 = k <;>
    simp [h1, h2, hk, Nat.xor_assoc, Nat.xor_comm (128 >>> (a &&& 7))]

/-- Applying `FLIP_BIT` twice at one bit restores the buffer. -/
theorem FLIP_BIT_twice (ar : List Nat) (b : Nat) : FLIP_BIT (FLIP_BIT ar b) b = ar := by
  apply list_ext_getD
  · simp [FLIP_BIT_length]
  · intro k hk
    simp only [FLIP_BIT_length] at hk
    simp only [FLIP_BIT_getD, FLIP_BIT_length]
    by_cases h1 : b >>> 3 = k
    · simp [h1, hk, Nat.xor_cancel_right]
    · simp [h1]

/-- Flipping two bits twice restores the buffer. -/
theorem FLIP_BIT_twice2 (ar : List Nat) (a b : Nat) :
    FLIP_BIT (FLIP_BIT (FLIP_BIT (FLIP_BIT ar a) b) a) b = ar := by
  rw [FLIP_BIT_comm (FLIP_BIT ar a) b a, FLIP_BIT_twice, FLIP_BIT_twice]

/-- Flipping four bits twice restores the buffer. -/
theorem FLIP_BIT_twice4 (ar : List Nat) (a b c d : Nat) :
    FLIP_BIT (FLIP_BIT (FLIP_BIT (FLIP_BIT
      (FLIP_BIT (FLIP_BIT (FLIP_BIT (FLIP_BIT ar a) b) c) d) a) b) c) d = ar := by
  rw [FLIP_BIT_comm _ d a, FLIP_BIT_comm _ c a, FLIP_BIT_comm _ b a, FLIP_BIT_twice,
    FLIP_BIT_comm _ d b, FLIP_BIT_comm _ c b, FLIP_BIT_twice, FLIP_BIT_twice2]

/-- A second 16-bit store at one offset overrides the first. -/
theorem wr16_wr16 (l : List Nat) (i x y : Nat) : wr16 (wr16 l i x) i y = wr16 l i y := by
  unfold wr16
  rw [List.set_comm _ _ _ (by omega : i + 1 ≠ i), List.set_set, List.set_set]

/-- Storing the 16-bit value just loaded changes nothing. -/
theorem wr16_rd16 (l : List Nat) (i : Nat) (hl : Bytes l) : wr16 l i (rd16 l i) = l := by
  have h0 := hl.getD_lt i
  have h1 := hl.getD_lt (i + 1)
  unfold wr16 rd16
  have e0 : (l.getD i 0 + 256 * l.getD (i + 1) 0) % 256 = l.getD i 0 := by omega
  have e1 : (l.getD i 0 + 256 * l.getD (i + 1) 0) / 256 % 256 = l.getD (i + 1) 0 := by omega
  rw [e0, e1, set_getD_self]
  exact set_getD_self l (i + 1)

/-- Loading the 16-bit value just stored. -/
theorem rd16_wr16 (l : List Nat) (i v : Nat) (hi : i + 1 < l.length) (hv : v < 65536) :
    rd16 (wr16 l i v) i = v := by
  unfold wr16 rd16
  simp only [getD_set, List.length_set]
  have h1 : ¬ (i + 1 = i ∧ i + 1 < l.length) := by omega
  have h2 : i < l.length := by omega
  simp [h1, h2, hi]
  omega

/-- The two stores `*(u16 *)(out_buf + i) ^= 0xFFFF` of `flip16` cancel. -/
theorem flip16_twice (l : List Nat) (i : Nat) (hl : Bytes l) (hi : i + 1 < l.length) :
    wr16 (wr16 l i (rd16 l i ^^^ 0xFFFF)) i
      (rd16 (wr16 l i (rd16 l i ^^^ 0xFFFF)) i ^^^ 0xFFFF) = l := by
  have h0 := hl.getD_lt i
  have h1 := hl.getD_lt (i + 1)
  have hx : rd16 l i < 2 ^ 16 := by unfold rd16; omega
  have hy : rd16 l i ^^^ 0xFFFF < 2 ^ 16 := Nat.xor_lt_two_pow hx (by norm_num)
  rw [wr16_wr16, rd16_wr16 l i _ hi (by omega), Nat.xor_cancel_right, wr16_rd16 l i hl]

/-- A second 32-bit store at one offset overrides the first. -/
theorem wr32_wr32 (l : List Nat) (i x y : Nat) : wr32 (wr32 l i x) i y = wr32 l i y := by
  apply list_ext_getD
  · simp [wr32]
  · intro k hk
    simp only [wr32, List.length_set] at hk
    simp only [wr32, getD_set, List.length_set]
    by_cases h3 : i + 3 = k
    · simp [h3, hk]
    · by_cases h2 : i + 2 = k
      · simp [h3, h2, hk]
      · by_cases h1 : i + 1 = k
        · simp [h3, h2, h1, hk]
        · by_cases h0 : i = k
          · simp [h3, h2, h1, h0, hk]
          · simp [h3, h2, h1, h0]

/-- Storing the 32-bit value just loaded changes nothing. -/
theorem wr32_rd32 (l : List Nat) (i : Nat) (hl : Bytes l) : wr32 l i (rd32 l i) = l := by
  have h0 := hl.getD_lt i
  have h1 := hl.getD_lt (i + 1)
  have h2 := hl.getD_lt (i + 2)
  have h3 := hl.getD_lt (i + 3)
  unfold wr32 rd32
  have e0 : (l.getD i 0 + 256 * l.getD (i + 1) 0 + 65536 * l.getD (i + 2) 0
      + 16777216 * l.getD (i + 3) 0) % 256 = l.getD i 0 := by omega
  have e1 : (l.getD i 0 + 256 * l.getD (i + 1) 0 + 65536 * l.getD (i + 2) 0
      + 16777216 * l.getD (i + 3) 0) / 256 % 256 = l.getD (i + 1) 0 := by omega
  have e2 : (l.getD i 0 + 256 * l.getD (i + 1) 0 + 65536 * l.getD (i + 2) 0
      + 16777216 * l.getD (i + 3) 0) / 65536 % 256 = l.getD (i + 2) 0 := by omega
  have e3 : (l.getD i 0 + 256 * l.getD (i + 1) 0 + 65536 * l.getD (i + 2) 0
      + 16777216 * l.getD (i + 3) 0) / 16777216 % 256 = l.getD (i + 3) 0 := by omega
  rw [e0, e1, e2, e3, set_getD_self, set_getD_self, set_getD_self]
  exact set_getD_self l (i + 3)

/-- Loading the 32-bit value just stored. -/
theorem rd32_wr32 (l : List Nat) (i v : Nat) (hi : i + 3 < l.length) (hv : v < 4294967296) :
    rd32 (wr32 l i v) i = v := by
  unfold wr32 rd32
  simp only [getD_set, List.length_set]
  have a1 : ¬ (i + 3 = i ∧ i + 3 < l.length) := by omega
  have a2 : ¬ (i + 2 = i ∧ i + 2 < l.length) := by omega
  have a3 : ¬ (i + 1 = i ∧ i + 1 < l.length) := by omega
  have a4 : ¬ (i + 3 = i + 1 ∧ i + 3 < l.length) := by omega
  have a5 : ¬ (i + 2 = i + 1 ∧ i + 2 < l.length) := by omega
  have a6 : ¬ (i + 3 = i + 2 ∧ i + 3 < l.length) := by omega
  have b0 : i < l.length := by omega
  have b1 : i + 1 < l.length := by omega
  have b2 : i + 2 < l.length := by omega
  simp [a1, a2, a3, a4, a5, a6, b0, b1, b2, hi]
  omega

/-- The two stores `*(u32 *)(out_buf + i) ^= 0xFFFFFFFF` of `flip32` cancel. -/
theorem flip32_twice (l : List Nat) (i : Nat) (hl : Bytes l) (hi : i + 3 < l.length) :
    wr32 (wr32 l i (rd32 l i ^^^ 0xFFFFFFFF)) i
      (rd32 (wr32 l i (rd32 l i ^^^ 0xFFFFFFFF)) i ^^^ 0xFFFFFFFF) = l := by
  have h0 := hl.getD_lt i
  have h1 := hl.getD_lt (i + 1)
  have h2 := hl.getD_lt (i + 2)
  have h3 := hl.getD_lt (i + 3)
  have hx : rd32 l i < 2 ^ 32 := by unfold rd32; omega
  have hy : rd32 l i ^^^ 0xFFFFFFFF < 2 ^ 32 := Nat.xor_lt_two_pow hx (by norm_num)
  rw [wr32_wr32, rd32_wr32 l i _ hi (by omega), Nat.xor_cancel_right, wr32_rd32 l i hl]

/-- The two stores `out_buf[i] ^= 0xFF` of `flip8` cancel. -/
theorem flip8_twice (l : List Nat) (i : Nat) :
    (l.set i (l.getD i 0 ^^^ 0xFF)).set i ((l.set i (l.getD i 0 ^^^ 0xFF)).getD i 0 ^^^ 0xFF)
      = l := by
  by_cases h : i < l.length
  · have e : (l.set i (l.getD i 0 ^^^ 0xFF)).getD i 0 = l.getD i 0 ^^^ 0xFF := by
      rw [getD_set]; simp [h]
    rw [List.set_set, e, Nat.xor_cancel_right]
    exact set_getD_self l i
  · rw [List.set_set, List.set_eq_of_length_le (by omega)]

/-! ## Buffer reversibility of the in-place stages -/

/-- The test-and-execute block `attempt`, when the harness does not ask to
abandon: it ends normally, with the candidate in `out_buf` if it was executed. -/
theorem attempt_spec (c : Ctx) (hna : ∀ n buf, (c.harness n buf).abandon = false)
    (cond : Bool) (buf : List Nat) (val : Int) (s : FState) :
    ∃ t, attempt c cond buf val s = Ctl.next t ∧
      t.out_buf = (if cond then buf else s.out_buf) := by
  cases cond
  · rw [attempt, if_neg (by simp)]
    exact ⟨_, rfl, by simp⟩
  · rw [attempt, if_pos rfl, submit_next c _ hna]
    simp only [Ctl.bind]
    exact ⟨_, rfl, by simp [common_fuzz_stuff]⟩

/-- The auto-dictionary block does not touch `out_buf`. -/
theorem auto_collect_out_buf (c : Ctx) (i : Nat) (s : FState) :
    (auto_collect c i s).out_buf = s.out_buf := by
  unfold auto_collect a_collect_emit a_collect_push maybe_add_auto
  simp only
  split_ifs <;> rfl

/-- The effector block of `flip8` does not touch `out_buf`. -/
theorem eff_mark_out_buf (c : Ctx) (i : Nat) (s : FState) :
    (eff_mark c i s).out_buf = s.out_buf := by
  unfold eff_mark
  simp only
  split_ifs <;> rfl

/-- Every round of `flip1` restores the buffer. -/
theorem flip1_body_restores (c : Ctx) (hna : ∀ n buf, (c.harness n buf).abandon = false)
    (B : List Nat) (i : Nat) (s : FState) (hs : s.out_buf = B) :
    ∃ t, flip1_body c i s = Ctl.next t ∧ t.out_buf = B := by
  simp only [flip1_body, submit_next c _ hna, Ctl.bind]
  split_ifs
  · exact ⟨_, rfl, by simp [auto_collect_out_buf, common_fuzz_stuff, FLIP_BIT_twice, hs]⟩
  · exact ⟨_, rfl, by simp [common_fuzz_stuff, FLIP_BIT_twice, hs]⟩

/-- Every round of `flip2` restores the buffer. -/
theorem flip2_body_restores (c : Ctx) (hna : ∀ n buf, (c.harness n buf).abandon = false)
    (B : List Nat) (i : Nat) (s : FState) (hs : s.out_buf = B) :
    ∃ t, flip2_body c i s = Ctl.next t ∧ t.out_buf = B := by
  simp only [flip2_body, submit_next c _ hna, Ctl.bind]
  exact ⟨_, rfl, by simp [common_fuzz_stuff, FLIP_BIT_twice2, hs]⟩

/-- Every round of `flip4` restores the buffer. -/
theorem flip4_body_restores (c : Ctx) (hna : ∀ n buf, (c.harness n buf).abandon = false)
    (B : List Nat) (i : Nat) (s : FState) (hs : s.out_buf = B) :
    ∃ t, flip4_body c i s = Ctl.next t ∧ t.out_buf = B := by
  simp only [flip4_body, submit_next c _ hna, Ctl.bind]
  exact ⟨_, rfl, by simp [common_fuzz_stuff, FLIP_BIT_twice4, hs]⟩

/-- Every round of `flip8` restores the buffer. -/
theorem flip8_body_restores (c : Ctx) (hna : ∀ n buf, (c.harness n buf).abandon = false)
    (B : List Nat) (i : Nat) (s : FState) (hs : s.out_buf = B) :
    ∃ t, flip8_body c i s = Ctl.next t ∧ t.out_buf = B := by
  simp only [flip8_body, submit_next c _ hna, Ctl.bind]
  refine ⟨_, rfl, ?_⟩
  simp only [eff_mark_out_buf, common_fuzz_stuff, hs]
  exact flip8_twice B i

/-- Every round of `flip16` restores the buffer. -/
theorem flip16_body_restores (c : Ctx) (hna : ∀ n buf, (c.harness n buf).abandon = false)
    (B : List Nat) (hB : Bytes B) (i : Nat) (hi : i + 1 < B.length) (s : FState)
    (hs : s.out_buf = B) :
    ∃ t, flip16_body c i s = Ctl.next t ∧ t.out_buf = B := by
  unfold flip16_body
  split_ifs
  · exact ⟨_, rfl, hs⟩
  · simp only [submit_next c _ hna, Ctl.bind]
    refine ⟨_, rfl, ?_⟩
    simp only [common_fuzz_stuff, hs]
    exact flip16_twice B i hB hi

/-- Every round of `flip32` restores the buffer. -/
theorem flip32_body_restores (c : Ctx) (hna : ∀ n buf, (c.harness n buf).abandon = false)
    (B : List Nat) (hB : Bytes B) (i : Nat) (hi : i + 3 < B.length) (s : FState)
    (hs : s.out_buf = B) :
    ∃ t, flip32_body c i s = Ctl.next t ∧ t.out_buf = B := by
  unfold flip32_body
  split_ifs
  · exact ⟨_, rfl, hs⟩
  · simp only [submit_next c _ hna, Ctl.bind]
    refine ⟨_, rfl, ?_⟩
    simp only [common_fuzz_stuff, hs]
    exact flip32_twice B i hB hi

/-- Every round `j` of the inner loop of `arith8` ends with the byte restored. -/
theorem arith8_inner_restores (c : Ctx) (hna : ∀ n buf, (c.harness n buf).abandon = false)
    (B : List Nat) (i j : Nat) (s : FState) (hs : s.out_buf = B) :
    ∃ t, arith8_inner c i (B.getD i 0) j s = Ctl.next t ∧ t.out_buf = B := by
  unfold arith8_inner
  obtain ⟨t1, e1, o1⟩ := attempt_spec c hna
    (!could_be_bitflip ((B.getD i 0 ^^^ (B.getD i 0 + j)) % 256))
    (s.out_buf.set i ((B.getD i 0 + j) % 256)) (j : Int) s
  rw [e1]; simp only [Ctl.bind]
  obtain ⟨t2, e2, o2⟩ := attempt_spec c hna
    (!could_be_bitflip ((B.getD i 0 ^^^ sub32 (B.getD i 0) j) % 256))
    (t1.out_buf.set i ((sub32 (B.getD i 0) j) % 256)) (-(j : Int)) t1
  rw [e2]; simp only [Ctl.bind]
  refine ⟨_, rfl, ?_⟩
  simp only [o2, o1, hs]
  split_ifs <;> (try simp only [List.set_set]) <;> exact set_getD_self B i

/-- Every round of the outer loop of `arith8` restores the buffer. -/
theorem arith8_body_restores (c : Ctx) (hna : ∀ n buf, (c.harness n buf).abandon = false)
    (B : List Nat) (i : Nat) (s : FState) (hs : s.out_buf = B) :
    ∃ t, arith8_body c i s = Ctl.next t ∧ t.out_buf = B := by
  subst hs
  unfold arith8_body for_loop
  simp only
  split_ifs
  · exact ⟨_, rfl, rfl⟩
  · refine for_each_next _ (fun t : FState => t.out_buf = s.out_buf) _ ?_ _ ?_
    · intro j _ t ht
      exact arith8_inner_restores c hna s.out_buf i j t ht
    · rfl

/-- Every round `j` of the inner loop of `arith16` ends with the word restored. -/
theorem arith16_inner_restores (c : Ctx) (hna : ∀ n buf, (c.harness n buf).abandon = false)
    (B : List Nat) (hB : Bytes B) (i j : Nat) (s : FState) (hs : s.out_buf = B) :
    ∃ t, arith16_inner c i (rd16 B i) j s = Ctl.next t ∧ t.out_buf = B := by
  unfold arith16_inner
  simp only
  obtain ⟨t1, e1, o1⟩ := attempt_spec c hna
    (decide ((rd16 B i &&& 0xff) + j > 0xff) &&
      !could_be_bitflip ((rd16 B i ^^^ (rd16 B i + j)) % 65536))
    (wr16 s.out_buf i ((rd16 B i + j) % 65536)) (j : Int) s
  rw [e1]; simp only [Ctl.bind]
  obtain ⟨t2, e2, o2⟩ := attempt_spec c hna
    (decide ((rd16 B i &&& 0xff) < j) &&
      !could_be_bitflip ((rd16 B i ^^^ sub32 (rd16 B i) j) % 65536))
    (wr16 t1.out_buf i ((sub32 (rd16 B i) j) % 65536)) (-(j : Int)) t1
  rw [e2]; simp only [Ctl.bind]
  obtain ⟨t3, e3, o3⟩ := attempt_spec c hna
    (decide ((rd16 B i >>> 8) + j > 0xff) &&
      !could_be_bitflip ((rd16 B i ^^^ SWAP16 (SWAP16 (rd16 B i) + j)) % 65536))
    (wr16 t2.out_buf i (SWAP16 (SWAP16 (rd16 B i) + j))) (j : Int) t2
  rw [e3]; simp only [Ctl.bind]
  obtain ⟨t4, e4, o4⟩ := attempt_spec c hna
    (decide ((rd16 B i >>> 8) < j) &&
      !could_be_bitflip ((rd16 B i ^^^ SWAP16 (sub32 (SWAP16 (rd16 B i)) j)) % 65536))
    (wr16 t3.out_buf i (SWAP16 (sub32 (SWAP16 (rd16 B i)) j))) (-(j : Int)) t3
  rw [e4]; simp only [Ctl.bind]
  refine ⟨_, rfl, ?_⟩
  simp only [o4, o3, o2, o1, hs]
  split_ifs <;> (try simp only [wr16_wr16]) <;> exact wr16_rd16 B i hB

/-- Every round of the outer loop of `arith16` restores the buffer. -/
theorem arith16_body_restores (c : Ctx) (hna : ∀ n buf, (c.harness n buf).abandon = false)
    (B : List Nat) (hB : Bytes B) (i : Nat) (s : FState) (hs : s.out_buf = B) :
    ∃ t, arith16_body c i s = Ctl.next t ∧ t.out_buf = B := by
  subst hs
  unfold arith16_body for_loop
  simp only
  split_ifs
  · exact ⟨_, rfl, rfl⟩
  · refine for_each_next _ (fun t : FState => t.out_buf = s.out_buf) _ ?_ _ ?_
    · intro j _ t ht
      exact arith16_inner_restores c hna s.out_buf hB i j t ht
    · rfl

/-- Every round `j` of the inner loop of `arith32` ends with the dword restored. -/
theorem arith32_inner_restores (c : Ctx) (hna : ∀ n buf, (c.harness n buf).abandon = false)
    (B : List Nat) (hB : Bytes B) (i j : Nat) (s : FState) (hs : s.out_buf = B) :
    ∃ t, arith32_inner c i (rd32 B i) j s = Ctl.next t ∧ t.out_buf = B := by
  unfold arith32_inner
  simp only
  obtain ⟨t1, e1, o1⟩ := attempt_spec c hna
    (decide ((rd32 B i &&& 0xffff) + j > 0xffff) &&
      !could_be_bitflip (rd32 B i ^^^ add32 (rd32 B i) j))
    (wr32 s.out_buf i (add32 (rd32 B i) j)) (j : Int) s
  rw [e1]; simp only [Ctl.bind]
  obtain ⟨t2, e2, o2⟩ := attempt_spec c hna
    (decide ((rd32 B i &&& 0xffff) < j) &&
      !could_be_bitflip (rd32 B i ^^^ sub32 (rd32 B i) j))
    (wr32 t1.out_buf i (sub32 (rd32 B i) j)) (-(j : Int)) t1
  rw [e2]; simp only [Ctl.bind]
  obtain ⟨t3, e3, o3⟩ := attempt_spec c hna
    (decide ((SWAP32 (rd32 B i) &&& 0xffff) + j > 0xffff) &&
      !could_be_bitflip (rd32 B i ^^^ SWAP32 (add32 (SWAP32 (rd32 B i)) j)))
    (wr32 t2.out_buf i (SWAP32 (add32 (SWAP32 (rd32 B i)) j))) (j : Int) t2
  rw [e3]; simp only [Ctl.bind]
  obtain ⟨t4, e4, o4⟩ := attempt_spec c hna
    (decide ((SWAP32 (rd32 B i) &&& 0xffff) < j) &&
      !could_be_bitflip (rd32 B i ^^^ SWAP32 (sub32 (SWAP32 (rd32 B i)) j)))
    (wr32 t3.out_buf i (SWAP32 (sub32 (SWAP32 (rd32 B i)) j))) (-(j : Int)) t3
  rw [e4]; simp only [Ctl.bind]
  refine ⟨_, rfl, ?_⟩
  simp only [o4, o3, o2, o1, hs]
  split_ifs <;> (try simp only [wr32_wr32]) <;> exact wr32_rd32 B i hB

/-- Every round of the outer loop of `arith32` restores the buffer. -/
theorem arith32_body_restores (c : Ctx) (hna : ∀ n buf, (c.harness n buf).abandon = false)
    (B : List Nat) (hB : Bytes B) (i : Nat) (s : FState) (hs : s.out_buf = B) :
    ∃ t, arith32_body c i s = Ctl.next t ∧ t.out_buf = B := by
  subst hs
  unfold arith32_body for_loop
  simp only
  split_ifs
  · exact ⟨_, rfl, rfl⟩
  · refine for_each_next _ (fun t : FState => t.out_buf = s.out_buf) _ ?_ _ ?_
    · intro j _ t ht
      exact arith32_inner_restores c hna s.out_buf hB i j t ht
    · rfl

/-- Every round of the inner loop of `int8` ends with the byte restored. -/
theorem interest8_inner_restores (c : Ctx) (hna : ∀ n buf, (c.harness n buf).abandon = false)
    (B : List Nat) (i : Nat) (v : Int) (s : FState) (hs : s.out_buf = B) :
    ∃ t, interest8_inner c i (B.getD i 0) v s = Ctl.next t ∧ t.out_buf = B := by
  unfold interest8_inner
  split_ifs
  · exact ⟨_, rfl, hs⟩
  · simp only [submit_next c _ hna, Ctl.bind]
    refine ⟨_, rfl, ?_⟩
    simp only [common_fuzz_stuff, hs, List.set_set]
    exact set_getD_self B i

/-- Every round of the outer loop of `int8` restores the buffer. -/
theorem interest8_body_restores (c : Ctx) (hna : ∀ n buf, (c.harness n buf).abandon = false)
    (B : List Nat) (i : Nat) (s : FState) (hs : s.out_buf = B) :
    ∃ t, interest8_body c i s = Ctl.next t ∧ t.out_buf = B := by
  subst hs
  unfold interest8_body
  simp only
  split_ifs
  · exact ⟨_, rfl, rfl⟩
  · refine for_each_next _ (fun t : FState => t.out_buf = s.out_buf) _ ?_ _ ?_
    · intro v _ t ht
      exact interest8_inner_restores c hna s.out_buf i v t ht
    · rfl

/-- Every round of the inner loop of `int16` leaves the buffer equal to the
original one up to the word at offset `i`. -/
theorem interest16_inner_frame (c : Ctx) (hna : ∀ n buf, (c.harness n buf).abandon = false)
    (B : List Nat) (i orig : Nat) (v : Int) (s : FState) (hs : ∃ x, s.out_buf = wr16 B i x) :
    ∃ t, interest16_inner c i orig v s = Ctl.next t ∧ ∃ x, t.out_buf = wr16 B i x := by
  obtain ⟨x, hx⟩ := hs
  unfold interest16_inner
  obtain ⟨t1, e1, o1⟩ := attempt_spec c hna
    (!could_be_bitflip (orig ^^^ toU16 v) && !could_be_arith orig (toU16 v) 2 &&
      !could_be_interest c.T orig (toU16 v) 2 false)
    (wr16 ({ s with stage_cur_val := v } : FState).out_buf i (toU16 v)) v
    { s with stage_cur_val := v }
  rw [e1]; simp only [Ctl.bind]
  obtain ⟨t2, e2, o2⟩ := attempt_spec c hna
    (decide (toU16 v ≠ SWAP16 (toU16 v)) &&
      !could_be_bitflip (orig ^^^ SWAP16 (toU16 v)) &&
      !could_be_arith orig (SWAP16 (toU16 v)) 2 &&
      !could_be_interest c.T orig (SWAP16 (toU16 v)) 2 true)
    (wr16 t1.out_buf i (SWAP16 (toU16 v))) v t1
  refine ⟨t2, e2, ?_⟩
  simp only [o2, o1, hx]
  split_ifs
  · exact ⟨_, by rw [wr16_wr16, wr16_wr16]⟩
  · exact ⟨_, wr16_wr16 _ _ _ _⟩
  · exact ⟨_, wr16_wr16 _ _ _ _⟩
  · exact ⟨x, rfl⟩

/-- Every round of the outer loop of `int16` restores the buffer. -/
theorem interest16_body_restores (c : Ctx) (hna : ∀ n buf, (c.harness n buf).abandon = false)
    (B : List Nat) (hB : Bytes B) (i : Nat) (s : FState) (hs : s.out_buf = B) :
    ∃ t, interest16_body c i s = Ctl.next t ∧ t.out_buf = B := by
  unfold interest16_body
  simp only
  split_ifs
  · exact ⟨_, rfl, hs⟩
  · obtain ⟨t, ht, x, hx⟩ := for_each_next (interest16_inner c i (rd16 s.out_buf i))
      (fun s => ∃ x, s.out_buf = wr16 B i x) c.T.interesting_16
      (fun v _ s hs => interest16_inner_frame c hna B i _ v s hs)
      { s with stage_cur_byte := i } ⟨rd16 B i, by simp [hs, wr16_rd16 B i hB]⟩
    rw [ht]
    refine ⟨_, rfl, ?_⟩
    simp only [hx, hs, wr16_wr16]
    exact wr16_rd16 B i hB

/-- Every round of the inner loop of `int32` leaves the buffer equal to the
original one up to the dword at offset `i`. -/
theorem interest32_inner_frame (c : Ctx) (hna : ∀ n buf, (c.harness n buf).abandon = false)
    (B : List Nat) (i orig : Nat) (v : Int) (s : FState) (hs : ∃ x, s.out_buf = wr32 B i x) :
    ∃ t, interest32_inner c i orig v s = Ctl.next t ∧ ∃ x, t.out_buf = wr32 B i x := by
  obtain ⟨x, hx⟩ := hs
  unfold interest32_inner
  obtain ⟨t1, e1, o1⟩ := attempt_spec c hna
    (!could_be_bitflip (orig ^^^ toU32 v) && !could_be_arith orig (toU32 v) 4 &&
      !could_be_interest c.T orig (toU32 v) 4 false)
    (wr32 ({ s with stage_cur_val := v } : FState).out_buf i (toU32 v)) v
    { s with stage_cur_val := v }
  rw [e1]; simp only [Ctl.bind]
  obtain ⟨t2, e2, o2⟩ := attempt_spec c hna
    (decide (toU32 v ≠ SWAP32 (toU32 v)) &&
      !could_be_bitflip (orig ^^^ SWAP32 (toU32 v)) &&
      !could_be_arith orig (SWAP32 (toU32 v)) 4 &&
      !could_be_interest c.T orig (SWAP32 (toU32 v)) 4 true)
    (wr32 t1.out_buf i (SWAP32 (toU32 v))) v t1
  refine ⟨t2, e2, ?_⟩
  simp only [o2, o1, hx]
  split_ifs
  · exact ⟨_, by rw [wr32_wr32, wr32_wr32]⟩
  · exact ⟨_, wr32_wr32 _ _ _ _⟩
  · exact ⟨_, wr32_wr32 _ _ _ _⟩
  · exact ⟨x, rfl⟩

/-- Every round of the outer loop of `int32` restores the buffer. -/
theorem interest32_body_restores (c : Ctx) (hna : ∀ n buf, (c.harness n buf).abandon = false)
    (B : List Nat) (hB : Bytes B) (i : Nat) (s : FState) (hs : s.out_buf = B) :
    ∃ t, interest32_body c i s = Ctl.next t ∧ t.out_buf = B := by
  unfold interest32_body
  simp only
  split_ifs
  · exact ⟨_, rfl, hs⟩
  · obtain ⟨t, ht, x, hx⟩ := for_each_next (interest32_inner c i (rd32 s.out_buf i))
      (fun s => ∃ x, s.out_buf = wr32 B i x) c.T.interesting_32
      (fun v _ s hs => interest32_inner_frame c hna B i _ v s hs)
      { s with stage_cur_byte := i } ⟨rd32 B i, by simp [hs, wr32_rd32 B i hB]⟩
    rw [ht]
    refine ⟨_, rfl, ?_⟩
    simp only [hx, hs, wr32_wr32]
    exact wr32_rd32 B i hB

/-- A counting loop whose rounds each restore the buffer and never abandon runs
to its end with the buffer restored. -/
theorem for_loop_restores (body : Nat → FState → Ctl FState) (B : List Nat) (n : Nat)
    (h : ∀ i, i < n → ∀ s : FState, s.out_buf = B → ∃ t, body i s = Ctl.next t ∧ t.out_buf = B)
    (s0 : FState) (h0 : s0.out_buf = B) :
    ∃ t, for_loop body 0 n s0 = Ctl.next t ∧ t.out_buf = B := by
  unfold for_loop
  refine for_each_next body (fun t : FState => t.out_buf = B) _ ?_ s0 h0
  intro i hi s hs
  rw [List.mem_range'_1] at hi
  exact h i (by omega) s hs

/-- The accounting at the end of a stage does not touch `out_buf`. -/
theorem account_out_buf (id : StageId) (n : Int) (s : FState) :
    (account id n s).out_buf = s.out_buf := rfl

/-- The set-up of the effector map does not touch `out_buf`. -/
theorem eff_init_out_buf (s : FState) : (eff_init s).out_buf = s.out_buf := by
  unfold eff_init
  simp only
  split_ifs <;> rfl

/-- The saturation of the effector map does not touch `out_buf`. -/
theorem eff_saturate_out_buf (s : FState) : (eff_saturate s).out_buf = s.out_buf := by
  unfold eff_saturate
  split_ifs <;> rfl

/-- The rounds of each in-place stage restore the buffer. -/
theorem det_body_restores (k : DetStage) (c : Ctx)
    (hna : ∀ n buf, (c.harness n buf).abandon = false)
    (B : List Nat) (hB : Bytes B) (i : Nat) (hi : i < k.rounds B.length)
    (s : FState) (hs : s.out_buf = B) :
    ∃ t, k.body c i s = Ctl.next t ∧ t.out_buf = B := by
  cases k <;> simp only [DetStage.rounds] at hi <;> simp only [DetStage.body]
  · exact flip1_body_restores c hna B i s hs
  · exact flip2_body_restores c hna B i s hs
  · exact flip4_body_restores c hna B i s hs
  · exact flip8_body_restores c hna B i s hs
  · exact flip16_body_restores c hna B hB i (by omega) s hs
  · exact flip32_body_restores c hna B hB i (by omega) s hs
  · exact arith8_body_restores c hna B i s hs
  · exact arith16_body_restores c hna B hB i s hs
  · exact arith32_body_restores c hna B hB i s hs
  · exact interest8_body_restores c hna B i s hs
  · exact interest16_body_restores c hna B hB i s hs
  · exact interest32_body_restores c hna B hB i s hs

/-- Each in-place stage, run to its end, leaves the buffer as it found it. -/
theorem det_stage_restores (k : DetStage) (c : Ctx)
    (hna : ∀ n buf, (c.harness n buf).abandon = false)
    (s : FState) (hB : Bytes s.out_buf) (hlen : s.out_buf.length = s.len) :
    ∃ t, k.run c s = Ctl.next t ∧ t.out_buf = s.out_buf := by
  have hbody := fun (k : DetStage) => det_body_restores k c hna s.out_buf hB
  rw [hlen] at hbody
  cases k <;> simp only [DetStage.run]
  · obtain ⟨t, ht, ho⟩ := for_loop_restores (flip1_body c) s.out_buf (s.len <<< 3)
      (hbody DetStage.flip1) { s with
        stage_max := ((s.len <<< 3 : Nat) : Int)
        orig_hit_cnt := s.queued_paths + s.unique_crashes
        prev_cksum := c.exec_cksum } rfl
    simp only [flip1_stage, ht, Ctl.bind]
    exact ⟨_, rfl, ho⟩
  · obtain ⟨t, ht, ho⟩ := for_loop_restores (flip2_body c) s.out_buf ((s.len <<< 3) - 1)
      (hbody DetStage.flip2) { s with
        stage_max := ((s.len <<< 3 : Nat) : Int) - 1
        orig_hit_cnt := s.new_hit_cnt } rfl
    simp only [flip2_stage, ht, Ctl.bind]
    exact ⟨_, rfl, ho⟩
  · obtain ⟨t, ht, ho⟩ := for_loop_restores (flip4_body c) s.out_buf ((s.len <<< 3) - 3)
      (hbody DetStage.flip4) { s with
        stage_max := ((s.len <<< 3 : Nat) : Int) - 3
        orig_hit_cnt := s.new_hit_cnt } rfl
    simp only [flip4_stage, ht, Ctl.bind]
    exact ⟨_, rfl, ho⟩
  · obtain ⟨t, ht, ho⟩ := for_loop_restores (flip8_body c) s.out_buf s.len
      (hbody DetStage.flip8) { eff_init s with
        stage_max := (s.len : Int), orig_hit_cnt := s.new_hit_cnt } (eff_init_out_buf s)
    simp only [flip8_stage, ht, Ctl.bind]
    exact ⟨_, rfl, by rw [account_out_buf, eff_saturate_out_buf]; exact ho⟩
  · unfold flip16_stage
    split_ifs
    · exact ⟨_, rfl, rfl⟩
    · obtain ⟨t, ht, ho⟩ := for_loop_restores (flip16_body c) s.out_buf (s.len - 1)
        (hbody DetStage.flip16) { s with
          stage_cur := 0, stage_max := (s.len : Int) - 1, orig_hit_cnt := s.new_hit_cnt } rfl
      simp only [ht, Ctl.bind]
      exact ⟨_, rfl, ho⟩
  · unfold flip32_stage
    split_ifs
    · exact ⟨_, rfl, rfl⟩
    · obtain ⟨t, ht, ho⟩ := for_loop_restores (flip32_body c) s.out_buf (s.len - 3)
        (hbody DetStage.flip32) { s with
          stage_cur := 0, stage_max := (s.len : Int) - 3, orig_hit_cnt := s.new_hit_cnt } rfl
      simp only [ht, Ctl.bind]
      exact ⟨_, rfl, ho⟩
  · obtain ⟨t, ht, ho⟩ := for_loop_restores (arith8_body c) s.out_buf s.len
      (hbody DetStage.arith8) { s with
        stage_cur := 0, stage_max := 2 * (s.len : Int) * (ARITH_MAX : Int)
        orig_hit_cnt := s.new_hit_cnt } rfl
    simp only [arith8_stage, ht, Ctl.bind]
    exact ⟨_, rfl, ho⟩
  · unfold arith16_stage
    split_ifs
    · exact ⟨_, rfl, rfl⟩
    · obtain ⟨t, ht, ho⟩ := for_loop_restores (arith16_body c) s.out_buf (s.len - 1)
        (hbody DetStage.arith16) { s with
          stage_cur := 0, stage_max := 4 * ((s.len : Int) - 1) * (ARITH_MAX : Int)
          orig_hit_cnt := s.new_hit_cnt } rfl
      simp only [ht, Ctl.bind]
      exact ⟨_, rfl, ho⟩
  · unfold arith32_stage
    split_ifs
    · exact ⟨_, rfl, rfl⟩
    · obtain ⟨t, ht, ho⟩ := for_loop_restores (arith32_body c) s.out_buf (s.len - 3)
        (hbody DetStage.arith32) { s with
          stage_cur := 0, stage_max := 4 * ((s.len : Int) - 3) * (ARITH_MAX : Int)
          orig_hit_cnt := s.new_hit_cnt } rfl
      simp only [ht, Ctl.bind]
      exact ⟨_, rfl, ho⟩
  · obtain ⟨t, ht, ho⟩ := for_loop_restores (interest8_body c) s.out_buf s.len
      (hbody DetStage.interest8) { s with
        stage_cur := 0, stage_max := (s.len : Int) * (c.T.interesting_8.length : Int)
        orig_hit_cnt := s.new_hit_cnt } rfl
    simp only [interest8_stage, ht, Ctl.bind]
    exact ⟨_, rfl, ho⟩
  · unfold interest16_stage
    split_ifs
    · exact ⟨_, rfl, rfl⟩
    · obtain ⟨t, ht, ho⟩ := for_loop_restores (interest16_body c) s.out_buf (s.len - 1)
        (hbody DetStage.interest16) { s with
          stage_cur := 0
          stage_max := 2 * ((s.len : Int) - 1) * (c.T.interesting_16.length : Int)
          orig_hit_cnt := s.new_hit_cnt } rfl
      simp only [ht, Ctl.bind]
      exact ⟨_, rfl, ho⟩
  · unfold interest32_stage
    split_ifs
    · exact ⟨_, rfl, rfl⟩
    · obtain ⟨t, ht, ho⟩ := for_loop_restores (interest32_body c) s.out_buf (s.len - 3)
        (hbody DetStage.interest32) { s with
          stage_cur := 0
          stage_max := 2 * ((s.len : Int) - 3) * (c.T.interesting_32.length : Int)
          orig_hit_cnt := s.new_hit_cnt } rfl
      simp only [ht, Ctl.bind]
      exact ⟨_, rfl, ho⟩

/-- C7: buffer reversibility. For a seed of bytes `B0` of length `L >= 1` in
`out_buf`, whatever the effector map and the other variables are, and for a
harness that never asks to abandon, each of the twelve stages FLIP1 ... INTEREST32
runs to its end and leaves `out_buf = B0`; and each round of its outer loop,
started in any state with `out_buf = B0`, ends with `out_buf = B0`. -/
theorem buffer_reversibility (k : DetStage) (c : Ctx) (s : FState)
    (hB : Bytes s.out_buf) (hlen : s.out_buf.length = s.len) (hL : 1 ≤ s.len)
    (hna : ∀ n buf, (c.harness n buf).abandon = false) :
    (∃ t, k.run c s = Ctl.next t ∧ t.out_buf = s.out_buf) ∧
    (∀ i, i < k.rounds s.len → ∀ s1 : FState, s1.out_buf = s.out_buf →
      ∃ t, k.body c i s1 = Ctl.next t ∧ t.out_buf = s.out_buf) := by
  have _ := hL
  refine ⟨det_stage_restores k c hna s hB hlen, ?_⟩
  intro i hi s1 hs1
  rw [← hlen] at hi
  exact det_body_restores k c hna s.out_buf hB i hi s1 hs1

/-- Buffer reversibility applied to `arith16` on the seed `10 ff`. -/
theorem buffer_reversibility_witness :
    (∃ t, DetStage.arith16.run (quiet_ctx [] []) (init_state [0x10, 0xff]) = Ctl.next t ∧
      t.out_buf = (init_state [0x10, 0xff]).out_buf) ∧
    (∀ i, i < DetStage.arith16.rounds (init_state [0x10, 0xff]).len →
      ∀ s1 : FState, s1.out_buf = (init_state [0x10, 0xff]).out_buf →
      ∃ t, DetStage.arith16.body (quiet_ctx [] []) i s1 = Ctl.next t ∧
        t.out_buf = (init_state [0x10, 0xff]).out_buf) :=
  buffer_reversibility DetStage.arith16 (quiet_ctx [] []) (init_state [0x10, 0xff])
    (by simp [Bytes, init_state]) rfl (by simp [init_state]) (fun _ _ => rfl)

/-! ## The overwrite stages of the dictionaries -/

/-- The write of a token, when the harness does not ask to abandon. -/
theorem extras_write_spec (c : Ctx) (hna : ∀ n buf, (c.harness n buf).abandon = false)
    (i : Nat) (tok : List Nat) (s : FState) :
    ∃ t, extras_write c i tok s = Ctl.next t ∧ t.in_buf = s.in_buf ∧ t.len = s.len ∧
      t.out_buf = write_at s.out_buf i tok ∧ t.last_len = tok.length := by
  simp only [extras_write, submit_next c _ hna, Ctl.bind]
  exact ⟨_, rfl, rfl, rfl, rfl, rfl⟩

/-- A token that is not skipped fits between offset `i` and the end. -/
theorem extras_skip_false (s : FState) (i : Nat) (tok : List Nat)
    (h : extras_skip s i tok = false) : tok.length ≤ s.len - i := by
  unfold extras_skip at h
  simp only [Bool.or_eq_false_iff, decide_eq_false_iff_not] at h
  omega

/-- A round of the inner loop of `ext_UO`. -/
theorem ext_UO_inner_spec (c : Ctx) (hna : ∀ n buf, (c.harness n buf).abandon = false)
    (i : Nat) (tok : List Nat) (s : FState) :
    ∃ t, ext_UO_inner c i tok s = Ctl.next t ∧ OverStep i tok s t := by
  unfold ext_UO_inner
  simp only
  by_cases hbig : c.extras.length > MAX_DET_EXTRAS
  · simp only [hbig, decide_True, Bool.true_and, if_true]
    by_cases hc : (decide (UR_val c s c.extras.length ≥ MAX_DET_EXTRAS) ||
        extras_skip (tick s) i tok) = true
    · rw [if_pos hc]
      exact ⟨_, rfl, rfl, rfl, Or.inl ⟨rfl, rfl⟩⟩
    · rw [if_neg hc]
      obtain ⟨t, ht, a, b, d, e⟩ := extras_write_spec c hna i tok (tick s)
      have hsk : extras_skip (tick s) i tok = false := by
        simp only [Bool.or_eq_true, not_or, Bool.not_eq_true] at hc
        exact hc.2
      exact ⟨t, ht, a, b, Or.inr ⟨extras_skip_false (tick s) i tok hsk, d, e⟩⟩
  · simp only [hbig, decide_False, Bool.false_and, Bool.false_or, Bool.false_eq_true, if_false]
    by_cases hc : extras_skip s i tok = true
    · rw [if_pos hc]
      exact ⟨_, rfl, rfl, rfl, Or.inl ⟨rfl, rfl⟩⟩
    · rw [if_neg hc]
      obtain ⟨t, ht, a, b, d, e⟩ := extras_write_spec c hna i tok s
      have hsk : extras_skip s i tok = false := by simpa using hc
      exact ⟨t, ht, a, b, Or.inr ⟨extras_skip_false s i tok hsk, d, e⟩⟩

/-- A round of the inner loop of `ext_AO`. -/
theorem ext_AO_inner_spec (c : Ctx) (hna : ∀ n buf, (c.harness n buf).abandon = false)
    (i : Nat) (tok : List Nat) (s : FState) :
    ∃ t, ext_AO_inner c i tok s = Ctl.next t ∧ OverStep i tok s t := by
  unfold ext_AO_inner
  split_ifs with h1
  · exact ⟨_, rfl, rfl, rfl, Or.inl ⟨rfl, rfl⟩⟩
  · obtain ⟨t, ht, a, b, d, e⟩ := extras_write_spec c hna i tok s
    have hfit := extras_skip_false s i tok (by simpa using h1)
    exact ⟨t, ht, a, b, Or.inr ⟨hfit, d, e⟩⟩

/-- Dropping more of two lists that agree from some point on. -/
theorem drop_eq_of_drop_eq (l1 l2 : List Nat) (a b : Nat) (hab : a ≤ b)
    (h : l1.drop a = l2.drop a) : l1.drop b = l2.drop b := by
  have e : b = a + (b - a) := by omega
  rw [e, ← List.drop_drop, ← List.drop_drop, h]

/-- Over tokens of ascending length the inner loop of an overwrite stage keeps
`OverInv`. -/
theorem over_loop_inv (inner : List Nat → FState → Ctl FState) (B : List Nat) (i : Nat)
    (hi : i < B.length)
    (hinner : ∀ tok s, ∃ t, inner tok s = Ctl.next t ∧ OverStep i tok s t) :
    ∀ (toks : List (List Nat)), SortedByLen toks →
      ∀ s, OverInv B i s → (∀ tok ∈ toks, s.last_len ≤ tok.length) →
        ∃ t, for_each inner toks s = Ctl.next t ∧ OverInv B i t := by
  intro toks
  induction toks with
  | nil => intro _ s hs _; exact ⟨s, rfl, hs⟩
  | cons tok toks ih =>
    intro hsorted s hs hle
    obtain ⟨h1, h2, h3, h4, h5, h6⟩ := hs
    unfold SortedByLen at hsorted
    rw [List.pairwise_cons] at hsorted
    obtain ⟨t, ht, g1, g2, g3⟩ := hinner tok s
    simp only [for_each, ht, Ctl.bind]
    rcases g3 with ⟨g3, g4⟩ | ⟨g3, g4, g5⟩
    · apply ih hsorted.2 t
      · exact ⟨g1.trans h1, g2.trans h2, by rw [g3]; exact h3, by rw [g4]; exact h4,
          by rw [g3]; exact h5, by rw [g3, g4]; exact h6⟩
      · intro tk htk; rw [g4]; exact hle tk (List.mem_cons_of_mem _ htk)
    · have hl0 := hle tok (List.mem_cons_self _ _)
      have hfit : i + tok.length ≤ B.length := by omega
      apply ih hsorted.2 t
      · refine ⟨g1.trans h1, g2.trans h2, ?_, by rw [g5]; exact hfit, ?_, ?_⟩
        · rw [g4]; simp [write_at]; omega
        · rw [g4, ← h5]
          unfold write_at
          rw [List.append_assoc, List.take_append_of_le_length (by simp; omega)]
          simp
        · rw [g4, g5]
          unfold write_at
          have e1 : (List.take i s.out_buf ++ tok).length = i + tok.length := by
            simp; omega
          rw [List.drop_append_of_le_length (by omega), ← e1, List.drop_length, List.nil_append]
          simp only [List.length_append, List.length_take]
          rw [Nat.min_eq_left (by omega)]
          exact drop_eq_of_drop_eq _ _ _ _ (by omega) h6
      · intro tk htk; rw [g5]; exact hsorted.1 tk htk

/-- The restoring `memcpy(out_buf + i, in_buf + i, last_len)` gives back the seed. -/
theorem over_restore (B : List Nat) (i : Nat) (s : FState) (hs : OverInv B i s) :
    write_at s.out_buf i (slice s.in_buf i s.last_len) = B := by
  obtain ⟨h1, h2, h3, h4, h5, h6⟩ := hs
  have e : (slice B i s.last_len).length = s.last_len := by
    simp [slice]; omega
  unfold write_at
  rw [h1, e, h5, h6]
  unfold slice
  rw [List.append_assoc, ← List.drop_drop, List.take_append_drop, List.take_append_drop]

/-- A state with the seed in `out_buf` and `last_len = 0` satisfies `OverInv`. -/
theorem over_inv_start (B : List Nat) (i : Nat) (hi : i < B.length) (s : FState)
    (h1 : s.in_buf = B) (h2 : s.len = B.length) (h3 : s.out_buf = B) (k : Int) :
    OverInv B i { s with last_len := 0, stage_cur_byte := k } := by
  refine ⟨h1, h2, by simp [h3], by simp; omega, by simp [h3], by simp [h3]⟩

/-- Every round of the outer loop of `ext_UO` restores the buffer, when the
dictionary is sorted by length. -/
theorem ext_UO_body_restores (c : Ctx) (hna : ∀ n buf, (c.harness n buf).abandon = false)
    (hsorted : SortedByLen c.extras) (B : List Nat) (i : Nat) (hi : i < B.length)
    (s : FState) (h1 : s.in_buf = B) (h2 : s.len = B.length) (h3 : s.out_buf = B) :
    ∃ t, ext_UO_body c i s = Ctl.next t ∧ t.in_buf = B ∧ t.len = B.length ∧ t.out_buf = B := by
  obtain ⟨t, ht, hinv⟩ := over_loop_inv (ext_UO_inner c i) B i hi
    (ext_UO_inner_spec c hna i) c.extras hsorted _ (over_inv_start B i hi s h1 h2 h3 i)
    (fun _ _ => Nat.zero_le _)
  simp only [ext_UO_body, ht, Ctl.bind]
  exact ⟨_, rfl, hinv.1, hinv.2.1, over_restore B i t hinv⟩

/-- Every round of the outer loop of `ext_AO` restores the buffer, when the
auto tokens used are sorted by length. -/
theorem ext_AO_body_restores (c : Ctx) (hna : ∀ n buf, (c.harness n buf).abandon = false)
    (hsorted : SortedByLen (auto_tokens c)) (B : List Nat) (i : Nat) (hi : i < B.length)
    (s : FState) (h1 : s.in_buf = B) (h2 : s.len = B.length) (h3 : s.out_buf = B) :
    ∃ t, ext_AO_body c i s = Ctl.next t ∧ t.in_buf = B ∧ t.len = B.length ∧ t.out_buf = B := by
  obtain ⟨t, ht, hinv⟩ := over_loop_inv (ext_AO_inner c i) B i hi
    (ext_AO_inner_spec c hna i) (auto_tokens c) hsorted _ (over_inv_start B i hi s h1 h2 h3 i)
    (fun _ _ => Nat.zero_le _)
  simp only [ext_AO_body, ht, Ctl.bind]
  exact ⟨_, rfl, hinv.1, hinv.2.1, over_restore B i t hinv⟩

/-- A counting loop over the offsets of the seed whose rounds each restore
`in_buf`, `len` and `out_buf` runs to its end with the three restored. -/
theorem over_stage_loop (body : Nat → FState → Ctl FState) (B : List Nat)
    (h : ∀ i, i < B.length → ∀ s : FState, s.in_buf = B → s.len = B.length → s.out_buf = B →
      ∃ t, body i s = Ctl.next t ∧ t.in_buf = B ∧ t.len = B.length ∧ t.out_buf = B)
    (s0 : FState) (h1 : s0.in_buf = B) (h2 : s0.len = B.length) (h3 : s0.out_buf = B) :
    ∃ t, for_loop body 0 B.length s0 = Ctl.next t ∧ t.out_buf = B := by
  unfold for_loop
  obtain ⟨t, ht, hP⟩ := for_each_next body
    (fun t : FState => t.in_buf = B ∧ t.len = B.length ∧ t.out_buf = B) (List.range' 0 B.length)
    (fun i hi s hs => by
      rw [List.mem_range'_1] at hi
      exact h i (by omega) s hs.1 hs.2.1 hs.2.2) s0 ⟨h1, h2, h3⟩
  exact ⟨t, ht, hP.2.2⟩

/-- C8: with a dictionary sorted by ascending token length and a harness that
never asks to abandon, EXTRAS_UO runs to its end with `out_buf` equal to the
seed, and each round of its outer loop (one offset `i`) ends with `out_buf`
equal to the seed; likewise EXTRAS_AO over the first
`min(a_extras_cnt, USE_AUTO_EXTRAS)` auto tokens. -/
theorem extras_over_reversibility (c : Ctx) (s : FState)
    (hin : s.in_buf = s.out_buf) (hlen : s.out_buf.length = s.len)
    (hna : ∀ n buf, (c.harness n buf).abandon = false) :
    (SortedByLen c.extras →
      (∃ t, ext_UO_stage c s = Ctl.next t ∧ t.out_buf = s.out_buf) ∧
      (∀ i, i < s.len → ∀ s1 : FState,
        s1.in_buf = s.out_buf → s1.len = s.len → s1.out_buf = s.out_buf →
        ∃ t, ext_UO_body c i s1 = Ctl.next t ∧ t.out_buf = s.out_buf)) ∧
    (SortedByLen (auto_tokens c) →
      (∃ t, ext_AO_stage c s = Ctl.next t ∧ t.out_buf = s.out_buf) ∧
      (∀ i, i < s.len → ∀ s1 : FState,
        s1.in_buf = s.out_buf → s1.len = s.len → s1.out_buf = s.out_buf →
        ∃ t, ext_AO_body c i s1 = Ctl.next t ∧ t.out_buf = s.out_buf)) := by
  constructor
  · intro hsorted
    constructor
    · unfold ext_UO_stage
      split_ifs
      · exact ⟨_, rfl, rfl⟩
      · obtain ⟨t, ht, ho⟩ := over_stage_loop (ext_UO_body c) s.out_buf
          (fun i hi s1 a b d => ext_UO_body_restores c hna hsorted s.out_buf i hi s1 a b d)
          { s with
            stage_cur := 0, stage_max := (c.extras.length : Int) * (s.len : Int)
            orig_hit_cnt := s.new_hit_cnt } hin hlen.symm rfl
        rw [hlen] at ht
        simp only [ht, Ctl.bind]
        exact ⟨_, rfl, ho⟩
    · intro i hi s1 a b d
      obtain ⟨t, ht, _, _, ho⟩ := ext_UO_body_restores c hna hsorted s.out_buf i
        (by omega) s1 a (by omega) d
      exact ⟨t, ht, ho⟩
  · intro hsorted
    constructor
    · unfold ext_AO_stage
      split_ifs
      · exact ⟨_, rfl, rfl⟩
      · obtain ⟨t, ht, ho⟩ := over_stage_loop (ext_AO_body c) s.out_buf
          (fun i hi s1 a b d => ext_AO_body_restores c hna hsorted s.out_buf i hi s1 a b d)
          { s with
            stage_cur := 0
            stage_max := ((min c.a_extras.length USE_AUTO_EXTRAS : Nat) : Int) * (s.len : Int)
            orig_hit_cnt := s.new_hit_cnt } hin hlen.symm rfl
        rw [hlen] at ht
        simp only [ht, Ctl.bind]
        exact ⟨_, rfl, ho⟩
    · intro i hi s1 a b d
      obtain ⟨t, ht, _, _, ho⟩ := ext_AO_body_restores c hna hsorted s.out_buf i
        (by omega) s1 a (by omega) d
      exact ⟨t, ht, ho⟩
/-! ## The auto-dictionary collection of `flip1` -/

/-- The invariant only looks at `a_collect`, `a_len` and `autos`. -/
theorem AutoInv.congr {s t : FState} (h : AutoInv s) (h1 : t.a_collect = s.a_collect)
    (h2 : t.a_len = s.a_len) (h3 : t.autos = s.autos) : AutoInv t := by
  unfold AutoInv
  rw [h1, h2, h3]
  exact h

/-- Appending a byte to the collection keeps the invariant. -/
theorem AutoInv.push {s : FState} (h : AutoInv s) (i : Nat) : AutoInv (a_collect_push i s) := by
  obtain ⟨h1, h2, h3⟩ := h
  unfold a_collect_push
  simp only
  split_ifs with hlt
  · refine ⟨by simp [h1], ?_, h3⟩
    intro k hk hk2
    simp only at hk
    simp only [List.getElem?_set]
    by_cases e : s.a_len = k
    · simp only [e, if_true]
      rw [if_pos (by rw [h1]; exact hk2)]
      exact ⟨_, rfl⟩
    · simp only [e, if_false]
      exact h2 k (by omega) hk2
  · refine ⟨h1, ?_, h3⟩
    intro k hk hk2
    exact h2 k (by omega) hk2

/-- Emitting the collection, when its length is in bounds, keeps the invariant. -/
theorem AutoInv.emit {s : FState} (h : AutoInv s) : AutoInv (a_collect_emit s) := by
  obtain ⟨h1, h2, h3⟩ := h
  unfold a_collect_emit maybe_add_auto
  split_ifs with hb
  · refine ⟨h1, h2, ?_⟩
    intro e he
    simp only [List.mem_append, List.mem_singleton] at he
    rcases he with he | he
    · exact h3 e he
    · subst he
      exact ⟨hb.1, hb.2, fun k hk => h2 k hk (by omega)⟩
  · exact ⟨h1, h2, h3⟩

/-- The auto-dictionary block of `flip1` keeps the invariant. -/
theorem AutoInv.auto_collect {s : FState} (h : AutoInv s) (c : Ctx) (i : Nat) :
    AutoInv (auto_collect c i s) := by
  have hreset : AutoInv { a_collect_emit s with a_len := 0, prev_cksum := s.cksum } := by
    obtain ⟨g1, _, g3⟩ := h.emit
    exact ⟨g1, fun k hk _ => absurd hk (Nat.not_lt_zero k), g3⟩
  have hX : AutoInv
      (if (i : Int) = s.stage_max - 1 ∧ s.cksum = s.prev_cksum then
        a_collect_emit (a_collect_push i s)
      else if s.cksum ≠ s.prev_cksum then
        { a_collect_emit s with a_len := 0, prev_cksum := s.cksum }
      else s) := by
    split_ifs
    · exact (h.push i).emit
    · exact hreset
    · exact h
  unfold FuzzOne.auto_collect
  simp only
  by_cases hc : s.cksum ≠ c.exec_cksum
  · rw [if_pos hc]; exact hX.push i
  · rw [if_neg hc]; exact hX

/-- The harness call of a stage either abandons or goes on, in the state
`common_fuzz_stuff` leaves. -/
theorem submit_cases (c : Ctx) (s : FState) :
    submit c s = Ctl.abandon (common_fuzz_stuff c s s.out_buf s.len).1 ∨
    submit c s = Ctl.next (common_fuzz_stuff c s s.out_buf s.len).1 := by
  unfold submit
  simp only
  split_ifs
  · exact Or.inl rfl
  · exact Or.inr rfl

/-- Every round of `flip1`, however it ends, keeps the invariant. -/
theorem flip1_body_auto_inv (c : Ctx) (i : Nat) (s : FState) (h : AutoInv s) :
    AutoInv (flip1_body c i s).state := by
  unfold flip1_body
  rcases submit_cases c { s with
      stage_cur := i, stage_cur_byte := i >>> 3, out_buf := FLIP_BIT s.out_buf i } with e | e
  · rw [e]
    exact h.congr rfl rfl rfl
  · rw [e]
    simp only [Ctl.bind]
    split_ifs
    · simp only [Ctl.state]
      apply AutoInv.auto_collect
      exact h.congr rfl rfl rfl
    · exact h.congr rfl rfl rfl

/-- The state at the end of a block followed by statements that cannot abandon. -/
theorem bind_next_state {σ : Type} (x : Ctl σ) (g : σ → σ) (P : σ → Prop)
    (hx : P x.state) (hg : ∀ s, P s → P (g s)) :
    P (x.bind (fun s => Ctl.next (g s))).state := by
  cases x with
  | next s => exact hg s hx
  | abandon s => exact hx

/-- C9: auto-dictionary bounds. For every seed, every environment (so every
sequence of coverage hashes and harness answers) and however FLIP1 ends, every
call `maybe_add_auto(a_collect, a_len)` made by FLIP1 has
`MIN_AUTO_EXTRA <= a_len <= MAX_AUTO_EXTRA`, and the `a_len` bytes it passes
have all been written. -/
theorem auto_dict_bounds (c : Ctx) (seed : List Nat) :
    ∀ e ∈ (flip1_stage c (init_state seed)).state.autos,
      MIN_AUTO_EXTRA ≤ e.2 ∧ e.2 ≤ MAX_AUTO_EXTRA ∧
        ∀ k, k < e.2 → ∃ b, e.1[k]? = some (some b) := by
  have h0 : AutoInv (init_state seed) :=
    ⟨by simp [init_state], fun k hk _ => absurd hk (Nat.not_lt_zero k),
      fun e he => by simp [init_state] at he⟩
  have h := bind_next_state
    (for_loop (flip1_body c) 0 ((init_state seed).len <<< 3)
      { init_state seed with
        stage_max := (((init_state seed).len <<< 3 : Nat) : Int)
        orig_hit_cnt := (init_state seed).queued_paths + (init_state seed).unique_crashes
        prev_cksum := c.exec_cksum })
    (fun s => account StageId.FLIP1 s.stage_max { s with stage_cur := s.stage_max })
    AutoInv
    (for_each_state_inv (flip1_body c) AutoInv _
      (fun i _ s hs => flip1_body_auto_inv c i s hs) _ (h0.congr rfl rfl rfl))
    (fun s hs => hs.congr rfl rfl rfl)
  exact h.2.2

/-! ## The length bound of havoc -/

/-- The identity frame. -/
theorem HavocFrame.refl (s : FState) : HavocFrame s s := ⟨rfl, rfl⟩

/-- A drawn token belongs to a dictionary or is empty. -/
theorem getD_tok_len (c : Ctx) (hd : DictOk c) (d : List (List Nat))
    (h : d = c.a_extras ∨ d = c.extras) (k : Nat) : (d.getD k []).length + MAX_FILE < U32 := by
  by_cases hk : k < d.length
  · rw [List.getD_eq_getElem _ _ hk]
    apply hd
    rcases h with h | h <;> subst h
    · exact List.mem_append_right _ (List.getElem_mem hk)
    · exact List.mem_append_left _ (List.getElem_mem hk)
  · rw [List.getD_eq_default _ _ (Nat.le_of_not_lt hk)]
    simp [MAX_FILE, U32]

/-- Cases 11 and 12 keep the working length between 1 and `MAX_FILE`. -/
theorem havoc_case11_inv (c : Ctx) (hc : BlockLenOk c) (s : FState) (h : HavocInv s) :
    HavocInv (havoc_case11 c s) ∧ HavocFrame s (havoc_case11 c s) := by
  unfold havoc_case11
  simp only
  split_ifs with h2
  · exact ⟨h, HavocFrame.refl s⟩
  · have hb := hc s.rnd (s.temp_len - 1) (by omega)
    refine ⟨⟨?_, ?_⟩, rfl, rfl⟩
    · simp only; omega
    · simp only; have := h.2; omega

/-- Case 13 keeps the working length between 1 and `MAX_FILE`. -/
theorem havoc_case13_inv (c : Ctx) (hc : BlockLenOk c) (s : FState) (h : HavocInv s) :
    HavocInv (havoc_case13 c s) ∧ HavocFrame s (havoc_case13 c s) := by
  unfold havoc_case13
  simp only
  split_ifs with h2 h3
  · have hb := hc (tick s).rnd s.temp_len h.1
    refine ⟨⟨?_, ?_⟩, rfl, rfl⟩
    · simp only; have := h.1; omega
    · simp only; omega
  · have hb := hc (tick s).rnd HAVOC_BLK_XL (by simp [HAVOC_BLK_XL])
    refine ⟨⟨?_, ?_⟩, rfl, rfl⟩
    · simp only; have := h.1; omega
    · simp only; omega
  · exact ⟨h, HavocFrame.refl s⟩

/-- The draw of the dictionary test changes neither the working length, nor
`len`, nor the record. -/
theorem use_auto_tick_frame (c : Ctx) (s : FState) :
    (use_auto_tick c s).temp_len = s.temp_len ∧ (use_auto_tick c s).len = s.len ∧
      (use_auto_tick c s).execs = s.execs := by
  unfold use_auto_tick
  split_ifs <;> exact ⟨rfl, rfl, rfl⟩

/-- Case 16 keeps the working length between 1 and `MAX_FILE`. -/
theorem havoc_case16_inv (c : Ctx) (hd : DictOk c) (s : FState) (h : HavocInv s) :
    HavocInv (havoc_case16 c s) ∧ HavocFrame s (havoc_case16 c s) := by
  obtain ⟨u1, u2, u3⟩ := use_auto_tick_frame c (tick s)
  have hDm : (if use_auto c (tick s) then c.a_extras else c.extras) = c.a_extras ∨
      (if use_auto c (tick s) then c.a_extras else c.extras) = c.extras := by
    split_ifs
    · exact Or.inl rfl
    · exact Or.inr rfl
  have htok := getD_tok_len c hd _ hDm (UR_val c (use_auto_tick c (tick s))
    (if use_auto c (tick s) then c.a_extras else c.extras).length)
  unfold havoc_case16
  simp only
  generalize ((if use_auto c (tick s) then c.a_extras else c.extras).getD
    (UR_val c (use_auto_tick c (tick s))
      (if use_auto c (tick s) then c.a_extras else c.extras).length) []) = tok at htok ⊢
  have h1 := h.1
  have h3 := h.2
  by_cases h2 : add32 s.temp_len tok.length ≥ MAX_FILE
  · rw [if_pos h2]
    exact ⟨⟨by show 1 ≤ (use_auto_tick c (tick s)).temp_len; rw [u1]; exact h1,
      by show (use_auto_tick c (tick s)).temp_len ≤ MAX_FILE; rw [u1]; exact h3⟩, u2, u3⟩
  · rw [if_neg h2]
    unfold add32 U32 at h2
    unfold U32 at htok
    refine ⟨⟨?_, ?_⟩, u2, u3⟩
    · show 1 ≤ add32 s.temp_len tok.length
      unfold add32 U32; omega
    · show add32 s.temp_len tok.length ≤ MAX_FILE
      unfold add32 U32; omega

/-- Case 14 changes neither the working length nor the record. -/
theorem havoc_case14_inv (c : Ctx) (s : FState) (h : HavocInv s) :
    HavocInv (havoc_case14 c s) ∧ HavocFrame s (havoc_case14 c s) := by
  have key : (havoc_case14 c s).temp_len = s.temp_len ∧ (havoc_case14 c s).len = s.len ∧
      (havoc_case14 c s).execs = s.execs := by
    unfold havoc_case14
    simp only
    by_cases h1 : s.temp_len < 2
    · rw [if_pos h1]; exact ⟨rfl, rfl, rfl⟩
    · rw [if_neg h1]
      split_ifs <;> exact ⟨rfl, rfl, rfl⟩
  exact ⟨⟨by rw [key.1]; exact h.1, by rw [key.1]; exact h.2⟩, key.2.1, key.2.2⟩

/-- Case 15 changes neither the working length nor the record. -/
theorem havoc_case15_inv (c : Ctx) (s : FState) (h : HavocInv s) :
    HavocInv (havoc_case15 c s) ∧ HavocFrame s (havoc_case15 c s) := by
  obtain ⟨u1, u2, u3⟩ := use_auto_tick_frame c s
  have key : (havoc_case15 c s).temp_len = s.temp_len ∧ (havoc_case15 c s).len = s.len ∧
      (havoc_case15 c s).execs = s.execs := by
    unfold havoc_case15
    simp only
    generalize use_auto_tick c s = s1 at u1 u2 u3 ⊢
    generalize (if use_auto c s then c.a_extras else c.extras) = D
    split_ifs
    · exact ⟨u1, u2, u3⟩
    · exact ⟨u1, u2, u3⟩
  exact ⟨⟨by rw [key.1]; exact h.1, by rw [key.1]; exact h.2⟩, key.2.1, key.2.2⟩

/-- One stacked mutation keeps the working length between 1 and `MAX_FILE` and
leaves `len` and the record of harness calls alone. -/
theorem havoc_op_inv (c : Ctx) (hc : BlockLenOk c) (hd : DictOk c) (s : FState)
    (h : HavocInv s) : HavocInv (havoc_op c s) ∧ HavocFrame s (havoc_op c s) := by
  have ht : HavocInv (tick s) := h
  unfold havoc_op
  simp only
  split
  · exact ⟨h, rfl, rfl⟩
  · exact ⟨h, rfl, rfl⟩
  · unfold havoc_case2; split_ifs <;> exact ⟨h, rfl, rfl⟩
  · unfold havoc_case3; split_ifs <;> exact ⟨h, rfl, rfl⟩
  · exact ⟨h, rfl, rfl⟩
  · exact ⟨h, rfl, rfl⟩
  · unfold havoc_case6; split_ifs <;> exact ⟨h, rfl, rfl⟩
  · unfold havoc_case7; split_ifs <;> exact ⟨h, rfl, rfl⟩
  · unfold havoc_case8; split_ifs <;> exact ⟨h, rfl, rfl⟩
  · unfold havoc_case9; split_ifs <;> exact ⟨h, rfl, rfl⟩
  · exact ⟨h, rfl, rfl⟩
  · exact havoc_case11_inv c hc (tick s) ht
  · exact havoc_case11_inv c hc (tick s) ht
  · exact havoc_case13_inv c hc (tick s) ht
  · exact havoc_case14_inv c (tick s) ht
  · exact havoc_case15_inv c (tick s) ht
  · exact havoc_case16_inv c hd (tick s) ht
  · exact ⟨h, rfl, rfl⟩

/-- The stacked mutations of one round keep the working length between 1 and
`MAX_FILE` and leave `len` and the record of harness calls alone. -/
theorem havoc_stack_inv (c : Ctx) (hc : BlockLenOk c) (hd : DictOk c) (n : Nat) :
    ∀ s, HavocInv s → HavocInv (havoc_stack c n s) ∧ HavocFrame s (havoc_stack c n s) := by
  induction n with
  | zero => intro s h; exact ⟨h, rfl, rfl⟩
  | succ n ih =>
    intro s h
    obtain ⟨h1, f1, f2⟩ := havoc_op_inv c hc hd s h
    obtain ⟨h2, g1, g2⟩ := ih (havoc_op c s) h1
    exact ⟨h2, g1.trans f1, g2.trans f2⟩

/-- The restoration after the harness call sets the working length back to
`len` and leaves `len` and the record alone. -/
theorem havoc_restore_spec (s : FState) :
    (havoc_restore s).temp_len = s.len ∧ (havoc_restore s).len = s.len ∧
      (havoc_restore s).execs = s.execs := by
  unfold havoc_restore
  simp only
  split_ifs <;> exact ⟨rfl, rfl, rfl⟩

/-- One round of the havoc loop, started with `temp_len = len` between 1 and
`MAX_FILE`: however it ends, it has passed a length of at most `MAX_FILE` to
the harness, and if it goes on, `temp_len = len` again. -/
theorem havoc_iter_inv (c : Ctx) (hc : BlockLenOk c) (hd : DictOk c)
    (E0 : List (List Nat × Nat)) (s : FState)
    (h1 : s.temp_len = s.len) (h2 : 1 ≤ s.len) (h3 : s.len ≤ MAX_FILE) (h4 : ExecsOk E0 s) :
    ExecsOk E0 (havoc_iter c s).state ∧
    ∀ t, havoc_iter c s = Ctl.next t → t.temp_len = t.len ∧ t.len = s.len := by
  obtain ⟨hi, hf1, hf2⟩ := havoc_stack_inv c hc hd (1 <<< (1 + UR_val c s HAVOC_STACK_POW2))
    { tick s with stage_cur_val := ((1 <<< (1 + UR_val c s HAVOC_STACK_POW2) : Nat) : Int) }
    ⟨by rw [← h1] at h2; exact h2, by rw [← h1] at h3; exact h3⟩
  obtain ⟨new, hn1, hn2⟩ := h4
  unfold havoc_iter
  simp only
  generalize havoc_stack c (1 <<< (1 + UR_val c s HAVOC_STACK_POW2))
    { tick s with stage_cur_val := ((1 <<< (1 + UR_val c s HAVOC_STACK_POW2) : Nat) : Int) }
    = S1 at hi hf1 hf2 ⊢
  have g1 : S1.len = s.len := hf1
  have g2 : S1.execs = s.execs := hf2
  have hex : ExecsOk E0 (common_fuzz_stuff c S1 S1.out_buf S1.temp_len).1 := by
    refine ⟨new ++ [(S1.out_buf.take S1.temp_len, S1.temp_len)], ?_, ?_⟩
    · show S1.execs ++ _ = _
      rw [g2, hn1, List.append_assoc]
    · intro e he
      simp only [List.mem_append, List.mem_singleton] at he
      rcases he with he | he
      · exact hn2 e he
      · rw [he]; exact hi.2
  obtain ⟨r1, r2, r3⟩ := havoc_restore_spec (common_fuzz_stuff c S1 S1.out_buf S1.temp_len).1
  have g3 : (common_fuzz_stuff c S1 S1.out_buf S1.temp_len).1.len = s.len := g1
  split_ifs
  · exact ⟨hex, fun t ht => by cases ht⟩
  · refine ⟨?_, ?_⟩
    · obtain ⟨n2, hn3, hn4⟩ := hex
      exact ⟨n2, by simp only [Ctl.state]; rw [r3]; exact hn3, hn4⟩
    · intro t ht
      cases ht
      exact ⟨by rw [r1, r2], by rw [r2]; exact g3⟩

/-- The havoc loop, for any number of rounds: every length it passes to the
harness is at most `MAX_FILE`. -/
theorem havoc_loop_inv (c : Ctx) (hc : BlockLenOk c) (hd : DictOk c)
    (E0 : List (List Nat × Nat)) (fuel : Nat) :
    ∀ s : FState, s.temp_len = s.len → 1 ≤ s.len → s.len ≤ MAX_FILE → ExecsOk E0 s →
      ExecsOk E0 (havoc_loop c fuel s).state := by
  induction fuel with
  | zero => intro s _ _ _ h4; exact h4
  | succ n ih =>
    intro s h1 h2 h3 h4
    unfold havoc_loop
    split_ifs
    · obtain ⟨ha, hb⟩ := havoc_iter_inv c hc hd E0 s h1 h2 h3 h4
      cases hit : havoc_iter c s with
      | next t =>
        rw [hit] at ha
        obtain ⟨b1, b2⟩ := hb t hit
        simp only [Ctl.bind]
        exact ih _ b1 (by show 1 ≤ t.len; omega) (by show t.len ≤ MAX_FILE; omega) ha
      | abandon t =>
        rw [hit] at ha
        exact ha
    · exact h4

/-- C10: havoc length bound. For a seed length between 1 and `MAX_FILE`, a
`choose_block_len` that returns values in `[1, min(limit, HAVOC_BLK_XL)]`,
every sequence of random draws and every dictionary (of tokens whose length
leaves room for `MAX_FILE` in a `u32`), every call of the harness made by the
havoc stage passes a length `temp_len <= MAX_FILE`, for any number of rounds. -/
theorem havoc_length_bound (c : Ctx) (fuel : Nat) (s : FState)
    (hL1 : 1 ≤ s.len) (hL2 : s.len ≤ MAX_FILE) (hc : BlockLenOk c) (hd : DictOk c) :
    ∃ new, (havoc_stage c fuel s).state.execs = s.execs ++ new ∧
      ∀ e ∈ new, e.2 ≤ MAX_FILE := by
  unfold havoc_stage
  simp only
  apply bind_next_state _ _ (ExecsOk s.execs)
  · apply havoc_loop_inv c hc hd
    · rfl
    · split_ifs <;> exact hL1
    · split_ifs <;> exact hL2
    · refine ⟨[], ?_, fun e he => by cases he⟩
      split_ifs <;> simp
  · intro t ht
    exact ht

/-- The havoc length bound applied to the seed `01 02 03`, three rounds, a
`choose_block_len` that always returns 1 and two small dictionaries. -/
theorem havoc_length_bound_witness :
    ∃ new, (havoc_stage (quiet_ctx [[1], [2, 3]] [[3, 4, 5]]) 3
        (init_state [1, 2, 3])).state.execs = (init_state [1, 2, 3]).execs ++ new ∧
      ∀ e ∈ new, e.2 ≤ MAX_FILE :=
  havoc_length_bound (quiet_ctx [[1], [2, 3]] [[3, 4, 5]]) 3 (init_state [1, 2, 3])
    (by simp [init_state]) (by simp [init_state, MAX_FILE])
    (by
      intro k limit h
      simp only [quiet_ctx, HAVOC_BLK_XL]
      omega)
    (by
      intro tok h
      simp only [quiet_ctx, List.mem_append, List.mem_cons, List.mem_singleton,
        List.not_mem_nil, or_false] at h
      rcases h with (h | h) | h <;> subst h <;> simp [MAX_FILE, U32])

/-! ## The submissions of the bit-flip stages -/

/-- The xor of two numbers split into a low byte and the rest. -/
theorem xor_add_mul (a0 a1 b0 b1 : Nat) (ha : a0 < 256) (hb : b0 < 256) :
    (a0 + 256 * a1) ^^^ (b0 + 256 * b1) = (a0 ^^^ b0) + 256 * (a1 ^^^ b1) := by
  have hx : a0 ^^^ b0 < 2 ^ 8 := Nat.xor_lt_two_pow (by omega) (by omega)
  apply Nat.eq_of_testBit_eq
  intro j
  have e1 : a0 + 256 * a1 = 2 ^ 8 * a1 + a0 := by omega
  have e2 : b0 + 256 * b1 = 2 ^ 8 * b1 + b0 := by omega
  have e3 : (a0 ^^^ b0) + 256 * (a1 ^^^ b1) = 2 ^ 8 * (a1 ^^^ b1) + (a0 ^^^ b0) := by omega
  rw [e1, e2, e3, Nat.testBit_xor, Nat.testBit_mul_pow_two_add _ (by omega : a0 < 2 ^ 8),
    Nat.testBit_mul_pow_two_add _ (by omega : b0 < 2 ^ 8), Nat.testBit_mul_pow_two_add _ hx]
  by_cases h : j < 8 <;> simp [h]

/-- A store below the bytes loaded does not change the value loaded. -/
theorem rdLE_set_lt (B : List Nat) (w : Nat) : ∀ (i j v : Nat), j < i →
    rdLE (B.set j v) i w = rdLE B i w := by
  induction w with
  | zero => intro i j v _; rfl
  | succ w ih =>
    intro i j v hj
    simp only [rdLE]
    rw [ih (i + 1) j v (by omega), getD_set]
    have : ¬ (j = i ∧ j < B.length) := by omega
    simp [this]

/-- The little-endian value of `w` bytes is below `256 ^ w`. -/
theorem rdLE_lt (B : List Nat) (hB : Bytes B) (w : Nat) : ∀ i, rdLE B i w < 256 ^ w := by
  induction w with
  | zero => intro i; simp [rdLE]
  | succ w ih =>
    intro i
    have h0 := hB.getD_lt i
    have h1 := ih (i + 1)
    simp only [rdLE]
    rw [pow_succ]
    omega

/-- A store of a byte keeps the buffer a buffer of bytes. -/
theorem Bytes.set {B : List Nat} (hB : Bytes B) (i v : Nat) (hv : v < 256) :
    Bytes (B.set i v) := by
  intro b hb
  rcases List.mem_or_eq_of_mem_set hb with h | h
  · exact hB b h
  · rw [h]; exact hv

/-- Storing the value loaded xor-ed with `y` xors the bytes of `y` into the buffer. -/
theorem wrLE_rdLE_xor (w : Nat) : ∀ (B : List Nat) (i y : Nat), Bytes B →
    wrLE B i w (rdLE B i w ^^^ y) = xorAt B i w y := by
  induction w with
  | zero => intro B i y _; rfl
  | succ w ih =>
    intro B i y hB
    have h0 := hB.getD_lt i
    have hy : y = y % 256 + 256 * (y / 256) := by omega
    have hx : B.getD i 0 ^^^ (y % 256) < 2 ^ 8 :=
      Nat.xor_lt_two_pow (by omega) (by omega)
    have e : rdLE B i (w + 1) ^^^ y
        = (B.getD i 0 ^^^ (y % 256)) + 256 * (rdLE B (i + 1) w ^^^ (y / 256)) := by
      conv_lhs => rw [hy]
      simp only [rdLE]
      exact xor_add_mul _ _ _ _ h0 (by omega)
    have e1 : (rdLE B i (w + 1) ^^^ y) % 256 = B.getD i 0 ^^^ (y % 256) := by
      rw [e]; omega
    have e2 : (rdLE B i (w + 1) ^^^ y) / 256 = rdLE B (i + 1) w ^^^ (y / 256) := by
      rw [e]; omega
    simp only [wrLE, xorAt]
    rw [e1, e2, ← rdLE_set_lt B w (i + 1) i (B.getD i 0 ^^^ (y % 256)) (by omega)]
    exact ih _ _ _ (hB.set i _ (by omega))

/-- `FLIP_BIT` at bit `u` of byte `j` xors the mask `128 >> u` into that byte. -/
theorem FLIP_BIT_byte (B : List Nat) (j u : Nat) (hu : u < 8) :
    FLIP_BIT B (8 * j + u) = B.set j (B.getD j 0 ^^^ (128 >>> u)) := by
  unfold FLIP_BIT
  have e1 : (8 * j + u) >>> 3 = j := by
    rw [Nat.shiftRight_eq_div_pow]; omega
  have e2 : (8 * j + u) &&& 7 = u := by
    rw [show (7 : Nat) = 2 ^ 3 - 1 from rfl, Nat.and_pow_two_sub_one_eq_mod]; omega
  rw [e1, e2]

/-- Two stores at one place: the second xor acts on the result of the first. -/
theorem set_xor_set (B : List Nat) (j a b : Nat) :
    (B.set j (B.getD j 0 ^^^ a)).set j ((B.set j (B.getD j 0 ^^^ a)).getD j 0 ^^^ b)
      = B.set j (B.getD j 0 ^^^ (a ^^^ b)) := by
  by_cases h : j < B.length
  · rw [List.set_set, getD_set]
    simp [h, Nat.xor_assoc]
  · have e1 : B.set j (B.getD j 0 ^^^ a) = B := List.set_eq_of_length_le (by omega)
    rw [e1, List.set_eq_of_length_le (by omega), List.set_eq_of_length_le (by omega)]

set_option maxRecDepth 1000000 in
/-- The bytes that `could_be_bitflip` accepts are the masks of one, two or four
neighbouring bits of a byte, in the bit numbering of `FLIP_BIT`, and `0xff`. -/
theorem byte_patterns : ∀ p, p < 256 → p ≠ 0 → could_be_bitflip p = true →
    (∃ u, u < 8 ∧ p = 128 >>> u) ∨
    (∃ u, u < 7 ∧ p = (128 >>> u) ^^^ (128 >>> (u + 1))) ∨
    (∃ u, u < 5 ∧ p = (128 >>> u) ^^^ ((128 >>> (u + 1)) ^^^
      ((128 >>> (u + 2)) ^^^ (128 >>> (u + 3))))) ∨
    p = 255 := by
  decide

set_option maxRecDepth 1000000 in
/-- Shifting a byte pattern by whole bytes does not change the answer of
`could_be_bitflip`. -/
theorem could_be_bitflip_shift : ∀ k, k < 4 → ∀ p, p < 256 →
    could_be_bitflip (p * 256 ^ k) = could_be_bitflip p := by
  decide

/-- Xor-ing the bytes of 0 changes nothing. -/
theorem xorAt_zero (w : Nat) : ∀ (B : List Nat) (i : Nat), xorAt B i w 0 = B := by
  induction w with
  | zero => intro B i; rfl
  | succ w ih =>
    intro B i
    simp only [xorAt, Nat.zero_mod, Nat.xor_zero, Nat.zero_div]
    rw [set_getD_self, ih]

/-- Xor-ing a pattern that sits in byte `k` of the window changes byte `i + k`. -/
theorem xorAt_byte (p : Nat) (hp : p < 256) (w : Nat) : ∀ (B : List Nat) (i k : Nat), k < w →
    xorAt B i w (p * 256 ^ k) = B.set (i + k) (B.getD (i + k) 0 ^^^ p) := by
  induction w with
  | zero => intro B i k hk; omega
  | succ w ih =>
    intro B i k hk
    cases k with
    | zero =>
      have e1 : p * 256 ^ 0 % 256 = p := by simp; omega
      have e2 : p * 256 ^ 0 / 256 = 0 := by simp; omega
      simp only [xorAt]
      rw [e1, e2, xorAt_zero]
      rfl
    | succ k =>
      have e1 : p * 256 ^ (k + 1) % 256 = 0 := by rw [pow_succ, ← Nat.mul_assoc]; simp
      have e2 : p * 256 ^ (k + 1) / 256 = p * 256 ^ k := by
        rw [pow_succ, ← Nat.mul_assoc]; simp
      simp only [xorAt]
      rw [e1, e2, Nat.xor_zero, set_getD_self, ih B (i + 1) k (by omega)]
      rw [show i + 1 + k = i + (k + 1) from by omega]

/-- The store `*(u16 *)(buf + j) ^= 0xFFFF` as two byte stores. -/
theorem wr16_xor_ones (B : List Nat) (hB : Bytes B) (j : Nat) :
    wr16 B j (rd16 B j ^^^ 0xFFFF)
      = (B.set j (B.getD j 0 ^^^ 255)).set (j + 1) (B.getD (j + 1) 0 ^^^ 255) := by
  have h0 := hB.getD_lt j
  have h1 := hB.getD_lt (j + 1)
  have hx0 : B.getD j 0 ^^^ 255 < 2 ^ 8 := Nat.xor_lt_two_pow (by omega) (by norm_num)
  have hx1 : B.getD (j + 1) 0 ^^^ 255 < 2 ^ 8 := Nat.xor_lt_two_pow (by omega) (by norm_num)
  have e : rd16 B j ^^^ 0xFFFF
      = (B.getD j 0 ^^^ 255) + 256 * (B.getD (j + 1) 0 ^^^ 255) := by
    unfold rd16
    rw [show (0xFFFF : Nat) = 255 + 256 * 255 from rfl]
    exact xor_add_mul _ _ _ _ h0 (by norm_num)
  unfold wr16
  rw [e]
  congr 2 <;> omega

/-- Xor-ing the pattern `0xffff` at byte `k` of the window is the store of `flip16`
at offset `i + k`. -/
theorem xorAt_word (w : Nat) : ∀ (B : List Nat) (i k : Nat), Bytes B → k + 2 ≤ w →
    xorAt B i w (0xffff * 256 ^ k) = wr16 B (i + k) (rd16 B (i + k) ^^^ 0xFFFF) := by
  induction w with
  | zero => intro B i k _ hk; omega
  | succ w ih =>
    intro B i k hB hk
    cases k with
    | zero =>
      cases w with
      | zero => omega
      | succ w =>
        simp only [xorAt]
        rw [wr16_xor_ones B hB]
        norm_num
        rw [xorAt_zero]
    | succ k =>
      have e1 : 0xffff * 256 ^ (k + 1) % 256 = 0 := by rw [pow_succ, ← Nat.mul_assoc]; simp
      have e2 : 0xffff * 256 ^ (k + 1) / 256 = 0xffff * 256 ^ k := by
        rw [pow_succ, ← Nat.mul_assoc]; simp
      simp only [xorAt]
      rw [e1, e2, Nat.xor_zero, set_getD_self, ih B (i + 1) k hB (by omega)]
      rw [show i + 1 + k = i + (k + 1) from by omega]

/-- The four-byte little-endian store is `wr32`. -/
theorem wrLE_four (B : List Nat) (i v : Nat) : wrLE B i 4 v = wr32 B i v := by
  simp only [wrLE, wr32, Nat.div_div_eq_div_mul]

/-- The four-byte little-endian load is `rd32`. -/
theorem rdLE_four (B : List Nat) (i : Nat) : rdLE B i 4 = rd32 B i := by
  simp only [rdLE, rd32, Nat.add_assoc, Nat.reduceAdd]
  omega

/-- Xor-ing twice with the same value gives the value back. -/
theorem xor_xor_self (a b : Nat) : a ^^^ (a ^^^ b) = b := by
  rw [← Nat.xor_assoc, Nat.xor_self, Nat.zero_xor]

/-- A counting loop whose rounds never abandon, keep an invariant and each
record known harness calls: the calls recorded at its end. -/
theorem for_loop_log (body : Nat → FState → Ctl FState) (P : FState → Prop)
    (f : Nat → List (List Nat × Nat)) (n : Nat)
    (h : ∀ i, i < n → ∀ s, P s → ∃ t, body i s = Ctl.next t ∧ P t ∧ t.execs = s.execs ++ f i)
    (s0 : FState) (h0 : P s0) :
    ∃ t, for_loop body 0 n s0 = Ctl.next t ∧ P t ∧
      ∀ e, e ∈ t.execs ↔ (e ∈ s0.execs ∨ ∃ i, i < n ∧ e ∈ f i) := by
  obtain ⟨t, ht, hP, hl⟩ := for_each_log body P (fun s => s.execs) f (List.range' 0 n)
    (fun i hi s hs => by
      rw [List.mem_range'_1] at hi
      exact h i (by omega) s hs) s0 h0
  refine ⟨t, ht, hP, ?_⟩
  intro e
  rw [hl]
  simp only [List.mem_append, List.mem_flatten, List.mem_map, List.mem_range'_1]
  constructor
  · rintro (h1 | ⟨l, ⟨i, hi, rfl⟩, he⟩)
    · exact Or.inl h1
    · exact Or.inr ⟨i, by omega, he⟩
  · rintro (h1 | ⟨i, hi, he⟩)
    · exact Or.inl h1
    · exact Or.inr ⟨f i, ⟨i, by omega, rfl⟩, he⟩

/-- The auto-dictionary block touches neither `len` nor the record of calls. -/
theorem auto_collect_frame (c : Ctx) (i : Nat) (s : FState) :
    (auto_collect c i s).len = s.len ∧ (auto_collect c i s).execs = s.execs := by
  unfold auto_collect a_collect_emit a_collect_push maybe_add_auto
  simp only
  split_ifs <;> exact ⟨rfl, rfl⟩

/-- The effector block of `flip8` touches neither `len` nor the record of calls. -/
theorem eff_mark_frame (c : Ctx) (i : Nat) (s : FState) :
    (eff_mark c i s).len = s.len ∧ (eff_mark c i s).execs = s.execs := by
  unfold eff_mark
  simp only
  split_ifs <;> exact ⟨rfl, rfl⟩

/-- The first `len` bytes of a buffer of `len` bytes. -/
theorem take_full (l : List Nat) (n : Nat) (h : l.length = n) : l.take n = l :=
  List.take_of_length_le (by omega)

/-- The harness call recorded by a round of `flip1`. -/
theorem flip1_body_log (c : Ctx) (hna : ∀ n buf, (c.harness n buf).abandon = false)
    (B : List Nat) (i : Nat) (s : FState) (hs : s.out_buf = B ∧ s.len = B.length) :
    ∃ t, flip1_body c i s = Ctl.next t ∧ (t.out_buf = B ∧ t.len = B.length) ∧
      t.execs = s.execs ++ [(FLIP_BIT B i, B.length)] := by
  obtain ⟨h1, h2⟩ := hs
  have hk : (FLIP_BIT B i).take B.length = FLIP_BIT B i :=
    take_full _ _ (FLIP_BIT_length B i)
  simp only [flip1_body, submit_next c _ hna, Ctl.bind]
  split_ifs
  · refine ⟨_, rfl, ⟨?_, ?_⟩, ?_⟩
    · simp [auto_collect_out_buf, common_fuzz_stuff, FLIP_BIT_twice, h1]
    · rw [(auto_collect_frame c i _).1]; exact h2
    · rw [(auto_collect_frame c i _).2]
      simp only [common_fuzz_stuff, h1, h2, hk]
  · refine ⟨_, rfl, ⟨?_, h2⟩, ?_⟩
    · simp [common_fuzz_stuff, FLIP_BIT_twice, h1]
    · simp only [common_fuzz_stuff, h1, h2, hk]

/-- The harness call recorded by a round of `flip2`. -/
theorem flip2_body_log (c : Ctx) (hna : ∀ n buf, (c.harness n buf).abandon = false)
    (B : List Nat) (i : Nat) (s : FState) (hs : s.out_buf = B ∧ s.len = B.length) :
    ∃ t, flip2_body c i s = Ctl.next t ∧ (t.out_buf = B ∧ t.len = B.length) ∧
      t.execs = s.execs ++ [(FLIP_BIT (FLIP_BIT B i) (i + 1), B.length)] := by
  obtain ⟨h1, h2⟩ := hs
  have hk : (FLIP_BIT (FLIP_BIT B i) (i + 1)).take B.length = FLIP_BIT (FLIP_BIT B i) (i + 1) :=
    take_full _ _ (by simp [FLIP_BIT_length])
  simp only [flip2_body, submit_next c _ hna, Ctl.bind]
  refine ⟨_, rfl, ⟨?_, h2⟩, ?_⟩
  · simp [common_fuzz_stuff, FLIP_BIT_twice2, h1]
  · simp only [common_fuzz_stuff, h1, h2, hk]

/-- The harness call recorded by a round of `flip4`. -/
theorem flip4_body_log (c : Ctx) (hna : ∀ n buf, (c.harness n buf).abandon = false)
    (B : List Nat) (i : Nat) (s : FState) (hs : s.out_buf = B ∧ s.len = B.length) :
    ∃ t, flip4_body c i s = Ctl.next t ∧ (t.out_buf = B ∧ t.len = B.length) ∧
      t.execs = s.execs ++
        [(FLIP_BIT (FLIP_BIT (FLIP_BIT (FLIP_BIT B i) (i + 1)) (i + 2)) (i + 3), B.length)] := by
  obtain ⟨h1, h2⟩ := hs
  have hk : (FLIP_BIT (FLIP_BIT (FLIP_BIT (FLIP_BIT B i) (i + 1)) (i + 2)) (i + 3)).take B.length
      = FLIP_BIT (FLIP_BIT (FLIP_BIT (FLIP_BIT B i) (i + 1)) (i + 2)) (i + 3) :=
    take_full _ _ (by simp [FLIP_BIT_length])
  simp only [flip4_body, submit_next c _ hna, Ctl.bind]
  refine ⟨_, rfl, ⟨?_, h2⟩, ?_⟩
  · simp [common_fuzz_stuff, FLIP_BIT_twice4, h1]
  · simp only [common_fuzz_stuff, h1, h2, hk]

/-- The harness call recorded by a round of `flip8`. -/
theorem flip8_body_log (c : Ctx) (hna : ∀ n buf, (c.harness n buf).abandon = false)
    (B : List Nat) (i : Nat) (s : FState) (hs : s.out_buf = B ∧ s.len = B.length) :
    ∃ t, flip8_body c i s = Ctl.next t ∧ (t.out_buf = B ∧ t.len = B.length) ∧
      t.execs = s.execs ++ [(B.set i (B.getD i 0 ^^^ 0xFF), B.length)] := by
  obtain ⟨h1, h2⟩ := hs
  have hk : (B.set i (B.getD i 0 ^^^ 0xFF)).take B.length = B.set i (B.getD i 0 ^^^ 0xFF) :=
    take_full _ _ (by simp)
  simp only [flip8_body, submit_next c _ hna, Ctl.bind]
  refine ⟨_, rfl, ⟨?_, ?_⟩, ?_⟩
  · simp only [eff_mark_out_buf, common_fuzz_stuff, h1]
    exact flip8_twice B i
  · show (eff_mark c i _).len = B.length
    rw [(eff_mark_frame c i _).1]; exact h2
  · show (eff_mark c i _).execs = _
    rw [(eff_mark_frame c i _).2]
    simp only [common_fuzz_stuff, h1, h2, hk]

/-- The harness call recorded by a round of `flip16`, if any. -/
theorem flip16_body_log (c : Ctx) (hna : ∀ n buf, (c.harness n buf).abandon = false)
    (B : List Nat) (hB : Bytes B) (E : List Nat) (i : Nat) (hi : i + 1 < B.length) (s : FState)
    (hs : s.out_buf = B ∧ s.len = B.length ∧ s.eff_map = E) :
    ∃ t, flip16_body c i s = Ctl.next t ∧ (t.out_buf = B ∧ t.len = B.length ∧ t.eff_map = E) ∧
      t.execs = s.execs ++
        (if E.getD (EFF_APOS i) 0 = 0 ∧ E.getD (EFF_APOS (i + 1)) 0 = 0 then []
         else [(wr16 B i (rd16 B i ^^^ 0xFFFF), B.length)]) := by
  obtain ⟨h1, h2, h3⟩ := hs
  have hk : (wr16 B i (rd16 B i ^^^ 0xFFFF)).take B.length = wr16 B i (rd16 B i ^^^ 0xFFFF) :=
    take_full _ _ (by simp [wr16])
  have hsk : eff_skip2 s i = true ↔
      (E.getD (EFF_APOS i) 0 = 0 ∧ E.getD (EFF_APOS (i + 1)) 0 = 0) := by
    simp [eff_skip2, h3]
  unfold flip16_body
  by_cases hc : eff_skip2 s i = true
  · rw [if_pos hc, if_pos (hsk.1 hc)]
    exact ⟨_, rfl, ⟨h1, h2, h3⟩, by simp⟩
  · rw [if_neg hc, if_neg (fun h => hc (hsk.2 h))]
    simp only [submit_next c _ hna, Ctl.bind]
    refine ⟨_, rfl, ⟨?_, h2, h3⟩, ?_⟩
    · simp only [common_fuzz_stuff, h1]
      exact flip16_twice B i hB hi
    · simp only [common_fuzz_stuff, h1, h2, hk]

/-- The harness call recorded by a round of `flip32`, if any. -/
theorem flip32_body_log (c : Ctx) (hna : ∀ n buf, (c.harness n buf).abandon = false)
    (B : List Nat) (hB : Bytes B) (E : List Nat) (i : Nat) (hi : i + 3 < B.length) (s : FState)
    (hs : s.out_buf = B ∧ s.len = B.length ∧ s.eff_map = E) :
    ∃ t, flip32_body c i s = Ctl.next t ∧ (t.out_buf = B ∧ t.len = B.length ∧ t.eff_map = E) ∧
      t.execs = s.execs ++
        (if E.getD (EFF_APOS i) 0 = 0 ∧ E.getD (EFF_APOS (i + 1)) 0 = 0 ∧
            E.getD (EFF_APOS (i + 2)) 0 = 0 ∧ E.getD (EFF_APOS (i + 3)) 0 = 0 then []
         else [(wr32 B i (rd32 B i ^^^ 0xFFFFFFFF), B.length)]) := by
  obtain ⟨h1, h2, h3⟩ := hs
  have hk : (wr32 B i (rd32 B i ^^^ 0xFFFFFFFF)).take B.length
      = wr32 B i (rd32 B i ^^^ 0xFFFFFFFF) :=
    take_full _ _ (by simp [wr32])
  have hsk : eff_skip4 s i = true ↔
      (E.getD (EFF_APOS i) 0 = 0 ∧ E.getD (EFF_APOS (i + 1)) 0 = 0 ∧
        E.getD (EFF_APOS (i + 2)) 0 = 0 ∧ E.getD (EFF_APOS (i + 3)) 0 = 0) := by
    simp [eff_skip4, h3, and_assoc]
  unfold flip32_body
  by_cases hc : eff_skip4 s i = true
  · rw [if_pos hc, if_pos (hsk.1 hc)]
    exact ⟨_, rfl, ⟨h1, h2, h3⟩, by simp⟩
  · rw [if_neg hc, if_neg (fun h => hc (hsk.2 h))]
    simp only [submit_next c _ hna, Ctl.bind]
    refine ⟨_, rfl, ⟨?_, h2, h3⟩, ?_⟩
    · simp only [common_fuzz_stuff, h1]
      exact flip32_twice B i hB hi
    · simp only [common_fuzz_stuff, h1, h2, hk]

/-- The harness calls of the stage `flip1`. -/
theorem flip1_stage_log (c : Ctx) (hna : ∀ n buf, (c.harness n buf).abandon = false)
    (B : List Nat) (s : FState) (hs : s.out_buf = B ∧ s.len = B.length) :
    ∃ t, flip1_stage c s = Ctl.next t ∧ (t.out_buf = B ∧ t.len = B.length) ∧
      ∀ e, e ∈ t.execs ↔
        (e ∈ s.execs ∨ ∃ i, i < B.length <<< 3 ∧ e = (FLIP_BIT B i, B.length)) := by
  obtain ⟨t, ht, hP, hl⟩ := for_loop_log (flip1_body c)
    (fun t => t.out_buf = B ∧ t.len = B.length) (fun i => [(FLIP_BIT B i, B.length)])
    (B.length <<< 3) (fun i _ s hs => flip1_body_log c hna B i s hs)
    { s with
      stage_max := ((s.len <<< 3 : Nat) : Int)
      orig_hit_cnt := s.queued_paths + s.unique_crashes
      prev_cksum := c.exec_cksum } hs
  rw [← hs.2] at ht
  simp only [flip1_stage, ht, Ctl.bind]
  refine ⟨_, rfl, hP, ?_⟩
  intro e
  simpa using hl e

/-- The harness calls of the stage `flip2`. -/
theorem flip2_stage_log (c : Ctx) (hna : ∀ n buf, (c.harness n buf).abandon = false)
    (B : List Nat) (s : FState) (hs : s.out_buf = B ∧ s.len = B.length) :
    ∃ t, flip2_stage c s = Ctl.next t ∧ (t.out_buf = B ∧ t.len = B.length) ∧
      ∀ e, e ∈ t.execs ↔
        (e ∈ s.execs ∨ ∃ i, i < (B.length <<< 3) - 1 ∧
          e = (FLIP_BIT (FLIP_BIT B i) (i + 1), B.length)) := by
  obtain ⟨t, ht, hP, hl⟩ := for_loop_log (flip2_body c)
    (fun t => t.out_buf = B ∧ t.len = B.length)
    (fun i => [(FLIP_BIT (FLIP_BIT B i) (i + 1), B.length)])
    ((B.length <<< 3) - 1) (fun i _ s hs => flip2_body_log c hna B i s hs)
    { s with
      stage_max := ((s.len <<< 3 : Nat) : Int) - 1
      orig_hit_cnt := s.new_hit_cnt } hs
  rw [← hs.2] at ht
  simp only [flip2_stage, ht, Ctl.bind]
  refine ⟨_, rfl, hP, ?_⟩
  intro e
  simpa using hl e

/-- The harness calls of the stage `flip4`. -/
theorem flip4_stage_log (c : Ctx) (hna : ∀ n buf, (c.harness n buf).abandon = false)
    (B : List Nat) (s : FState) (hs : s.out_buf = B ∧ s.len = B.length) :
    ∃ t, flip4_stage c s = Ctl.next t ∧ (t.out_buf = B ∧ t.len = B.length) ∧
      ∀ e, e ∈ t.execs ↔
        (e ∈ s.execs ∨ ∃ i, i < (B.length <<< 3) - 3 ∧
          e = (FLIP_BIT (FLIP_BIT (FLIP_BIT (FLIP_BIT B i) (i + 1)) (i + 2)) (i + 3),
            B.length)) := by
  obtain ⟨t, ht, hP, hl⟩ := for_loop_log (flip4_body c)
    (fun t => t.out_buf = B ∧ t.len = B.length)
    (fun i => [(FLIP_BIT (FLIP_BIT (FLIP_BIT (FLIP_BIT B i) (i + 1)) (i + 2)) (i + 3),
      B.length)])
    ((B.length <<< 3) - 3) (fun i _ s hs => flip4_body_log c hna B i s hs)
    { s with
      stage_max := ((s.len <<< 3 : Nat) : Int) - 3
      orig_hit_cnt := s.new_hit_cnt } hs
  rw [← hs.2] at ht
  simp only [flip4_stage, ht, Ctl.bind]
  refine ⟨_, rfl, hP, ?_⟩
  intro e
  simpa using hl e

/-- The set-up of the effector map touches neither `len` nor the record of calls. -/
theorem eff_init_frame (s : FState) :
    (eff_init s).len = s.len ∧ (eff_init s).execs = s.execs := by
  unfold eff_init
  simp only
  split_ifs <;> exact ⟨rfl, rfl⟩

/-- The saturation of the effector map touches neither `len` nor the record of calls. -/
theorem eff_saturate_frame (s : FState) :
    (eff_saturate s).len = s.len ∧ (eff_saturate s).execs = s.execs := by
  unfold eff_saturate
  split_ifs <;> exact ⟨rfl, rfl⟩

/-- The harness calls of the stage `flip8`. -/
theorem flip8_stage_log (c : Ctx) (hna : ∀ n buf, (c.harness n buf).abandon = false)
    (B : List Nat) (s : FState) (hs : s.out_buf = B ∧ s.len = B.length) :
    ∃ t, flip8_stage c s = Ctl.next t ∧ (t.out_buf = B ∧ t.len = B.length) ∧
      ∀ e, e ∈ t.execs ↔
        (e ∈ s.execs ∨ ∃ i, i < B.length ∧
          e = (B.set i (B.getD i 0 ^^^ 0xFF), B.length)) := by
  obtain ⟨t, ht, hP, hl⟩ := for_loop_log (flip8_body c)
    (fun t => t.out_buf = B ∧ t.len = B.length)
    (fun i => [(B.set i (B.getD i 0 ^^^ 0xFF), B.length)])
    B.length (fun i _ s hs => flip8_body_log c hna B i s hs)
    { eff_init s with stage_max := (s.len : Int), orig_hit_cnt := s.new_hit_cnt }
    ⟨(eff_init_out_buf s).trans hs.1, (eff_init_frame s).1.trans hs.2⟩
  rw [← hs.2] at ht
  simp only [flip8_stage, ht, Ctl.bind]
  refine ⟨_, rfl, ⟨?_, ?_⟩, ?_⟩
  · rw [account_out_buf, eff_saturate_out_buf]; exact hP.1
  · show (eff_saturate _).len = B.length
    rw [(eff_saturate_frame _).1]; exact hP.2
  · intro e
    show e ∈ (eff_saturate _).execs ↔ _
    rw [(eff_saturate_frame _).2]
    have := hl e
    simp only [List.mem_singleton, (eff_init_frame s).2] at this
    exact this

/-- The effector test of the 16-bit stages. -/
theorem eff_skip2_iff (s : FState) (i : Nat) :
    eff_skip2 s i = true ↔
      (s.eff_map.getD (EFF_APOS i) 0 = 0 ∧ s.eff_map.getD (EFF_APOS (i + 1)) 0 = 0) := by
  unfold eff_skip2
  simp only [Bool.and_eq_true, beq_iff_eq]

/-- The effector test of the 32-bit stages. -/
theorem eff_skip4_iff (s : FState) (i : Nat) :
    eff_skip4 s i = true ↔
      (s.eff_map.getD (EFF_APOS i) 0 = 0 ∧ s.eff_map.getD (EFF_APOS (i + 1)) 0 = 0 ∧
        s.eff_map.getD (EFF_APOS (i + 2)) 0 = 0 ∧ s.eff_map.getD (EFF_APOS (i + 3)) 0 = 0) := by
  unfold eff_skip4
  simp only [Bool.and_eq_true, beq_iff_eq, and_assoc]

/-- The harness calls of the stage `flip16`. -/
theorem flip16_stage_log (c : Ctx) (hna : ∀ n buf, (c.harness n buf).abandon = false)
    (B : List Nat) (hB : Bytes B) (s : FState) (hs : s.out_buf = B ∧ s.len = B.length) :
    ∃ t, flip16_stage c s = Ctl.next t ∧
      (t.out_buf = B ∧ t.len = B.length ∧ t.eff_map = s.eff_map) ∧
      ∀ e, e ∈ t.execs ↔
        (e ∈ s.execs ∨ ∃ i, i < B.length - 1 ∧ eff_skip2 s i = false ∧
          e = (wr16 B i (rd16 B i ^^^ 0xFFFF), B.length)) := by
  unfold flip16_stage
  by_cases h2 : s.len < 2
  · rw [if_pos h2]
    refine ⟨s, rfl, ⟨hs.1, hs.2, rfl⟩, ?_⟩
    intro e
    constructor
    · exact Or.inl
    · rintro (h | ⟨i, hi, _⟩)
      · exact h
      · rw [hs.2] at h2; omega
  · rw [if_neg h2]
    obtain ⟨t, ht, hP, hl⟩ := for_loop_log (flip16_body c)
      (fun t => t.out_buf = B ∧ t.len = B.length ∧ t.eff_map = s.eff_map)
      (fun i => if s.eff_map.getD (EFF_APOS i) 0 = 0 ∧ s.eff_map.getD (EFF_APOS (i + 1)) 0 = 0
        then [] else [(wr16 B i (rd16 B i ^^^ 0xFFFF), B.length)])
      (B.length - 1)
      (fun i hi s1 hs1 => flip16_body_log c hna B hB s.eff_map i (by omega) s1 hs1)
      { s with
        stage_cur := 0, stage_max := (s.len : Int) - 1, orig_hit_cnt := s.new_hit_cnt }
      ⟨hs.1, hs.2, rfl⟩
    rw [← hs.2] at ht
    simp only [ht, Ctl.bind]
    refine ⟨_, rfl, hP, ?_⟩
    intro e
    show e ∈ t.execs ↔ _
    rw [hl e]
    apply or_congr Iff.rfl
    apply exists_congr
    intro i
    apply and_congr Iff.rfl
    by_cases hc : s.eff_map.getD (EFF_APOS i) 0 = 0 ∧ s.eff_map.getD (EFF_APOS (i + 1)) 0 = 0
    · have hv : eff_skip2 s i = true := (eff_skip2_iff s i).2 hc
      rw [if_pos hc, hv]
      simp
    · have hv : eff_skip2 s i = false := by
        cases hv : eff_skip2 s i with
        | false => rfl
        | true => exact absurd ((eff_skip2_iff s i).1 hv) hc
      rw [if_neg hc, hv]
      simp

/-- The harness calls of the stage `flip32`. -/
theorem flip32_stage_log (c : Ctx) (hna : ∀ n buf, (c.harness n buf).abandon = false)
    (B : List Nat) (hB : Bytes B) (s : FState) (hs : s.out_buf = B ∧ s.len = B.length) :
    ∃ t, flip32_stage c s = Ctl.next t ∧
      (t.out_buf = B ∧ t.len = B.length ∧ t.eff_map = s.eff_map) ∧
      ∀ e, e ∈ t.execs ↔
        (e ∈ s.execs ∨ ∃ i, i < B.length - 3 ∧ eff_skip4 s i = false ∧
          e = (wr32 B i (rd32 B i ^^^ 0xFFFFFFFF), B.length)) := by
  unfold flip32_stage
  by_cases h2 : s.len < 4
  · rw [if_pos h2]
    refine ⟨s, rfl, ⟨hs.1, hs.2, rfl⟩, ?_⟩
    intro e
    constructor
    · exact Or.inl
    · rintro (h | ⟨i, hi, _⟩)
      · exact h
      · rw [hs.2] at h2; omega
  · rw [if_neg h2]
    obtain ⟨t, ht, hP, hl⟩ := for_loop_log (flip32_body c)
      (fun t => t.out_buf = B ∧ t.len = B.length ∧ t.eff_map = s.eff_map)
      (fun i => if s.eff_map.getD (EFF_APOS i) 0 = 0 ∧ s.eff_map.getD (EFF_APOS (i + 1)) 0 = 0 ∧
          s.eff_map.getD (EFF_APOS (i + 2)) 0 = 0 ∧ s.eff_map.getD (EFF_APOS (i + 3)) 0 = 0
        then [] else [(wr32 B i (rd32 B i ^^^ 0xFFFFFFFF), B.length)])
      (B.length - 3)
      (fun i hi s1 hs1 => flip32_body_log c hna B hB s.eff_map i (by omega) s1 hs1)
      { s with
        stage_cur := 0, stage_max := (s.len : Int) - 3, orig_hit_cnt := s.new_hit_cnt }
      ⟨hs.1, hs.2, rfl⟩
    rw [← hs.2] at ht
    simp only [ht, Ctl.bind]
    refine ⟨_, rfl, hP, ?_⟩
    intro e
    show e ∈ t.execs ↔ _
    rw [hl e]
    apply or_congr Iff.rfl
    apply exists_congr
    intro i
    apply and_congr Iff.rfl
    by_cases hc : s.eff_map.getD (EFF_APOS i) 0 = 0 ∧ s.eff_map.getD (EFF_APOS (i + 1)) 0 = 0 ∧
        s.eff_map.getD (EFF_APOS (i + 2)) 0 = 0 ∧ s.eff_map.getD (EFF_APOS (i + 3)) 0 = 0
    · have hv : eff_skip4 s i = true := (eff_skip4_iff s i).2 hc
      rw [if_pos hc, hv]
      simp
    · have hv : eff_skip4 s i = false := by
        cases hv : eff_skip4 s i with
        | false => rfl
        | true => exact absurd ((eff_skip4_iff s i).1 hv) hc
      rw [if_neg hc, hv]
      simp

/-- The harness calls of the six bit-flip stages run in sequence on the seed `B`
with a harness that never asks to abandon: exactly the candidates of `flip1`,
`flip2`, `flip4`, `flip8`, and those of `flip16` and `flip32` at the offsets the
effector map left by `flip8` does not rule out. -/
theorem flip_stages_log (c : Ctx) (hna : ∀ n buf, (c.harness n buf).abandon = false)
    (B : List Nat) (hB : Bytes B) :
    ∃ t4 t6, flip_upto8 c (init_state B) = Ctl.next t4 ∧
      flip_stages c (init_state B) = Ctl.next t6 ∧ t6.out_buf = B ∧
      ∀ e, e ∈ t6.execs ↔
        ((∃ i, i < B.length <<< 3 ∧ e = (FLIP_BIT B i, B.length)) ∨
         (∃ i, i < (B.length <<< 3) - 1 ∧ e = (FLIP_BIT (FLIP_BIT B i) (i + 1), B.length)) ∨
         (∃ i, i < (B.length <<< 3) - 3 ∧
           e = (FLIP_BIT (FLIP_BIT (FLIP_BIT (FLIP_BIT B i) (i + 1)) (i + 2)) (i + 3),
             B.length)) ∨
         (∃ i, i < B.length ∧ e = (B.set i (B.getD i 0 ^^^ 0xFF), B.length)) ∨
         (∃ i, i < B.length - 1 ∧ eff_skip2 t4 i = false ∧
           e = (wr16 B i (rd16 B i ^^^ 0xFFFF), B.length)) ∨
         (∃ i, i < B.length - 3 ∧ eff_skip4 t4 i = false ∧
           e = (wr32 B i (rd32 B i ^^^ 0xFFFFFFFF), B.length))) := by
  obtain ⟨t1, e1, p1, l1⟩ := flip1_stage_log c hna B (init_state B) ⟨rfl, rfl⟩
  obtain ⟨t2, e2, p2, l2⟩ := flip2_stage_log c hna B t1 p1
  obtain ⟨t3, e3, p3, l3⟩ := flip4_stage_log c hna B t2 p2
  obtain ⟨t4, e4, p4, l4⟩ := flip8_stage_log c hna B t3 p3
  obtain ⟨t5, e5, p5, l5⟩ := flip16_stage_log c hna B hB t4 p4
  obtain ⟨t6, e6, p6, l6⟩ := flip32_stage_log c hna B hB t5 ⟨p5.1, p5.2.1⟩
  have hsk : ∀ i, eff_skip4 t5 i = eff_skip4 t4 i := by
    intro i; unfold eff_skip4; rw [p5.2.2]
  refine ⟨t4, t6, ?_, ?_, p6.1, ?_⟩
  · simp only [flip_upto8, e1, e2, e3, e4, Ctl.bind]
  · simp only [flip_stages, e1, e2, e3, e4, e5, e6, Ctl.bind]
  · intro e
    rw [l6 e, l5 e, l4 e, l3 e, l2 e, l1 e]
    simp only [init_state, List.not_mem_nil, false_or, hsk, or_assoc]

/-- C2, amended: redundancy soundness of the bitflip oracle, as far as the
design goes. For a seed of bytes `B`, a window of `w` bytes (`w` one of 1, 2, 4)
at offset `i` holding `old`, a new value `new` different from `old` with
`could_be_bitflip (old ^^^ new) = true`, and a harness that never asks to
abandon: if `old` and `new` differ in one byte of the window only, or
`old ^^^ new` is `0xffff` at a byte offset `k` of the window, or `0xffffffff`,
and in the last two cases the effector map left by `flip8` has a non-zero entry
for one of the bytes concerned, then the bit-flip stages run to their end and
one of their harness calls submits exactly `B` with `new` written at
`[i, i + w)`. -/
theorem bitflip_redundancy_sound (c : Ctx) (B : List Nat) (w i new : Nat)
    (hw : w = 1 ∨ w = 2 ∨ w = 4) (hB : Bytes B) (hi : i + w ≤ B.length)
    (hnew : new < 256 ^ w) (hne : rdLE B i w ≠ new)
    (hcb : could_be_bitflip (rdLE B i w ^^^ new) = true)
    (hna : ∀ n buf, (c.harness n buf).abandon = false)
    (hdesign :
      (∃ k p, p < 256 ∧ rdLE B i w ^^^ new = p * 256 ^ k) ∨
      (∃ k, rdLE B i w ^^^ new = 0xffff * 256 ^ k ∧
        eff_skip2 (flip_upto8 c (init_state B)).state (i + k) = false) ∨
      (rdLE B i w ^^^ new = 0xffffffff ∧
        eff_skip4 (flip_upto8 c (init_state B)).state i = false)) :
    ∃ t, flip_stages c (init_state B) = Ctl.next t ∧ (wrLE B i w new, B.length) ∈ t.execs := by
  obtain ⟨t4, t6, e4, e6, _, hl⟩ := flip_stages_log c hna B hB
  refine ⟨t6, e6, ?_⟩
  rw [e4] at hdesign
  simp only [Ctl.state] at hdesign
  have hold := rdLE_lt B hB w i
  have hpow : (256 : Nat) ^ w = 2 ^ (8 * w) := by
    rw [show (256 : Nat) = 2 ^ 8 from rfl, ← pow_mul]
  have hxlt : rdLE B i w ^^^ new < 256 ^ w := by
    rw [hpow] at hold hnew ⊢
    exact Nat.xor_lt_two_pow hold hnew
  have hx0 : rdLE B i w ^^^ new ≠ 0 := by
    intro h0
    apply hne
    have := xor_xor_self (rdLE B i w) new
    rw [h0, Nat.xor_zero] at this
    exact this
  have hw4 : w ≤ 4 := by omega
  have hnewx : wrLE B i w new = xorAt B i w (rdLE B i w ^^^ new) := by
    rw [← wrLE_rdLE_xor w B i _ hB, xor_xor_self]
  have hL8 : B.length <<< 3 = 8 * B.length := by
    rw [Nat.shiftLeft_eq]; omega
  rw [hl, hnewx, hL8]
  rcases hdesign with ⟨k, p, hp, hx⟩ | ⟨k, hx, hsk⟩ | ⟨hx, hsk⟩
  · -- the change lies in one byte
    have hp0 : p ≠ 0 := by
      intro h; apply hx0; rw [hx, h]; simp
    have hk : k < w := by
      by_contra hk
      have h1 : (256 : Nat) ^ w ≤ 256 ^ k := Nat.pow_le_pow_right (by norm_num) (by omega)
      have h2 : 256 ^ k ≤ p * 256 ^ k := Nat.le_mul_of_pos_left _ (by omega)
      rw [hx] at hxlt
      omega
    have hcp : could_be_bitflip p = true := by
      rw [← could_be_bitflip_shift k (by omega) p hp, ← hx]; exact hcb
    rw [hx, xorAt_byte p hp w B i k hk]
    rcases byte_patterns p hp hp0 hcp with ⟨u, hu, rfl⟩ | ⟨u, hu, rfl⟩ | ⟨u, hu, rfl⟩ | rfl
    · left
      exact ⟨8 * (i + k) + u, by omega, by rw [FLIP_BIT_byte B (i + k) u hu]⟩
    · right; left
      refine ⟨8 * (i + k) + u, by omega, ?_⟩
      rw [FLIP_BIT_byte B (i + k) u (by omega),
        show 8 * (i + k) + u + 1 = 8 * (i + k) + (u + 1) from by omega,
        FLIP_BIT_byte _ (i + k) (u + 1) (by omega), set_xor_set]
    · right; right; left
      refine ⟨8 * (i + k) + u, by omega, ?_⟩
      rw [FLIP_BIT_byte B (i + k) u (by omega),
        show 8 * (i + k) + u + 1 = 8 * (i + k) + (u + 1) from by omega,
        FLIP_BIT_byte _ (i + k) (u + 1) (by omega), set_xor_set,
        show 8 * (i + k) + u + 2 = 8 * (i + k) + (u + 2) from by omega,
        FLIP_BIT_byte _ (i + k) (u + 2) (by omega), set_xor_set,
        show 8 * (i + k) + u + 3 = 8 * (i + k) + (u + 3) from by omega,
        FLIP_BIT_byte _ (i + k) (u + 3) (by omega), set_xor_set]
      simp only [Nat.xor_assoc]
    · right; right; right; left
      exact ⟨i + k, by omega, rfl⟩
  · -- a whole word is flipped
    have hk : k + 2 ≤ w := by
      by_contra hk
      have h1 : (256 : Nat) ^ w ≤ 256 ^ (k + 1) := Nat.pow_le_pow_right (by norm_num) (by omega)
      have h2 : 256 ^ (k + 1) ≤ 0xffff * 256 ^ k := by rw [pow_succ]; omega
      rw [hx] at hxlt
      omega
    rw [hx, xorAt_word w B i k hB hk]
    right; right; right; right; left
    exact ⟨i + k, by omega, hsk, rfl⟩
  · -- the whole dword is flipped
    have hw : w = 4 := by
      rcases hw with h | h | h
      · rw [hx, h] at hxlt; norm_num at hxlt
      · rw [hx, h] at hxlt; norm_num at hxlt
      · exact h
    subst hw
    rw [← hnewx]
    have hn : new = rd32 B i ^^^ 0xFFFFFFFF := by
      have := xor_xor_self (rdLE B i 4) new
      rw [hx, rdLE_four] at this
      exact this.symm
    rw [wrLE_four, hn]
    right; right; right; right; right
    exact ⟨i, by omega, hsk, rfl⟩

/-! ## The effector map when no byte changes the coverage -/

/-- With a coverage hash equal to the baseline, outside dumb mode and on a seed
of at least `EFF_MIN_LEN` bytes, the effector block of `flip8` marks nothing. -/
theorem eff_mark_quiet (c : Ctx) (i : Nat) (s : FState) (hd : c.dumb_mode = false)
    (hl : s.len ≥ EFF_MIN_LEN) (hk : s.cksum = c.exec_cksum) : eff_mark c i s = s := by
  unfold eff_mark
  simp only [hd, hl, hk, and_self, if_true, ne_eq, not_true_eq_false, if_false, ite_self]

/-- A round of `flip8` that marks nothing. -/
theorem flip8_body_quiet (c : Ctx) (hna : ∀ n buf, (c.harness n buf).abandon = false)
    (hq : ∀ n buf, (c.harness n buf).cksum = c.exec_cksum) (hd : c.dumb_mode = false)
    (i : Nat) (s : FState) (hl : s.len ≥ EFF_MIN_LEN) :
    ∃ t, flip8_body c i s = Ctl.next t ∧ t.eff_map = s.eff_map ∧ t.eff_cnt = s.eff_cnt ∧
      t.len = s.len := by
  have hm : ∀ (X : FState) (buf : List Nat) (n : Nat), X.len = s.len →
      eff_mark c i (common_fuzz_stuff c X buf n).1 = (common_fuzz_stuff c X buf n).1 :=
    fun X buf n hX =>
      eff_mark_quiet c i _ hd (by simp only [common_fuzz_stuff, hX]; exact hl)
        (by simp only [common_fuzz_stuff, hq])
  rw [flip8_body, submit_next c _ hna]
  simp only [Ctl.bind]
  rw [hm { s with stage_cur := i, stage_cur_byte := i
                  out_buf := s.out_buf.set i (s.out_buf.getD i 0 ^^^ 0xFF) } _ _ rfl]
  exact ⟨_, rfl, by simp only [common_fuzz_stuff], by simp only [common_fuzz_stuff],
    by simp only [common_fuzz_stuff]⟩

/-- The effector map and count set up by `eff_init` depend on `len` and
`eff_cnt` only. -/
theorem eff_init_congr (s t : FState) (h1 : s.len = t.len) (h2 : s.eff_cnt = t.eff_cnt) :
    (eff_init s).eff_map = (eff_init t).eff_map ∧ (eff_init s).eff_cnt = (eff_init t).eff_cnt := by
  unfold eff_init
  simp only [h1, h2]
  split_ifs <;> exact ⟨rfl, rfl⟩

/-- The effector map left by `eff_saturate` depends on `len`, `eff_cnt` and the
map only. -/
theorem eff_saturate_congr (s t : FState) (h1 : s.len = t.len) (h2 : s.eff_cnt = t.eff_cnt)
    (h3 : s.eff_map = t.eff_map) : (eff_saturate s).eff_map = (eff_saturate t).eff_map := by
  unfold eff_saturate
  simp only [h1, h2]
  split_ifs
  · rfl
  · exact h3

/-- The stage `flip8` when no byte changes the coverage: the effector map it
leaves is the initial one, saturated if dense. -/
theorem flip8_stage_quiet (c : Ctx) (hna : ∀ n buf, (c.harness n buf).abandon = false)
    (hq : ∀ n buf, (c.harness n buf).cksum = c.exec_cksum) (hd : c.dumb_mode = false)
    (s : FState) (hl : s.len ≥ EFF_MIN_LEN) :
    ∃ t, flip8_stage c s = Ctl.next t ∧ t.eff_map = (eff_saturate (eff_init s)).eff_map := by
  obtain ⟨t, ht, h1, h2, h3⟩ := for_each_next (flip8_body c)
    (fun t : FState => t.eff_map = (eff_init s).eff_map ∧ t.eff_cnt = (eff_init s).eff_cnt ∧
      t.len = s.len)
    (List.range' 0 s.len)
    (fun i _ u hu => by
      obtain ⟨v, hv, a, b, d⟩ := flip8_body_quiet c hna hq hd i u (by rw [hu.2.2]; exact hl)
      exact ⟨v, hv, a.trans hu.1, b.trans hu.2.1, d.trans hu.2.2⟩)
    { eff_init s with stage_max := (s.len : Int), orig_hit_cnt := s.new_hit_cnt }
    ⟨rfl, rfl, (eff_init_frame s).1⟩
  have ht2 : for_loop (flip8_body c) 0 s.len
      { eff_init s with stage_max := (s.len : Int), orig_hit_cnt := s.new_hit_cnt }
      = Ctl.next t := ht
  simp only [flip8_stage, ht2, Ctl.bind]
  refine ⟨_, rfl, ?_⟩
  show (eff_saturate _).eff_map = _
  exact eff_saturate_congr _ _ (h3.trans (eff_init_frame s).1.symm) h2 h1

/-- The auto-dictionary block does not touch `eff_cnt`. -/
theorem auto_collect_eff_cnt (c : Ctx) (i : Nat) (s : FState) :
    (auto_collect c i s).eff_cnt = s.eff_cnt := by
  unfold auto_collect a_collect_emit a_collect_push maybe_add_auto
  simp only
  split_ifs <;> rfl

/-- The walking bit flips do not touch `eff_cnt`. -/
theorem flip124_eff_cnt (c : Ctx) (s : FState) :
    (flip1_stage c s).state.eff_cnt = s.eff_cnt ∧
    (flip2_stage c s).state.eff_cnt = s.eff_cnt ∧
    (flip4_stage c s).state.eff_cnt = s.eff_cnt := by
  refine ⟨?_, ?_, ?_⟩
  · unfold flip1_stage for_loop
    simp only
    apply bind_next_state _ _ (fun t : FState => t.eff_cnt = s.eff_cnt)
    · apply for_each_state_inv (flip1_body c) (fun t : FState => t.eff_cnt = s.eff_cnt)
      · intro i _ u hu
        unfold flip1_body
        rcases submit_cases c { u with
            stage_cur := i, stage_cur_byte := i >>> 3, out_buf := FLIP_BIT u.out_buf i } with e | e
        · rw [e]; exact hu
        · rw [e]
          simp only [Ctl.bind]
          split_ifs
          · simp only [Ctl.state]
            rw [auto_collect_eff_cnt]
            exact hu
          · exact hu
      · rfl
    · intro t ht; exact ht
  · unfold flip2_stage for_loop
    simp only
    apply bind_next_state _ _ (fun t : FState => t.eff_cnt = s.eff_cnt)
    · apply for_each_state_inv (flip2_body c) (fun t : FState => t.eff_cnt = s.eff_cnt)
      · intro i _ u hu
        unfold flip2_body
        rcases submit_cases c { u with
            stage_cur := i, stage_cur_byte := i >>> 3
            out_buf := FLIP_BIT (FLIP_BIT u.out_buf i) (i + 1) } with e | e
        · rw [e]; exact hu
        · rw [e]; exact hu
      · rfl
    · intro t ht; exact ht
  · unfold flip4_stage for_loop
    simp only
    apply bind_next_state _ _ (fun t : FState => t.eff_cnt = s.eff_cnt)
    · apply for_each_state_inv (flip4_body c) (fun t : FState => t.eff_cnt = s.eff_cnt)
      · intro i _ u hu
        unfold flip4_body
        rcases submit_cases c { u with
            stage_cur := i, stage_cur_byte := i >>> 3
            out_buf := FLIP_BIT (FLIP_BIT (FLIP_BIT (FLIP_BIT u.out_buf i) (i + 1)) (i + 2))
              (i + 3) } with e | e
        · rw [e]; exact hu
        · rw [e]; exact hu
      · rfl
    · intro t ht; exact ht

/-- The effector map consulted by `flip16` and `flip32` when no byte changes
the coverage: the initial map of the seed, saturated if dense. -/
theorem flip_upto8_quiet (c : Ctx) (hna : ∀ n buf, (c.harness n buf).abandon = false)
    (hq : ∀ n buf, (c.harness n buf).cksum = c.exec_cksum) (hd : c.dumb_mode = false)
    (B : List Nat) (hl : B.length ≥ EFF_MIN_LEN) :
    ∃ t, flip_upto8 c (init_state B) = Ctl.next t ∧
      t.eff_map = (eff_saturate (eff_init (init_state B))).eff_map := by
  obtain ⟨t1, e1, p1, _⟩ := flip1_stage_log c hna B (init_state B) ⟨rfl, rfl⟩
  obtain ⟨t2, e2, p2, _⟩ := flip2_stage_log c hna B t1 p1
  obtain ⟨t3, e3, p3, _⟩ := flip4_stage_log c hna B t2 p2
  obtain ⟨t4, e4, p4⟩ := flip8_stage_quiet c hna hq hd t3 (by rw [p3.2]; exact hl)
  have c1 := (flip124_eff_cnt c (init_state B)).1
  have c2 := (flip124_eff_cnt c t1).2.1
  have c3 := (flip124_eff_cnt c t2).2.2
  rw [e1] at c1
  rw [e2] at c2
  rw [e3] at c3
  simp only [Ctl.state] at c1 c2 c3
  have hcnt : t3.eff_cnt = (init_state B).eff_cnt := by rw [c3, c2, c1]
  have hlen : t3.len = (init_state B).len := p3.2
  obtain ⟨i1, i2⟩ := eff_init_congr t3 (init_state B) hlen hcnt
  refine ⟨t4, by simp only [flip_upto8, e1, e2, e3, e4, Ctl.bind], ?_⟩
  rw [p4]
  exact eff_saturate_congr _ _ ((eff_init_frame t3).1.trans (hlen.trans (eff_init_frame _).1.symm))
    i2 i1

/-! ## A seed of 128 zero bytes under a harness that reports no change -/

/-- Every cell of the all-zero seed reads 0. -/
theorem zeros_getD (n k : Nat) : (List.replicate n 0).getD k 0 = 0 := by
  simp only [List.getD_eq_getElem?_getD, List.getElem?_replicate]
  split_ifs <;> rfl

/-- The all-zero seed is a buffer of bytes. -/
theorem zeros_bytes (n : Nat) : Bytes (List.replicate n 0) := by
  intro b hb
  rw [List.eq_of_mem_replicate hb]
  norm_num

/-- On the all-zero seed of 128 bytes, no candidate of `flip1`, `flip2` or
`flip4` has the byte `0xff` at offset 8. -/
theorem zeros_flip_probe (i : Nat) :
    (FLIP_BIT (List.replicate 128 0) i).getD 8 0 ≠ 255 ∧
    (FLIP_BIT (FLIP_BIT (List.replicate 128 0) i) (i + 1)).getD 8 0 ≠ 255 ∧
    (FLIP_BIT (FLIP_BIT (FLIP_BIT (FLIP_BIT (List.replicate 128 0) i) (i + 1)) (i + 2))
      (i + 3)).getD 8 0 ≠ 255 := by
  simp only [FLIP_BIT_getD, FLIP_BIT_length, zeros_getD, List.length_replicate,
    Nat.shiftRight_eq_div_pow, Nat.zero_xor]
  by_cases h : 61 ≤ i ∧ i < 72
  · obtain ⟨h1, h2⟩ := h
    interval_cases i <;> decide
  · refine ⟨?_, ?_, ?_⟩ <;> split_ifs <;> omega

/-- On the all-zero seed of 128 bytes, the only byte-aligned flip of 8, 16 or
32 bits whose candidate is the seed with `0xffff` at offset 8 is `flip16` at
offset 8. -/
theorem zeros_walk_probe (i : Nat) :
    (List.replicate 128 0).set i ((List.replicate 128 0).getD i 0 ^^^ 0xFF)
      ≠ wrLE (List.replicate 128 0) 8 2 0xffff ∧
    (wr16 (List.replicate 128 0) i (rd16 (List.replicate 128 0) i ^^^ 0xFFFF)
      = wrLE (List.replicate 128 0) 8 2 0xffff → i = 8) ∧
    wr32 (List.replicate 128 0) i (rd32 (List.replicate 128 0) i ^^^ 0xFFFFFFFF)
      ≠ wrLE (List.replicate 128 0) 8 2 0xffff := by
  have hT : ∀ k, (wrLE (List.replicate 128 0) 8 2 0xffff).getD k 0
      = if k = 8 ∨ k = 9 then 255 else 0 := by
    intro k
    simp only [wrLE, getD_set, List.length_set, List.length_replicate, zeros_getD]
    norm_num
    split_ifs <;> omega
  refine ⟨?_, ?_, ?_⟩
  · intro h
    have h8 := congrArg (fun l : List Nat => l.getD 8 0) h
    have h9 := congrArg (fun l : List Nat => l.getD 9 0) h
    simp only [hT, getD_set, List.length_replicate, zeros_getD] at h8 h9
    norm_num at h8 h9
    omega
  · intro h
    rw [wr16_xor_ones _ (zeros_bytes 128)] at h
    have h8 := congrArg (fun l : List Nat => l.getD 8 0) h
    have h9 := congrArg (fun l : List Nat => l.getD 9 0) h
    simp only [hT, getD_set, List.length_set, List.length_replicate, zeros_getD] at h8 h9
    norm_num at h8 h9
    omega
  · intro h
    have h7 := congrArg (fun l : List Nat => l.getD 7 0) h
    have h8 := congrArg (fun l : List Nat => l.getD 8 0) h
    have h10 := congrArg (fun l : List Nat => l.getD 10 0) h
    simp only [hT, wr32, rd32, getD_set, List.length_set, List.length_replicate, zeros_getD]
      at h7 h8 h10
    norm_num at h7 h8 h10
    split_ifs at h7 h10
    omega

set_option maxRecDepth 100000 in
/-- On the all-zero seed of 128 bytes with a harness that never reports a
change, the effector map left by `flip8` rules out offset 8 for `flip16`. -/
theorem zeros_eff_skip (t : FState)
    (ht : flip_upto8 (quiet_ctx [] []) (init_state (List.replicate 128 0)) = Ctl.next t) :
    eff_skip2 t 8 = true := by
  obtain ⟨u, hu, hm⟩ := flip_upto8_quiet (quiet_ctx [] []) (fun _ _ => rfl) (fun _ _ => rfl) rfl
    (List.replicate 128 0) (by simp [EFF_MIN_LEN])
  rw [ht] at hu
  cases hu
  unfold eff_skip2
  rw [hm]
  decide

/-! ## The bit-flip stages against `could_be_bitflip` on concrete seeds -/

set_option maxRecDepth 1000000

/-- Redundancy soundness applied to the seed `10 ff` and the new value `ef 00`,
which is the old one with all sixteen bits flipped. -/
theorem bitflip_redundancy_sound_witness :
    ∃ t, flip_stages (quiet_ctx [] []) (init_state [0x10, 0xff]) = Ctl.next t ∧
      (wrLE [0x10, 0xff] 0 2 0x00ef, [0x10, 0xff].length) ∈ t.execs :=
  bitflip_redundancy_sound (quiet_ctx [] []) [0x10, 0xff] 2 0 0x00ef (Or.inr (Or.inl rfl))
    (by simp [Bytes]) (by decide) (by norm_num) (by decide) (by decide) (fun _ _ => rfl)
    (Or.inr (Or.inl ⟨0, by decide, by decide⟩))

/-- C2, counterexample: two seeds on which the bit-flip stages run to their end
without submitting the seed with `new` written over `old`, although
`could_be_bitflip (old ^^^ new)` holds. On 128 zero bytes with a harness that
never reports a change, `new = 0xffff` at offset 8: the effector map left by
`flip8` rules the offset out for `flip16`. On the seed `00 00`, `new = 0x0180`
at offset 0: the two flipped bits lie in two bytes. -/
theorem bitflip_redundancy_counterexample :
    (Bytes (List.replicate 128 0) ∧ 8 + 2 ≤ (List.replicate 128 0).length ∧
      rdLE (List.replicate 128 0) 8 2 ≠ 0xffff ∧
      could_be_bitflip (rdLE (List.replicate 128 0) 8 2 ^^^ 0xffff) = true ∧
      ∃ t, flip_stages (quiet_ctx [] []) (init_state (List.replicate 128 0)) = Ctl.next t ∧
        (wrLE (List.replicate 128 0) 8 2 0xffff, (List.replicate 128 0).length) ∉ t.execs) ∧
    (Bytes [0, 0] ∧ rdLE [0, 0] 0 2 ≠ 0x0180 ∧
      could_be_bitflip (rdLE [0, 0] 0 2 ^^^ 0x0180) = true ∧
      ∃ t, flip_stages (quiet_ctx [] []) (init_state [0, 0]) = Ctl.next t ∧
        (wrLE [0, 0] 0 2 0x0180, [0, 0].length) ∉ t.execs) := by
  have hr : rdLE (List.replicate 128 0) 8 2 = 0 := by
    simp only [rdLE, zeros_getD]
  have h8 : (wrLE (List.replicate 128 0) 8 2 0xffff).getD 8 0 = 255 := by
    simp only [wrLE, getD_set, List.length_set, List.length_replicate]
    norm_num
  refine ⟨⟨zeros_bytes 128, by simp, by rw [hr]; decide, by rw [hr]; decide, ?_⟩,
    ⟨by simp [Bytes], by decide, by decide, ?_⟩⟩
  · obtain ⟨t4, t6, e4, e6, _, hl⟩ :=
      flip_stages_log (quiet_ctx [] []) (fun _ _ => rfl) _ (zeros_bytes 128)
    refine ⟨t6, e6, ?_⟩
    rw [hl]
    rintro (⟨i, _, he⟩ | ⟨i, _, he⟩ | ⟨i, _, he⟩ | ⟨i, _, he⟩ | ⟨i, _, hs, he⟩ | ⟨i, _, _, he⟩)
    · rw [(Prod.mk.inj he).1] at h8
      exact (zeros_flip_probe i).1 h8
    · rw [(Prod.mk.inj he).1] at h8
      exact (zeros_flip_probe i).2.1 h8
    · rw [(Prod.mk.inj he).1] at h8
      exact (zeros_flip_probe i).2.2 h8
    · exact (zeros_walk_probe i).1 (Prod.mk.inj he).1.symm
    · have hi := (zeros_walk_probe i).2.1 (Prod.mk.inj he).1.symm
      subst hi
      rw [zeros_eff_skip t4 e4] at hs
      exact Bool.noConfusion hs
    · exact (zeros_walk_probe i).2.2 (Prod.mk.inj he).1.symm
  · obtain ⟨t4, t6, e4, e6, _, hl⟩ :=
      flip_stages_log (quiet_ctx [] []) (fun _ _ => rfl) [0, 0] (by simp [Bytes])
    refine ⟨t6, e6, ?_⟩
    rw [hl]
    rintro (⟨i, hi, he⟩ | ⟨i, hi, he⟩ | ⟨i, hi, he⟩ | ⟨i, hi, he⟩ | ⟨i, hi, _, he⟩ |
      ⟨i, hi, _, he⟩)
    all_goals
      have hi2 : i < 16 := lt_of_lt_of_le hi (by decide)
      revert he
      clear hi
      interval_cases i <;> decide

/-- C3, evaluated: on the seed `00 00` the stage `flip2` at `stage_cur = 7`
submits `01 80`, the seed with the lowest bit of byte 0 and the highest bit of
byte 1 flipped, and `could_be_bitflip` returns false on the little-endian xor
`0x8001` of the two-byte window before and after that step. -/
theorem flip2_step_not_flagged :
    (FLIP_BIT (FLIP_BIT [0, 0] 7) 8, 2)
      ∈ (flip2_stage (quiet_ctx [] []) (init_state [0, 0])).state.execs ∧
    FLIP_BIT (FLIP_BIT [0, 0] 7) 8 = [1, 128] ∧
    rdLE [0, 0] 0 2 ^^^ rdLE [1, 128] 0 2 = 0x8001 ∧
    could_be_bitflip (rdLE [0, 0] 0 2 ^^^ rdLE [1, 128] 0 2) = false := by
  decide

/-! ## The auto-dictionary on a concrete seed -/

/-- The auto-dictionary bounds applied to the seed `01 02 03 04` with a harness
whose hash changes exactly when one of the first three bytes is touched: `flip1`
hands over the three-byte token `01 02 03`. -/
theorem auto_dict_bounds_witness :
    MIN_AUTO_EXTRA ≤ 3 ∧ 3 ≤ MAX_AUTO_EXTRA ∧
      ∀ k, k < 3 →
        ∃ b, ([some 1, some 2, some 3] ++ List.replicate 29 none : List (Option Nat))[k]?
          = some (some b) :=
  auto_dict_bounds (magic_ctx [1, 2, 3]) [1, 2, 3, 4]
    ([some 1, some 2, some 3] ++ List.replicate 29 none, 3) (by decide)

/-! ## The effector map: size, initial contents, saturation -/

/-- The macro `EFF_APOS` is the division by 8. -/
theorem EFF_APOS_eq (p : Nat) : EFF_APOS p = p / 8 := by
  simp [EFF_APOS, EFF_MAP_SCALE2, Nat.shiftRight_eq_div_pow]

/-- The macro `EFF_REM` is the remainder modulo 8. -/
theorem EFF_REM_eq (x : Nat) : EFF_REM x = x % 8 := by
  have h : (1 <<< EFF_MAP_SCALE2) - 1 = 2 ^ 3 - 1 := by decide
  rw [EFF_REM, h, Nat.and_pow_two_sub_one_eq_mod]

/-- The macro `EFF_ALEN` rounds the division by 8 upwards. -/
theorem EFF_ALEN_eq (l : Nat) : EFF_ALEN l = (l + 7) / 8 := by
  rw [EFF_ALEN, EFF_APOS_eq, EFF_REM_eq]
  split_ifs <;> omega

/-- The effector map set up before `flip8`, read cell by cell. -/
theorem eff_init_getD (s : FState) (k : Nat) (hk : k < EFF_ALEN s.len) :
    (eff_init s).eff_map.getD k 0 = if k = 0 ∨ k = EFF_APOS (s.len - 1) then 1 else 0 := by
  have hA := EFF_ALEN_eq s.len
  have hP := EFF_APOS_eq (s.len - 1)
  unfold eff_init
  simp only
  split_ifs with h1 h2 h3
  · simp only [getD_set, List.length_set, List.length_replicate]
    rcases h2 with h2 | h2
    · subst h2
      simp [Ne.symm h1, hk]
    · subst h2
      simp [hk]
  · simp only [getD_set, List.length_set, List.length_replicate]
    have h4 : ¬ (EFF_APOS (s.len - 1) = k ∧ EFF_APOS (s.len - 1) < EFF_ALEN s.len) :=
      fun h => h2 (Or.inr h.1.symm)
    have h5 : ¬ (0 = k ∧ 0 < EFF_ALEN s.len) := fun h => h2 (Or.inl h.1.symm)
    rw [if_neg h4, if_neg h5]
    simp [List.getD_eq_getElem?_getD, List.getElem?_replicate, hk]
  · simp only [getD_set, List.length_replicate]
    have h4 : k = 0 := by
      rcases h3 with h3 | h3
      · exact h3
      · rw [h3]; exact not_not.mp h1
    subst h4
    simp [hk]
  · simp only [getD_set, List.length_replicate]
    have h5 : ¬ (0 = k ∧ 0 < EFF_ALEN s.len) := fun h => h3 (Or.inl h.1.symm)
    rw [if_neg h5]
    simp [List.getD_eq_getElem?_getD, List.getElem?_replicate, hk]

/-- The length of the effector map set up before `flip8`. -/
theorem eff_init_length (s : FState) : (eff_init s).eff_map.length = EFF_ALEN s.len := by
  unfold eff_init
  simp only
  split_ifs <;> simp

/-- C19: for every seed length `L >= 1` the effector map allocated before
`flip8` has `EFF_ALEN(L) = ceil(L / 8)` entries, and right after its
initialisation entry 0 and entry `floor((L - 1) / 8)`, the one covering the last
byte, are 1 and every other entry is 0. -/
theorem eff_init_spec (s : FState) (hL : 1 ≤ s.len) :
    EFF_ALEN s.len = (s.len + 7) / 8 ∧
    (eff_init s).eff_map.length = (s.len + 7) / 8 ∧
    (s.len - 1) / 8 < (s.len + 7) / 8 ∧
    ∀ k, k < (s.len + 7) / 8 →
      (eff_init s).eff_map.getD k 0 = if k = 0 ∨ k = (s.len - 1) / 8 then 1 else 0 := by
  refine ⟨EFF_ALEN_eq _, by rw [eff_init_length, EFF_ALEN_eq], by omega, ?_⟩
  intro k hk
  rw [eff_init_getD s k (by rw [EFF_ALEN_eq]; exact hk), EFF_APOS_eq]

/-- The initialisation of the effector map applied to a seed of 20 bytes: three
entries, the first and the last set. -/
theorem eff_init_spec_witness :
    EFF_ALEN (init_state (List.replicate 20 0)).len = (20 + 7) / 8 ∧
    (eff_init (init_state (List.replicate 20 0))).eff_map.length = (20 + 7) / 8 ∧
    (20 - 1) / 8 < (20 + 7) / 8 ∧
    ∀ k, k < (20 + 7) / 8 →
      (eff_init (init_state (List.replicate 20 0))).eff_map.getD k 0
        = if k = 0 ∨ k = (20 - 1) / 8 then 1 else 0 :=
  eff_init_spec (init_state (List.replicate 20 0)) (by decide)

/-! ## More about loops -/

/-- A property of the end state of a block passes through sequencing. -/
theorem bind_state_inv {σ : Type} (x : Ctl σ) (f : σ → Ctl σ) (P : σ → Prop)
    (hx : P x.state) (hf : ∀ s, P s → P (f s).state) : P (x.bind f).state := by
  cases x with
  | next s => exact hf s hx
  | abandon s => exact hx

/-- A loop over a range whose body never abandons, with an invariant that
depends on the loop variable. -/
theorem for_range_indexed {σ : Type} (body : Nat → σ → Ctl σ) (P : Nat → σ → Prop) :
    ∀ (n a : Nat), (∀ i, a ≤ i → i < a + n → ∀ u, P i u → ∃ v, body i u = Ctl.next v ∧ P (i + 1) v) →
      ∀ s, P a s → ∃ t, for_each body (List.range' a n) s = Ctl.next t ∧ P (a + n) t := by
  intro n
  induction n with
  | zero => intro a _ s hs; exact ⟨s, rfl, hs⟩
  | succ n ih =>
    intro a h s hs
    obtain ⟨t, ht, hPt⟩ := h a (le_refl a) (by omega) s hs
    obtain ⟨u, hu, hPu⟩ := ih (a + 1) (fun i h1 h2 => h i (by omega) (by omega)) t hPt
    refine ⟨u, ?_, ?_⟩
    · simp only [List.range'_succ, for_each, ht, Ctl.bind, hu]
    · have e : a + (n + 1) = a + 1 + n := by omega
      rw [e]
      exact hPu

/-- The loop `for (i = 0; i < n; i++)` with an invariant that depends on `i`. -/
theorem for_loop_indexed {σ : Type} (body : Nat → σ → Ctl σ) (P : Nat → σ → Prop) (n : Nat)
    (h : ∀ i, i < n → ∀ u, P i u → ∃ v, body i u = Ctl.next v ∧ P (i + 1) v)
    (s : σ) (hs : P 0 s) : ∃ t, for_loop body 0 n s = Ctl.next t ∧ P n t := by
  obtain ⟨t, ht, hP⟩ := for_range_indexed body P n 0 (fun i _ h2 => h i (by omega)) s hs
  refine ⟨t, ht, ?_⟩
  rw [Nat.zero_add] at hP
  exact hP

/-- A loop each round of which lowers an integer measure by the same amount. -/
theorem for_each_count {α σ : Type} (body : α → σ → Ctl σ) (Q : σ → Prop) (m : σ → Int)
    (d : Int) :
    ∀ (xs : List α),
      (∀ x ∈ xs, ∀ u, Q u → ∃ v, body x u = Ctl.next v ∧ Q v ∧ m v = m u - d) →
      ∀ s, Q s → ∃ t, for_each body xs s = Ctl.next t ∧ Q t ∧ m t = m s - d * xs.length := by
  intro xs
  induction xs with
  | nil => intro _ s hs; exact ⟨s, rfl, hs, by simp⟩
  | cons x xs ih =>
    intro h s hs
    obtain ⟨t, ht, hQt, hmt⟩ := h x (List.mem_cons_self x xs) s hs
    obtain ⟨u, hu, hQu, hmu⟩ := ih (fun y hy => h y (List.mem_cons_of_mem x hy)) t hQt
    refine ⟨u, by simp only [for_each, ht, Ctl.bind, hu], hQu, ?_⟩
    rw [hmu, hmt, List.length_cons]
    push_cast
    ring

/-! ## The effector map during `flip8` -/

/-- Setting a cell that holds 0 to 1 raises the number of cells equal to 1 by one. -/
theorem count_set_one (l : List Nat) : ∀ (p : Nat), p < l.length → l.getD p 0 = 0 →
    (l.set p 1).count 1 = l.count 1 + 1 := by
  induction l with
  | nil => intro p hp; simp at hp
  | cons x xs ih =>
    intro p hp h0
    cases p with
    | zero =>
      simp only [List.getD_cons_zero] at h0
      subst h0
      simp
    | succ p =>
      simp only [List.getD_cons_succ] at h0
      simp only [List.length_cons] at hp
      simp only [List.set_cons_succ, List.count_cons, ih p (by omega) h0]
      omega

/-- The map and the count after the effector block of a `flip8` round. -/
theorem eff_mark_fields (c : Ctx) (i : Nat) (s : FState) :
    ((eff_mark c i s).eff_map = s.eff_map ∧ (eff_mark c i s).eff_cnt = s.eff_cnt) ∨
    (s.eff_map.getD (EFF_APOS i) 0 = 0 ∧
      (eff_mark c i s).eff_map = s.eff_map.set (EFF_APOS i) 1 ∧
      (eff_mark c i s).eff_cnt = s.eff_cnt + 1) := by
  unfold eff_mark
  simp only
  split_ifs <;> first | exact Or.inl ⟨rfl, rfl⟩ | exact Or.inr ⟨by assumption, rfl, rfl⟩

/-- The effector block of a `flip8` round keeps the invariant of the map. -/
theorem eff_mark_inv (c : Ctx) (i : Nat) (s : FState) (hi : i < s.len) (h : EffInv s) :
    EffInv (eff_mark c i s) := by
  obtain ⟨h1, h2, h3⟩ := h
  have hp : EFF_APOS i < s.eff_map.length := by
    rw [h1, EFF_ALEN_eq, EFF_APOS_eq]; omega
  rcases eff_mark_fields c i s with ⟨e1, e2⟩ | ⟨e0, e1, e2⟩
  · exact ⟨by rw [e1, (eff_mark_frame c i s).1]; exact h1, by rw [e1]; exact h2,
      by rw [e1, e2]; exact h3⟩
  · refine ⟨by rw [e1, (eff_mark_frame c i s).1, List.length_set]; exact h1, ?_, ?_⟩
    · rw [e1]
      intro x hx
      rcases List.mem_or_eq_of_mem_set hx with hx | hx
      · exact h2 x hx
      · exact Or.inr hx
    · rw [e1, e2, count_set_one _ _ hp e0, h3]

/-- The effector block of a `flip8` round only adds entries equal to 1. -/
theorem eff_mark_le (c : Ctx) (i : Nat) (s : FState) : EffLe s (eff_mark c i s) := by
  intro k hk
  rcases eff_mark_fields c i s with ⟨e1, _⟩ | ⟨_, e1, _⟩
  · rw [e1]; exact hk
  · rw [e1, getD_set]
    split_ifs
    · rfl
    · exact hk

/-- The effector map as set up before `flip8` satisfies the invariant. -/
theorem eff_init_inv (s : FState) (hc : s.eff_cnt = 1) (hL : 1 ≤ s.len) : EffInv (eff_init s) := by
  have hA : 0 < EFF_ALEN s.len := by rw [EFF_ALEN_eq]; omega
  have hP : EFF_APOS (s.len - 1) < EFF_ALEN s.len := by rw [EFF_ALEN_eq, EFF_APOS_eq]; omega
  have hz : ((List.replicate (EFF_ALEN s.len) 0).set 0 1).count 1 = 1 := by
    rw [count_set_one _ 0 (by simpa using hA) (by rw [zeros_getD]),
      List.count_eq_zero_of_not_mem (fun h => by have := List.eq_of_mem_replicate h; omega)]
  refine ⟨by rw [eff_init_length, (eff_init_frame s).1], ?_, ?_⟩
  · intro x hx
    unfold eff_init at hx
    simp only at hx
    split_ifs at hx
    · rcases List.mem_or_eq_of_mem_set hx with hx | hx
      · rcases List.mem_or_eq_of_mem_set hx with hx | hx
        · exact Or.inl (List.eq_of_mem_replicate hx)
        · exact Or.inr hx
      · exact Or.inr hx
    · rcases List.mem_or_eq_of_mem_set hx with hx | hx
      · exact Or.inl (List.eq_of_mem_replicate hx)
      · exact Or.inr hx
  · unfold eff_init
    simp only
    split_ifs with h1
    · show s.eff_cnt + 1 = _
      rw [count_set_one _ _ (by simpa using hP), hz, hc]
      rw [getD_set, if_neg (fun h => h1 h.1.symm), zeros_getD]
    · show s.eff_cnt = _
      rw [hz, hc]

/-- A round of `flip8`, however it ends, keeps the invariant of the map and
only adds entries equal to 1. -/
theorem flip8_body_eff (c : Ctx) (i : Nat) (s : FState) (hi : i < s.len) (h : EffInv s) :
    EffInv (flip8_body c i s).state ∧ (flip8_body c i s).state.len = s.len ∧
      EffLe s (flip8_body c i s).state := by
  unfold flip8_body
  rcases submit_cases c { s with
      stage_cur := i, stage_cur_byte := i
      out_buf := s.out_buf.set i (s.out_buf.getD i 0 ^^^ 0xFF) } with e | e
  · rw [e]
    exact ⟨h, rfl, fun k hk => hk⟩
  · rw [e]
    simp only [Ctl.bind, Ctl.state]
    have hm := eff_mark_inv c i (common_fuzz_stuff c { s with
      stage_cur := i, stage_cur_byte := i
      out_buf := s.out_buf.set i (s.out_buf.getD i 0 ^^^ 0xFF) }
      (s.out_buf.set i (s.out_buf.getD i 0 ^^^ 0xFF)) s.len).1 hi h
    have hl := eff_mark_le c i (common_fuzz_stuff c { s with
      stage_cur := i, stage_cur_byte := i
      out_buf := s.out_buf.set i (s.out_buf.getD i 0 ^^^ 0xFF) }
      (s.out_buf.set i (s.out_buf.getD i 0 ^^^ 0xFF)) s.len).1
    have hf := (eff_mark_frame c i (common_fuzz_stuff c { s with
      stage_cur := i, stage_cur_byte := i
      out_buf := s.out_buf.set i (s.out_buf.getD i 0 ^^^ 0xFF) }
      (s.out_buf.set i (s.out_buf.getD i 0 ^^^ 0xFF)) s.len).1).1
    exact ⟨hm, hf, hl⟩

/-- The percentage test after `flip8`: on a map that satisfies the invariant
and passes the test `eff_cnt * 100 / EFF_ALEN(len) > EFF_MAX_PERC`, or is full
already, every entry is 1 afterwards. -/
theorem eff_saturate_ones (s : FState) (h : EffInv s)
    (hd : s.eff_cnt * 100 / EFF_ALEN s.len > EFF_MAX_PERC) :
    ∀ x ∈ (eff_saturate s).eff_map, x = 1 := by
  obtain ⟨h1, h2, h3⟩ := h
  unfold eff_saturate
  split_ifs with hc
  · intro x hx
    exact List.eq_of_mem_replicate hx
  · have hfull : s.eff_cnt = EFF_ALEN s.len := by
      by_contra hne
      exact hc ⟨hne, hd⟩
    intro x hx
    have hcl : s.eff_map.count 1 = s.eff_map.length := by rw [← h3, hfull, h1]
    exact (List.count_eq_length.mp hcl x hx).symm

/-! ## The effector map left by `flip8` in terms of the coverage hashes -/

/-- Outside dumb mode and on a seed of at least `EFF_MIN_LEN` bytes the
effector block of `flip8` compares the hash of the last run with the baseline. -/
theorem eff_mark_nondumb (c : Ctx) (i : Nat) (s : FState) (hd : c.dumb_mode = false)
    (hl : s.len ≥ EFF_MIN_LEN) :
    eff_mark c i s =
      if s.eff_map.getD (EFF_APOS i) 0 = 0 ∧ s.cksum ≠ c.exec_cksum then
        { s with eff_map := s.eff_map.set (EFF_APOS i) 1, eff_cnt := s.eff_cnt + 1 }
      else s := by
  unfold eff_mark
  simp only [hd, hl, and_self, if_true]
  split_ifs <;> first | rfl | (exfalso; tauto)

/-- An entry of a map of zeros and ones that is not 0 is 1. -/
theorem EffInv.one_of_ne_zero (s : FState) (h : EffInv s) (k : Nat)
    (hk : s.eff_map.getD k 0 ≠ 0) : s.eff_map.getD k 0 = 1 := by
  by_cases hl : k < s.eff_map.length
  · rw [List.getD_eq_getElem _ _ hl] at hk ⊢
    rcases h.2.1 _ (List.getElem_mem hl) with h0 | h1
    · exact absurd h0 hk
    · exact h1
  · rw [List.getD_eq_default _ _ (by omega)] at hk
    exact absurd rfl hk

/-- A round of `flip8` on the seed `B` outside dumb mode, when the hash of the
run with byte `i` flipped differs from the baseline exactly if `chg i`: the
entry of byte `i` is set if it was 0 and `chg i` holds. -/
theorem flip8_body_map (c : Ctx) (hna : ∀ n buf, (c.harness n buf).abandon = false)
    (hd : c.dumb_mode = false) (B : List Nat) (hL : B.length ≥ EFF_MIN_LEN) (chg : Nat → Bool)
    (hchg : ∀ n i, i < B.length →
      ((c.harness n (B.set i (B.getD i 0 ^^^ 0xFF))).cksum ≠ c.exec_cksum ↔ chg i = true))
    (i : Nat) (hi : i < B.length) (s : FState) (hs : s.out_buf = B ∧ s.len = B.length) :
    ∃ t, flip8_body c i s = Ctl.next t ∧ (t.out_buf = B ∧ t.len = B.length) ∧
      ((t.eff_map = s.eff_map ∧ (s.eff_map.getD (EFF_APOS i) 0 ≠ 0 ∨ chg i = false)) ∨
       (s.eff_map.getD (EFF_APOS i) 0 = 0 ∧ chg i = true ∧
         t.eff_map = s.eff_map.set (EFF_APOS i) 1)) := by
  obtain ⟨h1, h2⟩ := hs
  obtain ⟨t, ht, hP, _⟩ := flip8_body_log c hna B i s ⟨h1, h2⟩
  refine ⟨t, ht, hP, ?_⟩
  have hk : (B.set i (B.getD i 0 ^^^ 0xFF)).take B.length = B.set i (B.getD i 0 ^^^ 0xFF) :=
    take_full _ _ (by simp)
  simp only [flip8_body, submit_next c _ hna, Ctl.bind] at ht
  have ht2 := (Ctl.next.inj ht).symm
  rw [eff_mark_nondumb c i _ hd (by simp only [common_fuzz_stuff, h2]; exact hL)] at ht2
  simp only [common_fuzz_stuff, h1, h2, hk] at ht2
  by_cases h0 : s.eff_map.getD (EFF_APOS i) 0 = 0
  · by_cases hc : chg i = true
    · have hx := (hchg s.execs.length i hi).mpr hc
      rw [if_pos ⟨h0, hx⟩] at ht2
      exact Or.inr ⟨h0, hc, by rw [ht2]⟩
    · have hx : ¬ ((c.harness s.execs.length (B.set i (B.getD i 0 ^^^ 0xFF))).cksum
          ≠ c.exec_cksum) := fun h => hc ((hchg s.execs.length i hi).mp h)
      rw [if_neg (fun h => hx h.2)] at ht2
      exact Or.inl ⟨by rw [ht2], Or.inr (by simpa using hc)⟩
  · rw [if_neg (fun h => h0 h.1)] at ht2
    exact Or.inl ⟨by rw [ht2], Or.inl h0⟩

/-- The loop of `flip8` on the seed `B` outside dumb mode, from a map that
satisfies the invariant: at its end the entries equal to 1 are those that were
1 at the start and those of the bytes whose flip changed the hash. -/
theorem flip8_loop_map (c : Ctx) (hna : ∀ n buf, (c.harness n buf).abandon = false)
    (hd : c.dumb_mode = false) (B : List Nat) (hL : B.length ≥ EFF_MIN_LEN) (chg : Nat → Bool)
    (hchg : ∀ n i, i < B.length →
      ((c.harness n (B.set i (B.getD i 0 ^^^ 0xFF))).cksum ≠ c.exec_cksum ↔ chg i = true))
    (s : FState) (hs : s.out_buf = B ∧ s.len = B.length) (hinv : EffInv s) :
    ∃ t, for_loop (flip8_body c) 0 B.length s = Ctl.next t ∧
      (t.out_buf = B ∧ t.len = B.length) ∧ EffInv t ∧
      ∀ k, (t.eff_map.getD k 0 = 1 ↔
        (s.eff_map.getD k 0 = 1 ∨ ∃ j, j < B.length ∧ EFF_APOS j = k ∧ chg j = true)) := by
  obtain ⟨t, ht, hP⟩ := for_loop_indexed (flip8_body c)
    (fun i u => (u.out_buf = B ∧ u.len = B.length) ∧ EffInv u ∧
      ∀ k, (u.eff_map.getD k 0 = 1 ↔
        (s.eff_map.getD k 0 = 1 ∨ ∃ j, j < i ∧ EFF_APOS j = k ∧ chg j = true)))
    B.length
    (fun i hi u hu => by
      obtain ⟨hu1, hu2, hu3⟩ := hu
      obtain ⟨v, hv, hv1, hv2⟩ := flip8_body_map c hna hd B hL chg hchg i hi u hu1
      have hinv2 := (flip8_body_eff c i u (by rw [hu1.2]; exact hi) hu2).1
      rw [hv] at hinv2
      refine ⟨v, hv, hv1, hinv2, ?_⟩
      intro k
      rcases hv2 with ⟨e, hcase⟩ | ⟨h0, hc, e⟩
      · rw [e, hu3 k]
        constructor
        · rintro (h | ⟨j, hj, hjk, hjc⟩)
          · exact Or.inl h
          · exact Or.inr ⟨j, by omega, hjk, hjc⟩
        · rintro (h | ⟨j, hj, hjk, hjc⟩)
          · exact Or.inl h
          · by_cases hji : j = i
            · subst hji
              rcases hcase with hne | hf
              · have := hu2.one_of_ne_zero u (EFF_APOS j) hne
                rw [hjk] at this
                exact (hu3 k).mp this
              · rw [hf] at hjc
                exact absurd hjc (by simp)
            · exact Or.inr ⟨j, by omega, hjk, hjc⟩
      · have hp : EFF_APOS i < u.eff_map.length := by
          rw [hu2.1, hu1.2, EFF_ALEN_eq, EFF_APOS_eq]; omega
        rw [e, getD_set]
        by_cases hik : EFF_APOS i = k
        · rw [if_pos ⟨hik, hp⟩]
          exact ⟨fun _ => Or.inr ⟨i, by omega, hik, hc⟩, fun _ => rfl⟩
        · rw [if_neg (fun h => hik h.1), hu3 k]
          constructor
          · rintro (h | ⟨j, hj, hjk, hjc⟩)
            · exact Or.inl h
            · exact Or.inr ⟨j, by omega, hjk, hjc⟩
          · rintro (h | ⟨j, hj, hjk, hjc⟩)
            · exact Or.inl h
            · by_cases hji : j = i
              · subst hji
                exact absurd hjk hik
              · exact Or.inr ⟨j, by omega, hjk, hjc⟩)
    s ⟨hs, hinv, fun k => ⟨fun h => Or.inl h, fun h => by
      rcases h with h | ⟨j, hj, _⟩
      · exact h
      · exact absurd hj (Nat.not_lt_zero j)⟩⟩
  exact ⟨t, ht, hP⟩

/-! ## The effector map at the end of `flip8` -/

/-- With `region_ctx n p` and the seed of `n` zero bytes, flipping byte `i`
changes the hash exactly if `p i`. -/
theorem region_ctx_chg (n : Nat) (p : Nat → Bool) (m i : Nat) (hi : i < n) :
    ((region_ctx n p).harness m
        ((List.replicate n 0).set i ((List.replicate n 0).getD i 0 ^^^ 0xFF))).cksum
      ≠ (region_ctx n p).exec_cksum ↔ p i = true := by
  simp only [region_ctx, zeros_getD, getD_set, List.length_replicate]
  constructor
  · intro h
    by_contra hp
    apply h
    rw [if_pos]
    intro k _ hpk
    have hne : ¬ (i = k ∧ i < n) := by
      rintro ⟨rfl, _⟩
      exact hp hpk
    rw [if_neg hne]
  · intro hp h
    split_ifs at h with hall
    have := hall i hi hp
    rw [if_pos ⟨rfl, hi⟩] at this
    norm_num at this

/-- A map of zeros and ones whose entries equal to 1 are those at the indices
that satisfy `g`, written out. -/
theorem eff_map_as_fn (u : FState) (h : EffInv u) (g : Nat → Bool)
    (hg : ∀ k, u.eff_map.getD k 0 = 1 ↔ g k = true) :
    u.eff_map = (List.range (EFF_ALEN u.len)).map (fun k => if g k = true then 1 else 0) := by
  apply List.ext_getElem (by simp [h.1])
  intro k h1 h2
  simp only [List.getElem_map, List.getElem_range]
  have e := List.getD_eq_getElem u.eff_map 0 h1
  by_cases hk : g k = true
  · rw [if_pos hk, ← e]
    exact (hg k).mpr hk
  · rw [if_neg hk, ← e]
    by_contra hne
    exact hk ((hg k).mp (h.one_of_ne_zero u k hne))

/-- The map left by the percentage test, spelled out. -/
theorem eff_saturate_eff_map (s : FState) :
    (eff_saturate s).eff_map =
      if s.eff_cnt ≠ EFF_ALEN s.len ∧ s.eff_cnt * 100 / EFF_ALEN s.len > EFF_MAX_PERC then
        List.replicate (EFF_ALEN s.len) 1
      else s.eff_map := by
  unfold eff_saturate
  split_ifs <;> rfl

/-- The stage `flip8` on the seed `B` of at least `EFF_MIN_LEN` bytes, outside
dumb mode and with `eff_cnt` still 1: the loop ends in a state `u` whose map has
a 1 at entry 0, at the entry of the last byte and at the entries of the bytes
whose flip changed the hash, and the stage leaves the map of `u` after the
percentage test. -/
theorem flip8_stage_map (c : Ctx) (hna : ∀ n buf, (c.harness n buf).abandon = false)
    (hd : c.dumb_mode = false) (B : List Nat) (hL : B.length ≥ EFF_MIN_LEN) (chg : Nat → Bool)
    (hchg : ∀ n i, i < B.length →
      ((c.harness n (B.set i (B.getD i 0 ^^^ 0xFF))).cksum ≠ c.exec_cksum ↔ chg i = true))
    (s : FState) (hs : s.out_buf = B ∧ s.len = B.length) (hc : s.eff_cnt = 1) :
    ∃ u t, for_loop (flip8_body c) 0 s.len
        { eff_init s with stage_max := (s.len : Int), orig_hit_cnt := s.new_hit_cnt }
        = Ctl.next u ∧
      flip8_stage c s = Ctl.next t ∧ t.eff_map = (eff_saturate u).eff_map ∧
      EffInv u ∧ u.len = B.length ∧
      ∀ k, (u.eff_map.getD k 0 = 1 ↔
        (k = 0 ∨ k = EFF_APOS (B.length - 1) ∨
          ∃ j, j < B.length ∧ EFF_APOS j = k ∧ chg j = true)) := by
  have hL1 : 1 ≤ s.len := by rw [hs.2]; unfold EFF_MIN_LEN at hL; omega
  obtain ⟨u, hu, hu1, hu2, hu3⟩ := flip8_loop_map c hna hd B hL chg hchg
    { eff_init s with stage_max := (s.len : Int), orig_hit_cnt := s.new_hit_cnt }
    ⟨(eff_init_out_buf s).trans hs.1, (eff_init_frame s).1.trans hs.2⟩
    (eff_init_inv s hc hL1)
  rw [← hs.2] at hu
  have hu' : for_loop (flip8_body c) 0 s.len
      { eff_init s with stage_max := (s.len : Int), orig_hit_cnt := s.new_hit_cnt }
      = Ctl.next u := hu
  refine ⟨u, account StageId.FLIP8 u.stage_max (eff_saturate { u with stage_cur := u.stage_max }),
    hu', by simp only [flip8_stage, hu', Ctl.bind], ?_, hu2, hu1.2, ?_⟩
  · show (eff_saturate _).eff_map = _
    exact eff_saturate_congr _ _ rfl rfl rfl
  · intro k
    rw [hu3 k]
    have hi : (eff_init s).eff_map.getD k 0 = 1 ↔ (k = 0 ∨ k = EFF_APOS (B.length - 1)) := by
      by_cases hk : k < EFF_ALEN s.len
      · rw [eff_init_getD s k hk, hs.2]
        split_ifs with h
        · exact ⟨fun _ => h, fun _ => rfl⟩
        · exact ⟨fun h0 => absurd h0 (by norm_num), fun h0 => absurd h0 h⟩
      · rw [List.getD_eq_default _ _ (by rw [eff_init_length]; omega)]
        constructor
        · intro h0; exact absurd h0 (by norm_num)
        · intro h0
          exfalso
          apply hk
          rw [EFF_ALEN_eq]
          rcases h0 with h0 | h0
          · omega
          · rw [h0, EFF_APOS_eq, hs.2]; omega
    show ((eff_init s).eff_map.getD k 0 = 1 ∨ _) ↔ _
    rw [hi, or_assoc]

/-- The four stages `flip1` ... `flip8` on the seed `B`, as `flip8_stage_map`. -/
theorem flip_upto8_map (c : Ctx) (hna : ∀ n buf, (c.harness n buf).abandon = false)
    (hd : c.dumb_mode = false) (B : List Nat) (hL : B.length ≥ EFF_MIN_LEN) (chg : Nat → Bool)
    (hchg : ∀ n i, i < B.length →
      ((c.harness n (B.set i (B.getD i 0 ^^^ 0xFF))).cksum ≠ c.exec_cksum ↔ chg i = true)) :
    ∃ u t, flip_upto8 c (init_state B) = Ctl.next t ∧ t.eff_map = (eff_saturate u).eff_map ∧
      EffInv u ∧ u.len = B.length ∧
      ∀ k, (u.eff_map.getD k 0 = 1 ↔
        (k = 0 ∨ k = EFF_APOS (B.length - 1) ∨
          ∃ j, j < B.length ∧ EFF_APOS j = k ∧ chg j = true)) := by
  obtain ⟨t1, e1, p1, _⟩ := flip1_stage_log c hna B (init_state B) ⟨rfl, rfl⟩
  obtain ⟨t2, e2, p2, _⟩ := flip2_stage_log c hna B t1 p1
  obtain ⟨t3, e3, p3, _⟩ := flip4_stage_log c hna B t2 p2
  have c1 := (flip124_eff_cnt c (init_state B)).1
  have c2 := (flip124_eff_cnt c t1).2.1
  have c3 := (flip124_eff_cnt c t2).2.2
  rw [e1] at c1
  rw [e2] at c2
  rw [e3] at c3
  simp only [Ctl.state] at c1 c2 c3
  have hcnt : t3.eff_cnt = 1 := by rw [c3, c2, c1]; rfl
  obtain ⟨u, t, _, e4, h⟩ := flip8_stage_map c hna hd B hL chg hchg t3 p3 hcnt
  exact ⟨u, t, by simp only [flip_upto8, e1, e2, e3, e4, Ctl.bind], h⟩

/-! ## Scenario S3: effector pruning -/

/-- Reading the written-out map. -/
theorem map_range_getD (n : Nat) (f : Nat → Nat) (k : Nat) (hk : k < n) :
    ((List.range n).map f).getD k 0 = f k := by
  simp [List.getD_eq_getElem?_getD, List.getElem?_map, List.getElem?_range, hk]

/-- Scenario S3 up to the end of `flip8`: the map consulted by `flip16`. -/
theorem pruning_map (c : Ctx) (B : List Nat)
    (hna : ∀ n buf, (c.harness n buf).abandon = false) (hd : c.dumb_mode = false)
    (hB : B.length = 1024)
    (hchg : ∀ n i, i < 1024 →
      ((c.harness n (B.set i (B.getD i 0 ^^^ 0xFF))).cksum ≠ c.exec_cksum ↔ i < 512)) :
    ∃ t, flip_upto8 c (init_state B) = Ctl.next t ∧
      t.eff_map = (List.range 128).map (fun k => if k < 64 ∨ k = 127 then 1 else 0) := by
  obtain ⟨u, t, e, hm, hinv, hlen, hk⟩ := flip_upto8_map c hna hd B
    (by rw [hB]; decide) (fun i => decide (i < 512))
    (fun n i hi => by
      rw [hB] at hi
      rw [hchg n i hi]
      simp)
  have hA : EFF_ALEN u.len = 128 := by rw [hlen, hB]; decide
  have hfn := eff_map_as_fn u hinv (fun k => decide (k < 64 ∨ k = 127)) (fun k => by
    rw [hk k, hB]
    simp only [EFF_APOS_eq, decide_eq_true_eq]
    constructor
    · rintro (h | h | ⟨j, _, h1, h2⟩) <;> omega
    · rintro (h | h)
      · exact Or.inr (Or.inr ⟨8 * k, by omega, by omega, by omega⟩)
      · exact Or.inr (Or.inl (by omega)))
  rw [hA] at hfn
  simp only [decide_eq_true_eq] at hfn
  have hcnt : u.eff_cnt = 65 := by
    rw [hinv.2.2, hfn]
    decide
  refine ⟨t, e, ?_⟩
  rw [hm, eff_saturate_eff_map, hcnt, hA, if_neg (by decide), hfn]

/-- C16, amended: scenario S3. Outside dumb mode, for a seed of 1024 bytes and a
harness that never asks to abandon, if the hash of the run with byte `i` fully
flipped differs from the baseline for `i < 512` and equals it for
`512 <= i < 1024`, then the stages up to `flip8` run to their end, the effector
entry `E[k]` they leave is 0 for every `k` in `[64, 127)` and 1 for `k = 127`,
the entry of the last byte, and the round of `flip16` at offset 512 submits
nothing and lowers `stage_max` by one. -/
theorem effector_pruning (c : Ctx) (B : List Nat)
    (hna : ∀ n buf, (c.harness n buf).abandon = false) (hd : c.dumb_mode = false)
    (hB : B.length = 1024)
    (hchg : ∀ n i, i < 1024 →
      ((c.harness n (B.set i (B.getD i 0 ^^^ 0xFF))).cksum ≠ c.exec_cksum ↔ i < 512)) :
    ∃ t, flip_upto8 c (init_state B) = Ctl.next t ∧
      (∀ k, 64 ≤ k → k < 127 → t.eff_map.getD k 0 = 0) ∧ t.eff_map.getD 127 0 = 1 ∧
      ∀ u : FState, u.eff_map = t.eff_map →
        flip16_body c 512 u = Ctl.next { u with stage_max := u.stage_max - 1 } := by
  obtain ⟨t, e, hm⟩ := pruning_map c B hna hd hB hchg
  refine ⟨t, e, ?_, ?_, ?_⟩
  · intro k h1 h2
    rw [hm, map_range_getD _ _ k (by omega), if_neg (by omega)]
  · rw [hm, map_range_getD _ _ 127 (by omega), if_pos (by omega)]
  · intro u hu
    have hs : eff_skip2 u 512 = true := by
      unfold eff_skip2
      have h1 : EFF_APOS 512 = 64 := by decide
      have h2 : EFF_APOS (512 + 1) = 64 := by decide
      rw [hu, hm, h1, h2, map_range_getD _ _ 64 (by omega)]
      decide
    unfold flip16_body
    rw [if_pos hs]

/-- Scenario S3 applied to 1024 zero bytes and a harness whose hash changes
exactly when one of the first 512 bytes is not 0. -/
theorem effector_pruning_witness :
    ∃ t, flip_upto8 (region_ctx 1024 (fun k => decide (k < 512)))
        (init_state (List.replicate 1024 0)) = Ctl.next t ∧
      (∀ k, 64 ≤ k → k < 127 → t.eff_map.getD k 0 = 0) ∧ t.eff_map.getD 127 0 = 1 ∧
      ∀ u : FState, u.eff_map = t.eff_map →
        flip16_body (region_ctx 1024 (fun k => decide (k < 512))) 512 u
          = Ctl.next { u with stage_max := u.stage_max - 1 } :=
  effector_pruning (region_ctx 1024 (fun k => decide (k < 512))) (List.replicate 1024 0)
    (fun _ _ => rfl) rfl (List.length_replicate _ _)
    (fun n i hi => by
      rw [region_ctx_chg 1024 _ n i hi]
      simp)

/-- C16, counterexample: with 1024 zero bytes and a harness whose hash changes
exactly when one of the first 512 bytes is not 0, the hypotheses of scenario S3
hold and the effector entry `E[127]`, which lies in `[64, 128)`, is 1 after
`flip8`. -/
theorem effector_pruning_counterexample :
    (region_ctx 1024 (fun k => decide (k < 512))).dumb_mode = false ∧
    (∀ n i, i < 1024 →
      (((region_ctx 1024 (fun k => decide (k < 512))).harness n
          ((List.replicate 1024 0).set i ((List.replicate 1024 0).getD i 0 ^^^ 0xFF))).cksum
        ≠ (region_ctx 1024 (fun k => decide (k < 512))).exec_cksum ↔ i < 512)) ∧
    ∃ t, flip_upto8 (region_ctx 1024 (fun k => decide (k < 512)))
        (init_state (List.replicate 1024 0)) = Ctl.next t ∧
      64 ≤ 127 ∧ 127 < 128 ∧ t.eff_map.getD 127 0 = 1 := by
  have hchg : ∀ n i, i < 1024 →
      (((region_ctx 1024 (fun k => decide (k < 512))).harness n
          ((List.replicate 1024 0).set i ((List.replicate 1024 0).getD i 0 ^^^ 0xFF))).cksum
        ≠ (region_ctx 1024 (fun k => decide (k < 512))).exec_cksum ↔ i < 512) :=
    fun n i hi => by
      rw [region_ctx_chg 1024 _ n i hi]
      simp
  obtain ⟨t, e, hm⟩ := pruning_map (region_ctx 1024 (fun k => decide (k < 512)))
    (List.replicate 1024 0) (fun _ _ => rfl) rfl (List.length_replicate _ _) hchg
  refine ⟨rfl, hchg, t, e, by decide, by decide, ?_⟩
  rw [hm, map_range_getD _ _ 127 (by omega), if_pos (by omega)]

/-! ## Saturation of the effector map -/

/-- The loop of `flip8` with a harness that never asks to abandon keeps the
invariant of the map. -/
theorem flip8_loop_inv (c : Ctx) (hna : ∀ n buf, (c.harness n buf).abandon = false)
    (s : FState) (hinv : EffInv s) :
    ∃ u, for_loop (flip8_body c) 0 s.len s = Ctl.next u ∧ EffInv u ∧ u.len = s.len := by
  obtain ⟨u, hu, h1, h2⟩ := for_each_next (flip8_body c)
    (fun t : FState => EffInv t ∧ t.len = s.len) (List.range' 0 s.len)
    (fun i hi t ht => by
      rw [List.mem_range'_1] at hi
      obtain ⟨v, hv, _⟩ := flip8_body_restores c hna t.out_buf i t rfl
      have h := flip8_body_eff c i t (by rw [ht.2]; omega) ht.1
      rw [hv] at h
      exact ⟨v, hv, h.1, h.2.1.trans ht.2⟩)
    s ⟨hinv, rfl⟩
  exact ⟨u, hu, h1, h2⟩

/-- C20, amended: saturation of the effector map. For every seed of at least
one byte, with `eff_cnt = 1` before the set-up of the map and a harness that
never asks to abandon, the loop of `flip8` ends in a state `u` and the stage in
a state `t` whose map, the one the later stages consult, has `EFF_ALEN(len)`
entries; if the whole percentage `floor(100 * ones / entries)` of the map of
`u` is strictly more than `EFF_MAX_PERC` (90), that is if
`100 * ones >= 91 * entries`, then every entry of the map of `t` is 1. -/
theorem eff_saturation (c : Ctx) (s : FState)
    (hna : ∀ n buf, (c.harness n buf).abandon = false) (hc : s.eff_cnt = 1) (hL : 1 ≤ s.len) :
    ∃ u t, for_loop (flip8_body c) 0 s.len
        { eff_init s with stage_max := (s.len : Int), orig_hit_cnt := s.new_hit_cnt }
        = Ctl.next u ∧
      flip8_stage c s = Ctl.next t ∧ t.eff_map.length = EFF_ALEN s.len ∧
      (u.eff_map.count 1 * 100 / u.eff_map.length > EFF_MAX_PERC → ∀ x ∈ t.eff_map, x = 1) := by
  obtain ⟨u, hu, hinv, hlen⟩ := flip8_loop_inv c hna
    { eff_init s with stage_max := (s.len : Int), orig_hit_cnt := s.new_hit_cnt }
    (eff_init_inv s hc hL)
  have hlen' : u.len = s.len := hlen.trans (eff_init_frame s).1
  have hu' : for_loop (flip8_body c) 0 s.len
      { eff_init s with stage_max := (s.len : Int), orig_hit_cnt := s.new_hit_cnt }
      = Ctl.next u := by
    rw [← hu]
    exact congrArg (fun n => for_loop (flip8_body c) 0 n _) (eff_init_frame s).1.symm
  have hm : (account StageId.FLIP8 u.stage_max
      (eff_saturate { u with stage_cur := u.stage_max })).eff_map = (eff_saturate u).eff_map :=
    eff_saturate_congr _ _ rfl rfl rfl
  refine ⟨u, account StageId.FLIP8 u.stage_max (eff_saturate { u with stage_cur := u.stage_max }),
    hu', by simp only [flip8_stage, hu', Ctl.bind], ?_, ?_⟩
  · rw [hm, eff_saturate_eff_map]
    split_ifs
    · rw [List.length_replicate, hlen']
    · rw [hinv.1, hlen']
  · intro hd
    rw [hm]
    apply eff_saturate_ones u hinv
    rw [hinv.2.2, ← hinv.1]
    exact hd

/-- The saturation applied to the seed `01 02 03`: too short for the hash to be
consulted, so its one entry is set. -/
theorem eff_saturation_witness :
    ∃ u t, for_loop (flip8_body (quiet_ctx [] [])) 0 (init_state [1, 2, 3]).len
        { eff_init (init_state [1, 2, 3]) with
          stage_max := ((init_state [1, 2, 3]).len : Int)
          orig_hit_cnt := (init_state [1, 2, 3]).new_hit_cnt }
        = Ctl.next u ∧
      flip8_stage (quiet_ctx [] []) (init_state [1, 2, 3]) = Ctl.next t ∧
      t.eff_map.length = EFF_ALEN (init_state [1, 2, 3]).len ∧
      (u.eff_map.count 1 * 100 / u.eff_map.length > EFF_MAX_PERC → ∀ x ∈ t.eff_map, x = 1) :=
  eff_saturation (quiet_ctx [] []) (init_state [1, 2, 3]) (fun _ _ => rfl) rfl (by decide)

/-- C20, counterexample: a seed of 168 zero bytes and a harness whose hash
changes exactly when a byte outside `[8, 24)` is not 0. At the end of the loop
of `flip8` 19 of the 21 entries of the map are 1, strictly more than 90 percent
(`100 * 19 > 90 * 21`), and entry 1 of the map the later stages consult is 0:
`19 * 100 / 21` is 90 in whole numbers. -/
theorem eff_saturation_counterexample :
    ∃ u t, for_loop (flip8_body (region_ctx 168 (fun k => decide (k < 8 ∨ 24 ≤ k)))) 0
        (init_state (List.replicate 168 0)).len
        { eff_init (init_state (List.replicate 168 0)) with
          stage_max := ((init_state (List.replicate 168 0)).len : Int)
          orig_hit_cnt := (init_state (List.replicate 168 0)).new_hit_cnt }
        = Ctl.next u ∧
      flip8_stage (region_ctx 168 (fun k => decide (k < 8 ∨ 24 ≤ k)))
        (init_state (List.replicate 168 0)) = Ctl.next t ∧
      u.eff_map.length = 21 ∧ u.eff_map.count 1 = 19 ∧
      u.eff_map.count 1 * 100 > EFF_MAX_PERC * u.eff_map.length ∧
      t.eff_map.getD 1 0 = 0 := by
  have hB : (List.replicate 168 0).length = 168 := List.length_replicate _ _
  obtain ⟨u, t, hu, ht, hm, hinv, hlen, hk⟩ := flip8_stage_map
    (region_ctx 168 (fun k => decide (k < 8 ∨ 24 ≤ k))) (fun _ _ => rfl) rfl
    (List.replicate 168 0) (by rw [hB]; decide) (fun k => decide (k < 8 ∨ 24 ≤ k))
    (fun n i hi => by
      rw [hB] at hi
      exact region_ctx_chg 168 _ n i hi)
    (init_state (List.replicate 168 0)) ⟨rfl, rfl⟩ rfl
  have hA : EFF_ALEN u.len = 21 := by rw [hlen, hB]; decide
  have hfn := eff_map_as_fn u hinv (fun k => decide (k = 0 ∨ (3 ≤ k ∧ k < 21))) (fun k => by
    rw [hk k, hB]
    simp only [EFF_APOS_eq, decide_eq_true_eq]
    constructor
    · rintro (h | h | ⟨j, _, h1, h2⟩) <;> omega
    · rintro (h | h)
      · exact Or.inl h
      · exact Or.inr (Or.inr ⟨8 * k, by omega, by omega, by omega⟩))
  rw [hA] at hfn
  simp only [decide_eq_true_eq] at hfn
  have hcnt : u.eff_map.count 1 = 19 := by rw [hfn]; decide
  have hlen2 : u.eff_map.length = 21 := by rw [hinv.1, hA]
  refine ⟨u, t, hu, ht, hlen2, hcnt, by rw [hcnt, hlen2]; decide, ?_⟩
  rw [hm, eff_saturate_eff_map, hinv.2.2, hcnt, hA, if_neg (by decide), hfn]
  decide

/-! ## The stages after `flip8` leave the effector map alone -/

/-- A harness call does not touch the effector map. -/
theorem submit_eff_map (c : Ctx) (s : FState) : (submit c s).state.eff_map = s.eff_map := by
  rcases submit_cases c s with e | e <;> rw [e] <;> rfl

/-- A guarded harness call does not touch the effector map. -/
theorem attempt_eff_map (c : Ctx) (cond : Bool) (buf : List Nat) (val : Int) (s : FState) :
    (attempt c cond buf val s).state.eff_map = s.eff_map := by
  unfold attempt
  split_ifs
  · rcases submit_cases c { s with stage_cur_val := val, out_buf := buf } with e | e <;>
      rw [e] <;> rfl
  · rfl

/-- A block made of a harness call and a state update that keeps the map. -/
theorem submit_then_eff_map (c : Ctx) (s : FState) (g : FState → FState)
    (hg : ∀ t, (g t).eff_map = t.eff_map) :
    ((submit c s).bind (fun t => Ctl.next (g t))).state.eff_map = s.eff_map := by
  rcases submit_cases c s with e | e <;> rw [e]
  · rfl
  · exact hg _

/-- A loop whose rounds keep the effector map keeps it. -/
theorem for_each_eff_map {α : Type} (body : α → FState → Ctl FState)
    (h : ∀ x s, (body x s).state.eff_map = s.eff_map) (xs : List α) (s : FState) :
    (for_each body xs s).state.eff_map = s.eff_map :=
  for_each_state_inv body (fun t : FState => t.eff_map = s.eff_map) xs
    (fun x _ t ht => (h x t).trans ht) s rfl

/-- A stage made of a loop and the final accounting keeps the effector map. -/
theorem stage_eff_map (body : Nat → FState → Ctl FState)
    (h : ∀ i s, (body i s).state.eff_map = s.eff_map) (n : Nat) (s0 : FState)
    (g : FState → FState) (hg : ∀ t, (g t).eff_map = t.eff_map) :
    ((for_loop body 0 n s0).bind (fun t => Ctl.next (g t))).state.eff_map = s0.eff_map :=
  bind_state_inv _ _ (fun t : FState => t.eff_map = s0.eff_map)
    (for_each_eff_map body h _ s0) (fun t ht => (hg t).trans ht)

/-- The rounds of `flip16` and `flip32` keep the effector map. -/
theorem flip16_32_body_eff_map (c : Ctx) (i : Nat) (s : FState) :
    (flip16_body c i s).state.eff_map = s.eff_map ∧
    (flip32_body c i s).state.eff_map = s.eff_map := by
  constructor
  · unfold flip16_body
    split_ifs
    · rfl
    · exact submit_then_eff_map c _ _ (fun _ => rfl)
  · unfold flip32_body
    split_ifs
    · rfl
    · exact submit_then_eff_map c _ _ (fun _ => rfl)

/-- The inner rounds of the arithmetic stages keep the effector map. -/
theorem arith_inner_eff_map (c : Ctx) (i orig j : Nat) (s : FState) :
    (arith8_inner c i orig j s).state.eff_map = s.eff_map ∧
    (arith16_inner c i orig j s).state.eff_map = s.eff_map ∧
    (arith32_inner c i orig j s).state.eff_map = s.eff_map := by
  refine ⟨?_, ?_, ?_⟩
  · unfold arith8_inner
    refine bind_state_inv _ _ (fun t : FState => t.eff_map = s.eff_map)
      (attempt_eff_map _ _ _ _ _) (fun t ht => ?_)
    exact bind_state_inv _ _ (fun u : FState => u.eff_map = s.eff_map)
      ((attempt_eff_map _ _ _ _ _).trans ht) (fun u hu => hu)
  · unfold arith16_inner
    simp only
    refine bind_state_inv _ _ (fun t : FState => t.eff_map = s.eff_map)
      (attempt_eff_map _ _ _ _ _) (fun t ht => ?_)
    refine bind_state_inv _ _ (fun t : FState => t.eff_map = s.eff_map)
      ((attempt_eff_map _ _ _ _ _).trans ht) (fun t ht => ?_)
    refine bind_state_inv _ _ (fun t : FState => t.eff_map = s.eff_map)
      ((attempt_eff_map _ _ _ _ _).trans ht) (fun t ht => ?_)
    exact bind_state_inv _ _ (fun u : FState => u.eff_map = s.eff_map)
      ((attempt_eff_map _ _ _ _ _).trans ht) (fun u hu => hu)
  · unfold arith32_inner
    simp only
    refine bind_state_inv _ _ (fun t : FState => t.eff_map = s.eff_map)
      (attempt_eff_map _ _ _ _ _) (fun t ht => ?_)
    refine bind_state_inv _ _ (fun t : FState => t.eff_map = s.eff_map)
      ((attempt_eff_map _ _ _ _ _).trans ht) (fun t ht => ?_)
    refine bind_state_inv _ _ (fun t : FState => t.eff_map = s.eff_map)
      ((attempt_eff_map _ _ _ _ _).trans ht) (fun t ht => ?_)
    exact bind_state_inv _ _ (fun u : FState => u.eff_map = s.eff_map)
      ((attempt_eff_map _ _ _ _ _).trans ht) (fun u hu => hu)

/-- The rounds of the arithmetic stages keep the effector map. -/
theorem arith_body_eff_map (c : Ctx) (i : Nat) (s : FState) :
    (arith8_body c i s).state.eff_map = s.eff_map ∧
    (arith16_body c i s).state.eff_map = s.eff_map ∧
    (arith32_body c i s).state.eff_map = s.eff_map := by
  refine ⟨?_, ?_, ?_⟩
  · unfold arith8_body
    simp only
    split_ifs
    · rfl
    · exact for_each_eff_map _ (fun j t => (arith_inner_eff_map c i _ j t).1) _ _
  · unfold arith16_body
    simp only
    split_ifs
    · rfl
    · exact for_each_eff_map _ (fun j t => (arith_inner_eff_map c i _ j t).2.1) _ _
  · unfold arith32_body
    simp only
    split_ifs
    · rfl
    · exact for_each_eff_map _ (fun j t => (arith_inner_eff_map c i _ j t).2.2) _ _

/-- The inner rounds of the interesting-value stages keep the effector map. -/
theorem interest_inner_eff_map (c : Ctx) (i orig : Nat) (v : Int) (s : FState) :
    (interest8_inner c i orig v s).state.eff_map = s.eff_map ∧
    (interest16_inner c i orig v s).state.eff_map = s.eff_map ∧
    (interest32_inner c i orig v s).state.eff_map = s.eff_map := by
  refine ⟨?_, ?_, ?_⟩
  · unfold interest8_inner
    split_ifs
    · rfl
    · exact submit_then_eff_map c _ _ (fun _ => rfl)
  · unfold interest16_inner
    exact bind_state_inv _ _ (fun t : FState => t.eff_map = s.eff_map)
      (attempt_eff_map _ _ _ _ _) (fun t ht => (attempt_eff_map _ _ _ _ _).trans ht)
  · unfold interest32_inner
    exact bind_state_inv _ _ (fun t : FState => t.eff_map = s.eff_map)
      (attempt_eff_map _ _ _ _ _) (fun t ht => (attempt_eff_map _ _ _ _ _).trans ht)

/-- The rounds of the interesting-value stages keep the effector map. -/
theorem interest_body_eff_map (c : Ctx) (i : Nat) (s : FState) :
    (interest8_body c i s).state.eff_map = s.eff_map ∧
    (interest16_body c i s).state.eff_map = s.eff_map ∧
    (interest32_body c i s).state.eff_map = s.eff_map := by
  refine ⟨?_, ?_, ?_⟩
  · unfold interest8_body
    simp only
    split_ifs
    · rfl
    · exact for_each_eff_map _ (fun v t => (interest_inner_eff_map c i _ v t).1) _ _
  · unfold interest16_body
    simp only
    split_ifs
    · rfl
    · exact bind_state_inv _ _ (fun t : FState => t.eff_map = s.eff_map)
        (for_each_eff_map _ (fun v t => (interest_inner_eff_map c i _ v t).2.1) _ _)
        (fun t ht => ht)
  · unfold interest32_body
    simp only
    split_ifs
    · rfl
    · exact bind_state_inv _ _ (fun t : FState => t.eff_map = s.eff_map)
        (for_each_eff_map _ (fun v t => (interest_inner_eff_map c i _ v t).2.2) _ _)
        (fun t ht => ht)

/-! ## The dictionary stages and the havoc stage leave the effector map alone -/

/-- The rounds of the dictionary stages keep the effector map. -/
theorem ext_inner_eff_map (c : Ctx) (i : Nat) (tok : List Nat) (s : FState) :
    (ext_UO_inner c i tok s).state.eff_map = s.eff_map ∧
    (ext_UI_inner c i tok s).state.eff_map = s.eff_map ∧
    (ext_AO_inner c i tok s).state.eff_map = s.eff_map := by
  have hw : ∀ t : FState, (extras_write c i tok t).state.eff_map = t.eff_map := fun t =>
    submit_then_eff_map c _ _ (fun _ => rfl)
  have key : ∀ s1 : FState, s1.eff_map = s.eff_map → ∀ b : Bool,
      (if b = true then Ctl.next { s1 with stage_max := s1.stage_max - 1 }
        else extras_write c i tok s1).state.eff_map = s.eff_map := by
    intro s1 h b
    cases b
    · exact (hw s1).trans h
    · exact h
  refine ⟨?_, ?_, ?_⟩
  · unfold ext_UO_inner
    simp only
    apply key
    split_ifs <;> rfl
  · unfold ext_UI_inner
    simp only
    split_ifs <;> rfl
  · unfold ext_AO_inner
    exact key s rfl _

/-- The outer rounds of the dictionary stages keep the effector map. -/
theorem ext_body_eff_map (c : Ctx) (i : Nat) (s : FState) :
    (ext_UO_body c i s).state.eff_map = s.eff_map ∧
    (ext_UI_body c i s).state.eff_map = s.eff_map ∧
    (ext_AO_body c i s).state.eff_map = s.eff_map := by
  refine ⟨?_, ?_, ?_⟩
  · unfold ext_UO_body
    exact bind_state_inv _ _ (fun t : FState => t.eff_map = s.eff_map)
      (for_each_eff_map _ (fun v t => (ext_inner_eff_map c i v t).1) _ _) (fun t ht => ht)
  · unfold ext_UI_body
    exact bind_state_inv _ _ (fun t : FState => t.eff_map = s.eff_map)
      (for_each_eff_map _ (fun v t => (ext_inner_eff_map c i v t).2.1) _ _) (fun t ht => ht)
  · unfold ext_AO_body
    exact bind_state_inv _ _ (fun t : FState => t.eff_map = s.eff_map)
      (for_each_eff_map _ (fun v t => (ext_inner_eff_map c i v t).2.2) _ _) (fun t ht => ht)

/-- The relation `Kept` is reflexive. -/
theorem Kept_refl (s : FState) : Kept s s := ⟨rfl, rfl, rfl, rfl⟩

/-- The relation `Kept` is transitive. -/
theorem Kept_trans {s t u : FState} (h1 : Kept s t) (h2 : Kept t u) : Kept s u :=
  ⟨h2.1.trans h1.1, h2.2.1.trans h1.2.1, h2.2.2.1.trans h1.2.2.1, h2.2.2.2.trans h1.2.2.2⟩

/-- A draw does not touch the effector map. -/
theorem tick_eff_map (t : FState) : (tick t).eff_map = t.eff_map := rfl

/-- A draw does not touch `stage_max`. -/
theorem tick_stage_max (t : FState) : (tick t).stage_max = t.stage_max := rfl

/-- A draw does not touch `perf_score`. -/
theorem tick_perf_score (t : FState) : (tick t).perf_score = t.perf_score := rfl

/-- A draw does not touch `havoc_queued`. -/
theorem tick_havoc_queued (t : FState) : (tick t).havoc_queued = t.havoc_queued := rfl

/-- Case 13 keeps the map and the budget. -/
theorem havoc_case13_kept (c : Ctx) (s : FState) : Kept s (havoc_case13 c s) := by
  unfold havoc_case13
  refine ⟨?_, ?_, ?_, ?_⟩
  · simp only [apply_ite FState.eff_map, tick_eff_map, ite_self]
  · simp only [apply_ite FState.stage_max, tick_stage_max, ite_self]
  · simp only [apply_ite FState.perf_score, tick_perf_score, ite_self]
  · simp only [apply_ite FState.havoc_queued, tick_havoc_queued, ite_self]

/-- Case 14 keeps the map and the budget. -/
theorem havoc_case14_kept (c : Ctx) (s : FState) : Kept s (havoc_case14 c s) := by
  unfold havoc_case14
  refine ⟨?_, ?_, ?_, ?_⟩
  · simp only [apply_ite FState.eff_map, tick_eff_map, ite_self]
  · simp only [apply_ite FState.stage_max, tick_stage_max, ite_self]
  · simp only [apply_ite FState.perf_score, tick_perf_score, ite_self]
  · simp only [apply_ite FState.havoc_queued, tick_havoc_queued, ite_self]

/-- Case 15 keeps the map and the budget. -/
theorem havoc_case15_kept (c : Ctx) (s : FState) : Kept s (havoc_case15 c s) := by
  unfold havoc_case15 use_auto_tick
  refine ⟨?_, ?_, ?_, ?_⟩
  · simp only [apply_ite FState.eff_map, tick_eff_map, ite_self]
  · simp only [apply_ite FState.stage_max, tick_stage_max, ite_self]
  · simp only [apply_ite FState.perf_score, tick_perf_score, ite_self]
  · simp only [apply_ite FState.havoc_queued, tick_havoc_queued, ite_self]

/-- Case 16 keeps the map and the budget. -/
theorem havoc_case16_kept (c : Ctx) (s : FState) : Kept s (havoc_case16 c s) := by
  unfold havoc_case16 use_auto_tick
  refine ⟨?_, ?_, ?_, ?_⟩
  · simp only [apply_ite FState.eff_map, tick_eff_map, ite_self]
  · simp only [apply_ite FState.stage_max, tick_stage_max, ite_self]
  · simp only [apply_ite FState.perf_score, tick_perf_score, ite_self]
  · simp only [apply_ite FState.havoc_queued, tick_havoc_queued, ite_self]

/-- One stacked mutation keeps the map and the budget. -/
theorem havoc_op_kept (c : Ctx) (s : FState) : Kept s (havoc_op c s) := by
  unfold havoc_op
  simp only
  split
  · exact Kept_refl s
  · exact Kept_refl s
  · unfold havoc_case2; split_ifs <;> exact Kept_refl s
  · unfold havoc_case3; split_ifs <;> exact Kept_refl s
  · exact Kept_refl s
  · exact Kept_refl s
  · unfold havoc_case6; split_ifs <;> exact Kept_refl s
  · unfold havoc_case7; split_ifs <;> exact Kept_refl s
  · unfold havoc_case8; split_ifs <;> exact Kept_refl s
  · unfold havoc_case9; split_ifs <;> exact Kept_refl s
  · exact Kept_refl s
  · unfold havoc_case11; split_ifs <;> exact Kept_refl s
  · unfold havoc_case11; split_ifs <;> exact Kept_refl s
  · exact havoc_case13_kept c (tick s)
  · exact havoc_case14_kept c (tick s)
  · exact havoc_case15_kept c (tick s)
  · exact havoc_case16_kept c (tick s)
  · exact Kept_refl s

/-- The stacked mutations of one round keep the map and the budget. -/
theorem havoc_stack_kept (c : Ctx) (n : Nat) : ∀ s, Kept s (havoc_stack c n s) := by
  induction n with
  | zero => intro s; exact Kept_refl s
  | succ n ih => intro s; exact Kept_trans (havoc_op_kept c s) (ih (havoc_op c s))

/-! ## Effector monotonicity -/

/-- The restoration after a havoc round keeps the effector map. -/
theorem havoc_restore_eff_map (s : FState) : (havoc_restore s).eff_map = s.eff_map := by
  unfold havoc_restore
  simp only
  split_ifs <;> rfl

/-- A round of the havoc loop keeps the effector map. -/
theorem havoc_iter_eff_map (c : Ctx) (s : FState) :
    (havoc_iter c s).state.eff_map = s.eff_map := by
  have h := (havoc_stack_kept c (1 <<< (1 + UR_val c s HAVOC_STACK_POW2))
    { tick s with stage_cur_val := ((1 <<< (1 + UR_val c s HAVOC_STACK_POW2) : Nat) : Int) }).1
  unfold havoc_iter
  simp only
  generalize havoc_stack c (1 <<< (1 + UR_val c s HAVOC_STACK_POW2))
    { tick s with stage_cur_val := ((1 <<< (1 + UR_val c s HAVOC_STACK_POW2) : Nat) : Int) }
    = S1 at h ⊢
  split_ifs
  · exact h
  · exact (havoc_restore_eff_map _).trans h

/-- The havoc loop keeps the effector map. -/
theorem havoc_loop_eff_map (c : Ctx) (fuel : Nat) :
    ∀ s : FState, (havoc_loop c fuel s).state.eff_map = s.eff_map := by
  induction fuel with
  | zero => intro s; rfl
  | succ n ih =>
    intro s
    unfold havoc_loop
    split_ifs
    · exact bind_state_inv _ _ (fun t : FState => t.eff_map = s.eff_map)
        (havoc_iter_eff_map c s) (fun t ht => (ih _).trans ht)
    · rfl

/-- The havoc stage keeps the effector map. -/
theorem havoc_stage_eff_map (c : Ctx) (fuel : Nat) (s : FState) :
    (havoc_stage c fuel s).state.eff_map = s.eff_map := by
  unfold havoc_stage
  simp only
  refine bind_state_inv _ _ (fun t : FState => t.eff_map = s.eff_map)
    ((havoc_loop_eff_map c fuel _).trans ?_) (fun t ht => ht)
  simp only [apply_ite FState.eff_map, ite_self]

/-- Every stage after `flip8` keeps the effector map, however it ends. -/
theorem later_stage_eff_map (k : LaterStage) (c : Ctx) (s : FState) :
    (k.run c s).state.eff_map = s.eff_map := by
  cases k with
  | flip16 =>
    show (flip16_stage c s).state.eff_map = _
    unfold flip16_stage
    split_ifs
    · rfl
    · exact stage_eff_map _ (fun i t => (flip16_32_body_eff_map c i t).1) _ _ _ (fun _ => rfl)
  | flip32 =>
    show (flip32_stage c s).state.eff_map = _
    unfold flip32_stage
    split_ifs
    · rfl
    · exact stage_eff_map _ (fun i t => (flip16_32_body_eff_map c i t).2) _ _ _ (fun _ => rfl)
  | arith8 =>
    exact stage_eff_map _ (fun i t => (arith_body_eff_map c i t).1) _ _ _ (fun _ => rfl)
  | arith16 =>
    show (arith16_stage c s).state.eff_map = _
    unfold arith16_stage
    split_ifs
    · rfl
    · exact stage_eff_map _ (fun i t => (arith_body_eff_map c i t).2.1) _ _ _ (fun _ => rfl)
  | arith32 =>
    show (arith32_stage c s).state.eff_map = _
    unfold arith32_stage
    split_ifs
    · rfl
    · exact stage_eff_map _ (fun i t => (arith_body_eff_map c i t).2.2) _ _ _ (fun _ => rfl)
  | interest8 =>
    exact stage_eff_map _ (fun i t => (interest_body_eff_map c i t).1) _ _ _ (fun _ => rfl)
  | interest16 =>
    show (interest16_stage c s).state.eff_map = _
    unfold interest16_stage
    split_ifs
    · rfl
    · exact stage_eff_map _ (fun i t => (interest_body_eff_map c i t).2.1) _ _ _ (fun _ => rfl)
  | interest32 =>
    show (interest32_stage c s).state.eff_map = _
    unfold interest32_stage
    split_ifs
    · rfl
    · exact stage_eff_map _ (fun i t => (interest_body_eff_map c i t).2.2) _ _ _ (fun _ => rfl)
  | ext_UO =>
    show (ext_UO_stage c s).state.eff_map = _
    unfold ext_UO_stage
    split_ifs
    · rfl
    · exact stage_eff_map _ (fun i t => (ext_body_eff_map c i t).1) _ _ _ (fun _ => rfl)
  | ext_UI =>
    show (ext_UI_stage c s).state.eff_map = _
    unfold ext_UI_stage
    split_ifs
    · rfl
    · exact stage_eff_map _ (fun i t => (ext_body_eff_map c i t).2.1) _ _ _ (fun _ => rfl)
  | ext_AO =>
    show (ext_AO_stage c s).state.eff_map = _
    unfold ext_AO_stage
    split_ifs
    · rfl
    · exact stage_eff_map _ (fun i t => (ext_body_eff_map c i t).2.2) _ _ _ (fun _ => rfl)
  | havoc fuel => exact havoc_stage_eff_map c fuel s

/-- The order on effector maps is reflexive. -/
theorem EffLe_refl (s : FState) : EffLe s s := fun _ h => h

/-- The order on effector maps is transitive. -/
theorem EffLe_trans {s t u : FState} (h1 : EffLe s t) (h2 : EffLe t u) : EffLe s u :=
  fun k h => h2 k (h1 k h)

/-- The percentage test only adds entries equal to 1. -/
theorem eff_saturate_le (s : FState) (hl : s.eff_map.length = EFF_ALEN s.len) :
    EffLe s (eff_saturate s) := by
  intro k hk
  rw [eff_saturate_eff_map]
  split_ifs
  · have hlt : k < s.eff_map.length := by
      by_contra hge
      rw [List.getD_eq_default _ _ (by omega)] at hk
      exact absurd hk (by norm_num)
    rw [List.getD_eq_getElem _ _ (by rw [List.length_replicate, ← hl]; exact hlt)]
    simp
  · exact hk

/-- A round of `flip8`, however it ends, only adds entries equal to 1 and
keeps the size of the map and `len`. -/
theorem flip8_body_le (c : Ctx) (i : Nat) (s : FState) :
    EffLe s (flip8_body c i s).state ∧
    (flip8_body c i s).state.eff_map.length = s.eff_map.length ∧
    (flip8_body c i s).state.len = s.len := by
  unfold flip8_body
  rcases submit_cases c { s with
      stage_cur := i, stage_cur_byte := i
      out_buf := s.out_buf.set i (s.out_buf.getD i 0 ^^^ 0xFF) } with e | e
  · rw [e]
    exact ⟨EffLe_refl s, rfl, rfl⟩
  · rw [e]
    simp only [Ctl.bind, Ctl.state]
    have hl := eff_mark_le c i (common_fuzz_stuff c { s with
      stage_cur := i, stage_cur_byte := i
      out_buf := s.out_buf.set i (s.out_buf.getD i 0 ^^^ 0xFF) }
      (s.out_buf.set i (s.out_buf.getD i 0 ^^^ 0xFF)) s.len).1
    have hf := (eff_mark_frame c i (common_fuzz_stuff c { s with
      stage_cur := i, stage_cur_byte := i
      out_buf := s.out_buf.set i (s.out_buf.getD i 0 ^^^ 0xFF) }
      (s.out_buf.set i (s.out_buf.getD i 0 ^^^ 0xFF)) s.len).1).1
    have hlen : (eff_mark c i (common_fuzz_stuff c { s with
        stage_cur := i, stage_cur_byte := i
        out_buf := s.out_buf.set i (s.out_buf.getD i 0 ^^^ 0xFF) }
        (s.out_buf.set i (s.out_buf.getD i 0 ^^^ 0xFF)) s.len).1).eff_map.length
        = s.eff_map.length := by
      rcases eff_mark_fields c i (common_fuzz_stuff c { s with
        stage_cur := i, stage_cur_byte := i
        out_buf := s.out_buf.set i (s.out_buf.getD i 0 ^^^ 0xFF) }
        (s.out_buf.set i (s.out_buf.getD i 0 ^^^ 0xFF)) s.len).1 with ⟨e1, _⟩ | ⟨_, e1, _⟩
      · rw [e1]; rfl
      · rw [e1, List.length_set]; rfl
    exact ⟨hl, hlen, hf⟩

/-- C13: effector monotonicity. In every state: the effector block of a round
of `flip8` and the round as a whole, however it ends, leave every entry equal to
1 at 1; so does the percentage test on a map of `EFF_ALEN(len)` entries; the
stage `flip8`, however it ends, leaves at 1 every entry that the initialisation
set to 1; and every later stage of the pass (`flip16` ... `ext_AO`, havoc),
however it ends, leaves the map as it found it. -/
theorem effector_monotone (c : Ctx) (s : FState) :
    (∀ i, EffLe s (eff_mark c i s)) ∧
    (∀ i, EffLe s (flip8_body c i s).state) ∧
    (s.eff_map.length = EFF_ALEN s.len → EffLe s (eff_saturate s)) ∧
    EffLe (eff_init s) (flip8_stage c s).state ∧
    (∀ k : LaterStage, (k.run c s).state.eff_map = s.eff_map) := by
  refine ⟨fun i => eff_mark_le c i s, fun i => (flip8_body_le c i s).1, eff_saturate_le s, ?_,
    fun k => later_stage_eff_map k c s⟩
  have hloop := for_each_state_inv (flip8_body c)
    (fun t : FState => EffLe (eff_init s) t ∧ t.eff_map.length = EFF_ALEN t.len)
    (List.range' 0 s.len)
    (fun i _ t ht => by
      obtain ⟨h1, h2, h3⟩ := flip8_body_le c i t
      exact ⟨EffLe_trans ht.1 h1, by rw [h2, h3]; exact ht.2⟩)
    { eff_init s with stage_max := (s.len : Int), orig_hit_cnt := s.new_hit_cnt }
    ⟨EffLe_refl _, (eff_init_length s).trans (congrArg EFF_ALEN (eff_init_frame s).1.symm)⟩
  unfold flip8_stage for_loop
  simp only
  cases hr : for_each (flip8_body c) (List.range' 0 s.len)
      { eff_init s with stage_max := (s.len : Int), orig_hit_cnt := s.new_hit_cnt } with
  | next t =>
    rw [hr] at hloop
    simp only [Ctl.bind, Ctl.state] at hloop ⊢
    exact EffLe_trans hloop.1 (eff_saturate_le { t with stage_cur := t.stage_max } hloop.2)
  | abandon t =>
    rw [hr] at hloop
    exact hloop.1

/-! ## Scenario S4: the adaptive budget of havoc -/

/-- The budget after the restoration that ends a havoc round. -/
theorem havoc_restore_budget (s : FState) :
    (havoc_restore s).queued_paths = s.queued_paths ∧
    (havoc_restore s).havoc_queued = s.queued_paths ∧
    (s.queued_paths ≠ s.havoc_queued ∧ s.perf_score ≤ 1600 →
      (havoc_restore s).stage_max = s.stage_max * 2 ∧
      (havoc_restore s).perf_score = s.perf_score * 2) ∧
    (¬ (s.queued_paths ≠ s.havoc_queued ∧ s.perf_score ≤ 1600) →
      (havoc_restore s).stage_max = s.stage_max ∧
      (havoc_restore s).perf_score = s.perf_score) := by
  have hm : HAVOC_MAX_MULT * 100 = 1600 := by decide
  unfold havoc_restore
  simp only [hm]
  by_cases h1 : s.queued_paths = s.havoc_queued
  · rw [if_neg (by simpa using h1)]
    exact ⟨rfl, h1.symm, fun h => absurd h1 h.1, fun _ => ⟨rfl, rfl⟩⟩
  · rw [if_pos h1]
    by_cases h2 : s.perf_score ≤ 1600
    · rw [if_pos h2]
      exact ⟨rfl, rfl, fun _ => ⟨rfl, rfl⟩, fun h => absurd ⟨h1, h2⟩ h⟩
    · rw [if_neg h2]
      exact ⟨rfl, rfl, fun h => absurd h.2 h2, fun _ => ⟨rfl, rfl⟩⟩

/-- A round of the havoc loop, seen from the budget: if it is abandoned the
budget is as before; otherwise `stage_max` and `perf_score` are doubled exactly
if `queued_paths` moved and `perf_score <= 1600`. -/
theorem havoc_iter_budget (c : Ctx) (u : FState) :
    (∀ t, havoc_iter c u = Ctl.abandon t →
      t.stage_max = u.stage_max ∧ t.perf_score = u.perf_score) ∧
    (∀ t, havoc_iter c u = Ctl.next t →
      t.havoc_queued = t.queued_paths ∧
      (t.queued_paths ≠ u.havoc_queued ∧ u.perf_score ≤ 1600 →
        t.stage_max = u.stage_max * 2 ∧ t.perf_score = u.perf_score * 2) ∧
      (¬ (t.queued_paths ≠ u.havoc_queued ∧ u.perf_score ≤ 1600) →
        t.stage_max = u.stage_max ∧ t.perf_score = u.perf_score)) := by
  obtain ⟨_, k2, k3, k4⟩ := havoc_stack_kept c (1 <<< (1 + UR_val c u HAVOC_STACK_POW2))
    { tick u with stage_cur_val := ((1 <<< (1 + UR_val c u HAVOC_STACK_POW2) : Nat) : Int) }
  unfold havoc_iter
  simp only
  generalize havoc_stack c (1 <<< (1 + UR_val c u HAVOC_STACK_POW2))
    { tick u with stage_cur_val := ((1 <<< (1 + UR_val c u HAVOC_STACK_POW2) : Nat) : Int) }
    = S1 at k2 k3 k4 ⊢
  have k2' : S1.stage_max = u.stage_max := k2
  have k3' : S1.perf_score = u.perf_score := k3
  have k4' : S1.havoc_queued = u.havoc_queued := k4
  obtain ⟨r1, r2, r3, r4⟩ := havoc_restore_budget (common_fuzz_stuff c S1 S1.out_buf S1.temp_len).1
  have e1 : (common_fuzz_stuff c S1 S1.out_buf S1.temp_len).1.stage_max = u.stage_max := k2'
  have e2 : (common_fuzz_stuff c S1 S1.out_buf S1.temp_len).1.perf_score = u.perf_score := k3'
  have e3 : (common_fuzz_stuff c S1 S1.out_buf S1.temp_len).1.havoc_queued = u.havoc_queued := k4'
  rw [e1, e2, e3] at r3 r4
  split_ifs
  · refine ⟨fun t ht => ?_, fun t ht => by cases ht⟩
    cases ht
    exact ⟨e1, e2⟩
  · refine ⟨fun t ht => (by cases ht), fun t ht => ?_⟩
    cases ht
    rw [r1]
    exact ⟨r2, r3, r4⟩

/-- The havoc loop keeps the proportion between `stage_max` and `perf_score`
and never takes `perf_score` beyond twice 1600. -/
theorem havoc_loop_ratio (c : Ctx) (M : Int) (P : Nat) (fuel : Nat) :
    ∀ u : FState, u.stage_max * P = M * u.perf_score → u.perf_score ≤ 3200 →
      (havoc_loop c fuel u).state.stage_max * P = M * (havoc_loop c fuel u).state.perf_score ∧
      (havoc_loop c fuel u).state.perf_score ≤ 3200 := by
  induction fuel with
  | zero => intro u h1 h2; exact ⟨h1, h2⟩
  | succ n ih =>
    intro u h1 h2
    unfold havoc_loop
    split_ifs
    · obtain ⟨ha, hb⟩ := havoc_iter_budget c u
      cases hit : havoc_iter c u with
      | next t =>
        obtain ⟨_, b2, b3⟩ := hb t hit
        simp only [Ctl.bind]
        by_cases hc : t.queued_paths ≠ u.havoc_queued ∧ u.perf_score ≤ 1600
        · obtain ⟨d1, d2⟩ := b2 hc
          apply ih
          · show t.stage_max * P = M * t.perf_score
            rw [d1, d2]
            push_cast
            linear_combination 2 * h1
          · show t.perf_score ≤ 3200
            rw [d2]; omega
        · obtain ⟨d1, d2⟩ := b3 hc
          apply ih
          · show t.stage_max * P = M * t.perf_score
            rw [d1, d2]; exact h1
          · show t.perf_score ≤ 3200
            rw [d2]; exact h2
      | abandon t =>
        obtain ⟨d1, d2⟩ := ha t hit
        simp only [Ctl.bind, Ctl.state]
        rw [d1, d2]
        exact ⟨h1, h2⟩
    · exact ⟨h1, h2⟩

/-- Once `perf_score` is beyond 1600 the havoc loop changes neither
`stage_max` nor `perf_score`. -/
theorem havoc_loop_capped (c : Ctx) (fuel : Nat) :
    ∀ u : FState, u.perf_score > 1600 →
      (havoc_loop c fuel u).state.stage_max = u.stage_max ∧
      (havoc_loop c fuel u).state.perf_score = u.perf_score := by
  induction fuel with
  | zero => intro u _; exact ⟨rfl, rfl⟩
  | succ n ih =>
    intro u h
    unfold havoc_loop
    split_ifs
    · obtain ⟨ha, hb⟩ := havoc_iter_budget c u
      cases hit : havoc_iter c u with
      | next t =>
        obtain ⟨_, _, b3⟩ := hb t hit
        obtain ⟨d1, d2⟩ := b3 (fun hc => by omega)
        simp only [Ctl.bind]
        have := ih { t with stage_cur := t.stage_cur + 1 } (by show t.perf_score > 1600; omega)
        rw [this.1, this.2]
        exact ⟨d1, d2⟩
      | abandon t =>
        exact ha t hit
    · exact ⟨rfl, rfl⟩

/-- The havoc stage of scenario S4 starts its loop with `stage_max = 1024`. -/
theorem havoc_stage_start (c : Ctx) (s : FState) (fuel : Nat) (hs : s.splice_cycle = 0)
    (hdet : s.doing_det = true) (hp : s.perf_score = 100) (hdiv : c.havoc_div = 1) :
    havoc_stage c fuel s =
      (havoc_loop c fuel { s with
          stage_cur_byte := -1, stage_max := 1024, temp_len := s.len
          orig_hit_cnt := s.queued_paths + s.unique_crashes
          havoc_queued := s.queued_paths, stage_cur := 0 }).bind
        (fun t => Ctl.next
          (account (if t.splice_cycle = 0 then StageId.HAVOC else StageId.SPLICE) t.stage_max t)) := by
  have h1 : (((if s.doing_det = true then HAVOC_CYCLES_INIT else HAVOC_CYCLES) * s.perf_score
      / c.havoc_div / 100 : Nat) : Int) = 1024 := by
    rw [hdet, hp, hdiv]
    decide
  unfold havoc_stage
  simp only [hs, if_true, h1]
  rw [if_neg (by decide)]

/-- C17: scenario S4, the adaptive budget of havoc. With `perf_score = 100`,
`havoc_div = 1`, a first deterministic pass (`doing_det`) and no splicing, the
havoc stage starts with `stage_max = 1024`; a round of the loop that is not
abandoned and after which `queued_paths` differs from `havoc_queued` doubles
both `stage_max` and `perf_score` exactly if `perf_score <= 1600` at that
moment, and any other round leaves both as they were; once `perf_score > 1600`
the loop changes neither; and after any number of rounds
`stage_max * 100 = 1024 * perf_score` with `perf_score <= 3200`. -/
theorem havoc_budget (c : Ctx) (s : FState) (hs : s.splice_cycle = 0)
    (hdet : s.doing_det = true) (hp : s.perf_score = 100) (hdiv : c.havoc_div = 1) :
    ((havoc_stage c 0 s).state.stage_max = 1024 ∧ (havoc_stage c 0 s).state.perf_score = 100) ∧
    (∀ u t : FState, havoc_iter c u = Ctl.next t →
      (t.queued_paths ≠ u.havoc_queued ∧ u.perf_score ≤ 1600 →
        t.stage_max = u.stage_max * 2 ∧ t.perf_score = u.perf_score * 2) ∧
      (¬ (t.queued_paths ≠ u.havoc_queued ∧ u.perf_score ≤ 1600) →
        t.stage_max = u.stage_max ∧ t.perf_score = u.perf_score)) ∧
    (∀ (fuel : Nat) (u : FState), u.perf_score > 1600 →
      (havoc_loop c fuel u).state.stage_max = u.stage_max ∧
      (havoc_loop c fuel u).state.perf_score = u.perf_score) ∧
    (∀ fuel : Nat,
      (havoc_stage c fuel s).state.stage_max * 100
        = 1024 * ((havoc_stage c fuel s).state.perf_score : Int) ∧
      (havoc_stage c fuel s).state.perf_score ≤ 3200) := by
  refine ⟨?_, fun u t h => ((havoc_iter_budget c u).2 t h).2, havoc_loop_capped c, ?_⟩
  · rw [havoc_stage_start c s 0 hs hdet hp hdiv]
    exact ⟨rfl, hp⟩
  · intro fuel
    rw [havoc_stage_start c s fuel hs hdet hp hdiv]
    have h := havoc_loop_ratio c 1024 100 fuel { s with
      stage_cur_byte := -1, stage_max := 1024, temp_len := s.len
      orig_hit_cnt := s.queued_paths + s.unique_crashes
      havoc_queued := s.queued_paths, stage_cur := 0 }
      (by show (1024 : Int) * (100 : Nat) = 1024 * (s.perf_score : Int); rw [hp])
      (by show s.perf_score ≤ 3200; omega)
    exact bind_next_state _ _
      (fun t : FState => t.stage_max * 100 = 1024 * (t.perf_score : Int) ∧ t.perf_score ≤ 3200)
      (by simpa using h) (fun t ht => ht)

/-- Scenario S4 applied to the seed `01 02 03` in its first deterministic pass,
with a harness that finds nothing. -/
theorem havoc_budget_witness :
    ((havoc_stage (quiet_ctx [] []) 0 { init_state [1, 2, 3] with doing_det := true }).state.stage_max
        = 1024 ∧
      (havoc_stage (quiet_ctx [] []) 0
        { init_state [1, 2, 3] with doing_det := true }).state.perf_score = 100) ∧
    (∀ u t : FState, havoc_iter (quiet_ctx [] []) u = Ctl.next t →
      (t.queued_paths ≠ u.havoc_queued ∧ u.perf_score ≤ 1600 →
        t.stage_max = u.stage_max * 2 ∧ t.perf_score = u.perf_score * 2) ∧
      (¬ (t.queued_paths ≠ u.havoc_queued ∧ u.perf_score ≤ 1600) →
        t.stage_max = u.stage_max ∧ t.perf_score = u.perf_score)) ∧
    (∀ (fuel : Nat) (u : FState), u.perf_score > 1600 →
      (havoc_loop (quiet_ctx [] []) fuel u).state.stage_max = u.stage_max ∧
      (havoc_loop (quiet_ctx [] []) fuel u).state.perf_score = u.perf_score) ∧
    (∀ fuel : Nat,
      (havoc_stage (quiet_ctx [] []) fuel
          { init_state [1, 2, 3] with doing_det := true }).state.stage_max * 100
        = 1024 * ((havoc_stage (quiet_ctx [] []) fuel
          { init_state [1, 2, 3] with doing_det := true }).state.perf_score : Int) ∧
      (havoc_stage (quiet_ctx [] []) fuel
        { init_state [1, 2, 3] with doing_det := true }).state.perf_score ≤ 3200) :=
  havoc_budget (quiet_ctx [] []) { init_state [1, 2, 3] with doing_det := true } rfl rfl rfl rfl

/-! ## Scenario S6: the flag `no_arith` -/

/-- A harness call does not touch `stage_cycles`. -/
theorem submit_then_cycles (c : Ctx) (s : FState) (g : FState → FState)
    (hg : ∀ t, (g t).stage_cycles = t.stage_cycles) :
    ((submit c s).bind (fun t => Ctl.next (g t))).state.stage_cycles = s.stage_cycles := by
  rcases submit_cases c s with e | e <;> rw [e]
  · rfl
  · exact hg _

/-- A round of `int8` does not touch `stage_cycles`. -/
theorem interest8_body_cycles (c : Ctx) (i : Nat) (s : FState) :
    (interest8_body c i s).state.stage_cycles = s.stage_cycles := by
  unfold interest8_body
  simp only
  split_ifs
  · rfl
  · exact for_each_state_inv _ (fun t : FState => t.stage_cycles = s.stage_cycles) _
      (fun v _ t ht => by
        unfold interest8_inner
        split_ifs
        · exact ht
        · beta_reduce
          refine Eq.trans ?_ ht
          exact submit_then_cycles c _ _ (fun _ => rfl)) _ rfl

/-- The stage `int8`, however it ends, changes no entry of `stage_cycles` but
its own. -/
theorem interest8_stage_cycles (c : Ctx) (s : FState) (k : StageId)
    (hk : k ≠ StageId.INTEREST8) :
    (interest8_stage c s).state.stage_cycles k = s.stage_cycles k := by
  unfold interest8_stage for_loop
  simp only
  refine bind_next_state _ _ (fun t : FState => t.stage_cycles k = s.stage_cycles k) ?_ ?_
  · beta_reduce
    exact congrFun (for_each_state_inv (interest8_body c)
      (fun t : FState => t.stage_cycles = s.stage_cycles) (List.range' 0 s.len)
      (fun i _ t ht => (interest8_body_cycles c i t).trans ht)
      { s with
        stage_cur := 0, stage_max := (s.len : Int) * (c.T.interesting_8.length : Int)
        orig_hit_cnt := s.new_hit_cnt } rfl) k
  · intro t ht
    simp only [account, if_neg hk]
    exact ht

/-- C18: scenario S6. With `no_arith` set, for every seed and every behaviour
of the harness, the part of the pass between the bit flips and the dictionary
stages consists of the stage `int8` alone: no round of `arith8`, `arith16`,
`arith32`, `int16` or `int32` is run, no entry of `stage_cycles` other than that
of `int8` changes, and `int8` is the loop over all offsets `0 .. len - 1`
followed by its accounting. -/
theorem no_arith_pass (c : Ctx) (s : FState) (h : c.no_arith = true) :
    numeric_stages c s = interest8_stage c s ∧
    (∀ k, k ≠ StageId.INTEREST8 → (numeric_stages c s).state.stage_cycles k = s.stage_cycles k) ∧
    interest8_stage c s =
      (for_loop (interest8_body c) 0 s.len { s with
          stage_cur := 0, stage_max := (s.len : Int) * (c.T.interesting_8.length : Int)
          orig_hit_cnt := s.new_hit_cnt }).bind
        (fun t => Ctl.next (account StageId.INTEREST8 t.stage_max t)) := by
  have e : numeric_stages c s = interest8_stage c s := by
    unfold numeric_stages arith_stages interest_stages
    rw [if_pos h]
    simp only [Ctl.bind]
    cases h8 : interest8_stage c s with
    | next t =>
      simp only [Ctl.bind, interest16_stage, interest32_stage, h, true_or, if_true]
    | abandon t => rfl
  refine ⟨e, fun k hk => ?_, rfl⟩
  rw [e]
  exact interest8_stage_cycles c s k hk

/-- Scenario S6 applied to the seed `01 02` with `no_arith` set. -/
theorem no_arith_pass_witness :
    numeric_stages { quiet_ctx [] [] with no_arith := true } (init_state [1, 2])
      = interest8_stage { quiet_ctx [] [] with no_arith := true } (init_state [1, 2]) ∧
    (∀ k, k ≠ StageId.INTEREST8 →
      (numeric_stages { quiet_ctx [] [] with no_arith := true }
        (init_state [1, 2])).state.stage_cycles k = (init_state [1, 2]).stage_cycles k) ∧
    interest8_stage { quiet_ctx [] [] with no_arith := true } (init_state [1, 2]) =
      (for_loop (interest8_body { quiet_ctx [] [] with no_arith := true }) 0
        (init_state [1, 2]).len { init_state [1, 2] with
          stage_cur := 0
          stage_max := ((init_state [1, 2]).len : Int)
            * (({ quiet_ctx [] [] with no_arith := true } : Ctx).T.interesting_8.length : Int)
          orig_hit_cnt := (init_state [1, 2]).new_hit_cnt }).bind
        (fun t => Ctl.next (account StageId.INTEREST8 t.stage_max t)) :=
  no_arith_pass { quiet_ctx [] [] with no_arith := true } (init_state [1, 2]) rfl

/-! ## Splice validity -/

/-- The last differing offset reported by `locate_diffs` lies below `len`. -/
theorem locate_diffs_last_lt (a b : List Nat) (len : Nat) :
    (locate_diffs a b len).2 < (len : Int) := by
  unfold locate_diffs
  simp only
  cases h : ((List.range len).filter (fun k => a.getD k 0 != b.getD k 0)).getLast? with
  | none =>
    simp only
    omega
  | some l =>
    simp only
    have hm := List.mem_of_getLast?_eq_some h
    rw [List.mem_filter, List.mem_range] at hm
    omega

/-- The buffer built by `memcpy(new_buf, in_buf, split_at)` and its copy
into the fresh `out_buf`. -/
theorem splice_buf (a target : List Nat) (k : Nat) (hk1 : k ≤ a.length)
    (hk2 : k ≤ target.length) :
    write_at target 0 (slice a 0 k) = a.take k ++ target.drop k ∧
    (a.take k ++ target.drop k).length = target.length ∧
    write_at (List.replicate target.length 0) 0 (slice (a.take k ++ target.drop k) 0 target.length)
      = a.take k ++ target.drop k := by
  have hl : (a.take k ++ target.drop k).length = target.length := by
    simp only [List.length_append, List.length_take, List.length_drop]
    omega
  refine ⟨?_, hl, ?_⟩
  · simp only [write_at, slice, List.take_zero, List.drop_zero, List.nil_append,
      List.length_take, Nat.zero_add, Nat.min_eq_left hk1]
  · have e1 : slice (a.take k ++ target.drop k) 0 target.length = a.take k ++ target.drop k := by
      unfold slice
      rw [List.drop_zero, List.take_of_length_le (le_of_eq hl)]
    have e2 : (List.replicate target.length 0).drop target.length = [] :=
      List.drop_of_length_le (by rw [List.length_replicate])
    rw [e1]
    unfold write_at
    rw [List.take_zero, List.nil_append, Nat.zero_add, hl, e2, List.append_nil]

/-- C12: splice validity. For a current seed `in_buf` of `len` bytes and a
target whose first and last differing offsets over the common prefix, as
reported by `locate_diffs`, satisfy `0 <= f_diff < l_diff` and `l_diff >= 2`,
and for every random draw: the splice goes through, `split_at` lies in
`[f_diff, l_diff)`, the new `in_buf` and `out_buf` are the same buffer, of the
length of the target, equal to the current seed on `[0, split_at)` and to the
target on `[split_at, |target|)`. -/
theorem splice_validity (c : Ctx) (s : FState) (target : List Nat) (f l : Int)
    (hin : s.in_buf.length = s.len)
    (hfl : locate_diffs s.in_buf target (min s.len target.length) = (f, l))
    (h0 : 0 ≤ f) (h1 : f < l) (h2 : 2 ≤ l) :
    ∃ t k, splice c s target = some (t, k) ∧ f ≤ (k : Int) ∧ (k : Int) < l ∧
      t.len = target.length ∧ t.out_buf.length = target.length ∧ t.in_buf = t.out_buf ∧
      (∀ j, j < k → t.out_buf.getD j 0 = s.in_buf.getD j 0) ∧
      (∀ j, k ≤ j → j < target.length → t.out_buf.getD j 0 = target.getD j 0) := by
  have hlt := locate_diffs_last_lt s.in_buf target (min s.len target.length)
  rw [hfl] at hlt
  simp only at hlt
  have hr : UR_val c s (l - f).toNat < (l - f).toNat := Nat.mod_lt _ (by omega)
  have hk1 : f.toNat + UR_val c s (l - f).toNat ≤ s.in_buf.length := by omega
  have hk2 : f.toNat + UR_val c s (l - f).toNat ≤ target.length := by omega
  obtain ⟨b1, b2, b3⟩ := splice_buf s.in_buf target _ hk1 hk2
  refine ⟨{ tick s with
      len := target.length
      in_buf := write_at target 0 (slice s.in_buf 0 (f.toNat + UR_val c s (l - f).toNat))
      out_buf := write_at (List.replicate target.length 0) 0
        (slice (write_at target 0 (slice s.in_buf 0 (f.toNat + UR_val c s (l - f).toNat)))
          0 target.length) },
    f.toNat + UR_val c s (l - f).toNat, ?_, by omega, by omega, ?_⟩
  · unfold splice
    simp only [hfl]
    rw [if_neg (by omega)]
  · simp only [b1, b3]
    refine ⟨trivial, b2, trivial, ?_, ?_⟩
    · intro j hj
      rw [List.getD_append _ _ _ _ (by simp only [List.length_take]; omega)]
      simp only [List.getD_eq_getElem?_getD, List.getElem?_take_of_lt hj]
    · intro j hj1 hj2
      rw [List.getD_append_right _ _ _ _ (by simp only [List.length_take]; omega)]
      simp only [List.getD_eq_getElem?_getD, List.getElem?_drop, List.length_take,
        Nat.min_eq_left hk1]
      congr 2
      omega

/-- Splice validity on scenario S5: current seed `AAAABBBBCCCC`, target
`AAAAXXXXCCCC`, first and last differing offsets 4 and 7. -/
theorem splice_validity_witness :
    ∃ t k, splice (quiet_ctx [] [])
        (init_state [65, 65, 65, 65, 66, 66, 66, 66, 67, 67, 67, 67])
        [65, 65, 65, 65, 88, 88, 88, 88, 67, 67, 67, 67] = some (t, k) ∧
      (4 : Int) ≤ (k : Int) ∧ (k : Int) < 7 ∧
      t.len = [65, 65, 65, 65, 88, 88, 88, 88, 67, 67, 67, 67].length ∧
      t.out_buf.length = [65, 65, 65, 65, 88, 88, 88, 88, 67, 67, 67, 67].length ∧
      t.in_buf = t.out_buf ∧
      (∀ j, j < k → t.out_buf.getD j 0
        = (init_state [65, 65, 65, 65, 66, 66, 66, 66, 67, 67, 67, 67]).in_buf.getD j 0) ∧
      (∀ j, k ≤ j → j < [65, 65, 65, 65, 88, 88, 88, 88, 67, 67, 67, 67].length →
        t.out_buf.getD j 0 = [65, 65, 65, 65, 88, 88, 88, 88, 67, 67, 67, 67].getD j 0) :=
  splice_validity (quiet_ctx [] []) (init_state [65, 65, 65, 65, 66, 66, 66, 66, 67, 67, 67, 67])
    [65, 65, 65, 65, 88, 88, 88, 88, 67, 67, 67, 67] 4 7 rfl (by decide) (by decide) (by decide)
    (by decide)

/-! ## Scenario S2: `arith8` against the bit-flip oracle -/

/-- The test-and-execute block `attempt` in full, when the harness does not ask
to abandon. -/
theorem attempt_full (c : Ctx) (hna : ∀ n buf, (c.harness n buf).abandon = false)
    (cond : Bool) (buf : List Nat) (val : Int) (s : FState) :
    ∃ t, attempt c cond buf val s = Ctl.next t ∧
      t.out_buf = (if cond then buf else s.out_buf) ∧ t.len = s.len ∧
      t.execs = s.execs ++ (if cond then [(buf.take s.len, s.len)] else []) ∧
      t.stage_max = (if cond then s.stage_max else s.stage_max - 1) ∧
      t.eff_map = s.eff_map := by
  cases cond
  · rw [attempt, if_neg (by simp)]
    exact ⟨_, rfl, by simp, rfl, by simp, by simp, rfl⟩
  · rw [attempt, if_pos rfl, submit_next c _ hna]
    simp only [Ctl.bind]
    exact ⟨_, rfl, by simp [common_fuzz_stuff], rfl, by simp [common_fuzz_stuff],
      by simp [common_fuzz_stuff], rfl⟩

/-- The xor of a byte with the low byte of a number. -/
theorem xor_mod_byte (o x : Nat) (ho : o < 256) : (o ^^^ x) % 256 = o ^^^ (x % 256) := by
  apply Nat.eq_of_testBit_eq
  intro k
  have e : (256 : Nat) = 2 ^ 8 := by norm_num
  rw [e, Nat.testBit_mod_two_pow, Nat.testBit_xor, Nat.testBit_xor, Nat.testBit_mod_two_pow]
  by_cases hk : k < 8
  · simp [hk]
  · have := testBit_high_false o 8 k (by omega) (by omega)
    simp [hk, this]

/-- Two stores at the same offset inside the buffer give the same buffer only
if they store the same value. -/
theorem set_inj (B : List Nat) (i v w : Nat) (hi : i < B.length) (h : B.set i v = B.set i w) :
    v = w := by
  have := congrArg (fun l : List Nat => l.getD i 0) h
  simpa [getD_set, hi] using this

/-- The harness calls of round `j` of the inner loop of `arith8` at offset `i`
of the seed `B`. -/
theorem arith8_inner_log (c : Ctx) (hna : ∀ n buf, (c.harness n buf).abandon = false)
    (B : List Nat) (i j : Nat) (s : FState) (hs : s.out_buf = B ∧ s.len = B.length) :
    ∃ t, arith8_inner c i (B.getD i 0) j s = Ctl.next t ∧
      (t.out_buf = B ∧ t.len = B.length) ∧
      t.execs = s.execs ++
        ((if could_be_bitflip ((B.getD i 0 ^^^ (B.getD i 0 + j)) % 256) = true then []
          else [(B.set i ((B.getD i 0 + j) % 256), B.length)]) ++
         (if could_be_bitflip ((B.getD i 0 ^^^ sub32 (B.getD i 0) j) % 256) = true then []
          else [(B.set i (sub32 (B.getD i 0) j % 256), B.length)])) := by
  obtain ⟨h1, h2⟩ := hs
  unfold arith8_inner
  obtain ⟨t1, e1, o1, l1, x1, _, _⟩ := attempt_full c hna
    (!could_be_bitflip ((B.getD i 0 ^^^ (B.getD i 0 + j)) % 256))
    (s.out_buf.set i ((B.getD i 0 + j) % 256)) (j : Int) s
  rw [e1]; simp only [Ctl.bind]
  obtain ⟨t2, e2, o2, l2, x2, _, _⟩ := attempt_full c hna
    (!could_be_bitflip ((B.getD i 0 ^^^ sub32 (B.getD i 0) j) % 256))
    (t1.out_buf.set i ((sub32 (B.getD i 0) j) % 256)) (-(j : Int)) t1
  rw [e2]; simp only [Ctl.bind]
  have hset : ∀ v, t1.out_buf.set i v = B.set i v := by
    intro v
    rw [o1, h1]
    split_ifs
    · rw [List.set_set]
    · rfl
  refine ⟨_, rfl, ⟨?_, ?_⟩, ?_⟩
  · show t2.out_buf.set i (B.getD i 0) = B
    rw [o2]
    split_ifs
    · rw [hset, List.set_set]; exact set_getD_self B i
    · rw [hset]; exact set_getD_self B i
  · show t2.len = B.length
    rw [l2, l1, h2]
  · show t2.execs = _
    rw [x2, x1, hset, l1, h1, h2, List.append_assoc]
    congr 2
    · cases could_be_bitflip ((B.getD i 0 ^^^ (B.getD i 0 + j)) % 256) <;>
        simp [take_full]
    · cases could_be_bitflip ((B.getD i 0 ^^^ sub32 (B.getD i 0) j) % 256) <;>
        simp [take_full]

/-- The harness calls of a round of `arith8` at an offset `i` whose effector
entry is set: a candidate is among them exactly if it is `B` with
`orig + j` or `orig - j` at offset `i` for some `j` in `[1, ARITH_MAX]` and
`could_be_bitflip` is false on its xor with `orig`. -/
theorem arith8_body_log (c : Ctx) (hna : ∀ n buf, (c.harness n buf).abandon = false)
    (B : List Nat) (i : Nat) (s : FState) (hs : s.out_buf = B ∧ s.len = B.length)
    (he : s.eff_map.getD (EFF_APOS i) 0 ≠ 0) :
    ∃ t new, arith8_body c i s = Ctl.next t ∧ t.execs = s.execs ++ new ∧
      ∀ e, e ∈ new ↔ ∃ j, 1 ≤ j ∧ j ≤ ARITH_MAX ∧
        ((could_be_bitflip ((B.getD i 0 ^^^ (B.getD i 0 + j)) % 256) = false ∧
            e = (B.set i ((B.getD i 0 + j) % 256), B.length)) ∨
         (could_be_bitflip ((B.getD i 0 ^^^ sub32 (B.getD i 0) j) % 256) = false ∧
            e = (B.set i (sub32 (B.getD i 0) j % 256), B.length))) := by
  obtain ⟨h1, h2⟩ := hs
  subst h1
  obtain ⟨t, ht, _, hl⟩ := for_each_log (arith8_inner c i (s.out_buf.getD i 0))
    (fun t : FState => t.out_buf = s.out_buf ∧ t.len = s.out_buf.length) (fun t => t.execs)
    (fun j =>
      (if could_be_bitflip ((s.out_buf.getD i 0 ^^^ (s.out_buf.getD i 0 + j)) % 256) = true then []
        else [(s.out_buf.set i ((s.out_buf.getD i 0 + j) % 256), s.out_buf.length)]) ++
      (if could_be_bitflip ((s.out_buf.getD i 0 ^^^ sub32 (s.out_buf.getD i 0) j) % 256) = true then []
        else [(s.out_buf.set i (sub32 (s.out_buf.getD i 0) j % 256), s.out_buf.length)]))
    (List.range' 1 ARITH_MAX)
    (fun j _ u hu => arith8_inner_log c hna s.out_buf i j u hu)
    { s with stage_cur_byte := i } ⟨rfl, h2⟩
  refine ⟨t, _, ?_, hl, ?_⟩
  · unfold arith8_body for_loop
    simp only
    rw [if_neg he]
    exact ht
  · intro e
    simp only [List.mem_flatten, List.mem_map, List.mem_range'_1]
    constructor
    · rintro ⟨l, ⟨j, hj, rfl⟩, hel⟩
      refine ⟨j, hj.1, by omega, ?_⟩
      rw [List.mem_append] at hel
      rcases hel with hel | hel
      · left
        split_ifs at hel with hc
        · exact absurd hel (List.not_mem_nil _)
        · exact ⟨Bool.eq_false_iff.mpr hc, List.mem_singleton.mp hel⟩
      · right
        split_ifs at hel with hc
        · exact absurd hel (List.not_mem_nil _)
        · exact ⟨Bool.eq_false_iff.mpr hc, List.mem_singleton.mp hel⟩
    · rintro ⟨j, h1, h2, hcase⟩
      refine ⟨_, ⟨j, ⟨h1, by omega⟩, rfl⟩, ?_⟩
      rw [List.mem_append]
      rcases hcase with ⟨hc, rfl⟩ | ⟨hc, rfl⟩
      · left
        rw [if_neg (by rw [hc]; exact Bool.false_ne_true)]
        exact List.mem_singleton_self _
      · right
        rw [if_neg (by rw [hc]; exact Bool.false_ne_true)]
        exact List.mem_singleton_self _

/-- C15: scenario S2. The oracle `could_be_bitflip` is true on `0x01`, `0x03`
and `0x04` and false on `0x05`. For a seed of bytes `B`, an offset `i` whose
effector entry is set and a harness that never asks to abandon, the round of
`arith8` at offset `i` runs to its end, and for every `j` in `[1, ARITH_MAX]`
it submits `B` with `(orig + j) mod 256` at offset `i` exactly if
`could_be_bitflip` is false on `orig ^^^ ((orig + j) mod 256)`, and likewise for
`(orig - j) mod 256`; so with `orig = 0x00` it does not submit `0x01`, and with
`orig = 0x10` it does not submit `0x11`, `0x13` or `0x14` and does submit `0x15`. -/
theorem arith8_dedup (c : Ctx) (B : List Nat) (i : Nat) (s : FState)
    (hna : ∀ n buf, (c.harness n buf).abandon = false) (hB : Bytes B) (hi : i < B.length)
    (hs : s.out_buf = B ∧ s.len = B.length) (he : s.eff_map.getD (EFF_APOS i) 0 ≠ 0) :
    (could_be_bitflip 0x01 = true ∧ could_be_bitflip 0x03 = true ∧
      could_be_bitflip 0x04 = true ∧ could_be_bitflip 0x05 = false) ∧
    ∃ t new, arith8_body c i s = Ctl.next t ∧ t.execs = s.execs ++ new ∧
      (∀ j, 1 ≤ j → j ≤ ARITH_MAX →
        ((B.set i ((B.getD i 0 + j) % 256), B.length) ∈ new ↔
          could_be_bitflip (B.getD i 0 ^^^ ((B.getD i 0 + j) % 256)) = false) ∧
        ((B.set i ((B.getD i 0 + 256 - j) % 256), B.length) ∈ new ↔
          could_be_bitflip (B.getD i 0 ^^^ ((B.getD i 0 + 256 - j) % 256)) = false)) ∧
      (B.getD i 0 = 0x00 → (B.set i 0x01, B.length) ∉ new) ∧
      (B.getD i 0 = 0x10 →
        (B.set i 0x11, B.length) ∉ new ∧ (B.set i 0x13, B.length) ∉ new ∧
        (B.set i 0x14, B.length) ∉ new ∧ (B.set i 0x15, B.length) ∈ new) := by
  have ho := hB.getD_lt i
  have hA : ARITH_MAX = 35 := rfl
  have hsub : ∀ j, j ≤ 35 → sub32 (B.getD i 0) j % 256 = (B.getD i 0 + 256 - j) % 256 := by
    intro j hj
    unfold sub32 U32
    omega
  obtain ⟨t, new, ht, hx, hmem⟩ := arith8_body_log c hna B i s hs he
  have hgen : ∀ j, 1 ≤ j → j ≤ ARITH_MAX →
      ((B.set i ((B.getD i 0 + j) % 256), B.length) ∈ new ↔
        could_be_bitflip (B.getD i 0 ^^^ ((B.getD i 0 + j) % 256)) = false) ∧
      ((B.set i ((B.getD i 0 + 256 - j) % 256), B.length) ∈ new ↔
        could_be_bitflip (B.getD i 0 ^^^ ((B.getD i 0 + 256 - j) % 256)) = false) := by
    intro j h1 h2
    rw [hA] at h2
    constructor
    · rw [hmem, ← xor_mod_byte _ _ ho]
      constructor
      · rintro ⟨k, k1, k2, ⟨hc, hk⟩ | ⟨hc, hk⟩⟩
        · have hv := set_inj B i _ _ hi (Prod.mk.inj hk).1
          have hkj : k = j := by rw [hA] at k2; omega
          rw [← hkj]; exact hc
        · have hv := set_inj B i _ _ hi (Prod.mk.inj hk).1
          rw [hA] at k2
          rw [hsub k k2] at hv
          omega
      · intro hc
        exact ⟨j, h1, by rw [hA]; exact h2, Or.inl ⟨hc, rfl⟩⟩
    · rw [hmem, ← hsub j h2, ← xor_mod_byte _ _ ho]
      constructor
      · rintro ⟨k, k1, k2, ⟨hc, hk⟩ | ⟨hc, hk⟩⟩
        · have hv := set_inj B i _ _ hi (Prod.mk.inj hk).1
          rw [hA] at k2
          rw [hsub j h2] at hv
          omega
        · have hv := set_inj B i _ _ hi (Prod.mk.inj hk).1
          rw [hA] at k2
          rw [hsub j h2, hsub k k2] at hv
          have hkj : k = j := by omega
          rw [← hkj]; exact hc
      · intro hc
        exact ⟨j, h1, by rw [hA]; exact h2, Or.inr ⟨hc, rfl⟩⟩
  refine ⟨by decide, t, new, ht, hx, hgen, ?_, ?_⟩
  · intro h0
    have h := (hgen 1 (by decide) (by decide)).1
    rw [h0] at h
    intro hm
    exact absurd (h.mp hm) (by decide)
  · intro h0
    have h1 := (hgen 1 (by decide) (by decide)).1
    have h3 := (hgen 3 (by decide) (by decide)).1
    have h4 := (hgen 4 (by decide) (by decide)).1
    have h5 := (hgen 5 (by decide) (by decide)).1
    rw [h0] at h1 h3 h4 h5
    exact ⟨fun hm => absurd (h1.mp hm) (by decide), fun hm => absurd (h3.mp hm) (by decide),
      fun hm => absurd (h4.mp hm) (by decide), h5.mpr (by decide)⟩

/-! ## Budget accounting: every candidate is either run or taken off `stage_max` -/

/-- A state update that touches neither `stage_max`, nor the record of harness
calls, nor `stage_cycles` deals with no candidate. -/
theorem GapStep.of_frame (u v : FState) (h1 : v.stage_max = u.stage_max)
    (h2 : v.execs = u.execs) (h3 : v.stage_cycles = u.stage_cycles) : GapStep 0 u v := by
  unfold GapStep budget_gap
  rw [h1, h2, h3]
  exact ⟨by ring, rfl⟩

/-- Taking `d` candidates off `stage_max`. -/
theorem GapStep.skip (d : Int) (u v : FState) (h1 : v.stage_max = u.stage_max - d)
    (h2 : v.execs = u.execs) (h3 : v.stage_cycles = u.stage_cycles) : GapStep d u v := by
  unfold GapStep budget_gap
  rw [h1, h2, h3]
  exact ⟨by ring, rfl⟩

/-- Two blocks in sequence. -/
theorem bind_gap (x : Ctl FState) (f : FState → Ctl FState) (s : FState) (a b d : Int)
    (hd : d = a + b) (hx : ∃ t, x = Ctl.next t ∧ GapStep a s t)
    (hf : ∀ t, ∃ u, f t = Ctl.next u ∧ GapStep b t u) :
    ∃ u, x.bind f = Ctl.next u ∧ GapStep d s u := by
  obtain ⟨t, ht, g1, c1⟩ := hx
  obtain ⟨u, hu, g2, c2⟩ := hf t
  refine ⟨u, by rw [ht]; exact hu, ?_, c2.trans c1⟩
  rw [g2, g1, hd]
  ring

/-- A harness call that goes through, followed by a state update that touches
neither `stage_max`, nor the record, nor `stage_cycles`, deals with one
candidate and leaves `stage_max` alone. -/
theorem submit_gap (c : Ctx) (hna : ∀ n buf, (c.harness n buf).abandon = false) (s : FState)
    (g : FState → FState)
    (hg : ∀ t, (g t).stage_max = t.stage_max ∧ (g t).execs = t.execs ∧
      (g t).stage_cycles = t.stage_cycles) :
    ∃ t, (submit c s).bind (fun t => Ctl.next (g t)) = Ctl.next t ∧
      GapStep 1 s t ∧ t.stage_max = s.stage_max := by
  rw [submit_next c s hna]
  refine ⟨_, rfl, ⟨?_, (hg _).2.2⟩, (hg _).1⟩
  unfold budget_gap
  rw [(hg _).1, (hg _).2.1]
  simp only [common_fuzz_stuff, List.length_append, List.length_singleton]
  push_cast
  ring

/-- The block `attempt` deals with one candidate, whether it runs it or takes
it off `stage_max`. -/
theorem attempt_gap (c : Ctx) (hna : ∀ n buf, (c.harness n buf).abandon = false)
    (cond : Bool) (buf : List Nat) (val : Int) (s : FState) :
    ∃ t, attempt c cond buf val s = Ctl.next t ∧ GapStep 1 s t := by
  cases cond
  · rw [attempt, if_neg (by simp)]
    exact ⟨_, rfl, GapStep.skip 1 _ _ rfl rfl rfl⟩
  · rw [attempt, if_pos rfl]
    obtain ⟨t, ht, hg, _⟩ := submit_gap c hna { s with stage_cur_val := val, out_buf := buf }
      (fun u => { u with stage_cur := u.stage_cur + 1 }) (fun _ => ⟨rfl, rfl, rfl⟩)
    exact ⟨t, ht, hg⟩

/-- A loop over a list whose rounds each deal with `d` candidates. -/
theorem for_each_gap {α : Type} (body : α → FState → Ctl FState) (d : Int) (xs : List α)
    (h : ∀ x u, ∃ v, body x u = Ctl.next v ∧ GapStep d u v) (s : FState) :
    ∃ t, for_each body xs s = Ctl.next t ∧ GapStep (d * xs.length) s t := by
  obtain ⟨t, ht, hc, hm⟩ := for_each_count body
    (fun u : FState => u.stage_cycles = s.stage_cycles) budget_gap d xs
    (fun x _ u hu => by
      obtain ⟨v, hv, hg, hcy⟩ := h x u
      exact ⟨v, hv, hcy.trans hu, hg⟩) s rfl
  exact ⟨t, ht, hm, hc⟩

/-- The auto-dictionary block and the effector block touch neither `stage_max`,
nor the record of harness calls, nor `stage_cycles`. -/
theorem collect_mark_gap (c : Ctx) (i : Nat) (s : FState) :
    ((auto_collect c i s).stage_max = s.stage_max ∧ (auto_collect c i s).execs = s.execs ∧
      (auto_collect c i s).stage_cycles = s.stage_cycles) ∧
    ((eff_mark c i s).stage_max = s.stage_max ∧ (eff_mark c i s).execs = s.execs ∧
      (eff_mark c i s).stage_cycles = s.stage_cycles) := by
  constructor
  · unfold auto_collect a_collect_emit a_collect_push maybe_add_auto
    simp only
    split_ifs <;> exact ⟨rfl, rfl, rfl⟩
  · unfold eff_mark
    simp only
    split_ifs <;> exact ⟨rfl, rfl, rfl⟩

/-- Every round of a bit-flip stage deals with one candidate; the walking
flips of 1, 2, 4 and 8 bits leave `stage_max` alone. -/
theorem flip_body_gap (c : Ctx) (hna : ∀ n buf, (c.harness n buf).abandon = false)
    (i : Nat) (s : FState) :
    (∃ t, flip1_body c i s = Ctl.next t ∧ GapStep 1 s t ∧ t.stage_max = s.stage_max) ∧
    (∃ t, flip2_body c i s = Ctl.next t ∧ GapStep 1 s t ∧ t.stage_max = s.stage_max) ∧
    (∃ t, flip4_body c i s = Ctl.next t ∧ GapStep 1 s t ∧ t.stage_max = s.stage_max) ∧
    (∃ t, flip8_body c i s = Ctl.next t ∧ GapStep 1 s t ∧ t.stage_max = s.stage_max) ∧
    (∃ t, flip16_body c i s = Ctl.next t ∧ GapStep 1 s t) ∧
    (∃ t, flip32_body c i s = Ctl.next t ∧ GapStep 1 s t) := by
  refine ⟨?_, ?_, ?_, ?_, ?_, ?_⟩
  · have e : flip1_body c i s = (submit c { s with
        stage_cur := i, stage_cur_byte := i >>> 3, out_buf := FLIP_BIT s.out_buf i }).bind
        (fun u => Ctl.next (if c.dumb_mode = false ∧ i &&& 7 = 7 then
          auto_collect c i { u with out_buf := FLIP_BIT u.out_buf i }
          else { u with out_buf := FLIP_BIT u.out_buf i })) := by
      unfold flip1_body
      congr 1
      funext u
      simp only
      split_ifs <;> rfl
    rw [e]
    refine submit_gap c hna _ _ (fun u => ?_)
    split_ifs
    · exact (collect_mark_gap c i _).1
    · exact ⟨rfl, rfl, rfl⟩
  · unfold flip2_body
    exact submit_gap c hna _ _ (fun _ => ⟨rfl, rfl, rfl⟩)
  · unfold flip4_body
    exact submit_gap c hna _ _ (fun _ => ⟨rfl, rfl, rfl⟩)
  · unfold flip8_body
    exact submit_gap c hna _ (fun u => { eff_mark c i u with
      out_buf := (eff_mark c i u).out_buf.set i ((eff_mark c i u).out_buf.getD i 0 ^^^ 0xFF) })
      (fun u => (collect_mark_gap c i u).2)
  · unfold flip16_body
    split_ifs
    · exact ⟨_, rfl, GapStep.skip 1 _ _ rfl rfl rfl⟩
    · obtain ⟨t, ht, hg, _⟩ := submit_gap c hna { s with
        stage_cur_byte := i
        out_buf := wr16 s.out_buf i (rd16 s.out_buf i ^^^ 0xFFFF) }
        (fun u => { u with
          stage_cur := u.stage_cur + 1
          out_buf := wr16 u.out_buf i (rd16 u.out_buf i ^^^ 0xFFFF) }) (fun _ => ⟨rfl, rfl, rfl⟩)
      exact ⟨t, ht, hg⟩
  · unfold flip32_body
    split_ifs
    · exact ⟨_, rfl, GapStep.skip 1 _ _ rfl rfl rfl⟩
    · obtain ⟨t, ht, hg, _⟩ := submit_gap c hna { s with
        stage_cur_byte := i
        out_buf := wr32 s.out_buf i (rd32 s.out_buf i ^^^ 0xFFFFFFFF) }
        (fun u => { u with
          stage_cur := u.stage_cur + 1
          out_buf := wr32 u.out_buf i (rd32 u.out_buf i ^^^ 0xFFFFFFFF) }) (fun _ => ⟨rfl, rfl, rfl⟩)
      exact ⟨t, ht, hg⟩

/-- Every round of the inner loops of the arithmetic stages deals with 2
(`arith8`) or 4 candidates. -/
theorem arith_inner_gap (c : Ctx) (hna : ∀ n buf, (c.harness n buf).abandon = false)
    (i orig j : Nat) (s : FState) :
    (∃ t, arith8_inner c i orig j s = Ctl.next t ∧ GapStep 2 s t) ∧
    (∃ t, arith16_inner c i orig j s = Ctl.next t ∧ GapStep 4 s t) ∧
    (∃ t, arith32_inner c i orig j s = Ctl.next t ∧ GapStep 4 s t) := by
  refine ⟨?_, ?_, ?_⟩
  · unfold arith8_inner
    exact bind_gap _ _ s 1 1 2 (by norm_num) (attempt_gap c hna _ _ _ s) (fun t =>
      bind_gap _ _ t 1 0 1 (by norm_num) (attempt_gap c hna _ _ _ t) (fun u =>
        ⟨_, rfl, GapStep.of_frame _ _ rfl rfl rfl⟩))
  · unfold arith16_inner
    simp only
    exact bind_gap _ _ s 1 3 4 (by norm_num) (attempt_gap c hna _ _ _ s) (fun t =>
      bind_gap _ _ t 1 2 3 (by norm_num) (attempt_gap c hna _ _ _ t) (fun t =>
      bind_gap _ _ t 1 1 2 (by norm_num) (attempt_gap c hna _ _ _ t) (fun t =>
      bind_gap _ _ t 1 0 1 (by norm_num) (attempt_gap c hna _ _ _ t) (fun u =>
        ⟨_, rfl, GapStep.of_frame _ _ rfl rfl rfl⟩))))
  · unfold arith32_inner
    simp only
    exact bind_gap _ _ s 1 3 4 (by norm_num) (attempt_gap c hna _ _ _ s) (fun t =>
      bind_gap _ _ t 1 2 3 (by norm_num) (attempt_gap c hna _ _ _ t) (fun t =>
      bind_gap _ _ t 1 1 2 (by norm_num) (attempt_gap c hna _ _ _ t) (fun t =>
      bind_gap _ _ t 1 0 1 (by norm_num) (attempt_gap c hna _ _ _ t) (fun u =>
        ⟨_, rfl, GapStep.of_frame _ _ rfl rfl rfl⟩))))

/-- Every round of the outer loops of the arithmetic stages deals with
`2 * ARITH_MAX` (`arith8`) or `4 * ARITH_MAX` candidates. -/
theorem arith_body_gap (c : Ctx) (hna : ∀ n buf, (c.harness n buf).abandon = false)
    (i : Nat) (s : FState) :
    (∃ t, arith8_body c i s = Ctl.next t ∧ GapStep (2 * (ARITH_MAX : Int)) s t) ∧
    (∃ t, arith16_body c i s = Ctl.next t ∧ GapStep (4 * (ARITH_MAX : Int)) s t) ∧
    (∃ t, arith32_body c i s = Ctl.next t ∧ GapStep (4 * (ARITH_MAX : Int)) s t) := by
  have hlen : ((List.range' 1 ARITH_MAX).length : Int) = (ARITH_MAX : Int) := by
    rw [List.length_range']
  refine ⟨?_, ?_, ?_⟩
  · unfold arith8_body for_loop
    simp only
    split_ifs
    · exact ⟨_, rfl, GapStep.skip _ _ _ rfl rfl rfl⟩
    · obtain ⟨t, ht, hg⟩ := for_each_gap (arith8_inner c i (s.out_buf.getD i 0)) 2
        (List.range' 1 ARITH_MAX) (fun j u => (arith_inner_gap c hna i _ j u).1)
        { s with stage_cur_byte := i }
      rw [hlen] at hg
      exact ⟨t, ht, hg⟩
  · unfold arith16_body for_loop
    simp only
    split_ifs
    · exact ⟨_, rfl, GapStep.skip _ _ _ rfl rfl rfl⟩
    · obtain ⟨t, ht, hg⟩ := for_each_gap (arith16_inner c i (rd16 s.out_buf i)) 4
        (List.range' 1 ARITH_MAX) (fun j u => (arith_inner_gap c hna i _ j u).2.1)
        { s with stage_cur_byte := i }
      rw [hlen] at hg
      exact ⟨t, ht, hg⟩
  · unfold arith32_body for_loop
    simp only
    split_ifs
    · exact ⟨_, rfl, GapStep.skip _ _ _ rfl rfl rfl⟩
    · obtain ⟨t, ht, hg⟩ := for_each_gap (arith32_inner c i (rd32 s.out_buf i)) 4
        (List.range' 1 ARITH_MAX) (fun j u => (arith_inner_gap c hna i _ j u).2.2)
        { s with stage_cur_byte := i }
      rw [hlen] at hg
      exact ⟨t, ht, hg⟩

/-- Every round of the inner loops of the interesting-value stages deals with
1 (`int8`) or 2 candidates. -/
theorem interest_inner_gap (c : Ctx) (hna : ∀ n buf, (c.harness n buf).abandon = false)
    (i orig : Nat) (v : Int) (s : FState) :
    (∃ t, interest8_inner c i orig v s = Ctl.next t ∧ GapStep 1 s t) ∧
    (∃ t, interest16_inner c i orig v s = Ctl.next t ∧ GapStep 2 s t) ∧
    (∃ t, interest32_inner c i orig v s = Ctl.next t ∧ GapStep 2 s t) := by
  refine ⟨?_, ?_, ?_⟩
  · unfold interest8_inner
    split_ifs
    · exact ⟨_, rfl, GapStep.skip 1 _ _ rfl rfl rfl⟩
    · obtain ⟨t, ht, hg, _⟩ := submit_gap c hna
        { s with stage_cur_val := v, out_buf := s.out_buf.set i (toU8 v) }
        (fun u => { u with out_buf := u.out_buf.set i orig, stage_cur := u.stage_cur + 1 })
        (fun _ => ⟨rfl, rfl, rfl⟩)
      exact ⟨t, ht, hg⟩
  · unfold interest16_inner
    obtain ⟨t, ht, hg⟩ := bind_gap _ _ { s with stage_cur_val := v } 1 1 2 (by norm_num)
      (attempt_gap c hna
        (!could_be_bitflip (orig ^^^ toU16 v) && !could_be_arith orig (toU16 v) 2 &&
          !could_be_interest c.T orig (toU16 v) 2 false)
        (wr16 s.out_buf i (toU16 v)) v { s with stage_cur_val := v })
      (fun t => attempt_gap c hna
        (decide (toU16 v ≠ SWAP16 (toU16 v)) &&
          !could_be_bitflip (orig ^^^ SWAP16 (toU16 v)) &&
          !could_be_arith orig (SWAP16 (toU16 v)) 2 &&
          !could_be_interest c.T orig (SWAP16 (toU16 v)) 2 true)
        (wr16 t.out_buf i (SWAP16 (toU16 v))) v t)
    exact ⟨t, ht, hg⟩
  · unfold interest32_inner
    obtain ⟨t, ht, hg⟩ := bind_gap _ _ { s with stage_cur_val := v } 1 1 2 (by norm_num)
      (attempt_gap c hna
        (!could_be_bitflip (orig ^^^ toU32 v) && !could_be_arith orig (toU32 v) 4 &&
          !could_be_interest c.T orig (toU32 v) 4 false)
        (wr32 s.out_buf i (toU32 v)) v { s with stage_cur_val := v })
      (fun t => attempt_gap c hna
        (decide (toU32 v ≠ SWAP32 (toU32 v)) &&
          !could_be_bitflip (orig ^^^ SWAP32 (toU32 v)) &&
          !could_be_arith orig (SWAP32 (toU32 v)) 4 &&
          !could_be_interest c.T orig (SWAP32 (toU32 v)) 4 true)
        (wr32 t.out_buf i (SWAP32 (toU32 v))) v t)
    exact ⟨t, ht, hg⟩

/-- Every round of the outer loops of the interesting-value stages deals with as
many candidates as the table has entries (`int8`) or twice as many. -/
theorem interest_body_gap (c : Ctx) (hna : ∀ n buf, (c.harness n buf).abandon = false)
    (i : Nat) (s : FState) :
    (∃ t, interest8_body c i s = Ctl.next t ∧
      GapStep (c.T.interesting_8.length : Int) s t) ∧
    (∃ t, interest16_body c i s = Ctl.next t ∧
      GapStep (2 * (c.T.interesting_16.length : Int)) s t) ∧
    (∃ t, interest32_body c i s = Ctl.next t ∧
      GapStep (2 * (c.T.interesting_32.length : Int)) s t) := by
  refine ⟨?_, ?_, ?_⟩
  · unfold interest8_body
    simp only
    split_ifs
    · exact ⟨_, rfl, GapStep.skip _ _ _ rfl rfl rfl⟩
    · obtain ⟨t, ht, hg⟩ := for_each_gap (interest8_inner c i (s.out_buf.getD i 0)) 1
        c.T.interesting_8 (fun v u => (interest_inner_gap c hna i _ v u).1)
        { s with stage_cur_byte := i }
      rw [one_mul] at hg
      exact ⟨t, ht, hg⟩
  · unfold interest16_body
    simp only
    split_ifs
    · exact ⟨_, rfl, GapStep.skip _ _ _ rfl rfl rfl⟩
    · exact bind_gap _ _ s _ 0 _ (by rw [add_zero])
        (for_each_gap (interest16_inner c i (rd16 s.out_buf i)) 2
          c.T.interesting_16 (fun v u => (interest_inner_gap c hna i _ v u).2.1)
          { s with stage_cur_byte := i })
        (fun u => ⟨_, rfl, GapStep.of_frame _ _ rfl rfl rfl⟩)
  · unfold interest32_body
    simp only
    split_ifs
    · exact ⟨_, rfl, GapStep.skip _ _ _ rfl rfl rfl⟩
    · exact bind_gap _ _ s _ 0 _ (by rw [add_zero])
        (for_each_gap (interest32_inner c i (rd32 s.out_buf i)) 2
          c.T.interesting_32 (fun v u => (interest_inner_gap c hna i _ v u).2.2)
          { s with stage_cur_byte := i })
        (fun u => ⟨_, rfl, GapStep.of_frame _ _ rfl rfl rfl⟩)

/-- A stage made of a loop of `n` rounds that each deal with `d` candidates,
started with `stage_max = d * n`, and of the accounting of `cyc`, which is
`stage_max` as long as the invariant `Q` of the loop holds: what it adds to its
entry of `stage_cycles` is the number of harness calls it made. -/
theorem stage_accounting (body : Nat → FState → Ctl FState) (Q : FState → Prop) (d : Int)
    (n : Nat) (h : ∀ i u, Q u → ∃ v, body i u = Ctl.next v ∧ GapStep d u v ∧ Q v)
    (s s0 : FState) (id : StageId) (cyc : FState → Int) (g : FState → FState)
    (hQ : Q s0) (hcyc : ∀ u, Q u → cyc u = u.stage_max)
    (hg : ∀ u, (g u).execs = u.execs ∧ (g u).stage_cycles = u.stage_cycles)
    (h1 : s0.stage_max = d * n) (h2 : s0.execs = s.execs)
    (h3 : s0.stage_cycles = s.stage_cycles) :
    ∃ t, (for_loop body 0 n s0).bind (fun u => Ctl.next (account id (cyc u) (g u)))
        = Ctl.next t ∧
      t.stage_cycles id = s.stage_cycles id + ((t.execs.length : Int) - (s.execs.length : Int)) := by
  obtain ⟨u, hu, hc, hm⟩ := for_each_count body
    (fun u : FState => Q u ∧ u.stage_cycles = s0.stage_cycles) budget_gap d (List.range' 0 n)
    (fun i _ u hu => by
      obtain ⟨v, hv, hgap, hq⟩ := h i u hu.1
      exact ⟨v, hv, ⟨hq, hgap.2.trans hu.2⟩, hgap.1⟩) s0 ⟨hQ, rfl⟩
  refine ⟨account id (cyc u) (g u), by unfold for_loop; rw [hu]; rfl, ?_⟩
  unfold budget_gap at hm
  rw [List.length_range', h1, h2] at hm
  simp only [account, if_true]
  rw [(hg u).1, (hg u).2, hc.2, h3, hcyc u hc.1]
  linarith

/-- The percentage test touches neither the record nor `stage_cycles`. -/
theorem eff_saturate_cycles (s : FState) :
    (eff_saturate s).execs = s.execs ∧ (eff_saturate s).stage_cycles = s.stage_cycles := by
  unfold eff_saturate
  split_ifs <;> exact ⟨rfl, rfl⟩

/-- The set-up of the effector map touches neither the record nor `stage_cycles`. -/
theorem eff_init_cycles (s : FState) :
    (eff_init s).execs = s.execs ∧ (eff_init s).stage_cycles = s.stage_cycles := by
  unfold eff_init
  simp only
  split_ifs <;> exact ⟨rfl, rfl⟩

/-- The stage jumped over adds nothing and calls nothing. -/
theorem skipped_accounting (s : FState) (id : StageId) :
    ∃ t, (Ctl.next s : Ctl FState) = Ctl.next t ∧
      t.stage_cycles id = s.stage_cycles id + ((t.execs.length : Int) - (s.execs.length : Int)) :=
  ⟨s, rfl, by ring⟩

/-- C11, amended: budget accounting. For every one of the twelve deterministic
stages that mutate the buffer in place, every seed of at least one byte and
every harness that never asks to abandon, the stage runs to its end and the
amount it adds to its entry of `stage_cycles` equals the number of candidates
it submitted to the harness (the candidates skipped by the redundancy oracles
or by the effector map are not counted: each of them was taken off
`stage_max`). -/
theorem budget_accounting (k : DetStage) (c : Ctx) (s : FState)
    (hna : ∀ n buf, (c.harness n buf).abandon = false) (hL : 1 ≤ s.len) :
    ∃ t, k.run c s = Ctl.next t ∧
      t.stage_cycles k.id
        = s.stage_cycles k.id + ((t.execs.length : Int) - (s.execs.length : Int)) := by
  have hsh : s.len <<< 3 = s.len * 8 := by rw [Nat.shiftLeft_eq]
  cases k with
  | flip1 =>
    show ∃ t, flip1_stage c s = Ctl.next t ∧ t.stage_cycles StageId.FLIP1 = _
    unfold flip1_stage
    refine stage_accounting (flip1_body c) (fun _ => True) 1 _ ?_ s _ StageId.FLIP1 _ _ ?_ ?_ ?_ ?_ ?_ ?_
    · intro i u _
      obtain ⟨v, hv, hg, _⟩ := (flip_body_gap c hna i u).1
      exact ⟨v, hv, hg, trivial⟩
    · exact trivial
    · exact fun _ _ => rfl
    · exact fun _ => ⟨rfl, rfl⟩
    · show ((s.len <<< 3 : Nat) : Int) = 1 * ((s.len <<< 3 : Nat) : Int)
      ring
    · exact rfl
    · exact rfl
  | flip2 =>
    show ∃ t, flip2_stage c s = Ctl.next t ∧ t.stage_cycles StageId.FLIP2 = _
    unfold flip2_stage
    refine stage_accounting (flip2_body c)
      (fun u => u.stage_max = ((u.len <<< 3 : Nat) : Int) - 1 ∧ u.len = s.len) 1 _ ?_ s _
      StageId.FLIP2 _ _ ?_ ?_ ?_ ?_ ?_ ?_
    · intro i u hu
      obtain ⟨v, hv, hg, hm⟩ := (flip_body_gap c hna i u).2.1
      have hl : v.len = u.len := by
        have h := hv
        unfold flip2_body at h
        rw [submit_next c _ hna] at h
        cases h
        rfl
      exact ⟨v, hv, hg, by rw [hm, hl]; exact hu.1, hl.trans hu.2⟩
    · exact ⟨rfl, rfl⟩
    · exact fun _ hu => hu.1.symm
    · exact fun _ => ⟨rfl, rfl⟩
    · show ((s.len <<< 3 : Nat) : Int) - 1 = 1 * ((s.len <<< 3 - 1 : Nat) : Int)
      rw [hsh]; omega
    · exact rfl
    · exact rfl
  | flip4 =>
    show ∃ t, flip4_stage c s = Ctl.next t ∧ t.stage_cycles StageId.FLIP4 = _
    unfold flip4_stage
    refine stage_accounting (flip4_body c) (fun _ => True) 1 _ ?_ s _ StageId.FLIP4 _ _ ?_ ?_ ?_ ?_ ?_ ?_
    · intro i u _
      obtain ⟨v, hv, hg, _⟩ := (flip_body_gap c hna i u).2.2.1
      exact ⟨v, hv, hg, trivial⟩
    · exact trivial
    · exact fun _ _ => rfl
    · exact fun _ => ⟨rfl, rfl⟩
    · show ((s.len <<< 3 : Nat) : Int) - 3 = 1 * ((s.len <<< 3 - 3 : Nat) : Int)
      rw [hsh]; omega
    · exact rfl
    · exact rfl
  | flip8 =>
    show ∃ t, flip8_stage c s = Ctl.next t ∧ t.stage_cycles StageId.FLIP8 = _
    unfold flip8_stage
    refine stage_accounting (flip8_body c) (fun _ => True) 1 _ ?_ s _ StageId.FLIP8 _ _ ?_ ?_ ?_ ?_ ?_ ?_
    · intro i u _
      obtain ⟨v, hv, hg, _⟩ := (flip_body_gap c hna i u).2.2.2.1
      exact ⟨v, hv, hg, trivial⟩
    · exact trivial
    · exact fun _ _ => rfl
    · exact fun u => eff_saturate_cycles _
    · show (s.len : Int) = 1 * (s.len : Int)
      ring
    · exact (eff_init_cycles s).1
    · exact (eff_init_cycles s).2
  | flip16 =>
    show ∃ t, flip16_stage c s = Ctl.next t ∧ t.stage_cycles StageId.FLIP16 = _
    unfold flip16_stage
    split_ifs with h
    · exact skipped_accounting s _
    · refine stage_accounting (flip16_body c) (fun _ => True) 1 _ ?_ s _ StageId.FLIP16 _ _ ?_ ?_ ?_ ?_ ?_ ?_
      · intro i u _
        obtain ⟨v, hv, hg⟩ := (flip_body_gap c hna i u).2.2.2.2.1
        exact ⟨v, hv, hg, trivial⟩
      · exact trivial
      · exact fun _ _ => rfl
      · exact fun _ => ⟨rfl, rfl⟩
      · show (s.len : Int) - 1 = 1 * ((s.len - 1 : Nat) : Int)
        omega
      · exact rfl
      · exact rfl
  | flip32 =>
    show ∃ t, flip32_stage c s = Ctl.next t ∧ t.stage_cycles StageId.FLIP32 = _
    unfold flip32_stage
    split_ifs with h
    · exact skipped_accounting s _
    · refine stage_accounting (flip32_body c) (fun _ => True) 1 _ ?_ s _ StageId.FLIP32 _ _ ?_ ?_ ?_ ?_ ?_ ?_
      · intro i u _
        obtain ⟨v, hv, hg⟩ := (flip_body_gap c hna i u).2.2.2.2.2
        exact ⟨v, hv, hg, trivial⟩
      · exact trivial
      · exact fun _ _ => rfl
      · exact fun _ => ⟨rfl, rfl⟩
      · show (s.len : Int) - 3 = 1 * ((s.len - 3 : Nat) : Int)
        omega
      · exact rfl
      · exact rfl
  | arith8 =>
    show ∃ t, arith8_stage c s = Ctl.next t ∧ t.stage_cycles StageId.ARITH8 = _
    unfold arith8_stage
    refine stage_accounting (arith8_body c) (fun _ => True) (2 * (ARITH_MAX : Int)) _ ?_ s _ StageId.ARITH8 _ _ ?_ ?_ ?_ ?_ ?_ ?_
    · intro i u _
      obtain ⟨v, hv, hg⟩ := (arith_body_gap c hna i u).1
      exact ⟨v, hv, hg, trivial⟩
    · exact trivial
    · exact fun _ _ => rfl
    · exact fun _ => ⟨rfl, rfl⟩
    · show 2 * (s.len : Int) * (ARITH_MAX : Int) = 2 * (ARITH_MAX : Int) * (s.len : Int)
      ring
    · exact rfl
    · exact rfl
  | arith16 =>
    show ∃ t, arith16_stage c s = Ctl.next t ∧ t.stage_cycles StageId.ARITH16 = _
    unfold arith16_stage
    split_ifs with h
    · exact skipped_accounting s _
    · refine stage_accounting (arith16_body c) (fun _ => True) (4 * (ARITH_MAX : Int)) _ ?_ s _ StageId.ARITH16 _ _ ?_ ?_ ?_ ?_ ?_ ?_
      · intro i u _
        obtain ⟨v, hv, hg⟩ := (arith_body_gap c hna i u).2.1
        exact ⟨v, hv, hg, trivial⟩
      · exact trivial
      · exact fun _ _ => rfl
      · exact fun _ => ⟨rfl, rfl⟩
      · show 4 * ((s.len : Int) - 1) * (ARITH_MAX : Int)
          = 4 * (ARITH_MAX : Int) * ((s.len - 1 : Nat) : Int)
        rw [Nat.cast_sub (by omega)]
        push_cast
        ring
      · exact rfl
      · exact rfl
  | arith32 =>
    show ∃ t, arith32_stage c s = Ctl.next t ∧ t.stage_cycles StageId.ARITH32 = _
    unfold arith32_stage
    split_ifs with h
    · exact skipped_accounting s _
    · refine stage_accounting (arith32_body c) (fun _ => True) (4 * (ARITH_MAX : Int)) _ ?_ s _ StageId.ARITH32 _ _ ?_ ?_ ?_ ?_ ?_ ?_
      · intro i u _
        obtain ⟨v, hv, hg⟩ := (arith_body_gap c hna i u).2.2
        exact ⟨v, hv, hg, trivial⟩
      · exact trivial
      · exact fun _ _ => rfl
      · exact fun _ => ⟨rfl, rfl⟩
      · show 4 * ((s.len : Int) - 3) * (ARITH_MAX : Int)
          = 4 * (ARITH_MAX : Int) * ((s.len - 3 : Nat) : Int)
        rw [Nat.cast_sub (by omega)]
        push_cast
        ring
      · exact rfl
      · exact rfl
  | interest8 =>
    show ∃ t, interest8_stage c s = Ctl.next t ∧ t.stage_cycles StageId.INTEREST8 = _
    unfold interest8_stage
    refine stage_accounting (interest8_body c) (fun _ => True) (c.T.interesting_8.length : Int) _ ?_ s _ StageId.INTEREST8 _ _ ?_ ?_ ?_ ?_ ?_ ?_
    · intro i u _
      obtain ⟨v, hv, hg⟩ := (interest_body_gap c hna i u).1
      exact ⟨v, hv, hg, trivial⟩
    · exact trivial
    · exact fun _ _ => rfl
    · exact fun _ => ⟨rfl, rfl⟩
    · show (s.len : Int) * (c.T.interesting_8.length : Int)
        = (c.T.interesting_8.length : Int) * (s.len : Int)
      ring
    · exact rfl
    · exact rfl
  | interest16 =>
    show ∃ t, interest16_stage c s = Ctl.next t ∧ t.stage_cycles StageId.INTEREST16 = _
    unfold interest16_stage
    split_ifs with h
    · exact skipped_accounting s _
    · refine stage_accounting (interest16_body c) (fun _ => True) (2 * (c.T.interesting_16.length : Int)) _ ?_ s _ StageId.INTEREST16 _ _ ?_ ?_ ?_ ?_ ?_ ?_
      · intro i u _
        obtain ⟨v, hv, hg⟩ := (interest_body_gap c hna i u).2.1
        exact ⟨v, hv, hg, trivial⟩
      · exact trivial
      · exact fun _ _ => rfl
      · exact fun _ => ⟨rfl, rfl⟩
      · show 2 * ((s.len : Int) - 1) * (c.T.interesting_16.length : Int)
          = 2 * (c.T.interesting_16.length : Int) * ((s.len - 1 : Nat) : Int)
        rw [Nat.cast_sub (by omega)]
        push_cast
        ring
      · exact rfl
      · exact rfl
  | interest32 =>
    show ∃ t, interest32_stage c s = Ctl.next t ∧ t.stage_cycles StageId.INTEREST32 = _
    unfold interest32_stage
    split_ifs with h
    · exact skipped_accounting s _
    · refine stage_accounting (interest32_body c) (fun _ => True) (2 * (c.T.interesting_32.length : Int)) _ ?_ s _ StageId.INTEREST32 _ _ ?_ ?_ ?_ ?_ ?_ ?_
      · intro i u _
        obtain ⟨v, hv, hg⟩ := (interest_body_gap c hna i u).2.2
        exact ⟨v, hv, hg, trivial⟩
      · exact trivial
      · exact fun _ _ => rfl
      · exact fun _ => ⟨rfl, rfl⟩
      · show 2 * ((s.len : Int) - 3) * (c.T.interesting_32.length : Int)
          = 2 * (c.T.interesting_32.length : Int) * ((s.len - 3 : Nat) : Int)
        rw [Nat.cast_sub (by omega)]
        push_cast
        ring
      · exact rfl
      · exact rfl

/-! ## Budget accounting and scenario S2 on concrete seeds -/

set_option maxRecDepth 1000000

/-- Budget accounting applied to `arith8` on the seed `00` with its effector
entry set. -/
theorem budget_accounting_witness :
    ∃ t, DetStage.arith8.run (quiet_ctx [] []) { init_state [0] with eff_map := [1] }
        = Ctl.next t ∧
      t.stage_cycles DetStage.arith8.id
        = ({ init_state [0] with eff_map := [1] } : FState).stage_cycles DetStage.arith8.id
          + ((t.execs.length : Int)
            - (({ init_state [0] with eff_map := [1] } : FState).execs.length : Int)) :=
  budget_accounting DetStage.arith8 (quiet_ctx [] []) { init_state [0] with eff_map := [1] }
    (fun _ _ => rfl) (by decide)

/-- C11, counterexample: `arith8` on the seed `00` with its effector entry set
and a harness that never asks to abandon. The stage runs to its end; of its 70
candidates it submits 56 and skips 14 because `could_be_bitflip` holds (12 of
the form `orig + j`, 2 of the form `orig - j`); it adds 56 to
`stage_cycles[STAGE_ARITH8]`, not `56 + 14`. -/
theorem budget_accounting_counterexample :
    ∃ t, arith8_stage (quiet_ctx [] []) { init_state [0] with eff_map := [1] } = Ctl.next t ∧
      t.execs.length = ({ init_state [0] with eff_map := [1] } : FState).execs.length + 56 ∧
      ((List.range' 1 ARITH_MAX).filter
          (fun j => could_be_bitflip (([0].getD 0 0 ^^^ ([0].getD 0 0 + j)) % 256))).length
        + ((List.range' 1 ARITH_MAX).filter
          (fun j => could_be_bitflip (([0].getD 0 0 ^^^ sub32 ([0].getD 0 0) j) % 256))).length
        = 14 ∧
      t.stage_cycles StageId.ARITH8
        = ({ init_state [0] with eff_map := [1] } : FState).stage_cycles StageId.ARITH8 + 56 ∧
      t.stage_cycles StageId.ARITH8
        ≠ ({ init_state [0] with eff_map := [1] } : FState).stage_cycles StageId.ARITH8
          + (56 + 14) :=
  ⟨(arith8_stage (quiet_ctx [] []) { init_state [0] with eff_map := [1] }).state,
    by rfl, by decide, by decide, by decide, by decide⟩

/-- Scenario S2 applied to the seed `10` with its effector entry set. -/
theorem arith8_dedup_witness :
    (could_be_bitflip 0x01 = true ∧ could_be_bitflip 0x03 = true ∧
      could_be_bitflip 0x04 = true ∧ could_be_bitflip 0x05 = false) ∧
    ∃ t new, arith8_body (quiet_ctx [] []) 0 { init_state [0x10] with eff_map := [1] }
        = Ctl.next t ∧
      t.execs = ({ init_state [0x10] with eff_map := [1] } : FState).execs ++ new ∧
      (∀ j, 1 ≤ j → j ≤ ARITH_MAX →
        (([0x10].set 0 (([0x10].getD 0 0 + j) % 256), [0x10].length) ∈ new ↔
          could_be_bitflip ([0x10].getD 0 0 ^^^ (([0x10].getD 0 0 + j) % 256)) = false) ∧
        (([0x10].set 0 (([0x10].getD 0 0 + 256 - j) % 256), [0x10].length) ∈ new ↔
          could_be_bitflip ([0x10].getD 0 0 ^^^ (([0x10].getD 0 0 + 256 - j) % 256)) = false)) ∧
      ([0x10].getD 0 0 = 0x00 → ([0x10].set 0 0x01, [0x10].length) ∉ new) ∧
      ([0x10].getD 0 0 = 0x10 →
        ([0x10].set 0 0x11, [0x10].length) ∉ new ∧ ([0x10].set 0 0x13, [0x10].length) ∉ new ∧
        ([0x10].set 0 0x14, [0x10].length) ∉ new ∧ ([0x10].set 0 0x15, [0x10].length) ∈ new) :=
  arith8_dedup (quiet_ctx [] []) [0x10] 0 { init_state [0x10] with eff_map := [1] }
    (fun _ _ => rfl) (by simp [Bytes]) (by decide) ⟨rfl, rfl⟩ (by decide)

/-! ## Scenario S1: the magic bytes collected by `flip1` -/

/-- The collection block when the hash moves away from the baseline and
nothing is being collected: the byte is the first of a new token. -/
theorem auto_collect_first (c : Ctx) (i : Nat) (s : FState) (hr : Nat)
    (hck : s.cksum = hr) (hprev : s.prev_cksum = c.exec_cksum) (hne : hr ≠ c.exec_cksum)
    (hlen : s.a_len = 0) :
    (auto_collect c i s).a_len = 1 ∧ (auto_collect c i s).prev_cksum = hr ∧
    (auto_collect c i s).autos = s.autos ∧
    (auto_collect c i s).a_collect = s.a_collect.set 0 (some (s.out_buf.getD (i >>> 3) 0)) := by
  have h1 : ¬ ((i : Int) = s.stage_max - 1 ∧ s.cksum = s.prev_cksum) := by
    rw [hck, hprev]; exact fun h => hne h.2
  have h2 : s.cksum ≠ s.prev_cksum := by rw [hck, hprev]; exact hne
  have h3 : s.cksum ≠ c.exec_cksum := by rw [hck]; exact hne
  have h4 : ¬ (s.a_len ≥ MIN_AUTO_EXTRA ∧ s.a_len ≤ MAX_AUTO_EXTRA) := by
    rw [hlen]; decide
  unfold auto_collect
  simp only
  rw [if_neg h1, if_pos h2, if_pos h3]
  unfold a_collect_emit
  rw [if_neg h4]
  unfold a_collect_push
  simp only
  rw [if_pos (by decide)]
  exact ⟨rfl, hck, rfl, rfl⟩

/-- The collection block when the hash is the one of the previous byte and not
the baseline, before the last bit of the file: the byte is appended. -/
theorem auto_collect_more (c : Ctx) (i : Nat) (s : FState) (hr : Nat)
    (hck : s.cksum = hr) (hprev : s.prev_cksum = hr) (hne : hr ≠ c.exec_cksum)
    (hi : (i : Int) ≠ s.stage_max - 1) (hlen : s.a_len < MAX_AUTO_EXTRA) :
    (auto_collect c i s).a_len = s.a_len + 1 ∧ (auto_collect c i s).prev_cksum = hr ∧
    (auto_collect c i s).autos = s.autos ∧
    (auto_collect c i s).a_collect
      = s.a_collect.set s.a_len (some (s.out_buf.getD (i >>> 3) 0)) := by
  have h1 : ¬ ((i : Int) = s.stage_max - 1 ∧ s.cksum = s.prev_cksum) := fun h => hi h.1
  have h2 : ¬ (s.cksum ≠ s.prev_cksum) := by rw [hck, hprev]; exact fun h => h rfl
  have h3 : s.cksum ≠ c.exec_cksum := by rw [hck]; exact hne
  unfold auto_collect
  simp only
  rw [if_neg h1, if_neg h2, if_pos h3]
  unfold a_collect_push
  simp only
  rw [if_pos hlen]
  exact ⟨rfl, hprev, rfl, rfl⟩

/-- The collection block when the hash returns to the baseline after 4
collected bytes: the token is handed over and the collection starts afresh. -/
theorem auto_collect_emit4 (c : Ctx) (i : Nat) (s : FState) (hr : Nat)
    (hck : s.cksum = c.exec_cksum) (hprev : s.prev_cksum = hr) (hne : hr ≠ c.exec_cksum)
    (hlen : s.a_len = 4) :
    (auto_collect c i s).a_len = 0 ∧ (auto_collect c i s).prev_cksum = c.exec_cksum ∧
    (auto_collect c i s).autos = s.autos ++ [(s.a_collect, 4)] ∧
    (auto_collect c i s).a_collect = s.a_collect := by
  have h1 : ¬ ((i : Int) = s.stage_max - 1 ∧ s.cksum = s.prev_cksum) := by
    rw [hck, hprev]; exact fun h => hne h.2.symm
  have h2 : s.cksum ≠ s.prev_cksum := by rw [hck, hprev]; exact fun h => hne h.symm
  have h3 : ¬ (s.cksum ≠ c.exec_cksum) := by rw [hck]; exact fun h => h rfl
  have h4 : s.a_len ≥ MIN_AUTO_EXTRA ∧ s.a_len ≤ MAX_AUTO_EXTRA := by
    rw [hlen]; decide
  unfold auto_collect
  simp only
  rw [if_neg h1, if_pos h2, if_neg h3]
  unfold a_collect_emit
  rw [if_pos h4]
  unfold maybe_add_auto
  rw [hlen]
  exact ⟨rfl, hck, rfl, rfl⟩

/-- The collection block when the hash stays at the baseline, before the last
bit of the file: nothing happens. -/
theorem auto_collect_quiet (c : Ctx) (i : Nat) (s : FState)
    (hck : s.cksum = c.exec_cksum) (hprev : s.prev_cksum = c.exec_cksum)
    (hi : (i : Int) ≠ s.stage_max - 1) : auto_collect c i s = s := by
  have h1 : ¬ ((i : Int) = s.stage_max - 1 ∧ s.cksum = s.prev_cksum) := fun h => hi h.1
  have h2 : ¬ (s.cksum ≠ s.prev_cksum) := by rw [hck, hprev]; exact fun h => h rfl
  have h3 : ¬ (s.cksum ≠ c.exec_cksum) := by rw [hck]; exact fun h => h rfl
  unfold auto_collect
  simp only
  rw [if_neg h1, if_neg h2, if_neg h3]

/-- A token shorter than `MIN_AUTO_EXTRA` is not handed over. -/
theorem a_collect_emit_short (s : FState) (h : s.a_len < MIN_AUTO_EXTRA) :
    a_collect_emit s = s := by
  unfold a_collect_emit
  rw [if_neg (fun h2 => absurd h2.1 (Nat.not_le.mpr h))]

/-- What storing one byte changes. -/
theorem a_collect_push_fields (i : Nat) (s : FState) :
    (a_collect_push i s).a_len = s.a_len + 1 ∧
    (a_collect_push i s).prev_cksum = s.prev_cksum ∧
    (a_collect_push i s).autos = s.autos ∧
    (a_collect_push i s).a_collect.length = s.a_collect.length := by
  unfold a_collect_push
  simp only
  split_ifs
  · exact ⟨rfl, rfl, rfl, List.length_set _ _ _⟩
  · exact ⟨rfl, rfl, rfl, rfl⟩

/-- The collection block at the last bit of the file when the hash stays at
the baseline and nothing is being collected: the last byte is stored, which
makes a token too short to be handed over. -/
theorem auto_collect_last (c : Ctx) (i : Nat) (s : FState)
    (hck : s.cksum = c.exec_cksum) (hprev : s.prev_cksum = c.exec_cksum)
    (hi : (i : Int) = s.stage_max - 1) (hlen : s.a_len = 0) :
    (auto_collect c i s).prev_cksum = c.exec_cksum ∧ (auto_collect c i s).autos = s.autos ∧
    (auto_collect c i s).a_collect.length = s.a_collect.length := by
  have h1 : (i : Int) = s.stage_max - 1 ∧ s.cksum = s.prev_cksum := ⟨hi, by rw [hck, hprev]⟩
  have h3 : ¬ (s.cksum ≠ c.exec_cksum) := by rw [hck]; exact fun h => h rfl
  obtain ⟨p1, p2, p3, p4⟩ := a_collect_push_fields i s
  have h5 : (a_collect_push i s).a_len < MIN_AUTO_EXTRA := by rw [p1, hlen]; decide
  unfold auto_collect
  simp only
  rw [if_pos h1, if_neg h3, a_collect_emit_short _ h5]
  exact ⟨p2.trans hprev, p3, p4⟩

/-- The collection block does not touch `stage_max`. -/
theorem auto_collect_stage_max (c : Ctx) (i : Nat) (s : FState) :
    (auto_collect c i s).stage_max = s.stage_max := by
  unfold auto_collect a_collect_emit a_collect_push maybe_add_auto
  simp only
  split_ifs <;> rfl

/-- A round of `flip1` outside dumb mode when the harness lets every run
complete: the state `x` after the run and the second `FLIP_BIT`, then the
collection block if the bit is the last of its byte. -/
theorem flip1_round (c : Ctx) (hna : ∀ n buf, (c.harness n buf).abandon = false)
    (hd : c.dumb_mode = false) (i : Nat) (u : FState) (hl : u.out_buf.length = u.len) :
    ∃ x, flip1_body c i u = Ctl.next (if i &&& 7 = 7 then auto_collect c i x else x) ∧
      x.out_buf = u.out_buf ∧ x.len = u.len ∧ x.stage_max = u.stage_max ∧ x.a_len = u.a_len ∧
      x.a_collect = u.a_collect ∧ x.prev_cksum = u.prev_cksum ∧ x.autos = u.autos ∧
      x.cksum = (c.harness u.execs.length (FLIP_BIT u.out_buf i)).cksum := by
  have hk : (FLIP_BIT u.out_buf i).take u.len = FLIP_BIT u.out_buf i :=
    take_full _ _ ((FLIP_BIT_length _ _).trans hl)
  refine ⟨{ (common_fuzz_stuff c { u with
      stage_cur := i, stage_cur_byte := i >>> 3, out_buf := FLIP_BIT u.out_buf i }
        (FLIP_BIT u.out_buf i) u.len).1 with out_buf := FLIP_BIT (FLIP_BIT u.out_buf i) i },
    ?_, FLIP_BIT_twice _ _, rfl, rfl, rfl, rfl, rfl, rfl, ?_⟩
  · simp only [flip1_body, submit_next c _ hna, Ctl.bind]
    by_cases h7 : i &&& 7 = 7
    · rw [if_pos ⟨hd, h7⟩, if_pos h7]
      rfl
    · rw [if_neg (fun h => h7 h.2), if_neg h7]
      rfl
  · simp only [common_fuzz_stuff, hk]

/-- The phase of the collection depends on four variables only. -/
theorem MagicPhase_congr {B : List Nat} {hr ha m : Nat} {u v : FState}
    (h : MagicPhase B hr ha m u) (e1 : v.a_collect = u.a_collect) (e2 : v.a_len = u.a_len)
    (e3 : v.prev_cksum = u.prev_cksum) (e4 : v.autos = u.autos) : MagicPhase B hr ha m v := by
  unfold MagicPhase at h ⊢
  rw [e1, e2, e3, e4]
  exact h

/-- A round of `flip1` in scenario S1 carries the phase of the collection from
`i / 8` flipped bytes to `(i + 1) / 8`. -/
theorem magic_round (c : Ctx) (B : List Nat) (hr : Nat)
    (hna : ∀ n buf, (c.harness n buf).abandon = false) (hd : c.dumb_mode = false)
    (hB : B.length = 1028) (hne : hr ≠ c.exec_cksum)
    (hck : ∀ n k, k < 1028 →
      (c.harness n (FLIP_BIT B (8 * k + 7))).cksum = if k < 4 then hr else c.exec_cksum)
    (i : Nat) (hi : i < 8224) (u : FState)
    (hP : u.out_buf = B ∧ u.len = 1028 ∧ u.stage_max = 8224 ∧
      MagicPhase B hr c.exec_cksum (i / 8) u) :
    ∃ v, flip1_body c i u = Ctl.next v ∧
      (v.out_buf = B ∧ v.len = 1028 ∧ v.stage_max = 8224 ∧
        MagicPhase B hr c.exec_cksum ((i + 1) / 8) v) := by
  obtain ⟨h1, h2, h3, hM⟩ := hP
  obtain ⟨x, e, x1, x2, x3, x4, x5, x6, x7, x8⟩ :=
    flip1_round c hna hd i u (by rw [h1, h2, hB])
  by_cases h7 : i &&& 7 = 7
  · rw [if_pos h7] at e
    have hmod : i % 8 = 7 := by
      rw [show (7 : Nat) = 2 ^ 3 - 1 from rfl, Nat.and_pow_two_sub_one_eq_mod] at h7
      exact h7
    obtain ⟨m, hm⟩ : ∃ m, i = 8 * m + 7 := ⟨i / 8, by omega⟩
    subst hm
    have d1 : (8 * m + 7) / 8 = m := by omega
    have d2 : (8 * m + 7 + 1) / 8 = m + 1 := by omega
    have d3 : (8 * m + 7) >>> 3 = m := by rw [Nat.shiftRight_eq_div_pow]; omega
    have hm4 : m < 1028 := by omega
    rw [d1] at hM
    have hx8 : x.cksum = if m < 4 then hr else c.exec_cksum := by
      rw [x8, h1]; exact hck _ m hm4
    have hob : x.out_buf.getD ((8 * m + 7) >>> 3) 0 = B.getD m 0 := by rw [d3, x1, h1]
    have hlast : m < 1027 → ((8 * m + 7 : Nat) : Int) ≠ x.stage_max - 1 := by
      intro h; rw [x3, h3]; omega
    refine ⟨auto_collect c (8 * m + 7) x, e, (auto_collect_out_buf _ _ _).trans (x1.trans h1),
      (auto_collect_frame _ _ _).1.trans (x2.trans h2),
      (auto_collect_stage_max _ _ _).trans (x3.trans h3), ?_⟩
    rw [d2]
    obtain ⟨hlen, hcase⟩ := hM
    have hxl : x.a_collect.length = MAX_AUTO_EXTRA := by rw [x5]; exact hlen
    rcases hcase with ⟨m0, a0, p0, u0⟩ | ⟨m1, m4, am, pm, um, hb⟩ | ⟨m5, a5, p5, coll, hc1, hc2⟩
    · -- the first byte of the magic
      subst m0
      rw [if_pos (by decide)] at hx8
      obtain ⟨q1, q2, q3, q4⟩ :=
        auto_collect_first c (8 * 0 + 7) x hr hx8 (x6.trans p0) hne (x4.trans a0)
      refine ⟨by rw [q4, List.length_set]; exact hxl, Or.inr (Or.inl
        ⟨le_refl 1, by decide, q1, q2, q3.trans (x7.trans u0), ?_⟩)⟩
      intro k hk
      have hk0 : k = 0 := by omega
      subst hk0
      rw [q4, hob]
      exact List.getElem?_set_self (by rw [hxl]; decide)
    · by_cases hm3 : m < 4
      · -- a further byte of the magic
        rw [if_pos hm3] at hx8
        obtain ⟨q1, q2, q3, q4⟩ :=
          auto_collect_more c (8 * m + 7) x hr hx8 (x6.trans pm) hne (hlast (by omega))
            (by rw [x4, am]; unfold MAX_AUTO_EXTRA; omega)
        refine ⟨by rw [q4, List.length_set]; exact hxl, Or.inr (Or.inl
          ⟨by omega, by omega, by rw [q1, x4, am], q2, q3.trans (x7.trans um), ?_⟩)⟩
        intro k hk
        rw [q4, hob, x4, am]
        by_cases hkm : k = m
        · subst hkm
          exact List.getElem?_set_self (by rw [hxl]; unfold MAX_AUTO_EXTRA; omega)
        · rw [List.getElem?_set_ne (fun h => hkm h.symm), x5]
          exact hb k (by omega)
      · -- the first byte after the magic
        have hm44 : m = 4 := by omega
        subst hm44
        rw [if_neg hm3] at hx8
        obtain ⟨q1, q2, q3, q4⟩ :=
          auto_collect_emit4 c (8 * 4 + 7) x hr hx8 (x6.trans pm) hne (x4.trans am)
        refine ⟨by rw [q4]; exact hxl, Or.inr (Or.inr
          ⟨le_refl 5, fun _ => q1, q2, x.a_collect, ?_, ?_⟩)⟩
        · rw [q3, x7, um]; rfl
        · intro k hk
          rw [x5]
          exact hb k hk
    · -- the bytes that follow
      rw [if_neg (by omega)] at hx8
      by_cases hm7 : m < 1027
      · have hq := auto_collect_quiet c (8 * m + 7) x hx8 (x6.trans p5) (hlast hm7)
        rw [hq]
        have hM2 : MagicPhase B hr c.exec_cksum (m + 1) u :=
          ⟨hlen, Or.inr (Or.inr ⟨by omega, fun _ => a5 hm4, p5, coll, hc1, hc2⟩)⟩
        exact MagicPhase_congr hM2 x5 x4 x6 x7
      · have hm77 : m = 1027 := by omega
        subst hm77
        obtain ⟨q1, q2, q3⟩ := auto_collect_last c (8 * 1027 + 7) x hx8 (x6.trans p5)
          (by rw [x3, h3]; rfl) (x4.trans (a5 hm4))
        refine ⟨q3.trans hxl, Or.inr (Or.inr
          ⟨by omega, fun h => absurd h (by omega), q1, coll, q2.trans (x7.trans hc1), hc2⟩)⟩
  · rw [if_neg h7] at e
    have hmod : i % 8 ≠ 7 := by
      rw [show (7 : Nat) = 2 ^ 3 - 1 from rfl, Nat.and_pow_two_sub_one_eq_mod] at h7
      exact h7
    have d2 : (i + 1) / 8 = i / 8 := by omega
    rw [d2]
    exact ⟨x, e, x1.trans h1, x2.trans h2, x3.trans h3, MagicPhase_congr hM x5 x4 x6 x7⟩

/-- C14: scenario S1, magic detection. Outside dumb mode, for a seed `B` of 4
magic bytes followed by 1024 further bytes, with a harness that lets every run
complete, if the coverage hash after flipping the last bit of byte `k` is `hr`,
different from the baseline hash `exec_cksum`, for `k` in 0..3 and the baseline
hash for every `k >= 4`, then `flip1` runs to its end and the calls of
`maybe_add_auto` it has made are exactly one, with `a_len = 4` and the bytes
0..3 of the seed as the token. -/
theorem magic_detection (c : Ctx) (B : List Nat) (hr : Nat)
    (hna : ∀ n buf, (c.harness n buf).abandon = false) (hd : c.dumb_mode = false)
    (hB : B.length = 1028) (hne : hr ≠ c.exec_cksum)
    (hck : ∀ n k, k < 1028 →
      (c.harness n (FLIP_BIT B (8 * k + 7))).cksum = if k < 4 then hr else c.exec_cksum) :
    ∃ t coll, flip1_stage c (init_state B) = Ctl.next t ∧ t.autos = [(coll, 4)] ∧
      ∀ k, k < 4 → coll[k]? = some (some (B.getD k 0)) := by
  have e8 : (init_state B).len <<< 3 = 8224 := by
    show B.length <<< 3 = 8224
    rw [hB]
    rfl
  obtain ⟨u, hu, -, -, -, hlen, hcase⟩ := for_loop_indexed (flip1_body c)
    (fun i u => u.out_buf = B ∧ u.len = 1028 ∧ u.stage_max = 8224 ∧
      MagicPhase B hr c.exec_cksum (i / 8) u) 8224
    (fun i hi u hP => magic_round c B hr hna hd hB hne hck i hi u hP)
    { init_state B with
        stage_max := (((init_state B).len <<< 3 : Nat) : Int)
        orig_hit_cnt := (init_state B).queued_paths + (init_state B).unique_crashes
        prev_cksum := c.exec_cksum }
    ⟨rfl, hB, by show (((init_state B).len <<< 3 : Nat) : Int) = 8224; rw [e8]; rfl,
      by simp [init_state], Or.inl ⟨rfl, rfl, rfl, rfl⟩⟩
  have hu2 : for_loop (flip1_body c) 0 ((init_state B).len <<< 3)
      { init_state B with
        stage_max := (((init_state B).len <<< 3 : Nat) : Int)
        orig_hit_cnt := (init_state B).queued_paths + (init_state B).unique_crashes
        prev_cksum := c.exec_cksum } = Ctl.next u := by nth_rewrite 1 [e8]; exact hu
  rcases hcase with ⟨m0, -⟩ | ⟨-, m4, -⟩ | ⟨-, -, -, coll, hc1, hc2⟩
  · exact absurd m0 (by decide)
  · exact absurd m4 (by decide)
  · refine ⟨account StageId.FLIP1 u.stage_max { u with stage_cur := u.stage_max }, coll,
      ?_, hc1, hc2⟩
    unfold flip1_stage
    simp only
    rw [hu2]
    rfl

/-- The hash reported by `magic_ctx` after the last bit of byte `k` of a seed
that starts with the magic has been flipped. -/
theorem magic_ctx_flip (M rest : List Nat) (n k : Nat) :
    ((magic_ctx M).harness n (FLIP_BIT (M ++ rest) (8 * k + 7))).cksum
      = if k < M.length then 1 else 0 := by
  rw [FLIP_BIT_byte _ k 7 (by decide)]
  show (if ((M ++ rest).set k ((M ++ rest).getD k 0 ^^^ (128 >>> 7))).take M.length = M
    then 0 else 1) = _
  rw [List.set_take, List.take_left]
  by_cases hk : k < M.length
  · rw [if_pos hk, if_neg]
    intro h
    have h2 : (M.set k ((M ++ rest).getD k 0 ^^^ (128 >>> 7))).getD k 0 = M.getD k 0 :=
      congrArg (fun l => l.getD k 0) h
    rw [getD_set, if_pos ⟨rfl, hk⟩] at h2
    have h3 : (M ++ rest).getD k 0 = M.getD k 0 := by
      rw [List.getD_eq_getElem?_getD, List.getD_eq_getElem?_getD, List.getElem?_append_left hk]
    rw [h3] at h2
    have h4 : M.getD k 0 ^^^ (M.getD k 0 ^^^ (128 >>> 7)) = M.getD k 0 ^^^ M.getD k 0 :=
      congrArg (fun v => M.getD k 0 ^^^ v) h2
    rw [Nat.xor_cancel_left, Nat.xor_self] at h4
    exact absurd h4 (by decide)
  · rw [if_neg hk, List.set_eq_of_length_le (by omega), if_pos rfl]

/-- The magic detection applied to the seed `P N G 89` followed by 1024 zero
bytes, with a harness that reports the hash 1 when the input no longer starts
with the magic and the baseline hash 0 otherwise. -/
theorem magic_detection_witness :
    ∃ t coll,
      flip1_stage (magic_ctx [80, 78, 71, 137])
        (init_state ([80, 78, 71, 137] ++ List.replicate 1024 0)) = Ctl.next t ∧
      t.autos = [(coll, 4)] ∧
      ∀ k, k < 4 →
        coll[k]? = some (some (([80, 78, 71, 137] ++ List.replicate 1024 0).getD k 0)) :=
  magic_detection (magic_ctx [80, 78, 71, 137]) ([80, 78, 71, 137] ++ List.replicate 1024 0) 1
    (fun _ _ => rfl) rfl (by rw [List.length_append, List.length_replicate]; rfl) (by decide)
    (fun n k _ => magic_ctx_flip [80, 78, 71, 137] (List.replicate 1024 0) n k)
/-! ## The admission gate and the value returned -/

/-- The gate lets a favored seed that was never fuzzed through. -/
theorem admission_gate_favored_new (dumb_mode : Bool) (h : Head) (r : Nat)
    (hf : h.favored = true) (hw : h.was_fuzzed = false) :
    admission_gate dumb_mode h r = false := by
  unfold admission_gate
  cases dumb_mode <;> by_cases hp : h.pending_favored = 0 <;> simp [hp, hf, hw]

/-- C22: the admission gate of the build without `IGNORE_FINDS`, as a function
of the state and of the draw `r = UR(100)`: the seed is skipped exactly if
favored seeds are pending, the seed was fuzzed or is not favored and
`r < 99`, or no favored seed is pending, the mode is not dumb, the seed is not
favored, `queued_paths > 10` and `r < T`, where `T` is 75 if `queue_cycle > 1`
and the seed was never fuzzed, 95 otherwise. A favored seed that was never
fuzzed is never skipped. -/
theorem admission_gate_iff (dumb_mode : Bool) (h : Head) (r : Nat) :
    (admission_gate dumb_mode h r = true ↔
      ((h.pending_favored ≠ 0 ∧ (h.was_fuzzed = true ∨ h.favored = false) ∧ r < 99) ∨
       (h.pending_favored = 0 ∧ dumb_mode = false ∧ h.favored = false ∧ h.queued_paths > 10 ∧
          r < (if h.queue_cycle > 1 ∧ h.was_fuzzed = false then 75 else 95)))) ∧
    (h.favored = true ∧ h.was_fuzzed = false → admission_gate dumb_mode h r = false) := by
  unfold admission_gate SKIP_TO_NEW_PROB SKIP_NFAV_NEW_PROB SKIP_NFAV_OLD_PROB
  cases hw : h.was_fuzzed <;> cases hf : h.favored <;> cases dumb_mode <;>
    by_cases hp : h.pending_favored = 0 <;> by_cases hq : h.queued_paths > 10 <;>
    by_cases hc : h.queue_cycle > 1 <;> simp [hp, hq, hc]

/-- The value returned on the byte-level path, that is when neither a structure
tree nor a constraint track exists: it is 0 exactly if the seed was admitted,
the calibration block and the trimming block did not give up, and the
byte-level stages ran to the statement `ret_val = 0`. -/
theorem fuzz_one_ret_byte_level (dumb_mode : Bool) (h : Head) (r : Nat) (stages : Ctl FState)
    (ht : h.in_tree = false) (hk : h.track = false) :
    fuzz_one_ret dumb_mode h r stages = 0 ↔
      (admission_gate dumb_mode h r = false ∧
       ¬ (h.cal_failed ≠ 0 ∧ (h.stop_cal = true ∨ h.res ≠ h.crash_mode)) ∧
       ¬ (dumb_mode = false ∧ h.trim_done = false ∧ h.stop_trim = true) ∧
       ∃ t, stages = Ctl.next t) := by
  unfold fuzz_one_ret
  by_cases h1 : admission_gate dumb_mode h r = true
  · simp [h1]
  · by_cases h2 : h.cal_failed ≠ 0 ∧ (h.stop_cal = true ∨ h.res ≠ h.crash_mode)
    · rw [if_neg h1, if_pos h2]
      simp [h2]
    · by_cases h4 : dumb_mode = false ∧ h.trim_done = false ∧ h.stop_trim = true
      · rw [if_neg h1, if_neg h2, if_neg (by simp [ht, hk]), if_pos h4]
        simp [h4]
      · rw [if_neg h1, if_neg h2, if_neg (by simp [ht, hk]), if_neg h4]
        cases stages with
        | next t => simp [h1, h2, h4]
        | abandon t => simp

/-- C23, evaluated: whenever a structure tree exists, `fuzz_one` returns 1,
whatever the gate, the calibration and the stages did; and this covers an
admitted seed (favored, never fuzzed, no failed calibration) whose
structure-aware stages all returned. -/
theorem fuzz_one_structure_path_returns_one :
    (∀ (dumb_mode : Bool) (h : Head) (r : Nat) (stages : Ctl FState),
      fuzz_one_ret dumb_mode { h with in_tree := true } r stages = 1) ∧
    (∀ (dumb_mode : Bool) (h : Head) (r : Nat) (stages : Ctl FState),
      admission_gate dumb_mode
        { h with favored := true, was_fuzzed := false, cal_failed := 0, in_tree := true } r
        = false ∧
      fuzz_one_ret dumb_mode
        { h with favored := true, was_fuzzed := false, cal_failed := 0, in_tree := true } r
        stages = 1) := by
  have key : ∀ (dumb_mode : Bool) (h : Head) (r : Nat) (stages : Ctl FState),
      h.in_tree = true → fuzz_one_ret dumb_mode h r stages = 1 := by
    intro d h r st hin
    unfold fuzz_one_ret
    split_ifs <;> first | rfl | simp_all
  refine ⟨fun d h r st => key d _ r st rfl, fun d h r st => ⟨?_, key d _ r st rfl⟩⟩
  exact admission_gate_favored_new d _ r rfl rfl
/-! ## The overwrite stage `ext_UO`: redundant tokens and the restore step -/

/-- The store of a token changes the buffer unless the token is already there. -/
theorem write_at_eq_self (buf tok : List Nat) (i : Nat) (h : write_at buf i tok = buf) :
    slice buf i tok.length = tok := by
  unfold write_at at h
  unfold slice
  by_cases hi : i ≤ buf.length
  · have h2 : ((buf.take i ++ tok ++ buf.drop (i + tok.length)).drop i).take tok.length
        = (buf.drop i).take tok.length := by rw [h]
    rw [← h2, List.append_assoc,
      List.drop_left' (List.length_take_of_le hi), List.take_left]
  · have hl := congrArg List.length h
    simp only [List.length_append, List.length_take, List.length_drop] at hl
    have ht : tok.length = 0 := by omega
    rw [ht, List.take_zero]
    exact (List.length_eq_zero.mp ht).symm

/-- C26, amended: the redundant-token skip of `ext_UO`. For every state, offset
`i` and token `t`: if `t` is identical to the slice `out_buf[i, i + |t|)` of
the buffer as it stands when `t` is reached (the seed with the tokens written
earlier at this offset laid over it), the round makes no harness submission
and leaves the buffer alone; and a round that does submit submits a buffer
different from the one it found. -/
theorem extras_uo_redundant_skip (c : Ctx) (i : Nat) (tok : List Nat) (s : FState)
    (h : slice s.out_buf i tok.length = tok) :
    (∃ t, ext_UO_inner c i tok s = Ctl.next t ∧ t.execs = s.execs ∧ t.out_buf = s.out_buf) ∧
    (∀ (tok2 : List Nat),
      (ext_UO_inner c i tok2 s).state.execs = s.execs ∨
      ((ext_UO_inner c i tok2 s).state.execs
          = s.execs ++ [((write_at s.out_buf i tok2).take s.len, s.len)] ∧
        write_at s.out_buf i tok2 ≠ s.out_buf)) := by
  obtain ⟨s1, hs1, o1, l1, e1⟩ : ∃ s1,
      (if decide (c.extras.length > MAX_DET_EXTRAS) = true then tick s else s) = s1 ∧
      s1.out_buf = s.out_buf ∧ s1.len = s.len ∧ s1.execs = s.execs := by
    split_ifs <;> exact ⟨_, rfl, rfl, rfl, rfl⟩
  constructor
  · have hs : extras_skip s1 i tok = true := by
      unfold extras_skip
      rw [o1, h]
      simp
    unfold ext_UO_inner
    simp only
    rw [hs1, hs, Bool.or_true, if_pos rfl]
    exact ⟨_, rfl, e1, o1⟩
  · intro tok2
    unfold ext_UO_inner
    simp only
    rw [hs1]
    by_cases hc : ((decide (c.extras.length > MAX_DET_EXTRAS) &&
        decide (UR_val c s c.extras.length ≥ MAX_DET_EXTRAS)) || extras_skip s1 i tok2) = true
    · rw [if_pos hc]
      exact Or.inl e1
    · rw [if_neg hc]
      have h4 : extras_skip s1 i tok2 = false := by
        cases hx : extras_skip s1 i tok2
        · rfl
        · rw [hx, Bool.or_true] at hc
          exact absurd rfl hc
      refine Or.inr ⟨?_, ?_⟩
      · unfold extras_write
        rcases submit_cases c { s1 with last_len := tok2.length
                                        out_buf := write_at s1.out_buf i tok2 } with e | e
        · rw [e]; simp [Ctl.bind, Ctl.state, common_fuzz_stuff, o1, l1, e1]
        · rw [e]; simp [Ctl.bind, Ctl.state, common_fuzz_stuff, o1, l1, e1]
      · intro hE
        have := write_at_eq_self _ _ _ hE
        unfold extras_skip at h4
        rw [o1, this] at h4
        simp at h4

set_option maxRecDepth 1000000

/-- The redundant-token skip applied to the seed `A B` and the token `A B` at
offset 0. -/
theorem extras_uo_redundant_skip_witness :
    (∃ t, ext_UO_inner (quiet_ctx [[65, 66]] []) 0 [65, 66]
          { init_state [65, 66] with eff_map := [1] } = Ctl.next t ∧
        t.execs = ({ init_state [65, 66] with eff_map := [1] } : FState).execs ∧
        t.out_buf = ({ init_state [65, 66] with eff_map := [1] } : FState).out_buf) ∧
    (∀ (tok2 : List Nat),
      (ext_UO_inner (quiet_ctx [[65, 66]] []) 0 tok2
          { init_state [65, 66] with eff_map := [1] }).state.execs
        = ({ init_state [65, 66] with eff_map := [1] } : FState).execs ∨
      ((ext_UO_inner (quiet_ctx [[65, 66]] []) 0 tok2
          { init_state [65, 66] with eff_map := [1] }).state.execs
          = ({ init_state [65, 66] with eff_map := [1] } : FState).execs ++
            [((write_at ({ init_state [65, 66] with eff_map := [1] } : FState).out_buf 0 tok2).take
                ({ init_state [65, 66] with eff_map := [1] } : FState).len,
              ({ init_state [65, 66] with eff_map := [1] } : FState).len)] ∧
        write_at ({ init_state [65, 66] with eff_map := [1] } : FState).out_buf 0 tok2
          ≠ ({ init_state [65, 66] with eff_map := [1] } : FState).out_buf)) :=
  extras_uo_redundant_skip (quiet_ctx [[65, 66]] []) 0 [65, 66]
    { init_state [65, 66] with eff_map := [1] } (by decide)

/-- C26, counterexample: the seed `A B` with its effector entry set and the
dictionary `X`, `A B`, sorted by ascending length. At offset 0 the token `X` is
written first, so the token `A B`, identical to the seed slice `B0[0, 2)`, is
compared with `X B`, is not skipped, and `ext_UO` submits the buffer `A B`,
equal to the seed. -/
theorem extras_uo_redundant_counterexample :
    SortedByLen [[88], [65, 66]] ∧
    [65, 66].length ≤ ({ init_state [65, 66] with eff_map := [1] } : FState).len - 0 ∧
    slice ({ init_state [65, 66] with eff_map := [1] } : FState).in_buf 0 [65, 66].length
      = [65, 66] ∧
    ∃ t, ext_UO_stage (quiet_ctx [[88], [65, 66]] []) { init_state [65, 66] with eff_map := [1] }
        = Ctl.next t ∧
      t.execs = [([88, 66], 2), ([65, 66], 2), ([65, 88], 2)] ∧
      ([65, 66], 2) ∈ t.execs :=
  ⟨by unfold SortedByLen; decide, by decide, by decide,
    (ext_UO_stage (quiet_ctx [[88], [65, 66]] []) { init_state [65, 66] with eff_map := [1] }).state,
    by rfl, by decide, by decide⟩

/-- C28: under-restore without sortedness. With the seed `A B C D`, an effector
map whose entries are all 1 and the dictionary `X Y`, `Z`, which is not sorted
by ascending length, the round of `ext_UO` at offset 0 submits `X Y C D` and
`Z Y C D`, ends normally, restores `last_len = 1` byte and leaves
`A Y C D` in `out_buf`, which differs from the seed. -/
theorem extras_uo_under_restore :
    ¬ SortedByLen [[88, 89], [90]] ∧
    (∀ x ∈ ({ init_state [65, 66, 67, 68] with eff_map := [1] } : FState).eff_map, x = 1) ∧
    ({ init_state [65, 66, 67, 68] with eff_map := [1] } : FState).eff_map.length
      = EFF_ALEN ({ init_state [65, 66, 67, 68] with eff_map := [1] } : FState).len ∧
    ∃ t, ext_UO_body (quiet_ctx [[88, 89], [90]] []) 0
          { init_state [65, 66, 67, 68] with eff_map := [1] } = Ctl.next t ∧
      t.execs = [([88, 89, 67, 68], 4), ([90, 89, 67, 68], 4)] ∧
      t.out_buf = [65, 89, 67, 68] ∧ t.out_buf ≠ [65, 66, 67, 68] ∧
      t.in_buf = [65, 66, 67, 68] :=
  ⟨by unfold SortedByLen; decide, by decide, by decide,
    (ext_UO_body (quiet_ctx [[88, 89], [90]] []) 0
      { init_state [65, 66, 67, 68] with eff_map := [1] }).state,
    by rfl, by decide, by decide, by decide, by decide⟩
/-! ## `arith16` against `arith8`: the carry rule -/

/-- The two bytes of a byte-swapped word. -/
theorem SWAP16_bytes (y : Nat) :
    SWAP16 y % 256 = y / 256 % 256 ∧ SWAP16 y / 256 % 256 = y % 256 := by
  unfold SWAP16
  have h1 : (y % 256 * 256 + y / 256 % 256) / 256 = y % 256 := by omega
  have h2 : (y % 256 * 256 + y / 256 % 256) % 256 = y / 256 % 256 := by omega
  rw [h1, h2]
  exact ⟨rfl, by omega⟩

/-- The wrapping subtraction of a small number from a 16-bit value. -/
theorem sub32_small (x j : Nat) (hx : x < 65536) (hj : j ≤ 35) :
    sub32 x j = if j ≤ x then x - j else x + 4294967296 - j := by
  unfold sub32 U32; split_ifs <;> omega

/-- The high byte of `orig + j`. -/
theorem arith16_add_high (lo hi j : Nat) (hlo : lo < 256) (hhi : hi < 256) (hj1 : 1 ≤ j) (hj : j ≤ 35) :
  ((lo + 256 * hi + j) % 65536) / 256 % 256
      = if lo + j ≤ 255 then hi else (hi + 1) % 256 := by split_ifs <;> omega

/-- The low byte of `orig - j`. -/
theorem arith16_sub_low (lo hi j : Nat) (hlo : lo < 256) (hhi : hi < 256) (hj1 : 1 ≤ j) (hj : j ≤ 35) :
    (sub32 (lo + 256 * hi) j % 65536) % 256 = sub32 lo j % 256 := by
  rw [sub32_small _ j (by omega) hj, sub32_small _ j (by omega) hj]
  split_ifs <;> omega

/-- The high byte of `orig - j`. -/
theorem arith16_sub_high (lo hi j : Nat) (hlo : lo < 256) (hhi : hi < 256) (hj1 : 1 ≤ j) (hj : j ≤ 35) :
    (sub32 (lo + 256 * hi) j % 65536) / 256 % 256
      = if j ≤ lo then hi else (hi + 255) % 256 := by
  rw [sub32_small _ j (by omega) hj]
  split_ifs <;> omega

/-- The second byte of `SWAP16(orig) - j`. -/
theorem arith16_swap_sub_low (lo hi j : Nat) (hlo : lo < 256) (hhi : hi < 256) (hj1 : 1 ≤ j) (hj : j ≤ 35) :
    sub32 (256 * lo + hi) j / 256 % 256 = if j ≤ hi then lo else (lo + 255) % 256 := by
  rw [sub32_small _ j (by omega) hj]
  split_ifs <;> omega

/-- The first byte of `SWAP16(orig) - j`. -/
theorem arith16_swap_sub_high (lo hi j : Nat) (hlo : lo < 256) (hhi : hi < 256) (hj1 : 1 ≤ j) (hj : j ≤ 35) :
    sub32 (256 * lo + hi) j % 256 = sub32 hi j % 256 := by
  rw [sub32_small _ j (by omega) hj, sub32_small _ j (by omega) hj]
  split_ifs <;> omega

/-- The second byte of `SWAP16(orig) + j`. -/
theorem arith16_swap_add_low (lo hi j : Nat) (hlo : lo < 256) (hhi : hi < 256) (hj1 : 1 ≤ j)
    (hj : j ≤ 35) :
    (256 * lo + hi + j) / 256 % 256 = if hi + j ≤ 255 then lo else (lo + 1) % 256 := by
  split_ifs <;> omega

/-- The two bytes of a 16-bit word and of the four candidates of `arith16`
made from it, `lo` and `hi` being the bytes of the word. -/
theorem arith16_bytes (lo hi j : Nat) (hlo : lo < 256) (hhi : hi < 256) (hj1 : 1 ≤ j)
    (hj : j ≤ 35) :
    ((lo + 256 * hi) &&& 0xff = lo ∧ (lo + 256 * hi) >>> 8 = hi) ∧
    (((lo + 256 * hi + j) % 65536) % 256 = (lo + j) % 256 ∧
      ((lo + 256 * hi + j) % 65536) / 256 % 256
        = if lo + j ≤ 255 then hi else (hi + 1) % 256) ∧
    ((sub32 (lo + 256 * hi) j % 65536) % 256 = sub32 lo j % 256 ∧
      (sub32 (lo + 256 * hi) j % 65536) / 256 % 256
        = if j ≤ lo then hi else (hi + 255) % 256) ∧
    (SWAP16 (SWAP16 (lo + 256 * hi) + j) % 256 = (if hi + j ≤ 255 then lo else (lo + 1) % 256) ∧
      SWAP16 (SWAP16 (lo + 256 * hi) + j) / 256 % 256 = (hi + j) % 256) ∧
    (SWAP16 (sub32 (SWAP16 (lo + 256 * hi)) j) % 256
        = (if j ≤ hi then lo else (lo + 255) % 256) ∧
      SWAP16 (sub32 (SWAP16 (lo + 256 * hi)) j) / 256 % 256 = sub32 hi j % 256) := by
  have s1 : SWAP16 (lo + 256 * hi) = 256 * lo + hi := by unfold SWAP16; omega
  have d2 : (256 * lo + hi + j) % 256 = (hi + j) % 256 := by omega
  have b1 : ((lo + 256 * hi + j) % 65536) % 256 = (lo + j) % 256 := by omega
  have d1 := arith16_swap_add_low lo hi j hlo hhi hj1 hj
  have e1 : (lo + 256 * hi) &&& 0xff = lo := by
    rw [show (0xff : Nat) = 2 ^ 8 - 1 from rfl, Nat.and_pow_two_sub_one_eq_mod]; omega
  have e2 : (lo + 256 * hi) >>> 8 = hi := by
    rw [Nat.shiftRight_eq_div_pow]; omega
  refine ⟨⟨e1, e2⟩, ⟨b1, arith16_add_high lo hi j hlo hhi hj1 hj⟩,
    ⟨arith16_sub_low lo hi j hlo hhi hj1 hj, arith16_sub_high lo hi j hlo hhi hj1 hj⟩,
    ⟨?_, ?_⟩, ⟨?_, ?_⟩⟩
  · rw [s1, (SWAP16_bytes _).1, d1]
  · rw [s1, (SWAP16_bytes _).2, d2]
  · rw [s1, (SWAP16_bytes _).1, arith16_swap_sub_low lo hi j hlo hhi hj1 hj]
  · rw [s1, (SWAP16_bytes _).2, arith16_swap_sub_high lo hi j hlo hhi hj1 hj]

/-- The two bytes a 16-bit store leaves at its offset. -/
theorem wr16_getD (B : List Nat) (i v : Nat) (hi : i + 1 < B.length) :
    (wr16 B i v).getD i 0 = v % 256 ∧ (wr16 B i v).getD (i + 1) 0 = v / 256 % 256 := by
  unfold wr16
  simp only [getD_set, List.length_set]
  have h1 : ¬ (i + 1 = i ∧ i + 1 < B.length) := by omega
  have h2 : i < B.length := by omega
  simp [h1, h2, hi]

/-- A 16-bit store whose high byte is the one already there is a store of the
low byte. -/
theorem wr16_low (B : List Nat) (i v : Nat) (h : v / 256 % 256 = B.getD (i + 1) 0) :
    wr16 B i v = B.set i (v % 256) := by
  unfold wr16
  have e : B.getD (i + 1) 0 = (B.set i (v % 256)).getD (i + 1) 0 := by
    rw [getD_set, if_neg (by omega)]
  rw [h, e, set_getD_self]

/-- A 16-bit store whose low byte is the one already there is a store of the
high byte. -/
theorem wr16_high (B : List Nat) (i v : Nat) (h : v % 256 = B.getD i 0) :
    wr16 B i v = B.set (i + 1) (v / 256 % 256) := by
  unfold wr16
  rw [h, set_getD_self]

/-- The carry rule of `arith16` on the bytes. For a buffer of bytes `B`, an
offset `i` with `i + 1 < |B|`, the word `orig` loaded there and `j` in
`[1, ARITH_MAX]`: a candidate of `arith16` rejected by the carry rule
(`(orig & 0xff) + j <= 0xff` for the addition, `(orig & 0xff) >= j` for the
subtraction, and the same on `orig >> 8` for the byte-swapped variants) is the
buffer `B` with the byte at `i` (at `i + 1` for the byte-swapped variants)
replaced by the `arith8` value `byte + j` or `byte - j` modulo 256; a candidate
that passes the carry rule differs from `B` at both offsets `i` and `i + 1`. -/
theorem arith16_carry_rule (B : List Nat) (i j : Nat) (hB : Bytes B) (hi : i + 1 < B.length)
    (hj1 : 1 ≤ j) (hj : j ≤ ARITH_MAX) :
    (¬ ((rd16 B i &&& 0xff) + j > 0xff) →
      wr16 B i ((rd16 B i + j) % 65536) = B.set i ((B.getD i 0 + j) % 256)) ∧
    ((rd16 B i &&& 0xff) + j > 0xff →
      (wr16 B i ((rd16 B i + j) % 65536)).getD i 0 ≠ B.getD i 0 ∧
      (wr16 B i ((rd16 B i + j) % 65536)).getD (i + 1) 0 ≠ B.getD (i + 1) 0) ∧
    (¬ ((rd16 B i &&& 0xff) < j) →
      wr16 B i (sub32 (rd16 B i) j % 65536) = B.set i (sub32 (B.getD i 0) j % 256)) ∧
    ((rd16 B i &&& 0xff) < j →
      (wr16 B i (sub32 (rd16 B i) j % 65536)).getD i 0 ≠ B.getD i 0 ∧
      (wr16 B i (sub32 (rd16 B i) j % 65536)).getD (i + 1) 0 ≠ B.getD (i + 1) 0) ∧
    (¬ ((rd16 B i >>> 8) + j > 0xff) →
      wr16 B i (SWAP16 (SWAP16 (rd16 B i) + j))
        = B.set (i + 1) ((B.getD (i + 1) 0 + j) % 256)) ∧
    ((rd16 B i >>> 8) + j > 0xff →
      (wr16 B i (SWAP16 (SWAP16 (rd16 B i) + j))).getD i 0 ≠ B.getD i 0 ∧
      (wr16 B i (SWAP16 (SWAP16 (rd16 B i) + j))).getD (i + 1) 0 ≠ B.getD (i + 1) 0) ∧
    (¬ ((rd16 B i >>> 8) < j) →
      wr16 B i (SWAP16 (sub32 (SWAP16 (rd16 B i)) j))
        = B.set (i + 1) (sub32 (B.getD (i + 1) 0) j % 256)) ∧
    ((rd16 B i >>> 8) < j →
      (wr16 B i (SWAP16 (sub32 (SWAP16 (rd16 B i)) j))).getD i 0 ≠ B.getD i 0 ∧
      (wr16 B i (SWAP16 (sub32 (SWAP16 (rd16 B i)) j))).getD (i + 1) 0 ≠ B.getD (i + 1) 0) := by
  have hlo := hB.getD_lt i
  have hhi := hB.getD_lt (i + 1)
  have hj35 : j ≤ 35 := hj
  obtain ⟨⟨a1, a2⟩, ⟨b1, b2⟩, ⟨c1, c2⟩, ⟨d1, d2⟩, ⟨f1, f2⟩⟩ :=
    arith16_bytes (B.getD i 0) (B.getD (i + 1) 0) j hlo hhi hj1 hj35
  have hs8 : sub32 (B.getD i 0) j % 256 ≠ B.getD i 0 := by unfold sub32 U32; omega
  have hs9 : sub32 (B.getD (i + 1) 0) j % 256 ≠ B.getD (i + 1) 0 := by unfold sub32 U32; omega
  unfold rd16
  rw [a1, a2]
  refine ⟨fun h => ?_, fun h => ?_, fun h => ?_, fun h => ?_, fun h => ?_, fun h => ?_,
    fun h => ?_, fun h => ?_⟩
  · rw [wr16_low _ _ _ (by rw [b2, if_pos (by omega)]), b1]
  · rw [(wr16_getD B i _ hi).1, (wr16_getD B i _ hi).2, b1, b2, if_neg (by omega)]
    constructor <;> omega
  · rw [wr16_low _ _ _ (by rw [c2, if_pos (by omega)]), c1]
  · rw [(wr16_getD B i _ hi).1, (wr16_getD B i _ hi).2, c1, c2, if_neg (by omega)]
    exact ⟨hs8, by omega⟩
  · rw [wr16_high _ _ _ (by rw [d1, if_pos (by omega)]), d2]
  · rw [(wr16_getD B i _ hi).1, (wr16_getD B i _ hi).2, d1, d2, if_neg (by omega)]
    constructor <;> omega
  · rw [wr16_high _ _ _ (by rw [f1, if_pos (by omega)]), f2]
  · rw [(wr16_getD B i _ hi).1, (wr16_getD B i _ hi).2, f1, f2, if_neg (by omega)]
    exact ⟨by omega, hs9⟩

/-- The carry rule applied to the buffer `f0 01`, the word `0x01f0` at offset 0,
and `j = 0x20`: the addition carries out of the low byte. -/
theorem arith16_carry_rule_example :
    (¬ ((rd16 [0xf0, 0x01] 0 &&& 0xff) + 0x20 > 0xff) →
      wr16 [0xf0, 0x01] 0 ((rd16 [0xf0, 0x01] 0 + 0x20) % 65536)
        = [0xf0, 0x01].set 0 (([0xf0, 0x01].getD 0 0 + 0x20) % 256)) ∧
    ((rd16 [0xf0, 0x01] 0 &&& 0xff) + 0x20 > 0xff →
      (wr16 [0xf0, 0x01] 0 ((rd16 [0xf0, 0x01] 0 + 0x20) % 65536)).getD 0 0
        ≠ [0xf0, 0x01].getD 0 0 ∧
      (wr16 [0xf0, 0x01] 0 ((rd16 [0xf0, 0x01] 0 + 0x20) % 65536)).getD (0 + 1) 0
        ≠ [0xf0, 0x01].getD (0 + 1) 0) :=
  ⟨(arith16_carry_rule [0xf0, 0x01] 0 0x20 (by simp [Bytes]) (by decide) (by decide)
      (by decide)).1,
    (arith16_carry_rule [0xf0, 0x01] 0 0x20 (by simp [Bytes]) (by decide) (by decide)
      (by decide)).2.1⟩
/-! ## The consultation of the effector map -/

/-- The entries whose window intersects a span, as an interval of indices. -/
theorem Overlaps_iff (k p l : Nat) (hl : 1 ≤ l) :
    Overlaps k p l ↔ p / 8 ≤ k ∧ k ≤ (p + l - 1) / 8 := by
  unfold Overlaps
  constructor
  · rintro ⟨b, h1, h2, h3, h4⟩
    omega
  · rintro ⟨h1, h2⟩
    by_cases h : p ≤ 8 * k
    · exact ⟨8 * k, by omega, by omega, by omega, by omega⟩
    · exact ⟨p, by omega, by omega, by omega, by omega⟩

/-- The members of a slice of a list. -/
theorem mem_slice_iff (l : List Nat) (a n x : Nat) :
    x ∈ slice l a n ↔ ∃ k, a ≤ k ∧ k < a + n ∧ l[k]? = some x := by
  unfold slice
  rw [List.mem_iff_getElem?]
  constructor
  · rintro ⟨m, hm⟩
    rw [List.getElem?_take] at hm
    split_ifs at hm with h
    · rw [List.getElem?_drop] at hm
      exact ⟨a + m, by omega, by omega, hm⟩
  · rintro ⟨k, h1, h2, h3⟩
    refine ⟨k - a, ?_⟩
    rw [List.getElem?_take, if_pos (by omega), List.getElem?_drop]
    rw [show a + (k - a) = k by omega]
    exact h3

/-- A cell of a list reads 1 exactly if it exists and holds 1. -/
theorem getD_eq_one_iff (l : List Nat) (k : Nat) : l.getD k 0 = 1 ↔ l[k]? = some 1 := by
  rw [List.getD_eq_getElem?_getD]
  cases h : l[k]? with
  | none => simp
  | some v => simp

/-- A cell of a map of zeros and ones that does not read 1 reads 0. -/
theorem getD_zero_of_ne_one (l : List Nat) (h01 : ∀ x ∈ l, x = 0 ∨ x = 1) (k : Nat)
    (h : l.getD k 0 ≠ 1) : l.getD k 0 = 0 := by
  by_cases hk : k < l.length
  · rw [List.getD_eq_getElem _ _ hk] at h ⊢
    rcases h01 _ (List.getElem_mem hk) with h0 | h1
    · exact h0
    · exact absurd h1 h
  · exact List.getD_eq_default _ _ (Nat.le_of_not_lt hk)

/-- The test of the overwrite stages finds no 1 exactly if no entry whose
window intersects the span of the token reads 1. -/
theorem eff_span_set_false_iff (s : FState) (p l : Nat) (hl : 1 ≤ l) :
    eff_span_set s p l = false ↔ ∀ k, Overlaps k p l → s.eff_map.getD k 0 ≠ 1 := by
  unfold eff_span_set
  rw [Bool.eq_false_iff, Ne, List.contains, List.elem_iff, mem_slice_iff, EFF_APOS_eq]
  unfold EFF_SPAN_ALEN
  rw [EFF_APOS_eq, EFF_APOS_eq]
  constructor
  · intro h k hk h1
    rw [Overlaps_iff k p l hl] at hk
    exact h ⟨k, by omega, by omega, (getD_eq_one_iff _ _).mp h1⟩
  · rintro h ⟨k, h1, h2, h3⟩
    exact h k ((Overlaps_iff k p l hl).mpr ⟨h1, by omega⟩) ((getD_eq_one_iff _ _).mpr h3)

/-- The test of the 16-bit stages holds exactly if every entry whose window
intersects the two bytes reads 0. -/
theorem eff_skip2_overlaps (s : FState) (p : Nat) :
    eff_skip2 s p = true ↔ ∀ k, Overlaps k p 2 → s.eff_map.getD k 0 = 0 := by
  rw [eff_skip2_iff, EFF_APOS_eq, EFF_APOS_eq]
  constructor
  · rintro ⟨h1, h2⟩ k hk
    rw [Overlaps_iff k p 2 (by decide)] at hk
    have : k = p / 8 ∨ k = (p + 1) / 8 := by omega
    rcases this with e | e <;> rw [e] <;> assumption
  · intro h
    exact ⟨h _ ((Overlaps_iff _ p 2 (by decide)).mpr ⟨le_refl _, by omega⟩),
      h _ ((Overlaps_iff _ p 2 (by decide)).mpr ⟨by omega, by omega⟩)⟩

/-- The test of the 32-bit stages holds exactly if every entry whose window
intersects the four bytes reads 0. -/
theorem eff_skip4_overlaps (s : FState) (p : Nat) :
    eff_skip4 s p = true ↔ ∀ k, Overlaps k p 4 → s.eff_map.getD k 0 = 0 := by
  rw [eff_skip4_iff, EFF_APOS_eq, EFF_APOS_eq, EFF_APOS_eq, EFF_APOS_eq]
  constructor
  · rintro ⟨h1, h2, h3, h4⟩ k hk
    rw [Overlaps_iff k p 4 (by decide)] at hk
    have : k = p / 8 ∨ k = (p + 3) / 8 := by omega
    rcases this with e | e <;> rw [e] <;> assumption
  · intro h
    exact ⟨h _ ((Overlaps_iff _ p 4 (by decide)).mpr ⟨le_refl _, by omega⟩),
      h _ ((Overlaps_iff _ p 4 (by decide)).mpr ⟨by omega, by omega⟩),
      h _ ((Overlaps_iff _ p 4 (by decide)).mpr ⟨by omega, by omega⟩),
      h _ ((Overlaps_iff _ p 4 (by decide)).mpr ⟨by omega, by omega⟩)⟩

/-- C29: exactness of the consultation of the effector map. For every offset
`p` and span `l >= 1` the indices `EFF_APOS(p) .. EFF_APOS(p) +
EFF_SPAN_ALEN(p, l) - 1` are exactly the indices `k` whose window
`[8k, 8k + 8)` intersects `[p, p + l)`. The test of `flip16`, `arith16` and
`int16` holds exactly if every entry that overlaps `[p, p + 2)` is 0, the
test of `flip32`, `arith32` and `int32` exactly if every entry that overlaps
`[p, p + 4)` is 0, and the `memchr` of the overwrite stages finds nothing
exactly if no entry that overlaps `[p, p + l)` is 1, which on a map of zeros
and ones means that every such entry is 0. When its test holds each of the
six in-place rounds submits nothing and lowers `stage_max` by its number of
candidates, and so do the rounds of the two overwrite stages for a token of
length `l`; when the test fails the in-place rounds go on to their
candidates. -/
theorem effector_consult_exact (s : FState) (p l : Nat) (hl : 1 ≤ l) :
    (∀ k, (EFF_APOS p ≤ k ∧ k < EFF_APOS p + EFF_SPAN_ALEN p l) ↔ Overlaps k p l) ∧
    (eff_skip2 s p = true ↔ ∀ k, Overlaps k p 2 → s.eff_map.getD k 0 = 0) ∧
    (eff_skip4 s p = true ↔ ∀ k, Overlaps k p 4 → s.eff_map.getD k 0 = 0) ∧
    (eff_span_set s p l = false ↔ ∀ k, Overlaps k p l → s.eff_map.getD k 0 ≠ 1) ∧
    ((∀ x ∈ s.eff_map, x = 0 ∨ x = 1) →
      (eff_span_set s p l = false ↔ ∀ k, Overlaps k p l → s.eff_map.getD k 0 = 0)) ∧
    (∀ c : Ctx,
      ((∀ k, Overlaps k p 2 → s.eff_map.getD k 0 = 0) →
        flip16_body c p s = Ctl.next { s with stage_max := s.stage_max - 1 } ∧
        arith16_body c p s
          = Ctl.next { s with stage_max := s.stage_max - 4 * (ARITH_MAX : Int) } ∧
        interest16_body c p s
          = Ctl.next { s with
              stage_max := s.stage_max - 2 * (c.T.interesting_16.length : Int) }) ∧
      ((∀ k, Overlaps k p 4 → s.eff_map.getD k 0 = 0) →
        flip32_body c p s = Ctl.next { s with stage_max := s.stage_max - 1 } ∧
        arith32_body c p s
          = Ctl.next { s with stage_max := s.stage_max - 4 * (ARITH_MAX : Int) } ∧
        interest32_body c p s
          = Ctl.next { s with
              stage_max := s.stage_max - 2 * (c.T.interesting_32.length : Int) }) ∧
      (∀ tok : List Nat, tok.length = l →
        (∀ k, Overlaps k p l → s.eff_map.getD k 0 ≠ 1) →
        ext_AO_inner c p tok s = Ctl.next { s with stage_max := s.stage_max - 1 } ∧
        ∃ t, ext_UO_inner c p tok s = Ctl.next t ∧ t.execs = s.execs ∧
          t.stage_max = s.stage_max - 1) ∧
      (¬ (∀ k, Overlaps k p 2 → s.eff_map.getD k 0 = 0) →
        arith16_body c p s
          = for_loop (arith16_inner c p (rd16 s.out_buf p)) 1 ARITH_MAX
              { s with stage_cur_byte := p } ∧
        interest16_body c p s
          = (for_each (interest16_inner c p (rd16 s.out_buf p)) c.T.interesting_16
              { s with stage_cur_byte := p }).bind
              (fun t => Ctl.next { t with out_buf := wr16 t.out_buf p (rd16 s.out_buf p) }) ∧
        ∃ e, (flip16_body c p s).state.execs = s.execs ++ [e]) ∧
      (¬ (∀ k, Overlaps k p 4 → s.eff_map.getD k 0 = 0) →
        arith32_body c p s
          = for_loop (arith32_inner c p (rd32 s.out_buf p)) 1 ARITH_MAX
              { s with stage_cur_byte := p } ∧
        interest32_body c p s
          = (for_each (interest32_inner c p (rd32 s.out_buf p)) c.T.interesting_32
              { s with stage_cur_byte := p }).bind
              (fun t => Ctl.next { t with out_buf := wr32 t.out_buf p (rd32 s.out_buf p) }) ∧
        ∃ e, (flip32_body c p s).state.execs = s.execs ++ [e])) := by
  refine ⟨fun k => ?_, eff_skip2_overlaps s p, eff_skip4_overlaps s p,
    eff_span_set_false_iff s p l hl, fun h01 => ?_, fun c => ⟨fun h => ?_, fun h => ?_,
      fun tok ht h => ?_, fun h => ?_, fun h => ?_⟩⟩
  · rw [Overlaps_iff k p l hl]
    unfold EFF_SPAN_ALEN
    rw [EFF_APOS_eq, EFF_APOS_eq]
    omega
  · rw [eff_span_set_false_iff s p l hl]
    constructor
    · intro h k hk
      exact getD_zero_of_ne_one _ h01 k (h k hk)
    · intro h k hk h1
      rw [h k hk] at h1
      exact absurd h1 (by decide)
  · have e := (eff_skip2_overlaps s p).mpr h
    refine ⟨?_, ?_, ?_⟩
    · unfold flip16_body; rw [if_pos e]
    · unfold arith16_body; simp only; rw [if_pos e]
    · unfold interest16_body; simp only; rw [if_pos e]
  · have e := (eff_skip4_overlaps s p).mpr h
    refine ⟨?_, ?_, ?_⟩
    · unfold flip32_body; rw [if_pos e]
    · unfold arith32_body; simp only; rw [if_pos e]
    · unfold interest32_body; simp only; rw [if_pos e]
  · have e : eff_span_set s p tok.length = false := by
      rw [ht]; exact (eff_span_set_false_iff s p l hl).mpr h
    have e2 : ∀ u : FState, u.eff_map = s.eff_map → extras_skip u p tok = true := by
      intro u hu
      have e3 : eff_span_set u p tok.length = false := by
        unfold eff_span_set at e ⊢
        rw [hu]; exact e
      unfold extras_skip
      rw [e3]
      simp
    refine ⟨?_, ?_⟩
    · unfold ext_AO_inner
      rw [if_pos (e2 s rfl)]
    · unfold ext_UO_inner
      simp only
      by_cases hb : decide (c.extras.length > MAX_DET_EXTRAS) = true
      · rw [if_pos hb, e2 (tick s) rfl, Bool.or_true, if_pos rfl]
        exact ⟨_, rfl, rfl, rfl⟩
      · rw [if_neg hb, e2 s rfl, Bool.or_true, if_pos rfl]
        exact ⟨_, rfl, rfl, rfl⟩
  · have e : ¬ (eff_skip2 s p = true) := fun e => h ((eff_skip2_overlaps s p).mp e)
    refine ⟨?_, ?_, ?_⟩
    · unfold arith16_body; simp only; rw [if_neg e]
    · unfold interest16_body; simp only; rw [if_neg e]
    · unfold flip16_body
      rw [if_neg e]
      rcases submit_cases c { s with
          stage_cur_byte := p
          out_buf := wr16 s.out_buf p (rd16 s.out_buf p ^^^ 0xFFFF) } with e1 | e1
      · rw [e1]; exact ⟨_, rfl⟩
      · rw [e1]; exact ⟨_, rfl⟩
  · have e : ¬ (eff_skip4 s p = true) := fun e => h ((eff_skip4_overlaps s p).mp e)
    refine ⟨?_, ?_, ?_⟩
    · unfold arith32_body; simp only; rw [if_neg e]
    · unfold interest32_body; simp only; rw [if_neg e]
    · unfold flip32_body
      rw [if_neg e]
      rcases submit_cases c { s with
          stage_cur_byte := p
          out_buf := wr32 s.out_buf p (rd32 s.out_buf p ^^^ 0xFFFFFFFF) } with e1 | e1
      · rw [e1]; exact ⟨_, rfl⟩
      · rw [e1]; exact ⟨_, rfl⟩

/-- The exactness of the consultation applied to the span `[7, 9)`, which
straddles the windows of the entries 0 and 1. -/
theorem effector_consult_exact_witness :
    1 ≤ 2 ∧
    (∀ k, (EFF_APOS 7 ≤ k ∧ k < EFF_APOS 7 + EFF_SPAN_ALEN 7 2) ↔ Overlaps k 7 2) ∧
    (eff_skip2 { init_state (List.replicate 24 0) with eff_map := [0, 0, 1] } 7 = true ↔
      ∀ k, Overlaps k 7 2 →
        ({ init_state (List.replicate 24 0) with eff_map := [0, 0, 1] } : FState).eff_map.getD k 0
          = 0) :=
  ⟨by decide,
    (effector_consult_exact { init_state (List.replicate 24 0) with eff_map := [0, 0, 1] } 7 2
      (by decide)).1,
    (effector_consult_exact { init_state (List.replicate 24 0) with eff_map := [0, 0, 1] } 7 2
      (by decide)).2.1⟩
/-! ## Loops that may be abandoned -/

/-- A loop over a range whose rounds may abandon: an invariant that depends on
the loop variable holds at the normal end, and a property that holds wherever
a round abandons holds where the loop abandons. -/
theorem for_range_may_abandon {σ : Type} (body : Nat → σ → Ctl σ) (P : Nat → σ → Prop)
    (Q : σ → Prop) :
    ∀ (n a : Nat),
      (∀ i, a ≤ i → i < a + n → ∀ u, P i u →
        (∀ v, body i u = Ctl.next v → P (i + 1) v) ∧ (∀ v, body i u = Ctl.abandon v → Q v)) →
      ∀ s, P a s →
        (∀ t, for_each body (List.range' a n) s = Ctl.next t → P (a + n) t) ∧
        (∀ t, for_each body (List.range' a n) s = Ctl.abandon t → Q t) := by
  intro n
  induction n with
  | zero =>
    intro a _ s hs
    refine ⟨fun t ht => ?_, fun t ht => ?_⟩
    · simp only [List.range'_zero, for_each, Ctl.next.injEq] at ht
      rw [← ht]; exact hs
    · simp only [List.range'_zero, for_each] at ht
      cases ht
  | succ n ih =>
    intro a h s hs
    obtain ⟨h1, h2⟩ := h a (le_refl a) (by omega) s hs
    simp only [List.range'_succ, for_each]
    cases hb : body a s with
    | next v =>
      obtain ⟨g1, g2⟩ := ih (a + 1) (fun i k1 k2 => h i (by omega) (by omega)) v (h1 v hb)
      simp only [Ctl.bind]
      refine ⟨fun t ht => ?_, g2⟩
      have e : a + (n + 1) = a + 1 + n := by omega
      rw [e]
      exact g1 t ht
    | abandon v =>
      simp only [Ctl.bind]
      refine ⟨fun t ht => (by cases ht), fun t ht => ?_⟩
      simp only [Ctl.abandon.injEq] at ht
      rw [← ht]
      exact h2 v hb

/-! ## The effector map in dumb mode and on short seeds -/

/-- Flipping all 32 bits of a hash gives another hash. -/
theorem not_cksum_ne (x : Nat) : 0xffffffff ^^^ x ≠ x := by
  intro h
  have h2 : (0xffffffff ^^^ x) ^^^ x = x ^^^ x := congrArg (fun v => v ^^^ x) h
  rw [Nat.xor_cancel_right, Nat.xor_self] at h2
  exact absurd h2 (by decide)

/-- The effector block of `flip8` in dumb mode or on a seed shorter than
`EFF_MIN_LEN`: an entry that is 0 is set to 1, whatever the hash of the run. -/
theorem eff_mark_blind (c : Ctx) (i : Nat) (u : FState)
    (hm : c.dumb_mode = true ∨ u.len < EFF_MIN_LEN) :
    eff_mark c i u =
      if u.eff_map.getD (EFF_APOS i) 0 = 0 then
        { u with eff_map := u.eff_map.set (EFF_APOS i) 1, eff_cnt := u.eff_cnt + 1 }
      else u := by
  have hn : ¬ (c.dumb_mode = false ∧ u.len ≥ EFF_MIN_LEN) := by
    rintro ⟨h1, h2⟩
    rcases hm with h | h
    · rw [h1] at h; exact absurd h (by decide)
    · omega
  unfold eff_mark
  simp only
  rw [if_neg hn, if_pos (not_cksum_ne c.exec_cksum)]

/-- A round of `flip8` that is not abandoned, in dumb mode or on a short seed:
the entry of its byte is 1 afterwards and the other entries are as before. -/
theorem flip8_body_blind (c : Ctx) (i : Nat) (u v : FState)
    (hm : c.dumb_mode = true ∨ u.len < EFF_MIN_LEN) (hv : flip8_body c i u = Ctl.next v)
    (hi : EFF_APOS i < u.eff_map.length) :
    v.len = u.len ∧ v.eff_map.length = u.eff_map.length ∧
    (∀ k, v.eff_map.getD k 0 =
      if k = EFF_APOS i ∧ u.eff_map.getD k 0 = 0 then 1 else u.eff_map.getD k 0) := by
  obtain ⟨X, hXl, hXm, hX⟩ : ∃ X : FState, X.len = u.len ∧ X.eff_map = u.eff_map ∧
      v.len = (eff_mark c i X).len ∧ v.eff_map = (eff_mark c i X).eff_map := by
    unfold flip8_body at hv
    rcases submit_cases c { u with
        stage_cur := i, stage_cur_byte := i
        out_buf := u.out_buf.set i (u.out_buf.getD i 0 ^^^ 0xFF) } with e | e
    · rw [e] at hv
      cases hv
    · rw [e] at hv
      simp only [Ctl.bind, Ctl.next.injEq] at hv
      exact ⟨(common_fuzz_stuff c { u with
          stage_cur := i, stage_cur_byte := i
          out_buf := u.out_buf.set i (u.out_buf.getD i 0 ^^^ 0xFF) }
          (u.out_buf.set i (u.out_buf.getD i 0 ^^^ 0xFF)) u.len).1,
        rfl, rfl, by rw [← hv], by rw [← hv]⟩
  have hm2 : c.dumb_mode = true ∨ X.len < EFF_MIN_LEN := by rw [hXl]; exact hm
  rw [eff_mark_blind c i X hm2] at hX
  rw [hX.1, hX.2, hXm]
  by_cases h0 : u.eff_map.getD (EFF_APOS i) 0 = 0
  · rw [if_pos h0]
    refine ⟨hXl, ?_, fun k => ?_⟩
    · show (u.eff_map.set (EFF_APOS i) 1).length = _
      rw [List.length_set]
    · show (u.eff_map.set (EFF_APOS i) 1).getD k 0 = _
      rw [getD_set]
      by_cases hk : k = EFF_APOS i
      · subst hk
        rw [if_pos ⟨rfl, hi⟩, if_pos ⟨rfl, h0⟩]
      · rw [if_neg (fun h => hk h.1.symm), if_neg (fun h => hk h.1)]
  · rw [if_neg h0]
    refine ⟨hXl, by rw [hXm], fun k => ?_⟩
    by_cases hk : k = EFF_APOS i ∧ u.eff_map.getD k 0 = 0
    · exact absurd (hk.1 ▸ hk.2) h0
    · rw [if_neg hk, hXm]
/-- The loop of `flip8` in dumb mode or on a short seed, if it is not
abandoned, leaves a map of `EFF_ALEN(len)` entries that all read 1. -/
theorem flip8_loop_blind (c : Ctx) (s : FState)
    (hm : c.dumb_mode = true ∨ s.len < EFF_MIN_LEN) (u : FState)
    (hu : for_loop (flip8_body c) 0 s.len
      { eff_init s with stage_max := (s.len : Int), orig_hit_cnt := s.new_hit_cnt }
        = Ctl.next u) :
    u.len = s.len ∧ u.eff_map.length = EFF_ALEN s.len ∧
      ∀ k, k < EFF_ALEN s.len → u.eff_map.getD k 0 = 1 := by
  have h := (for_range_may_abandon (flip8_body c)
    (fun i (u : FState) => u.len = s.len ∧ u.eff_map.length = EFF_ALEN s.len ∧
      ∀ k, k < EFF_ALEN s.len →
        (u.eff_map.getD k 0 = 0 ∨ u.eff_map.getD k 0 = 1) ∧ (8 * k < i → u.eff_map.getD k 0 = 1))
    (fun _ => True) s.len 0
    (fun i _ hi u hP => ⟨fun v hv => ?_, fun _ _ => trivial⟩)
    { eff_init s with stage_max := (s.len : Int), orig_hit_cnt := s.new_hit_cnt } ?_).1 u hu
  · obtain ⟨h1, h2, h3⟩ := h
    refine ⟨h1, h2, fun k hk => (h3 k hk).2 ?_⟩
    rw [EFF_ALEN_eq] at hk
    omega
  · obtain ⟨h1, h2, h3⟩ := hP
    have hA : EFF_APOS i < u.eff_map.length := by
      rw [h2, EFF_ALEN_eq, EFF_APOS_eq]; omega
    obtain ⟨g1, g2, g3⟩ := flip8_body_blind c i u v (by rw [h1]; exact hm) hv hA
    refine ⟨g1.trans h1, g2.trans h2, fun k hk => ?_⟩
    obtain ⟨a1, a2⟩ := h3 k hk
    rw [g3 k]
    by_cases hc : k = EFF_APOS i ∧ u.eff_map.getD k 0 = 0
    · rw [if_pos hc]
      exact ⟨Or.inr rfl, fun _ => rfl⟩
    · rw [if_neg hc]
      refine ⟨a1, fun hlt => ?_⟩
      by_cases h8 : 8 * k < i
      · exact a2 h8
      · have hk2 : k = EFF_APOS i := by rw [EFF_APOS_eq]; omega
        rcases a1 with a0 | a1
        · exact absurd ⟨hk2, a0⟩ hc
        · exact a1
  · refine ⟨(eff_init_frame s).1, eff_init_length s, fun k hk => ⟨?_, fun h => absurd h (by omega)⟩⟩
    show (eff_init s).eff_map.getD k 0 = 0 ∨ (eff_init s).eff_map.getD k 0 = 1
    rw [eff_init_getD s k hk]
    split_ifs
    · exact Or.inr rfl
    · exact Or.inl rfl

/-- A list whose cells all read 1. -/
theorem all_ones_of_getD (l : List Nat) (h : ∀ k, k < l.length → l.getD k 0 = 1) :
    ∀ x ∈ l, x = 1 := by
  intro x hx
  obtain ⟨k, hk, e⟩ := List.getElem_of_mem hx
  have := h k hk
  rw [List.getD_eq_getElem _ _ hk, e] at this
  exact this

/-- C21: in dumb mode, or for a seed of length `1 <= L < EFF_MIN_LEN`, a
`flip8` stage that runs to its end leaves an effector map of `EFF_ALEN(L)`
entries that are all 1, whatever hashes the harness produced; the stage does
run to its end when the harness never asks to abandon; and the effector block
does not read the hash of the run: with another value in its place it writes
the same map and the same count. -/
theorem flip8_blind_map (c : Ctx) (s : FState)
    (hm : c.dumb_mode = true ∨ s.len < EFF_MIN_LEN) (hL : 1 ≤ s.len) :
    (∀ t, flip8_stage c s = Ctl.next t →
      t.eff_map.length = EFF_ALEN s.len ∧ ∀ x ∈ t.eff_map, x = 1) ∧
    ((∀ n buf, (c.harness n buf).abandon = false) → ∃ t, flip8_stage c s = Ctl.next t) ∧
    (∀ (i : Nat) (u : FState) (x : Nat), u.len = s.len →
      eff_mark c i { u with cksum := x } = { eff_mark c i u with cksum := x }) := by
  have _ := hL
  refine ⟨fun t ht => ?_, fun hna => ?_, fun i u x hu => ?_⟩
  · unfold flip8_stage at ht
    simp only at ht
    cases hl : for_loop (flip8_body c) 0 s.len
        { eff_init s with stage_max := (s.len : Int), orig_hit_cnt := s.new_hit_cnt } with
    | abandon u =>
      rw [hl] at ht
      cases ht
    | next u =>
      rw [hl] at ht
      simp only [Ctl.bind, Ctl.next.injEq] at ht
      obtain ⟨h1, h2, h3⟩ := flip8_loop_blind c s hm u hl
      have hones : ∀ x ∈ u.eff_map, x = 1 :=
        all_ones_of_getD _ (fun k hk => h3 k (by rw [← h2]; exact hk))
      have e : t.eff_map = (eff_saturate { u with stage_cur := u.stage_max }).eff_map := by
        rw [← ht]; rfl
      rw [e]
      unfold eff_saturate
      split_ifs
      · exact ⟨by simp [h1], fun x hx => List.eq_of_mem_replicate hx⟩
      · exact ⟨h2, hones⟩
  · obtain ⟨u, hu, _⟩ := for_each_next (flip8_body c) (fun _ => True) (List.range' 0 s.len)
      (fun i _ t _ => by
        obtain ⟨v, hv, _⟩ := flip8_body_restores c hna t.out_buf i t rfl
        exact ⟨v, hv, trivial⟩)
      { eff_init s with stage_max := (s.len : Int), orig_hit_cnt := s.new_hit_cnt } trivial
    refine ⟨account StageId.FLIP8 u.stage_max (eff_saturate { u with stage_cur := u.stage_max }), ?_⟩
    have hu2 : for_loop (flip8_body c) 0 s.len
        { eff_init s with stage_max := (s.len : Int), orig_hit_cnt := s.new_hit_cnt }
          = Ctl.next u := hu
    unfold flip8_stage
    simp only
    rw [hu2]
    rfl
  · have hm1 : c.dumb_mode = true ∨ u.len < EFF_MIN_LEN := by rw [hu]; exact hm
    rw [eff_mark_blind c i u hm1, eff_mark_blind c i { u with cksum := x } hm1]
    by_cases h0 : u.eff_map.getD (EFF_APOS i) 0 = 0
    · rw [if_pos h0, if_pos h0]
    · rw [if_neg h0, if_neg h0]

/-- The map left by `flip8` on the three-byte seed `01 02 03`, outside dumb
mode, with a harness whose hash never changes. -/
theorem flip8_blind_map_witness :
    (∀ t, flip8_stage (quiet_ctx [] []) (init_state [1, 2, 3]) = Ctl.next t →
      t.eff_map.length = EFF_ALEN (init_state [1, 2, 3]).len ∧ ∀ x ∈ t.eff_map, x = 1) ∧
    ((∀ n buf, ((quiet_ctx [] []).harness n buf).abandon = false) →
      ∃ t, flip8_stage (quiet_ctx [] []) (init_state [1, 2, 3]) = Ctl.next t) ∧
    (∀ (i : Nat) (u : FState) (x : Nat), u.len = (init_state [1, 2, 3]).len →
      eff_mark (quiet_ctx [] []) i { u with cksum := x }
        = { eff_mark (quiet_ctx [] []) i u with cksum := x }) :=
  flip8_blind_map (quiet_ctx [] []) (init_state [1, 2, 3]) (Or.inr (by decide)) (by decide)
/-! ## The insertion stage `ext_UI` -/

/-- The scratch buffer of `ext_UI` after the token and the tail have been
copied in at gap `i`, the head `ex[0, i)` holding the head of the seed `B`:
its first `|B| + |tok|` bytes are the head of the seed, the token and the tail
of the seed; its size and its head are as before. -/
theorem ext_UI_buffer (ex B tok : List Nat) (i : Nat) (hi : i ≤ B.length)
    (hex : ex.take i = B.take i) (hlen : B.length + tok.length ≤ ex.length) :
    (write_at (write_at ex i tok) (i + tok.length) (slice B i (B.length - i))).take
        (B.length + tok.length) = B.take i ++ tok ++ B.drop i ∧
    (write_at (write_at ex i tok) (i + tok.length) (slice B i (B.length - i))).length
        = ex.length ∧
    (write_at (write_at ex i tok) (i + tok.length) (slice B i (B.length - i))).take i
        = B.take i := by
  have hs : slice B i (B.length - i) = B.drop i := by
    unfold slice
    exact List.take_of_length_le (by simp)
  have hti : (B.take i).length = i := List.length_take_of_le hi
  have h1 : write_at ex i tok = B.take i ++ tok ++ ex.drop (i + tok.length) := by
    unfold write_at; rw [hex]
  have h1t : (write_at ex i tok).take (i + tok.length) = B.take i ++ tok := by
    rw [h1]
    exact List.take_left' (by simp [hti])
  have h1l : (write_at ex i tok).length = ex.length := by
    rw [h1]
    simp only [List.length_append, List.length_drop, hti]
    omega
  have h2 : write_at (write_at ex i tok) (i + tok.length) (slice B i (B.length - i))
      = B.take i ++ tok ++ B.drop i
        ++ (write_at ex i tok).drop (i + tok.length + (B.drop i).length) := by
    rw [hs]
    unfold write_at at h1t ⊢
    rw [h1t]
  rw [h2]
  refine ⟨List.take_left' (by simp [hti]; omega), ?_, ?_⟩
  · simp only [List.length_append, List.length_drop, hti, h1l]
    omega
  · rw [List.append_assoc, List.append_assoc]
    exact List.take_left' hti

/-- One round of the inner loop of `ext_UI` at gap `i` of the seed `B`, when
the harness never asks to abandon. -/
theorem ext_UI_inner_log (c : Ctx) (hna : ∀ n buf, (c.harness n buf).abandon = false)
    (B : List Nat) (i : Nat) (hi : i ≤ B.length) (tok : List Nat)
    (htok : tok.length ≤ MAX_DICT_FILE) (s : FState)
    (hs : s.out_buf = B ∧ s.len = B.length ∧ s.ex_tmp.take i = B.take i ∧
      s.ex_tmp.length = B.length + MAX_DICT_FILE) :
    ∃ t, ext_UI_inner c i tok s = Ctl.next t ∧
      (t.out_buf = B ∧ t.len = B.length ∧ t.ex_tmp.take i = B.take i ∧
        t.ex_tmp.length = B.length + MAX_DICT_FILE) ∧
      t.execs = s.execs ++
        (if B.length + tok.length > MAX_FILE then []
          else [(B.take i ++ tok ++ B.drop i, B.length + tok.length)]) := by
  obtain ⟨h1, h2, h3, h4⟩ := hs
  unfold ext_UI_inner
  rw [h2]
  by_cases hbig : B.length + tok.length > MAX_FILE
  · rw [if_pos hbig, if_pos hbig]
    exact ⟨_, rfl, ⟨h1, rfl, h3, h4⟩, by simp⟩
  · rw [if_neg hbig, if_neg hbig]
    obtain ⟨b1, b2, b3⟩ := ext_UI_buffer s.ex_tmp B tok i hi h3 (by rw [h4]; omega)
    simp only [common_fuzz_stuff, hna, h1]
    refine ⟨_, rfl, ⟨rfl, rfl, b3, b2.trans h4⟩, ?_⟩
    simp only [b1]

/-- The statement `ex_tmp[i] = out_buf[i]` extends the head of the seed held by
the scratch buffer by one byte. -/
theorem take_succ_set (l B : List Nat) (i : Nat) (h : l.take i = B.take i) (hl : i < l.length)
    (hB : i < B.length) : (l.set i (B.getD i 0)).take (i + 1) = B.take (i + 1) := by
  apply List.ext_getElem?
  intro k
  rw [List.getElem?_take, List.getElem?_take]
  by_cases hk : k < i + 1
  · rw [if_pos hk, if_pos hk]
    by_cases hki : k = i
    · subst hki
      rw [List.getElem?_set_self hl, List.getD_eq_getElem _ _ hB, List.getElem?_eq_getElem hB]
    · rw [List.getElem?_set_ne (fun e => hki e.symm)]
      have e := congrArg (fun x : List Nat => x[k]?) h
      simp only [List.getElem?_take] at e
      rw [if_pos (by omega), if_pos (by omega)] at e
      exact e
  · rw [if_neg hk, if_neg hk]

/-- One round of the outer loop of `ext_UI` at gap `i` of the seed `B`, when
the harness never asks to abandon. -/
theorem ext_UI_body_log (c : Ctx) (hna : ∀ n buf, (c.harness n buf).abandon = false)
    (hd : ∀ tok ∈ c.extras, tok.length ≤ MAX_DICT_FILE)
    (B : List Nat) (i : Nat) (hi : i ≤ B.length) (s : FState)
    (hs : s.out_buf = B ∧ s.len = B.length ∧ s.ex_tmp.take i = B.take i ∧
      s.ex_tmp.length = B.length + MAX_DICT_FILE) :
    ∃ t, ext_UI_body c i s = Ctl.next t ∧
      (t.out_buf = B ∧ t.len = B.length ∧
        (i + 1 ≤ B.length → t.ex_tmp.take (i + 1) = B.take (i + 1)) ∧
        t.ex_tmp.length = B.length + MAX_DICT_FILE) ∧
      t.execs = s.execs ++
        (c.extras.map (fun tok =>
          if B.length + tok.length > MAX_FILE then []
          else [(B.take i ++ tok ++ B.drop i, B.length + tok.length)])).flatten := by
  obtain ⟨u, hu, ⟨u1, u2, u3, u4⟩, hl⟩ := for_each_log (ext_UI_inner c i)
    (fun t : FState => t.out_buf = B ∧ t.len = B.length ∧ t.ex_tmp.take i = B.take i ∧
      t.ex_tmp.length = B.length + MAX_DICT_FILE)
    (fun t => t.execs)
    (fun tok =>
      if B.length + tok.length > MAX_FILE then []
      else [(B.take i ++ tok ++ B.drop i, B.length + tok.length)])
    c.extras
    (fun tok htok v hv => ext_UI_inner_log c hna B i hi tok (hd tok htok) v hv)
    { s with stage_cur_byte := i } hs
  refine ⟨{ u with ex_tmp := u.ex_tmp.set i (u.out_buf.getD i 0) }, ?_,
    ⟨u1, u2, fun h => ?_, ?_⟩, hl⟩
  · unfold ext_UI_body
    rw [hu]
    rfl
  · show (u.ex_tmp.set i (u.out_buf.getD i 0)).take (i + 1) = B.take (i + 1)
    rw [u1]
    exact take_succ_set _ _ _ u3 (by rw [u4]; unfold MAX_DICT_FILE; omega) (by omega)
  · show (u.ex_tmp.set i (u.out_buf.getD i 0)).length = _
    rw [List.length_set]
    exact u4

/-- C27: the content of the submissions of `ext_UI`. For every state with the
seed `B0` of `L` bytes in `out_buf`, every dictionary of tokens of at most
`MAX_DICT_FILE` bytes and every harness that never asks to abandon, the stage
runs to its end and the harness calls it adds are exactly the pairs made of
the buffer `B0[0, i)` followed by `t` followed by `B0[i, L)` and of the length
`L + |t|`, for the gaps `i` in `[0, L]` and the tokens `t` with
`L + |t| <= MAX_FILE`; so a token with `L + |t| > MAX_FILE` is never
submitted. -/
theorem extras_ui_content (c : Ctx) (s : FState)
    (hna : ∀ n buf, (c.harness n buf).abandon = false)
    (hd : ∀ tok ∈ c.extras, tok.length ≤ MAX_DICT_FILE)
    (hlen : s.out_buf.length = s.len) :
    ∃ t new, ext_UI_stage c s = Ctl.next t ∧ t.execs = s.execs ++ new ∧
      (∀ e, e ∈ new ↔ ∃ i, i ≤ s.len ∧ ∃ tok ∈ c.extras, s.len + tok.length ≤ MAX_FILE ∧
        e = (s.out_buf.take i ++ tok ++ s.out_buf.drop i, s.len + tok.length)) ∧
      (∀ e ∈ new, e.1.length = e.2 ∧ e.2 ≤ MAX_FILE) := by
  have key : ∃ t new, ext_UI_stage c s = Ctl.next t ∧ t.execs = s.execs ++ new ∧
      (∀ e, e ∈ new ↔ ∃ i, i ≤ s.len ∧ ∃ tok ∈ c.extras, s.len + tok.length ≤ MAX_FILE ∧
        e = (s.out_buf.take i ++ tok ++ s.out_buf.drop i, s.len + tok.length)) := by
    unfold ext_UI_stage
    by_cases h0 : c.extras.length = 0
    · rw [if_pos h0]
      refine ⟨s, [], rfl, by simp, fun e => ⟨fun h => (by cases h), ?_⟩⟩
      rintro ⟨i, _, tok, htok, _⟩
      rw [List.length_eq_zero.mp h0] at htok
      cases htok
    · rw [if_neg h0]
      simp only
      obtain ⟨u, hu, u1, u2, -, -, new, hn1, hn2⟩ := for_loop_indexed (ext_UI_body c)
        (fun idx (u : FState) => u.out_buf = s.out_buf ∧ u.len = s.out_buf.length ∧
          (idx ≤ s.out_buf.length → u.ex_tmp.take idx = s.out_buf.take idx) ∧
          u.ex_tmp.length = s.out_buf.length + MAX_DICT_FILE ∧
          ∃ new, u.execs = s.execs ++ new ∧
            ∀ e, e ∈ new ↔ ∃ i, i < idx ∧ ∃ tok ∈ c.extras,
              s.out_buf.length + tok.length ≤ MAX_FILE ∧
              e = (s.out_buf.take i ++ tok ++ s.out_buf.drop i, s.out_buf.length + tok.length))
        (s.len + 1)
        (fun i hi u ⟨p1, p2, p3, p4, new, p5, p6⟩ => by
          have hiL : i ≤ s.out_buf.length := by omega
          obtain ⟨v, hv, ⟨v1, v2, v3, v4⟩, hl⟩ :=
            ext_UI_body_log c hna hd s.out_buf i hiL u ⟨p1, p2, p3 hiL, p4⟩
          refine ⟨v, hv, v1, v2, v3, v4, _, by rw [hl, p5, List.append_assoc], fun e => ?_⟩
          rw [List.mem_append, p6 e]
          simp only [List.mem_flatten, List.mem_map]
          constructor
          · rintro (⟨i', h1, tok, h2, h3, h4⟩ | ⟨l, ⟨tok, h2, rfl⟩, h3⟩)
            · exact ⟨i', by omega, tok, h2, h3, h4⟩
            · split_ifs at h3 with hb
              · cases h3
              · rw [List.mem_singleton] at h3
                exact ⟨i, by omega, tok, h2, by omega, h3⟩
          · rintro ⟨i', h1, tok, h2, h3, h4⟩
            by_cases hii : i' = i
            · subst hii
              refine Or.inr ⟨_, ⟨tok, h2, rfl⟩, ?_⟩
              rw [if_neg (by omega), List.mem_singleton]
              exact h4
            · exact Or.inl ⟨i', by omega, tok, h2, h3, h4⟩)
        { s with
          stage_cur := 0, stage_max := (c.extras.length : Int) * ((s.len : Int) + 1)
          orig_hit_cnt := s.new_hit_cnt
          ex_tmp := List.replicate (s.len + MAX_DICT_FILE) 0 }
        ⟨rfl, hlen.symm, fun _ => by simp, by simp [hlen],
          [], by simp, fun e => ⟨fun h => (by cases h), fun ⟨i, hi, _⟩ => absurd hi (by omega)⟩⟩
      refine ⟨account StageId.EXTRAS_UI u.stage_max u, new, ?_, hn1, fun e => ?_⟩
      · rw [hu]; rfl
      · rw [hn2 e, ← hlen]
        constructor
        · rintro ⟨i, h1, h2⟩
          exact ⟨i, by omega, h2⟩
        · rintro ⟨i, h1, h2⟩
          exact ⟨i, by omega, h2⟩
  obtain ⟨t, new, h1, h2, h3⟩ := key
  refine ⟨t, new, h1, h2, h3, fun e he => ?_⟩
  obtain ⟨i, hi, tok, _, hm, rfl⟩ := (h3 e).mp he
  refine ⟨?_, hm⟩
  simp only [List.length_append, List.length_take, List.length_drop]
  omega

/-- The content of the submissions of `ext_UI` on the seed `A B` with the
dictionary of the one token `X`: `X A B`, `A X B` and `A B X`. -/
theorem extras_ui_content_witness :
    ∃ t new, ext_UI_stage (quiet_ctx [[88]] []) (init_state [65, 66]) = Ctl.next t ∧
      t.execs = (init_state [65, 66]).execs ++ new ∧
      (∀ e, e ∈ new ↔ ∃ i, i ≤ (init_state [65, 66]).len ∧
        ∃ tok ∈ (quiet_ctx [[88]] []).extras,
          (init_state [65, 66]).len + tok.length ≤ MAX_FILE ∧
          e = ((init_state [65, 66]).out_buf.take i ++ tok ++ (init_state [65, 66]).out_buf.drop i,
            (init_state [65, 66]).len + tok.length)) ∧
      (∀ e ∈ new, e.1.length = e.2 ∧ e.2 ≤ MAX_FILE) :=
  extras_ui_content (quiet_ctx [[88]] []) (init_state [65, 66]) (fun _ _ => rfl)
    (by decide) rfl
/-! ## The skip rule of the interesting-value stages -/

/-- With `check_le` set, the oracle `could_be_interest` at width 2 holds of
every entry of `interesting_16` in native byte order. -/
theorem could_be_interest_le16 (T : Tables) (orig : Nat) (v : Int) (ho : orig < 65536)
    (hv : v ∈ T.interesting_16) : could_be_interest T orig (toU16 v) 2 true = true := by
  have hd : (List.range (2 - 1)).any (fun i =>
      T.interesting_16.any (fun w =>
        decide (toU16 v = insert_lane orig 0xffff i (toU16 w)) ||
        (decide (2 > 2) &&
          decide (toU16 v = insert_lane orig 0xffff i (SWAP16 (toU16 w)))))) = true := by
    rw [List.any_eq_true]
    refine ⟨0, by decide, ?_⟩
    rw [List.any_eq_true]
    refine ⟨v, hv, ?_⟩
    rw [insert_lane_word0 orig _ (by omega) (toU16_lt v)]
    have e : 65536 * (orig / 65536) + toU16 v = toU16 v := by omega
    rw [e]
    simp
  unfold could_be_interest
  split_ifs with h1 h2 h3
  · rfl
  · rfl
  · exact absurd h3.2 (by decide)
  · rfl

/-- With `check_le` set, the oracle `could_be_interest` at width 4 holds of
every entry of `interesting_32` in native byte order. -/
theorem could_be_interest_le32 (T : Tables) (orig : Nat) (v : Int)
    (hv : v ∈ T.interesting_32) : could_be_interest T orig (toU32 v) 4 true = true := by
  have hd : T.interesting_32.any (fun w => decide (toU32 v = toU32 w)) = true := by
    rw [List.any_eq_true]
    exact ⟨v, hv, by simp⟩
  unfold could_be_interest
  split_ifs with h1 h2 h3 h4 h5
  · rfl
  · rfl
  · exact absurd h3.1 (by decide)
  · rfl
  · exact hd
  · exact absurd ⟨rfl, rfl⟩ h5

/-- At width 1 the oracle `could_be_interest` holds of every entry of
`interesting_8`. -/
theorem could_be_interest_byte (T : Tables) (orig : Nat) (v : Int) (ho : orig < 256)
    (hv : v ∈ T.interesting_8) (cl : Bool) :
    could_be_interest T orig (toU8 v) 1 cl = true := by
  have hd : (List.range 1).any (fun i =>
      T.interesting_8.any (fun w =>
        decide (toU8 v = insert_lane orig 0xff i (toU8 w)))) = true := by
    rw [List.any_eq_true]
    refine ⟨0, by decide, ?_⟩
    rw [List.any_eq_true]
    refine ⟨v, hv, ?_⟩
    rw [insert_lane_byte0 orig _ (by omega) (toU8_lt v)]
    have e : 256 * (orig / 256) + toU8 v = toU8 v := by omega
    rw [e]
    simp
  unfold could_be_interest
  split_ifs
  · rfl
  · rfl

/-- The harness calls of one round of the inner loop of `int8` at offset `i` of
the seed `B`. -/
theorem interest8_inner_log (c : Ctx) (hna : ∀ n buf, (c.harness n buf).abandon = false)
    (B : List Nat) (i : Nat) (v : Int) (s : FState) (hs : s.out_buf = B ∧ s.len = B.length) :
    ∃ t, interest8_inner c i (B.getD i 0) v s = Ctl.next t ∧
      (t.out_buf = B ∧ t.len = B.length) ∧
      t.execs = s.execs ++
        (if (could_be_bitflip (B.getD i 0 ^^^ toU8 v) ||
            could_be_arith (B.getD i 0) (toU8 v) 1) = true then []
          else [(B.set i (toU8 v), B.length)]) := by
  obtain ⟨h1, h2⟩ := hs
  unfold interest8_inner
  by_cases hc : (could_be_bitflip (B.getD i 0 ^^^ toU8 v) ||
      could_be_arith (B.getD i 0) (toU8 v) 1) = true
  · rw [if_pos hc, if_pos hc]
    exact ⟨_, rfl, ⟨h1, h2⟩, by simp⟩
  · rw [if_neg hc, if_neg hc]
    simp only [submit_next c _ hna, Ctl.bind]
    refine ⟨_, rfl, ⟨?_, h2⟩, ?_⟩
    · simp only [common_fuzz_stuff, h1, List.set_set]
      exact set_getD_self B i
    · simp only [common_fuzz_stuff, h1, h2]
      rw [take_full _ _ (by simp)]

/-- The harness calls of a round of `int8` at an offset whose effector entry is
set. -/
theorem interest8_body_log (c : Ctx) (hna : ∀ n buf, (c.harness n buf).abandon = false)
    (B : List Nat) (i : Nat) (s : FState) (hs : s.out_buf = B ∧ s.len = B.length)
    (he : s.eff_map.getD (EFF_APOS i) 0 ≠ 0) :
    ∃ t new, interest8_body c i s = Ctl.next t ∧ t.execs = s.execs ++ new ∧
      ∀ e, e ∈ new ↔ ∃ v ∈ c.T.interesting_8,
        (could_be_bitflip (B.getD i 0 ^^^ toU8 v) ||
          could_be_arith (B.getD i 0) (toU8 v) 1) = false ∧
        e = (B.set i (toU8 v), B.length) := by
  obtain ⟨h1, h2⟩ := hs
  subst h1
  obtain ⟨t, ht, _, hl⟩ := for_each_log (interest8_inner c i (s.out_buf.getD i 0))
    (fun t : FState => t.out_buf = s.out_buf ∧ t.len = s.out_buf.length) (fun t => t.execs)
    (fun v =>
      if (could_be_bitflip (s.out_buf.getD i 0 ^^^ toU8 v) ||
          could_be_arith (s.out_buf.getD i 0) (toU8 v) 1) = true then []
      else [(s.out_buf.set i (toU8 v), s.out_buf.length)])
    c.T.interesting_8
    (fun v _ u hu => interest8_inner_log c hna s.out_buf i v u hu)
    { s with stage_cur_byte := i } ⟨rfl, h2⟩
  refine ⟨t, _, ?_, hl, fun e => ?_⟩
  · unfold interest8_body
    simp only
    rw [if_neg he]
    exact ht
  · simp only [List.mem_flatten, List.mem_map]
    constructor
    · rintro ⟨l, ⟨v, hv, rfl⟩, h3⟩
      split_ifs at h3 with hb
      · cases h3
      · rw [List.mem_singleton] at h3
        exact ⟨v, hv, Bool.eq_false_iff.mpr hb, h3⟩
    · rintro ⟨v, hv, hb, h3⟩
      refine ⟨_, ⟨v, hv, rfl⟩, ?_⟩
      rw [if_neg (by rw [hb]; exact Bool.false_ne_true), List.mem_singleton]
      exact h3

/-- Two test-and-execute blocks in a row that store at one place of the
buffer, `W l x` being the buffer `l` after the store of `x`: the harness calls
they add. -/
theorem two_attempts_log (c : Ctx) (hna : ∀ n buf, (c.harness n buf).abandon = false)
    (W : List Nat → Nat → List Nat) (hWW : ∀ l x y, W (W l x) y = W l y)
    (hWl : ∀ l x, (W l x).length = l.length) (B : List Nat) (c1 c2 : Bool) (a b : Nat)
    (val : Int) (s : FState) (hs : (∃ x, s.out_buf = W B x) ∧ s.len = B.length) :
    ∃ t, (attempt c c1 (W s.out_buf a) val s).bind
          (fun u => attempt c c2 (W u.out_buf b) val u) = Ctl.next t ∧
      ((∃ x, t.out_buf = W B x) ∧ t.len = B.length) ∧
      t.execs = s.execs ++
        ((if c1 = true then [(W B a, B.length)] else []) ++
         (if c2 = true then [(W B b, B.length)] else [])) := by
  obtain ⟨⟨x, hx⟩, h2⟩ := hs
  obtain ⟨t1, e1, o1, l1, x1, _, _⟩ := attempt_full c hna c1 (W s.out_buf a) val s
  rw [e1]; simp only [Ctl.bind]
  obtain ⟨t2, e2, o2, l2, x2, _, _⟩ := attempt_full c hna c2 (W t1.out_buf b) val t1
  have hw : ∀ y, W s.out_buf y = W B y := by intro y; rw [hx, hWW]
  have hw1 : ∀ y, W t1.out_buf y = W B y := by
    intro y
    rw [o1]
    split_ifs
    · rw [hWW, hw]
    · exact hw y
  have ht : ∀ y, (W B y).take B.length = W B y := fun y => take_full _ _ (hWl B y)
  refine ⟨t2, e2, ⟨?_, l2.trans (l1.trans h2)⟩, ?_⟩
  · rw [o2]
    split_ifs
    · exact ⟨_, hw1 _⟩
    · rw [o1]
      split_ifs
      · exact ⟨_, hw _⟩
      · exact ⟨x, hx⟩
  · rw [x2, x1, l1, h2, hw, hw1, ht, ht, List.append_assoc]

/-- The harness calls of one round of the inner loop of `int16` at offset `i`
of the seed `B`. -/
theorem interest16_inner_log (c : Ctx) (hna : ∀ n buf, (c.harness n buf).abandon = false)
    (B : List Nat) (i orig : Nat) (v : Int) (s : FState)
    (hs : (∃ x, s.out_buf = wr16 B i x) ∧ s.len = B.length) :
    ∃ t, interest16_inner c i orig v s = Ctl.next t ∧
      ((∃ x, t.out_buf = wr16 B i x) ∧ t.len = B.length) ∧
      t.execs = s.execs ++
        ((if (!could_be_bitflip (orig ^^^ toU16 v) && !could_be_arith orig (toU16 v) 2 &&
              !could_be_interest c.T orig (toU16 v) 2 false) = true
            then [(wr16 B i (toU16 v), B.length)] else []) ++
         (if (decide (toU16 v ≠ SWAP16 (toU16 v)) &&
              !could_be_bitflip (orig ^^^ SWAP16 (toU16 v)) &&
              !could_be_arith orig (SWAP16 (toU16 v)) 2 &&
              !could_be_interest c.T orig (SWAP16 (toU16 v)) 2 true) = true
            then [(wr16 B i (SWAP16 (toU16 v)), B.length)] else [])) := by
  unfold interest16_inner
  exact two_attempts_log c hna (fun l x => wr16 l i x) (fun l x y => wr16_wr16 l i x y)
    (fun l x => by simp [wr16]) B _ _ (toU16 v) (SWAP16 (toU16 v)) v
    { s with stage_cur_val := v } hs

/-- The harness calls of one round of the inner loop of `int32` at offset `i`
of the seed `B`. -/
theorem interest32_inner_log (c : Ctx) (hna : ∀ n buf, (c.harness n buf).abandon = false)
    (B : List Nat) (i orig : Nat) (v : Int) (s : FState)
    (hs : (∃ x, s.out_buf = wr32 B i x) ∧ s.len = B.length) :
    ∃ t, interest32_inner c i orig v s = Ctl.next t ∧
      ((∃ x, t.out_buf = wr32 B i x) ∧ t.len = B.length) ∧
      t.execs = s.execs ++
        ((if (!could_be_bitflip (orig ^^^ toU32 v) && !could_be_arith orig (toU32 v) 4 &&
              !could_be_interest c.T orig (toU32 v) 4 false) = true
            then [(wr32 B i (toU32 v), B.length)] else []) ++
         (if (decide (toU32 v ≠ SWAP32 (toU32 v)) &&
              !could_be_bitflip (orig ^^^ SWAP32 (toU32 v)) &&
              !could_be_arith orig (SWAP32 (toU32 v)) 4 &&
              !could_be_interest c.T orig (SWAP32 (toU32 v)) 4 true) = true
            then [(wr32 B i (SWAP32 (toU32 v)), B.length)] else [])) := by
  unfold interest32_inner
  exact two_attempts_log c hna (fun l x => wr32 l i x) (fun l x y => wr32_wr32 l i x y)
    (fun l x => by simp [wr32]) B _ _ (toU32 v) (SWAP32 (toU32 v)) v
    { s with stage_cur_val := v } hs

/-- Membership in the calls added by a loop of rounds with two candidates each. -/
theorem mem_two_candidates {α : Type} (xs : List Int) (p q : Int → Bool) (f g : Int → α)
    (e : α) :
    e ∈ (xs.map (fun v =>
        (if p v = true then [f v] else []) ++ (if q v = true then [g v] else []))).flatten ↔
      ∃ v ∈ xs, (p v = true ∧ e = f v) ∨ (q v = true ∧ e = g v) := by
  simp only [List.mem_flatten, List.mem_map]
  constructor
  · rintro ⟨l, ⟨v, hv, rfl⟩, h3⟩
    rw [List.mem_append] at h3
    rcases h3 with h3 | h3
    · split_ifs at h3 with hb
      · rw [List.mem_singleton] at h3
        exact ⟨v, hv, Or.inl ⟨hb, h3⟩⟩
      · cases h3
    · split_ifs at h3 with hb
      · rw [List.mem_singleton] at h3
        exact ⟨v, hv, Or.inr ⟨hb, h3⟩⟩
      · cases h3
  · rintro ⟨v, hv, h | h⟩
    · refine ⟨_, ⟨v, hv, rfl⟩, List.mem_append_left _ ?_⟩
      rw [if_pos h.1, List.mem_singleton]
      exact h.2
    · refine ⟨_, ⟨v, hv, rfl⟩, List.mem_append_right _ ?_⟩
      rw [if_pos h.1, List.mem_singleton]
      exact h.2

/-- The harness calls of a round of `int16` at an offset that is not skipped. -/
theorem interest16_body_log (c : Ctx) (hna : ∀ n buf, (c.harness n buf).abandon = false)
    (B : List Nat) (hB : Bytes B) (i : Nat) (s : FState)
    (hs : s.out_buf = B ∧ s.len = B.length) (he : eff_skip2 s i = false) :
    ∃ t new, interest16_body c i s = Ctl.next t ∧ t.execs = s.execs ++ new ∧
      ∀ e, e ∈ new ↔ ∃ v ∈ c.T.interesting_16,
        ((!could_be_bitflip (rd16 B i ^^^ toU16 v) && !could_be_arith (rd16 B i) (toU16 v) 2 &&
            !could_be_interest c.T (rd16 B i) (toU16 v) 2 false) = true ∧
          e = (wr16 B i (toU16 v), B.length)) ∨
        ((decide (toU16 v ≠ SWAP16 (toU16 v)) &&
            !could_be_bitflip (rd16 B i ^^^ SWAP16 (toU16 v)) &&
            !could_be_arith (rd16 B i) (SWAP16 (toU16 v)) 2 &&
            !could_be_interest c.T (rd16 B i) (SWAP16 (toU16 v)) 2 true) = true ∧
          e = (wr16 B i (SWAP16 (toU16 v)), B.length)) := by
  obtain ⟨h1, h2⟩ := hs
  subst h1
  obtain ⟨t, ht, _, hl⟩ := for_each_log (interest16_inner c i (rd16 s.out_buf i))
    (fun t : FState => (∃ x, t.out_buf = wr16 s.out_buf i x) ∧ t.len = s.out_buf.length) (fun t => t.execs)
    (fun v =>
      (if (!could_be_bitflip (rd16 s.out_buf i ^^^ toU16 v) && !could_be_arith (rd16 s.out_buf i) (toU16 v) 2 &&
            !could_be_interest c.T (rd16 s.out_buf i) (toU16 v) 2 false) = true
          then [(wr16 s.out_buf i (toU16 v), s.out_buf.length)] else []) ++
      (if (decide (toU16 v ≠ SWAP16 (toU16 v)) &&
            !could_be_bitflip (rd16 s.out_buf i ^^^ SWAP16 (toU16 v)) &&
            !could_be_arith (rd16 s.out_buf i) (SWAP16 (toU16 v)) 2 &&
            !could_be_interest c.T (rd16 s.out_buf i) (SWAP16 (toU16 v)) 2 true) = true
          then [(wr16 s.out_buf i (SWAP16 (toU16 v)), s.out_buf.length)] else []))
    c.T.interesting_16
    (fun v _ u hu => interest16_inner_log c hna s.out_buf i (rd16 s.out_buf i) v u hu)
    { s with stage_cur_byte := i } ⟨⟨rd16 s.out_buf i, by rw [wr16_rd16 s.out_buf i hB]⟩, h2⟩
  refine ⟨{ t with out_buf := wr16 t.out_buf i (rd16 s.out_buf i) }, _, ?_, hl, fun e => ?_⟩
  · unfold interest16_body
    simp only
    rw [if_neg (by rw [he]; exact Bool.false_ne_true), ht]
    rfl
  · exact mem_two_candidates _ _ _ _ _ e

/-- The harness calls of a round of `int32` at an offset that is not skipped. -/
theorem interest32_body_log (c : Ctx) (hna : ∀ n buf, (c.harness n buf).abandon = false)
    (B : List Nat) (hB : Bytes B) (i : Nat) (s : FState)
    (hs : s.out_buf = B ∧ s.len = B.length) (he : eff_skip4 s i = false) :
    ∃ t new, interest32_body c i s = Ctl.next t ∧ t.execs = s.execs ++ new ∧
      ∀ e, e ∈ new ↔ ∃ v ∈ c.T.interesting_32,
        ((!could_be_bitflip (rd32 B i ^^^ toU32 v) && !could_be_arith (rd32 B i) (toU32 v) 4 &&
            !could_be_interest c.T (rd32 B i) (toU32 v) 4 false) = true ∧
          e = (wr32 B i (toU32 v), B.length)) ∨
        ((decide (toU32 v ≠ SWAP32 (toU32 v)) &&
            !could_be_bitflip (rd32 B i ^^^ SWAP32 (toU32 v)) &&
            !could_be_arith (rd32 B i) (SWAP32 (toU32 v)) 4 &&
            !could_be_interest c.T (rd32 B i) (SWAP32 (toU32 v)) 4 true) = true ∧
          e = (wr32 B i (SWAP32 (toU32 v)), B.length)) := by
  obtain ⟨h1, h2⟩ := hs
  subst h1
  obtain ⟨t, ht, _, hl⟩ := for_each_log (interest32_inner c i (rd32 s.out_buf i))
    (fun t : FState => (∃ x, t.out_buf = wr32 s.out_buf i x) ∧ t.len = s.out_buf.length) (fun t => t.execs)
    (fun v =>
      (if (!could_be_bitflip (rd32 s.out_buf i ^^^ toU32 v) && !could_be_arith (rd32 s.out_buf i) (toU32 v) 4 &&
            !could_be_interest c.T (rd32 s.out_buf i) (toU32 v) 4 false) = true
          then [(wr32 s.out_buf i (toU32 v), s.out_buf.length)] else []) ++
      (if (decide (toU32 v ≠ SWAP32 (toU32 v)) &&
            !could_be_bitflip (rd32 s.out_buf i ^^^ SWAP32 (toU32 v)) &&
            !could_be_arith (rd32 s.out_buf i) (SWAP32 (toU32 v)) 4 &&
            !could_be_interest c.T (rd32 s.out_buf i) (SWAP32 (toU32 v)) 4 true) = true
          then [(wr32 s.out_buf i (SWAP32 (toU32 v)), s.out_buf.length)] else []))
    c.T.interesting_32
    (fun v _ u hu => interest32_inner_log c hna s.out_buf i (rd32 s.out_buf i) v u hu)
    { s with stage_cur_byte := i } ⟨⟨rd32 s.out_buf i, by rw [wr32_rd32 s.out_buf i hB]⟩, h2⟩
  refine ⟨{ t with out_buf := wr32 t.out_buf i (rd32 s.out_buf i) }, _, ?_, hl, fun e => ?_⟩
  · unfold interest32_body
    simp only
    rw [if_neg (by rw [he]; exact Bool.false_ne_true), ht]
    rfl
  · exact mem_two_candidates _ _ _ _ _ e
/-- Three negated tests in a row. -/
theorem not3_eq_true (a b c : Bool) :
    (!a && !b && !c) = true ↔ a = false ∧ b = false ∧ c = false := by
  cases a <;> cases b <;> cases c <;> decide

/-- A conjunction whose last test is the negation of a true one fails. -/
theorem and_not_of_true (x ci : Bool) (h : ci = true) : (x && !ci) = true → False := by
  subst h; cases x <;> decide

/-- A byte-swapped word is a 16-bit value. -/
theorem SWAP16_lt (x : Nat) : SWAP16 x < 65536 := by
  unfold SWAP16; omega

/-- A byte-swapped dword is a 32-bit value. -/
theorem SWAP32_lt (x : Nat) : SWAP32 x < 4294967296 := by
  unfold SWAP32; omega

/-- The word loaded from a buffer of bytes is a 16-bit value. -/
theorem rd16_lt (B : List Nat) (hB : Bytes B) (i : Nat) : rd16 B i < 65536 := by
  have h0 := hB.getD_lt i
  have h1 := hB.getD_lt (i + 1)
  unfold rd16; omega

/-- Two 16-bit stores at one offset that give one buffer store one value. -/
theorem wr16_inj (B : List Nat) (i x y : Nat) (hi : i + 1 < B.length) (hx : x < 65536)
    (hy : y < 65536) (h : wr16 B i x = wr16 B i y) : x = y := by
  have := congrArg (fun l => rd16 l i) h
  simp only [rd16_wr16 B i _ hi hx, rd16_wr16 B i _ hi hy] at this
  exact this

/-- Two 32-bit stores at one offset that give one buffer store one value. -/
theorem wr32_inj (B : List Nat) (i x y : Nat) (hi : i + 3 < B.length) (hx : x < 4294967296)
    (hy : y < 4294967296) (h : wr32 B i x = wr32 B i y) : x = y := by
  have := congrArg (fun l => rd32 l i) h
  simp only [rd32_wr32 B i _ hi hx, rd32_wr32 B i _ hi hy] at this
  exact this

/-- C25, amended: the skip rule of the interesting-value stages. For a seed of
bytes `B`, a harness that never asks to abandon and an offset that the effector
map does not rule out: a round of `int16` (resp. `int32`) submits the buffer
with the table constant `c` stored little-endian at the offset exactly if none
of `could_be_bitflip(orig ^ c)`, `could_be_arith(orig, c, w)` and
`could_be_interest(orig, c, w, 0)` holds; a round of `int8` submits it exactly
if neither `could_be_bitflip(orig ^ c)` nor `could_be_arith(orig, c, 1)`
holds, `could_be_interest` not being consulted at width 1, where it holds of
every table constant. -/
theorem interest_skip_rule (c : Ctx) (B : List Nat) (s : FState)
    (hna : ∀ n buf, (c.harness n buf).abandon = false) (hB : Bytes B)
    (hs : s.out_buf = B ∧ s.len = B.length) :
    (∀ i, i < B.length → s.eff_map.getD (EFF_APOS i) 0 ≠ 0 →
      ∃ t new, interest8_body c i s = Ctl.next t ∧ t.execs = s.execs ++ new ∧
        ∀ v ∈ c.T.interesting_8,
          ((B.set i (toU8 v), B.length) ∈ new ↔
            (could_be_bitflip (B.getD i 0 ^^^ toU8 v) = false ∧
              could_be_arith (B.getD i 0) (toU8 v) 1 = false))) ∧
    (∀ i, i + 1 < B.length → eff_skip2 s i = false →
      ∃ t new, interest16_body c i s = Ctl.next t ∧ t.execs = s.execs ++ new ∧
        ∀ v ∈ c.T.interesting_16,
          ((wr16 B i (toU16 v), B.length) ∈ new ↔
            (could_be_bitflip (rd16 B i ^^^ toU16 v) = false ∧
              could_be_arith (rd16 B i) (toU16 v) 2 = false ∧
              could_be_interest c.T (rd16 B i) (toU16 v) 2 false = false))) ∧
    (∀ i, i + 3 < B.length → eff_skip4 s i = false →
      ∃ t new, interest32_body c i s = Ctl.next t ∧ t.execs = s.execs ++ new ∧
        ∀ v ∈ c.T.interesting_32,
          ((wr32 B i (toU32 v), B.length) ∈ new ↔
            (could_be_bitflip (rd32 B i ^^^ toU32 v) = false ∧
              could_be_arith (rd32 B i) (toU32 v) 4 = false ∧
              could_be_interest c.T (rd32 B i) (toU32 v) 4 false = false))) ∧
    (∀ i, ∀ v ∈ c.T.interesting_8,
      could_be_interest c.T (B.getD i 0) (toU8 v) 1 false = true) := by
  refine ⟨fun i hi he => ?_, fun i hi he => ?_, fun i hi he => ?_, fun i v hv => ?_⟩
  · obtain ⟨t, new, h1, h2, h3⟩ := interest8_body_log c hna B i s hs he
    refine ⟨t, new, h1, h2, fun v hv => ?_⟩
    rw [h3]
    constructor
    · rintro ⟨w, hw, hc, he2⟩
      rw [Prod.mk.injEq] at he2
      have e := set_inj B i _ _ hi he2.1
      rw [← e] at hc
      rw [Bool.or_eq_false_iff] at hc
      exact hc
    · intro hc
      exact ⟨v, hv, by rw [hc.1, hc.2]; rfl, rfl⟩
  · obtain ⟨t, new, h1, h2, h3⟩ := interest16_body_log c hna B hB i s hs he
    refine ⟨t, new, h1, h2, fun v hv => ?_⟩
    rw [h3, ← not3_eq_true]
    constructor
    · rintro ⟨w, hw, ⟨hc, he2⟩ | ⟨hc, he2⟩⟩
      · rw [Prod.mk.injEq] at he2
        have e := wr16_inj B i _ _ hi (toU16_lt v) (toU16_lt w) he2.1
        rw [e]
        exact hc
      · rw [Prod.mk.injEq] at he2
        have e := wr16_inj B i _ _ hi (toU16_lt v) (SWAP16_lt _) he2.1
        rw [← e] at hc
        exact (and_not_of_true _ _ (could_be_interest_le16 c.T (rd16 B i) v
          (rd16_lt B hB i) hv) hc).elim
    · intro hc
      exact ⟨v, hv, Or.inl ⟨hc, rfl⟩⟩
  · obtain ⟨t, new, h1, h2, h3⟩ := interest32_body_log c hna B hB i s hs he
    refine ⟨t, new, h1, h2, fun v hv => ?_⟩
    rw [h3, ← not3_eq_true]
    constructor
    · rintro ⟨w, hw, ⟨hc, he2⟩ | ⟨hc, he2⟩⟩
      · rw [Prod.mk.injEq] at he2
        have e := wr32_inj B i _ _ hi (toU32_lt v) (toU32_lt w) he2.1
        rw [e]
        exact hc
      · rw [Prod.mk.injEq] at he2
        have e := wr32_inj B i _ _ hi (toU32_lt v) (SWAP32_lt _) he2.1
        rw [← e] at hc
        exact (and_not_of_true _ _ (could_be_interest_le32 c.T (rd32 B i) v hv) hc).elim
    · intro hc
      exact ⟨v, hv, Or.inl ⟨hc, rfl⟩⟩
  · exact could_be_interest_byte c.T _ v (hB.getD_lt i) hv false

set_option maxRecDepth 1000000

/-- The skip rule at width 1 applied to offset 0 of the seed `10 ff` with its
effector entry set. -/
theorem interest_skip_rule_witness :
    ∃ t new, interest8_body (quiet_ctx [] []) 0 { init_state [0x10, 0xff] with eff_map := [1] }
        = Ctl.next t ∧
      t.execs = ({ init_state [0x10, 0xff] with eff_map := [1] } : FState).execs ++ new ∧
      ∀ v ∈ (quiet_ctx [] []).T.interesting_8,
        (([0x10, 0xff].set 0 (toU8 v), [0x10, 0xff].length) ∈ new ↔
          (could_be_bitflip ([0x10, 0xff].getD 0 0 ^^^ toU8 v) = false ∧
            could_be_arith ([0x10, 0xff].getD 0 0) (toU8 v) 1 = false)) :=
  (interest_skip_rule (quiet_ctx [] []) [0x10, 0xff]
    { init_state [0x10, 0xff] with eff_map := [1] } (fun _ _ => rfl) (by simp [Bytes])
    ⟨rfl, rfl⟩).1 0 (by decide) (by decide)

/-- C25, counterexample: the seed `00` with its effector entry set and the
upstream tables. The constant 100 of `interesting_8` is neither a bit flip nor
an arithmetic step away from `00`, and `could_be_interest(0, 100, 1, 0)`
holds; the round of `int8` at offset 0 submits the buffer `64`. -/
theorem interest_skip_rule_counterexample :
    (100 : Int) ∈ (quiet_ctx [] []).T.interesting_8 ∧
    ({ init_state [0] with eff_map := [1] } : FState).eff_map.getD (EFF_APOS 0) 0 ≠ 0 ∧
    could_be_bitflip ([0].getD 0 0 ^^^ toU8 100) = false ∧
    could_be_arith ([0].getD 0 0) (toU8 100) 1 = false ∧
    could_be_interest (quiet_ctx [] []).T ([0].getD 0 0) (toU8 100) 1 false = true ∧
    ∃ t, interest8_body (quiet_ctx [] []) 0 { init_state [0] with eff_map := [1] } = Ctl.next t ∧
      ([0].set 0 (toU8 100), 1) ∈ t.execs :=
  ⟨by decide, by decide, by decide, by decide, by decide,
    (interest8_body (quiet_ctx [] []) 0 { init_state [0] with eff_map := [1] }).state,
    by rfl, by decide⟩
/-! ## The tokens collected by `flip1` -/

/-- The collection block, case by case: at the last bit of the file with an
unchanged hash; with a changed hash; with an unchanged hash elsewhere. -/
theorem auto_collect_fields (c : Ctx) (i : Nat) (x : FState) :
    ((i : Int) = x.stage_max - 1 ∧ x.cksum = x.prev_cksum ∧
      ((auto_collect c i x).autos = x.autos ∨
        (MIN_AUTO_EXTRA ≤ x.a_len + 1 ∧ x.a_len + 1 ≤ MAX_AUTO_EXTRA ∧
          (auto_collect c i x).autos = x.autos ++
            [(x.a_collect.set x.a_len (some (x.out_buf.getD (i >>> 3) 0)), x.a_len + 1)])) ∧
      (auto_collect c i x).a_collect.length = x.a_collect.length) ∨
    (¬ ((i : Int) = x.stage_max - 1 ∧ x.cksum = x.prev_cksum) ∧ x.cksum ≠ x.prev_cksum ∧
      ((auto_collect c i x).autos = x.autos ∨
        (MIN_AUTO_EXTRA ≤ x.a_len ∧ x.a_len ≤ MAX_AUTO_EXTRA ∧
          (auto_collect c i x).autos = x.autos ++ [(x.a_collect, x.a_len)])) ∧
      (auto_collect c i x).prev_cksum = x.cksum ∧
      ((x.cksum ≠ c.exec_cksum ∧ (auto_collect c i x).a_len = 1 ∧
          (auto_collect c i x).a_collect
            = x.a_collect.set 0 (some (x.out_buf.getD (i >>> 3) 0))) ∨
        (x.cksum = c.exec_cksum ∧ (auto_collect c i x).a_len = 0 ∧
          (auto_collect c i x).a_collect = x.a_collect))) ∨
    ((i : Int) ≠ x.stage_max - 1 ∧ x.cksum = x.prev_cksum ∧
      (auto_collect c i x).autos = x.autos ∧
      (auto_collect c i x).prev_cksum = x.prev_cksum ∧
      ((x.cksum ≠ c.exec_cksum ∧ (auto_collect c i x).a_len = x.a_len + 1 ∧
          (auto_collect c i x).a_collect
            = (if x.a_len < MAX_AUTO_EXTRA then
                x.a_collect.set x.a_len (some (x.out_buf.getD (i >>> 3) 0))
              else x.a_collect)) ∨
        (x.cksum = c.exec_cksum ∧ (auto_collect c i x).a_len = x.a_len ∧
          (auto_collect c i x).a_collect = x.a_collect))) := by
  by_cases hA : (i : Int) = x.stage_max - 1 ∧ x.cksum = x.prev_cksum
  · refine Or.inl ⟨hA.1, hA.2, ?_, ?_⟩
    · unfold auto_collect
      simp only
      rw [if_pos hA]
      have hp : (a_collect_push i x).a_len = x.a_len + 1 := (a_collect_push_fields i x).1
      by_cases hE : (a_collect_push i x).a_len ≥ MIN_AUTO_EXTRA ∧
          (a_collect_push i x).a_len ≤ MAX_AUTO_EXTRA
      · refine Or.inr ⟨by rw [← hp]; exact hE.1, by rw [← hp]; exact hE.2, ?_⟩
        have hlt : x.a_len < MAX_AUTO_EXTRA := by rw [hp] at hE; omega
        have e1 : (a_collect_emit (a_collect_push i x)).autos
            = x.autos ++ [(x.a_collect.set x.a_len (some (x.out_buf.getD (i >>> 3) 0)),
                x.a_len + 1)] := by
          unfold a_collect_emit
          rw [if_pos hE]
          unfold maybe_add_auto a_collect_push
          simp only
          rw [if_pos hlt]
        split_ifs
        · rw [(a_collect_push_fields i _).2.2.1, e1]
        · exact e1
      · refine Or.inl ?_
        have e1 : a_collect_emit (a_collect_push i x) = a_collect_push i x := by
          unfold a_collect_emit
          rw [if_neg hE]
        split_ifs
        · rw [(a_collect_push_fields i _).2.2.1, e1, (a_collect_push_fields i _).2.2.1]
        · rw [e1, (a_collect_push_fields i _).2.2.1]
    · unfold auto_collect a_collect_emit a_collect_push maybe_add_auto
      simp only
      split_ifs <;> simp
  · by_cases hB : x.cksum ≠ x.prev_cksum
    · refine Or.inr (Or.inl ⟨hA, hB, ?_, ?_, ?_⟩)
      · unfold auto_collect
        simp only
        rw [if_neg hA, if_pos hB]
        by_cases hE : x.a_len ≥ MIN_AUTO_EXTRA ∧ x.a_len ≤ MAX_AUTO_EXTRA
        · refine Or.inr ⟨hE.1, hE.2, ?_⟩
          unfold a_collect_emit a_collect_push maybe_add_auto
          simp only
          rw [if_pos hE]
          split_ifs <;> rfl
        · refine Or.inl ?_
          unfold a_collect_emit a_collect_push maybe_add_auto
          simp only
          rw [if_neg hE]
          split_ifs <;> rfl
      · unfold auto_collect a_collect_emit a_collect_push maybe_add_auto
        simp only
        rw [if_neg hA, if_pos hB]
        split_ifs <;> rfl
      · unfold auto_collect
        simp only
        rw [if_neg hA, if_pos hB]
        by_cases hX : x.cksum ≠ c.exec_cksum
        · rw [if_pos hX]
          refine Or.inl ⟨hX, ?_, ?_⟩
          · unfold a_collect_emit a_collect_push maybe_add_auto
            simp only
            split_ifs <;> rfl
          · unfold a_collect_emit a_collect_push maybe_add_auto
            simp only
            rw [if_pos (by decide)]
            split_ifs <;> rfl
        · rw [if_neg hX]
          refine Or.inr ⟨not_not.mp hX, rfl, ?_⟩
          unfold a_collect_emit maybe_add_auto
          simp only
          split_ifs <;> rfl
    · have hB2 : x.cksum = x.prev_cksum := not_not.mp hB
      have hA2 : (i : Int) ≠ x.stage_max - 1 := fun h => hA ⟨h, hB2⟩
      refine Or.inr (Or.inr ⟨hA2, hB2, ?_, ?_, ?_⟩)
      · unfold auto_collect a_collect_push
        simp only
        rw [if_neg hA, if_neg hB]
        split_ifs <;> rfl
      · unfold auto_collect a_collect_push
        simp only
        rw [if_neg hA, if_neg hB]
        split_ifs <;> rfl
      · unfold auto_collect
        simp only
        rw [if_neg hA, if_neg hB]
        by_cases hX : x.cksum ≠ c.exec_cksum
        · rw [if_pos hX]
          refine Or.inl ⟨hX, ?_, ?_⟩
          · exact (a_collect_push_fields i x).1
          · unfold a_collect_push
            simp only
            split_ifs <;> rfl
        · rw [if_neg hX]
          exact Or.inr ⟨not_not.mp hX, rfl, rfl⟩
/-- A round of `flip1`, whether or not the harness asks to abandon: either the
round is abandoned with the record of tokens untouched, or it goes on from the
state `x` after the run and the second `FLIP_BIT` to the collection block. -/
theorem flip1_round_any (c : Ctx) (i : Nat) (u : FState) (hl : u.out_buf.length = u.len) :
    (∃ v, flip1_body c i u = Ctl.abandon v ∧ v.autos = u.autos) ∨
    (∃ x, flip1_body c i u
          = Ctl.next (if c.dumb_mode = false ∧ i &&& 7 = 7 then auto_collect c i x else x) ∧
      x.out_buf = u.out_buf ∧ x.len = u.len ∧ x.stage_max = u.stage_max ∧
      x.a_len = u.a_len ∧ x.a_collect = u.a_collect ∧ x.prev_cksum = u.prev_cksum ∧
      x.autos = u.autos ∧ x.execs.length = u.execs.length + 1 ∧
      x.cksum = (c.harness u.execs.length (FLIP_BIT u.out_buf i)).cksum) := by
  have hk : (FLIP_BIT u.out_buf i).take u.len = FLIP_BIT u.out_buf i :=
    take_full _ _ ((FLIP_BIT_length _ _).trans hl)
  unfold flip1_body
  rcases submit_cases c { u with
      stage_cur := i, stage_cur_byte := i >>> 3, out_buf := FLIP_BIT u.out_buf i } with e | e
  · rw [e]
    exact Or.inl ⟨_, rfl, rfl⟩
  · rw [e]
    refine Or.inr ⟨{ (common_fuzz_stuff c { u with
        stage_cur := i, stage_cur_byte := i >>> 3, out_buf := FLIP_BIT u.out_buf i }
          (FLIP_BIT u.out_buf i) u.len).1 with out_buf := FLIP_BIT (FLIP_BIT u.out_buf i) i },
      ?_, FLIP_BIT_twice _ _, rfl, rfl, rfl, rfl, rfl, rfl, ?_, ?_⟩
    · simp only [Ctl.bind]
      by_cases h7 : c.dumb_mode = false ∧ i &&& 7 = 7
      · rw [if_pos h7, if_pos h7]
        rfl
      · rw [if_neg h7, if_neg h7]
        rfl
    · simp [common_fuzz_stuff]
    · simp only [common_fuzz_stuff, hk]

/-- The state of the collection only depends on four variables. -/
theorem RunOk_congr {c : Ctx} {B : List Nat} {m : Nat} {u v : FState} (h : RunOk c B m u)
    (e1 : v.a_collect = u.a_collect) (e2 : v.a_len = u.a_len)
    (e3 : v.prev_cksum = u.prev_cksum) : RunOk c B m v := by
  unfold RunOk at h ⊢
  rw [e1, e2, e3]
  exact h

/-- The collection block at the last bit of byte `m`, the hash of the run being
that of flipping this bit: the tokens handed over are in order, and so is the
state of the collection for the next byte unless this was the last one. -/
theorem auto_collect_run (c : Ctx) (B : List Nat) (m : Nat) (hm : m < B.length) (x : FState)
    (h1 : x.out_buf = B) (h3 : x.stage_max = ((8 * B.length : Nat) : Int))
    (h4 : x.a_collect.length = MAX_AUTO_EXTRA) (hck : x.cksum = last_bit_hash c B m)
    (hT : ∀ e ∈ x.autos, TokenOk c B e) (hR : RunOk c B m x) :
    (auto_collect c (8 * m + 7) x).a_collect.length = MAX_AUTO_EXTRA ∧
    (∀ e ∈ (auto_collect c (8 * m + 7) x).autos, TokenOk c B e) ∧
    (8 * m + 7 + 1 < 8 * B.length → RunOk c B (m + 1) (auto_collect c (8 * m + 7) x)) := by
  obtain ⟨r1, r2, r3⟩ := hR
  have d3 : (8 * m + 7) >>> 3 = m := by rw [Nat.shiftRight_eq_div_pow]; omega
  have hne : 0 < x.a_len → x.prev_cksum ≠ c.exec_cksum := fun h0 h => by
    have := r2 h; omega
  rcases auto_collect_fields c (8 * m + 7) x with
    ⟨a1, a2, a3, a4⟩ | ⟨b1, b2, b3, b4, b5⟩ | ⟨c1, c2, c3, c4, c5⟩
  · -- the last bit of the file, with the hash of the byte before
    have hlast : 8 * m + 7 + 1 = 8 * B.length := by
      rw [h3] at a1; omega
    refine ⟨a4.trans h4, ?_, fun h => absurd h (by omega)⟩
    rcases a3 with e | ⟨e1, e2, e3⟩
    · rw [e]; exact hT
    · rw [e3]
      intro e he
      rcases List.mem_append.mp he with he | he
      · exact hT e he
      · rw [List.mem_singleton] at he
        subst he
        refine ⟨m - x.a_len, x.prev_cksum,
          hne (by unfold MIN_AUTO_EXTRA at e1; omega), by show m - x.a_len + (x.a_len + 1) ≤ _; omega,
          fun k hk => ?_⟩
        have hk' : k < x.a_len + 1 := hk
        by_cases hka : k = x.a_len
        · subst hka
          refine ⟨?_, ?_⟩
          · show (x.a_collect.set x.a_len _)[x.a_len]? = _
            rw [List.getElem?_set_self (by rw [h4]; omega), d3, h1,
              show m - x.a_len + x.a_len = m by omega]
          · rw [show m - x.a_len + x.a_len = m by omega, ← hck, a2]
        · have hlt : k < x.a_len := by omega
          refine ⟨?_, (r3 k hlt).1⟩
          show (x.a_collect.set x.a_len _)[k]? = _
          rw [List.getElem?_set_ne (fun h => hka h.symm)]
          exact (r3 k hlt).2 (by omega)
  · -- the hash has changed
    refine ⟨?_, ?_, fun _ => ?_⟩
    · rcases b5 with ⟨_, _, e⟩ | ⟨_, _, e⟩
      · rw [e, List.length_set]; exact h4
      · rw [e]; exact h4
    · rcases b3 with e | ⟨e1, e2, e3⟩
      · rw [e]; exact hT
      · rw [e3]
        intro e he
        rcases List.mem_append.mp he with he | he
        · exact hT e he
        · rw [List.mem_singleton] at he
          subst he
          exact ⟨m - x.a_len, x.prev_cksum,
            hne (by unfold MIN_AUTO_EXTRA at e1; omega), by show m - x.a_len + x.a_len ≤ _; omega,
            fun k hk => ⟨(r3 k hk).2 (by have : k < x.a_len := hk; omega), (r3 k hk).1⟩⟩
    · rcases b5 with ⟨g1, g2, g3⟩ | ⟨g1, g2, g3⟩
      · refine ⟨by rw [g2]; omega, fun h => absurd (b4.symm.trans h) g1, fun k hk => ?_⟩
        rw [g2] at hk ⊢
        have hk0 : k = 0 := by omega
        subst hk0
        refine ⟨by rw [show m + 1 - 1 + 0 = m by omega, b4, hck], fun _ => ?_⟩
        rw [g3, List.getElem?_set_self (by rw [h4]; decide), d3, h1,
          show m + 1 - 1 + 0 = m by omega]
      · exact ⟨by rw [g2]; omega, fun _ => g2, fun k hk => absurd hk (by rw [g2]; omega)⟩
  · -- the hash of the byte before, not at the last bit
    refine ⟨?_, by rw [c3]; exact hT, fun _ => ?_⟩
    · rcases c5 with ⟨_, _, e⟩ | ⟨_, _, e⟩
      · rw [e]
        split_ifs
        · rw [List.length_set]; exact h4
        · exact h4
      · rw [e]; exact h4
    · rcases c5 with ⟨g1, g2, g3⟩ | ⟨g1, g2, g3⟩
      · refine ⟨by rw [g2]; omega, fun h => absurd (c2.trans (c4.symm.trans h)) g1,
          fun k hk => ?_⟩
        rw [g2] at hk ⊢
        rw [show m + 1 - (x.a_len + 1) + k = m - x.a_len + k by omega, c4]
        by_cases hka : k = x.a_len
        · subst hka
          refine ⟨by rw [show m - x.a_len + x.a_len = m by omega, ← hck, c2], fun h32 => ?_⟩
          rw [g3, if_pos h32, List.getElem?_set_self (by rw [h4]; exact h32), d3, h1,
            show m - x.a_len + x.a_len = m by omega]
        · have hlt : k < x.a_len := by omega
          refine ⟨(r3 k hlt).1, fun h32 => ?_⟩
          rw [g3]
          split_ifs
          · rw [List.getElem?_set_ne (fun h => hka h.symm)]
            exact (r3 k hlt).2 h32
          · exact (r3 k hlt).2 h32
      · have h0 : x.a_len = 0 := r2 (c2.symm.trans g1)
        exact ⟨by rw [g2, h0]; omega, fun _ => g2.trans h0,
          fun k hk => absurd hk (by rw [g2, h0]; omega)⟩
/-- A round of `flip1` on the seed `B` started from call number `i`: it keeps
the record of tokens in order however it ends, and if it goes on it keeps the
invariant of the collection. -/
theorem flip1_round_tokens (c : Ctx) (B : List Nat) (i : Nat) (hi : i < 8 * B.length)
    (u : FState)
    (hP : u.out_buf = B ∧ u.len = B.length ∧ u.execs.length = i ∧
      u.stage_max = ((8 * B.length : Nat) : Int) ∧ u.a_collect.length = MAX_AUTO_EXTRA ∧
      (c.dumb_mode = true → u.prev_cksum = c.exec_cksum ∧ u.a_len = 0) ∧
      (∀ e ∈ u.autos, TokenOk c B e) ∧ (i < 8 * B.length → RunOk c B (i / 8) u)) :
    (∀ v, flip1_body c i u = Ctl.next v →
      (v.out_buf = B ∧ v.len = B.length ∧ v.execs.length = i + 1 ∧
        v.stage_max = ((8 * B.length : Nat) : Int) ∧ v.a_collect.length = MAX_AUTO_EXTRA ∧
        (c.dumb_mode = true → v.prev_cksum = c.exec_cksum ∧ v.a_len = 0) ∧
        (∀ e ∈ v.autos, TokenOk c B e) ∧ (i + 1 < 8 * B.length → RunOk c B ((i + 1) / 8) v))) ∧
    (∀ v, flip1_body c i u = Ctl.abandon v → ∀ e ∈ v.autos, TokenOk c B e) := by
  obtain ⟨h1, h2, h3, h4, h5, h6, h7, h8⟩ := hP
  have hR := h8 hi
  rcases flip1_round_any c i u (by rw [h1, h2]) with
    ⟨w, hw, hwa⟩ | ⟨x, hx, x1, x2, x3, x4, x5, x6, x7, x8, x9⟩
  · refine ⟨fun v hv => ?_, fun v hv => ?_⟩
    · rw [hw] at hv; cases hv
    · rw [hw] at hv
      cases hv
      rw [hwa]; exact h7
  · refine ⟨fun v hv => ?_, fun v hv => ?_⟩
    swap
    · rw [hx] at hv; cases hv
    rw [hx] at hv
    simp only [Ctl.next.injEq] at hv
    have hRx : RunOk c B (i / 8) x := RunOk_congr hR x5 x4 x6
    by_cases hc : c.dumb_mode = false ∧ i &&& 7 = 7
    · rw [if_pos hc] at hv
      have hmod : i % 8 = 7 := by
        have := hc.2
        rw [show (7 : Nat) = 2 ^ 3 - 1 from rfl, Nat.and_pow_two_sub_one_eq_mod] at this
        exact this
      obtain ⟨m, hm⟩ : ∃ m, i = 8 * m + 7 := ⟨i / 8, by omega⟩
      subst hm
      have d1 : (8 * m + 7) / 8 = m := by omega
      have d2 : (8 * m + 7 + 1) / 8 = m + 1 := by omega
      rw [d1] at hRx
      have hck : x.cksum = last_bit_hash c B m := by
        rw [x9, h3, h1]; rfl
      obtain ⟨g1, g2, g3⟩ := auto_collect_run c B m (by omega) x (x1.trans h1) (x3.trans h4)
        (by rw [x5]; exact h5) hck (by rw [x7]; exact h7) hRx
      rw [← hv, d2]
      refine ⟨(auto_collect_out_buf _ _ _).trans (x1.trans h1),
        (auto_collect_frame _ _ _).1.trans (x2.trans h2),
        by rw [(auto_collect_frame _ _ _).2, x8, h3],
        (auto_collect_stage_max _ _ _).trans (x3.trans h4), g1,
        fun hd => absurd (hc.1.symm.trans hd) (by decide), g2, g3⟩
    · rw [if_neg hc] at hv
      rw [← hv]
      refine ⟨x1.trans h1, x2.trans h2, by rw [x8, h3], x3.trans h4, by rw [x5]; exact h5,
        fun hd => by rw [x6, x4]; exact h6 hd, by rw [x7]; exact h7, fun _ => ?_⟩
      by_cases h7' : i &&& 7 = 7
      · -- dumb mode: nothing is ever collected
        have hd : c.dumb_mode = true := by
          cases hdm : c.dumb_mode
          · exact absurd ⟨hdm, h7'⟩ hc
          · rfl
        obtain ⟨p1, p2⟩ := h6 hd
        exact ⟨by rw [x4, p2]; omega, fun _ => x4.trans p2,
          fun k hk => absurd hk (by rw [x4, p2]; omega)⟩
      · have hmod : i % 8 ≠ 7 := by
          rw [show (7 : Nat) = 2 ^ 3 - 1 from rfl, Nat.and_pow_two_sub_one_eq_mod] at h7'
          exact h7'
        have d2 : (i + 1) / 8 = i / 8 := by omega
        rw [d2]
        exact hRx

/-- C30: every token that `flip1` hands to `maybe_add_auto`, for every seed,
every environment (so every sequence of hashes and of harness answers) and
however the stage ends, is a contiguous slice `B0[s, s + n)` of the seed, and
there is one hash `h`, different from the baseline `exec_cksum`, that the run
with the last bit of byte `s + k` flipped produced for every `k < n`, the last
byte of the file included. -/
theorem flip1_tokens_are_runs (c : Ctx) (B : List Nat) :
    ∀ e ∈ (flip1_stage c (init_state B)).state.autos,
      ∃ s h, h ≠ c.exec_cksum ∧ s + e.2 ≤ B.length ∧
        ∀ k, k < e.2 →
          e.1[k]? = some (some (B.getD (s + k) 0)) ∧
          (c.harness (8 * (s + k) + 7) (FLIP_BIT B (8 * (s + k) + 7))).cksum = h := by
  have e8 : (init_state B).len <<< 3 = 8 * B.length := by
    show B.length <<< 3 = 8 * B.length
    rw [Nat.shiftLeft_eq]; omega
  have hloop := for_range_may_abandon (flip1_body c)
    (fun i (u : FState) => u.out_buf = B ∧ u.len = B.length ∧ u.execs.length = i ∧
      u.stage_max = ((8 * B.length : Nat) : Int) ∧ u.a_collect.length = MAX_AUTO_EXTRA ∧
      (c.dumb_mode = true → u.prev_cksum = c.exec_cksum ∧ u.a_len = 0) ∧
      (∀ e ∈ u.autos, TokenOk c B e) ∧ (i < 8 * B.length → RunOk c B (i / 8) u))
    (fun v => ∀ e ∈ v.autos, TokenOk c B e) (8 * B.length) 0
    (fun i _ hi u hP => flip1_round_tokens c B i (by omega) u hP)
    { init_state B with
        stage_max := (((init_state B).len <<< 3 : Nat) : Int)
        orig_hit_cnt := (init_state B).queued_paths + (init_state B).unique_crashes
        prev_cksum := c.exec_cksum }
    ⟨rfl, rfl, rfl, by show (((init_state B).len <<< 3 : Nat) : Int) = _; rw [e8],
      by simp [init_state, MAX_AUTO_EXTRA], fun _ => ⟨rfl, rfl⟩,
      fun e he => by simp [init_state] at he,
      fun _ => ⟨Nat.zero_le _, fun _ => rfl, fun k hk => absurd hk (Nat.not_lt_zero k)⟩⟩
  have key : ∀ e ∈ (flip1_stage c (init_state B)).state.autos, TokenOk c B e := by
    unfold flip1_stage
    simp only
    rw [e8]
    unfold for_loop
    cases hl : for_each (flip1_body c) (List.range' 0 (8 * B.length))
        { init_state B with
          stage_max := ((8 * B.length : Nat) : Int)
          orig_hit_cnt := (init_state B).queued_paths + (init_state B).unique_crashes
          prev_cksum := c.exec_cksum } with
    | next t =>
      have h := hloop.1 t (by rw [e8]; exact hl)
      exact h.2.2.2.2.2.2.1
    | abandon t =>
      exact hloop.2 t (by rw [e8]; exact hl)
  exact key

set_option maxRecDepth 1000000

/-- The token `01 02 03` that `flip1` hands over on the seed `01 02 03 04` with
a harness whose hash changes exactly when one of the first three bytes is
touched: it is the slice `B0[0, 3)` and the three runs gave the hash 1. -/
theorem flip1_tokens_are_runs_witness :
    ∃ s h, h ≠ (magic_ctx [1, 2, 3]).exec_cksum ∧ s + 3 ≤ [1, 2, 3, 4].length ∧
      ∀ k, k < 3 →
        ([some 1, some 2, some 3] ++ List.replicate 29 none : List (Option Nat))[k]?
          = some (some ([1, 2, 3, 4].getD (s + k) 0)) ∧
        ((magic_ctx [1, 2, 3]).harness (8 * (s + k) + 7)
          (FLIP_BIT [1, 2, 3, 4] (8 * (s + k) + 7))).cksum = h :=
  flip1_tokens_are_runs (magic_ctx [1, 2, 3]) [1, 2, 3, 4]
    ([some 1, some 2, some 3] ++ List.replicate 29 none, 3) (by decide)

/-! ## The oracles: little-endian insertions and symmetry of `could_be_arith` -/

/-- C31 (little-endian insertions are always flagged): with `check_le = 1`, for
every 16-bit `old16` and every entry `v16` of `interesting_16` the call
`could_be_interest(old16, (u16)v16, 2, 1)` is true, and for every 32-bit `old32`
and every entry `v32` of `interesting_32` the call
`could_be_interest(old32, (u32)v32, 4, 1)` is true. -/
theorem could_be_interest_check_le (T : Tables) (old16 old32 : Nat) (v16 v32 : Int)
    (h16 : old16 < 65536) (h32 : old32 < 4294967296)
    (hv16 : v16 ∈ T.interesting_16) (hv32 : v32 ∈ T.interesting_32) :
    could_be_interest T old16 (toU16 v16) 2 true = true ∧
    could_be_interest T old32 (toU32 v32) 4 true = true := by
  have _ := h32
  exact ⟨could_be_interest_le16 T old16 v16 h16 hv16, could_be_interest_le32 T old32 v32 hv32⟩

/-- The claim C31 at the built-in tables: over the word `0x1234` the 16-bit
constant `-32768` and over the dword `0x12345678` the 32-bit constant
`-2147483648` are flagged. -/
theorem could_be_interest_check_le_witness :
    (4660 < 65536 ∧ 305419896 < 4294967296 ∧
      (-32768 : Int) ∈ afl_tables.interesting_16 ∧
      (-2147483648 : Int) ∈ afl_tables.interesting_32) ∧
    could_be_interest afl_tables 4660 (toU16 (-32768)) 2 true = true ∧
    could_be_interest afl_tables 305419896 (toU32 (-2147483648)) 4 true = true :=
  ⟨⟨by decide, by decide, by decide, by decide⟩,
   could_be_interest_check_le afl_tables 4660 305419896 (-32768) (-2147483648)
     (by decide) (by decide) (by decide) (by decide)⟩

/-- Exchanging the two values exchanges `ov` and `nv` in the byte loop of
`could_be_arith` and keeps `diffs`. -/
theorem arith_byte_fold_swap (a b : Nat) (l : List Nat) : ∀ d x y : Nat,
    l.foldl (arith_byte_step b a) (d, y, x) =
      ((l.foldl (arith_byte_step a b) (d, x, y)).1,
       (l.foldl (arith_byte_step a b) (d, x, y)).2.2,
       (l.foldl (arith_byte_step a b) (d, x, y)).2.1) := by
  induction l with
  | nil => intro d x y; rfl
  | cons i l ih =>
    intro d x y
    rw [List.foldl_cons, List.foldl_cons]
    by_cases h : (a >>> (8 * i)) % 256 = (b >>> (8 * i)) % 256
    · have e1 : arith_byte_step b a (d, y, x) i = (d, y, x) := by
        unfold arith_byte_step
        simp only []
        rw [if_neg (by rw [not_not]; exact h.symm)]
      have e2 : arith_byte_step a b (d, x, y) i = (d, x, y) := by
        unfold arith_byte_step
        simp only []
        rw [if_neg (by rw [not_not]; exact h)]
      rw [e1, e2]
      exact ih d x y
    · have e1 : arith_byte_step b a (d, y, x) i =
          (d + 1, (b >>> (8 * i)) % 256, (a >>> (8 * i)) % 256) := by
        unfold arith_byte_step
        simp only []
        rw [if_pos (fun e => h e.symm)]
      have e2 : arith_byte_step a b (d, x, y) i =
          (d + 1, (a >>> (8 * i)) % 256, (b >>> (8 * i)) % 256) := by
        unfold arith_byte_step
        simp only []
        rw [if_pos h]
      rw [e1, e2]
      exact ih (d + 1) _ _

/-- Exchanging the two values exchanges `ov` and `nv` in the word loop of
`could_be_arith` and keeps `diffs`. -/
theorem arith_word_fold_swap (a b : Nat) (l : List Nat) : ∀ d x y : Nat,
    l.foldl (arith_word_step b a) (d, y, x) =
      ((l.foldl (arith_word_step a b) (d, x, y)).1,
       (l.foldl (arith_word_step a b) (d, x, y)).2.2,
       (l.foldl (arith_word_step a b) (d, x, y)).2.1) := by
  induction l with
  | nil => intro d x y; rfl
  | cons i l ih =>
    intro d x y
    rw [List.foldl_cons, List.foldl_cons]
    by_cases h : (a >>> (16 * i)) % 65536 = (b >>> (16 * i)) % 65536
    · have e1 : arith_word_step b a (d, y, x) i = (d, y, x) := by
        unfold arith_word_step
        simp only []
        rw [if_neg (by rw [not_not]; exact h.symm)]
      have e2 : arith_word_step a b (d, x, y) i = (d, x, y) := by
        unfold arith_word_step
        simp only []
        rw [if_neg (by rw [not_not]; exact h)]
      rw [e1, e2]
      exact ih d x y
    · have e1 : arith_word_step b a (d, y, x) i =
          (d + 1, (b >>> (16 * i)) % 65536, (a >>> (16 * i)) % 65536) := by
        unfold arith_word_step
        simp only []
        rw [if_pos (fun e => h e.symm)]
      have e2 : arith_word_step a b (d, x, y) i =
          (d + 1, (a >>> (16 * i)) % 65536, (b >>> (16 * i)) % 65536) := by
        unfold arith_word_step
        simp only []
        rw [if_pos h]
      rw [e1, e2]
      exact ih (d + 1) _ _

/-- C32 (symmetry of the arithmetic oracle): for every width `blen` and all
values `a`, `b`, `could_be_arith(a, b, blen) = could_be_arith(b, a, blen)`. -/
theorem could_be_arith_symm (a b blen : Nat) :
    could_be_arith a b blen = could_be_arith b a blen := by
  by_cases hab : a = b
  · subst hab; rfl
  · have hba : ¬ b = a := fun e => hab e.symm
    unfold could_be_arith
    rw [if_neg hab, if_neg hba]
    simp only []
    rw [arith_byte_fold_swap a b (List.range blen) 0 0 0]
    simp only []
    rw [arith_word_fold_swap a b (List.range (blen / 2)) 0]
    simp only []
    generalize (List.range blen).foldl (arith_byte_step a b) (0, 0, 0) = r1
    generalize (List.range (blen / 2)).foldl (arith_word_step a b) (0, r1.2.1, r1.2.2) = r2
    simp only [@or_comm (sub32 r1.2.2 r1.2.1 % 256 ≤ ARITH_MAX),
      @or_comm (sub32 r2.2.2 r2.2.1 % 65536 ≤ ARITH_MAX),
      @or_comm (sub32 (SWAP16 r2.2.2) (SWAP16 r2.2.1) % 65536 ≤ ARITH_MAX),
      @or_comm (sub32 b a ≤ ARITH_MAX),
      @or_comm (sub32 (SWAP32 b) (SWAP32 a) ≤ ARITH_MAX)]

/-! ## The memory accesses of `ext_UI` -/

/-- C38 (bounds of `ext_UI`): with every token at most `MAX_DICT_FILE` bytes
long, every index at which a completed `ext_UI` writes `ex_tmp` is below
`len + MAX_DICT_FILE` and every index at which it reads `out_buf` is at most
`len`; but with a non-empty dictionary the index `len` itself, one past the
last byte of the `len`-byte buffer, is read (by the head copy
`ex_tmp[i] = out_buf[i]` of the last round `i = len`). -/
theorem ext_UI_reads_one_past_end (c : Ctx) (len : Nat)
    (hd : ∀ tok ∈ c.extras, tok.length ≤ MAX_DICT_FILE) :
    (∀ w ∈ ext_UI_writes c len, w < len + MAX_DICT_FILE) ∧
    (∀ r ∈ ext_UI_reads c len, r ≤ len) ∧
    (c.extras ≠ [] → len ∈ ext_UI_reads c len) := by
  refine ⟨?_, ?_, ?_⟩
  · intro w hw
    unfold ext_UI_writes at hw
    split_ifs at hw with h0
    · cases hw
    · rw [List.mem_flatten] at hw
      obtain ⟨l, hl, hwl⟩ := hw
      rw [List.mem_map] at hl
      obtain ⟨i, hi, rfl⟩ := hl
      rw [List.mem_range] at hi
      unfold ext_UI_body_writes at hwl
      rw [List.mem_append] at hwl
      rcases hwl with hwl | hwl
      · rw [List.mem_flatten] at hwl
        obtain ⟨l2, hl2, hw2⟩ := hwl
        rw [List.mem_map] at hl2
        obtain ⟨tok, htok, rfl⟩ := hl2
        have ht := hd tok htok
        unfold ext_UI_inner_writes at hw2
        split_ifs at hw2 with hbig
        · cases hw2
        · rw [List.mem_append, List.mem_range'_1, List.mem_range'_1] at hw2
          rcases hw2 with ⟨_, h2⟩ | ⟨_, h2⟩ <;> omega
      · rw [List.mem_singleton] at hwl
        have : 0 < MAX_DICT_FILE := by decide
        omega
  · intro r hr
    unfold ext_UI_reads at hr
    split_ifs at hr with h0
    · cases hr
    · rw [List.mem_flatten] at hr
      obtain ⟨l, hl, hrl⟩ := hr
      rw [List.mem_map] at hl
      obtain ⟨i, hi, rfl⟩ := hl
      rw [List.mem_range] at hi
      unfold ext_UI_body_reads at hrl
      rw [List.mem_append] at hrl
      rcases hrl with hrl | hrl
      · rw [List.mem_flatten] at hrl
        obtain ⟨l2, hl2, hr2⟩ := hrl
        rw [List.mem_map] at hl2
        obtain ⟨tok, _, rfl⟩ := hl2
        unfold ext_UI_inner_reads at hr2
        split_ifs at hr2 with hbig
        · cases hr2
        · rw [List.mem_range'_1] at hr2
          omega
      · rw [List.mem_singleton] at hrl
        omega
  · intro hne
    unfold ext_UI_reads
    rw [if_neg (fun h => hne (List.length_eq_zero.mp h)), List.mem_flatten]
    refine ⟨ext_UI_body_reads c len len, List.mem_map.mpr ⟨len, ?_, rfl⟩, ?_⟩
    · rw [List.mem_range]; omega
    · unfold ext_UI_body_reads
      rw [List.mem_append]
      exact Or.inr (List.mem_singleton.mpr rfl)

/-- The claim C38 on the seed `41 42` with the one-token dictionary `58`: the
stage reads `out_buf[2]`, which lies outside the two-byte buffer. -/
theorem ext_UI_reads_one_past_end_witness :
    (∀ tok ∈ (quiet_ctx [[88]] []).extras, tok.length ≤ MAX_DICT_FILE) ∧
    ext_UI_reads (quiet_ctx [[88]] []) 2 = [0, 1, 0, 1, 1, 2] ∧
    2 ∈ ext_UI_reads (quiet_ctx [[88]] []) 2 :=
  ⟨by decide, by decide,
   (ext_UI_reads_one_past_end (quiet_ctx [[88]] []) 2 (by decide)).2.2 (by decide)⟩

/-! ## `int16` submits no value twice -/

/-- The byte swap of 16-bit values is injective. -/
theorem SWAP16_inj (x y : Nat) (hx : x < 65536) (hy : y < 65536)
    (h : SWAP16 x = SWAP16 y) : x = y := by
  unfold SWAP16 at h; omega

/-- An unchanged value counts as a bit flip. -/
theorem could_be_bitflip_self (x : Nat) : could_be_bitflip (x ^^^ x) = true := by
  rw [Nat.xor_self]; rfl

/-- A list built of at most two candidates per entry has no duplicates when
the first candidates are pairwise distinct, the second candidates are distinct
wherever the first ones are, and no second candidate that is taken is a first
candidate of the list. -/
theorem nodup_two_candidates (p q : Int → Bool) (f g : Int → Nat) :
    ∀ xs : List Int, xs.Pairwise (fun a b => f a ≠ f b) →
      (∀ a b, g a = g b → f a = f b) →
      (∀ a ∈ xs, q a = true → ∀ b ∈ xs, g a ≠ f b) →
      (xs.map (fun v =>
        (if p v = true then [f v] else []) ++ (if q v = true then [g v] else []))).flatten.Nodup := by
  intro xs
  induction xs with
  | nil => intro _ _ _; exact List.nodup_nil
  | cons v xs ih =>
    intro hp hg hq
    rw [List.pairwise_cons] at hp
    rw [List.map_cons, List.flatten_cons, List.nodup_append]
    refine ⟨?_, ih hp.2 hg (fun a ha qa b hb =>
      hq a (List.mem_cons_of_mem v ha) qa b (List.mem_cons_of_mem v hb)), ?_⟩
    · by_cases h1 : p v = true <;> by_cases h2 : q v = true
      · rw [if_pos h1, if_pos h2]
        have := hq v (List.mem_cons_self v xs) h2 v (List.mem_cons_self v xs)
        simp only [List.singleton_append, List.nodup_cons, List.mem_singleton, List.not_mem_nil,
          not_false_eq_true, List.nodup_nil, and_true]
        exact fun e => this e.symm
      · rw [if_pos h1, if_neg h2]; simp
      · rw [if_neg h1, if_pos h2]; simp
      · rw [if_neg h1, if_neg h2]; simp
    · intro e he1 he2
      rw [mem_two_candidates] at he2
      obtain ⟨w, hw, hc⟩ := he2
      have hvw : f v ≠ f w := hp.1 w hw
      rw [List.mem_append] at he1
      rcases he1 with he1 | he1
      · split_ifs at he1 with h1
        · rw [List.mem_singleton] at he1
          rcases hc with ⟨_, e2⟩ | ⟨qw, e2⟩
          · exact hvw (by rw [← he1, ← e2])
          · exact hq w (List.mem_cons_of_mem v hw) qw v (List.mem_cons_self v xs)
              (by rw [← he1, ← e2])
        · cases he1
      · split_ifs at he1 with h2
        · rw [List.mem_singleton] at he1
          rcases hc with ⟨_, e2⟩ | ⟨_, e2⟩
          · exact hq v (List.mem_cons_self v xs) h2 w (List.mem_cons_of_mem v hw)
              (by rw [← he1, ← e2])
          · exact hvw (hg v w (by rw [← he1, ← e2]))
        · cases he1

/-- Every value tried by `int16` is a 16-bit value other than the original. -/
theorem interest16_values_ne (T : Tables) (orig x : Nat)
    (hx : x ∈ interest16_values T orig) : x ≠ orig ∧ x < 65536 := by
  unfold interest16_values at hx
  rw [List.mem_flatten] at hx
  obtain ⟨l, hl, hxl⟩ := hx
  rw [List.mem_map] at hl
  obtain ⟨v, _, rfl⟩ := hl
  unfold interest16_tries at hxl
  rw [List.mem_append] at hxl
  rcases hxl with h | h
  · split_ifs at h with hc
    · rw [List.mem_singleton] at h
      subst h
      refine ⟨fun e => ?_, toU16_lt v⟩
      rw [not3_eq_true] at hc
      have hb := hc.1
      rw [e, could_be_bitflip_self] at hb
      cases hb
    · cases h
  · split_ifs at h with hc
    · rw [List.mem_singleton] at h
      subst h
      refine ⟨fun e => ?_, SWAP16_lt _⟩
      rw [e] at hc
      simp only [could_be_bitflip_self, Bool.not_true, Bool.and_false, Bool.false_and,
        Bool.false_eq_true] at hc
    · cases h

/-- The values tried by `int16` at one offset are pairwise distinct when the
table entries are. -/
theorem interest16_values_nodup (T : Tables) (orig : Nat) (ho : orig < 65536)
    (hT : T.interesting_16.Pairwise (fun a b => toU16 a ≠ toU16 b)) :
    (interest16_values T orig).Nodup := by
  unfold interest16_values
  have e : interest16_tries T orig = fun v =>
      (if (!could_be_bitflip (orig ^^^ toU16 v) && !could_be_arith orig (toU16 v) 2 &&
            !could_be_interest T orig (toU16 v) 2 false) = true then [toU16 v] else []) ++
      (if (decide (toU16 v ≠ SWAP16 (toU16 v)) &&
            !could_be_bitflip (orig ^^^ SWAP16 (toU16 v)) &&
            !could_be_arith orig (SWAP16 (toU16 v)) 2 &&
            !could_be_interest T orig (SWAP16 (toU16 v)) 2 true) = true
        then [SWAP16 (toU16 v)] else []) := rfl
  rw [e]
  refine nodup_two_candidates _ _ (fun v => toU16 v) (fun v => SWAP16 (toU16 v))
    T.interesting_16 hT (fun a b h => SWAP16_inj _ _ (toU16_lt a) (toU16_lt b) h) ?_
  intro a _ qa b hb heq
  have heq2 : SWAP16 (toU16 a) = toU16 b := heq
  rw [heq2] at qa
  exact and_not_of_true _ _ (could_be_interest_le16 T orig b ho hb) qa

/-- The two candidate lists of a round of the inner loop of `int16`, as the
stores of its values. -/
theorem interest16_tries_map (T : Tables) (B : List Nat) (i orig : Nat) (v : Int) :
    ((if (!could_be_bitflip (orig ^^^ toU16 v) && !could_be_arith orig (toU16 v) 2 &&
            !could_be_interest T orig (toU16 v) 2 false) = true
          then [(wr16 B i (toU16 v), B.length)] else []) ++
      (if (decide (toU16 v ≠ SWAP16 (toU16 v)) &&
            !could_be_bitflip (orig ^^^ SWAP16 (toU16 v)) &&
            !could_be_arith orig (SWAP16 (toU16 v)) 2 &&
            !could_be_interest T orig (SWAP16 (toU16 v)) 2 true) = true
          then [(wr16 B i (SWAP16 (toU16 v)), B.length)] else [])) =
      (interest16_tries T orig v).map (fun x => (wr16 B i x, B.length)) := by
  unfold interest16_tries
  rw [List.map_append]
  congr 1
  · split_ifs <;> rfl
  · split_ifs <;> rfl

/-- The same calls under another description of the list and a weaker
condition on the final state. -/
theorem Submits_congr (r : Ctl FState) (s : FState) (l l2 : List (List Nat × Nat))
    (P P2 : FState → Prop) (h : Submits r s l P) (hl : l = l2) (hP : ∀ t, P t → P2 t) :
    Submits r s l2 P2 := by
  subst hl
  obtain ⟨p, h1, h2, h3⟩ := h
  exact ⟨p, h1, h2, fun t ht => ⟨(h3 t ht).1, hP t (h3 t ht).2⟩⟩

/-- Two blocks in sequence append the calls of the first, then those of the
second. -/
theorem Submits_bind (x : Ctl FState) (f : FState → Ctl FState) (s : FState)
    (l1 l2 : List (List Nat × Nat)) (P1 P2 : FState → Prop) (hx : Submits x s l1 P1)
    (hf : ∀ t, P1 t → Submits (f t) t l2 P2) : Submits (x.bind f) s (l1 ++ l2) P2 := by
  obtain ⟨p1, a1, a2, a3⟩ := hx
  cases x with
  | abandon t =>
    exact ⟨p1, List.IsPrefix.trans a1 (List.prefix_append l1 l2), a2,
      fun u hu => by cases hu⟩
  | next t =>
    obtain ⟨e1, pt⟩ := a3 t rfl
    subst e1
    obtain ⟨p2, b1, b2, b3⟩ := hf t pt
    refine ⟨p1 ++ p2, (List.prefix_append_right_inj p1).mpr b1, ?_, fun u hu => ?_⟩
    · show (f t).state.execs = _
      rw [b2]
      have a2' : t.execs = s.execs ++ p1 := a2
      rw [a2', List.append_assoc]
    · obtain ⟨e2, pu⟩ := b3 u hu
      exact ⟨by rw [e2], pu⟩

/-- A loop over a list appends the calls of its rounds in order. -/
theorem Submits_for_each {α : Type} (body : α → FState → Ctl FState) (P : FState → Prop)
    (f : α → List (List Nat × Nat)) :
    ∀ (xs : List α), (∀ x ∈ xs, ∀ s, P s → Submits (body x s) s (f x) P) →
      ∀ s, P s → Submits (for_each body xs s) s (xs.map f).flatten P := by
  intro xs
  induction xs with
  | nil =>
    intro _ s hs
    exact ⟨[], List.prefix_refl _, by simp [for_each, Ctl.state],
      fun t ht => by cases ht; exact ⟨rfl, hs⟩⟩
  | cons x xs ih =>
    intro h s hs
    rw [List.map_cons, List.flatten_cons]
    exact Submits_bind (body x s) (for_each body xs) s (f x) _ P P
      (h x (List.mem_cons_self x xs) s hs)
      (fun t pt => ih (fun y hy => h y (List.mem_cons_of_mem x hy)) t pt)

/-- The block `attempt` appends its candidate if its test passes, whether the
run asks to abandon or not. -/
theorem attempt_submits (c : Ctx) (cond : Bool) (buf : List Nat) (val : Int) (s : FState) :
    Submits (attempt c cond buf val s) s
      (if cond = true then [(buf.take s.len, s.len)] else [])
      (fun t => t.out_buf = (if cond = true then buf else s.out_buf) ∧ t.len = s.len) := by
  cases cond
  · rw [attempt, if_neg (by simp)]
    exact ⟨[], List.prefix_refl _, by simp [Ctl.state],
      fun t ht => by cases ht; exact ⟨rfl, rfl, rfl⟩⟩
  · rw [attempt, if_pos rfl]
    rcases submit_cases c { s with stage_cur_val := val, out_buf := buf } with e | e
    · rw [e]
      exact ⟨[(buf.take s.len, s.len)], List.prefix_refl _, rfl, fun t ht => by cases ht⟩
    · rw [e]
      exact ⟨[(buf.take s.len, s.len)], List.prefix_refl _, rfl,
        fun t ht => by cases ht; exact ⟨rfl, rfl, rfl⟩⟩

/-- One round of the inner loop of `int16` at offset `i` of the seed `B`
appends the stores of the values it tries, whatever the harness answers. -/
theorem interest16_inner_submits (c : Ctx) (B : List Nat) (i orig : Nat) (v : Int)
    (s : FState) (hs : (∃ x, s.out_buf = wr16 B i x) ∧ s.len = B.length) :
    Submits (interest16_inner c i orig v s) s
      ((interest16_tries c.T orig v).map (fun x => (wr16 B i x, B.length)))
      (fun t => (∃ x, t.out_buf = wr16 B i x) ∧ t.len = B.length) := by
  obtain ⟨⟨x, hx⟩, h2⟩ := hs
  have hw : ∀ (l : List Nat) (y z : Nat), l = wr16 B i z → wr16 l i y = wr16 B i y := by
    intro l y z hl
    rw [hl, wr16_wr16]
  have htk : ∀ y, (wr16 B i y).take B.length = wr16 B i y :=
    fun y => take_full _ _ (by simp [wr16])
  rw [← interest16_tries_map]
  unfold interest16_inner
  refine Submits_bind _ _ s _ _
    (fun t => (∃ x, t.out_buf = wr16 B i x) ∧ t.len = B.length) _ ?_ (fun t pt => ?_)
  · refine Submits_congr _ _ _ _ _ _
      (attempt_submits c _ (wr16 s.out_buf i (toU16 v)) v { s with stage_cur_val := v }) ?_ ?_
    · show (if _ then [((wr16 s.out_buf i (toU16 v)).take s.len, s.len)] else []) = _
      rw [hw s.out_buf _ x hx, h2, htk]
    · intro t ht
      refine ⟨?_, ht.2.trans h2⟩
      rw [ht.1]
      split_ifs
      · exact ⟨_, hw s.out_buf _ x hx⟩
      · exact ⟨x, hx⟩
  · obtain ⟨⟨z, hz⟩, l2⟩ := pt
    refine Submits_congr _ _ _ _ _ _
      (attempt_submits c _ (wr16 t.out_buf i (SWAP16 (toU16 v))) v t) ?_ ?_
    · rw [hw t.out_buf _ z hz, l2, htk]
    · intro u hu
      refine ⟨?_, hu.2.trans l2⟩
      rw [hu.1]
      split_ifs
      · exact ⟨_, hw t.out_buf _ z hz⟩
      · exact ⟨z, hz⟩

/-- C37 (`int16` submits no duplicates): let the entries of `interesting_16` be
pairwise distinct as 16-bit values, `B` a seed of bytes and `i` an offset of
the stage, the harness being arbitrary. A round that the effector map rules
out submits nothing; any other round submits the buffers with the values
`interest16_values` (little-endian and byte-swapped candidates together)
stored at the offset, in order, all of them unless a run asks to abandon; these
values are pairwise distinct, each differs from the original word, and the
buffers are pairwise distinct. -/
theorem interest16_no_duplicates (c : Ctx) (B : List Nat) (s : FState) (i : Nat)
    (hT : c.T.interesting_16.Pairwise (fun a b => toU16 a ≠ toU16 b)) (hB : Bytes B)
    (hs : s.out_buf = B ∧ s.len = B.length) (hi : i + 1 < B.length) :
    (eff_skip2 s i = true → ∃ t, interest16_body c i s = Ctl.next t ∧ t.execs = s.execs) ∧
    (eff_skip2 s i = false →
      ∃ p, p <+: (interest16_values c.T (rd16 B i)).map (fun x => (wr16 B i x, B.length)) ∧
        (interest16_body c i s).state.execs = s.execs ++ p ∧
        ∀ t, interest16_body c i s = Ctl.next t →
          p = (interest16_values c.T (rd16 B i)).map (fun x => (wr16 B i x, B.length))) ∧
    (interest16_values c.T (rd16 B i)).Nodup ∧
    (∀ x ∈ interest16_values c.T (rd16 B i), x ≠ rd16 B i) ∧
    ((interest16_values c.T (rd16 B i)).map (fun x => (wr16 B i x, B.length))).Nodup := by
  have hnd := interest16_values_nodup c.T (rd16 B i) (rd16_lt B hB i) hT
  refine ⟨fun he => ?_, fun he => ?_, hnd,
    fun x hx => (interest16_values_ne c.T _ x hx).1, ?_⟩
  · unfold interest16_body
    simp only
    rw [if_pos he]
    exact ⟨_, rfl, rfl⟩
  · obtain ⟨h1, h2⟩ := hs
    subst h1
    have hl := Submits_for_each (interest16_inner c i (rd16 s.out_buf i))
      (fun t : FState => (∃ x, t.out_buf = wr16 s.out_buf i x) ∧ t.len = s.out_buf.length)
      (fun v => (interest16_tries c.T (rd16 s.out_buf i) v).map
        (fun x => (wr16 s.out_buf i x, s.out_buf.length)))
      c.T.interesting_16
      (fun v _ u hu => interest16_inner_submits c s.out_buf i (rd16 s.out_buf i) v u hu)
      { s with stage_cur_byte := i } ⟨⟨rd16 s.out_buf i, by rw [wr16_rd16 s.out_buf i hB]⟩, h2⟩
    have hb := Submits_bind _
      (fun u : FState => Ctl.next { u with out_buf := wr16 u.out_buf i (rd16 s.out_buf i) })
      { s with stage_cur_byte := i } _ [] _ (fun _ => True) hl
      (fun t _ => ⟨[], List.prefix_refl _, by simp [Ctl.state], fun _ _ => ⟨rfl, trivial⟩⟩)
    rw [List.append_nil] at hb
    have e : interest16_body c i s =
        (for_each (interest16_inner c i (rd16 s.out_buf i)) c.T.interesting_16
          { s with stage_cur_byte := i }).bind
          (fun u => Ctl.next { u with out_buf := wr16 u.out_buf i (rd16 s.out_buf i) }) := by
      unfold interest16_body
      simp only
      rw [if_neg (by rw [he]; exact Bool.false_ne_true)]
    have ev : (c.T.interesting_16.map (fun v =>
        (interest16_tries c.T (rd16 s.out_buf i) v).map
          (fun x => (wr16 s.out_buf i x, s.out_buf.length)))).flatten =
        (interest16_values c.T (rd16 s.out_buf i)).map
          (fun x => (wr16 s.out_buf i x, s.out_buf.length)) := by
      unfold interest16_values
      rw [List.map_flatten, List.map_map]
      rfl
    rw [← e, ev] at hb
    obtain ⟨p, p1, p2, p3⟩ := hb
    exact ⟨p, p1, p2, fun t ht => (p3 t ht).1⟩
  · refine List.Nodup.map_on (fun x hx y hy h => ?_) hnd
    rw [Prod.mk.injEq] at h
    exact wr16_inj B i x y hi (interest16_values_ne c.T _ x hx).2
      (interest16_values_ne c.T _ y hy).2 h.1

set_option maxRecDepth 1000000

/-- The claim C37 at offset 0 of the seed `10 ff` with its effector entry set
and the upstream tables: the round is not ruled out, it submits the stores of
`interest16_values`, and this list has no duplicates. -/
theorem interest16_no_duplicates_witness :
    (quiet_ctx [] []).T.interesting_16.Pairwise (fun a b => toU16 a ≠ toU16 b) ∧
    eff_skip2 ({ init_state [0x10, 0xff] with eff_map := [1] } : FState) 0 = false ∧
    (∃ p, p <+: (interest16_values (quiet_ctx [] []).T (rd16 [0x10, 0xff] 0)).map
          (fun x => (wr16 [0x10, 0xff] 0 x, [0x10, 0xff].length)) ∧
      (interest16_body (quiet_ctx [] []) 0
        { init_state [0x10, 0xff] with eff_map := [1] }).state.execs =
        ({ init_state [0x10, 0xff] with eff_map := [1] } : FState).execs ++ p ∧
      ∀ t, interest16_body (quiet_ctx [] []) 0
          { init_state [0x10, 0xff] with eff_map := [1] } = Ctl.next t →
        p = (interest16_values (quiet_ctx [] []).T (rd16 [0x10, 0xff] 0)).map
          (fun x => (wr16 [0x10, 0xff] 0 x, [0x10, 0xff].length))) ∧
    (interest16_values (quiet_ctx [] []).T (rd16 [0x10, 0xff] 0)).Nodup :=
  ⟨by decide, by decide,
   (interest16_no_duplicates (quiet_ctx [] []) [0x10, 0xff]
      { init_state [0x10, 0xff] with eff_map := [1] } 0 (by decide)
      (by simp [Bytes]) ⟨rfl, rfl⟩ (by decide)).2.1 (by decide),
   (interest16_no_duplicates (quiet_ctx [] []) [0x10, 0xff]
      { init_state [0x10, 0xff] with eff_map := [1] } 0 (by decide)
      (by simp [Bytes]) ⟨rfl, rfl⟩ (by decide)).2.2.1⟩

/-! ## Soundness of the effector pruning -/

/-- A round of `flip8` outside dumb mode on a seed of at least `EFF_MIN_LEN`
bytes, if it is not abandoned: the buffer is restored, one call is recorded,
and an entry of the map that reads 0 afterwards read 0 before; if it is the
entry of the byte of the round, the hash of the run with that byte flipped
equals the baseline. -/
theorem flip8_body_sound (c : Ctx) (hd : c.dumb_mode = false) (j : Nat) (u v : FState)
    (hL : EFF_MIN_LEN ≤ u.len) (hA : EFF_APOS j < u.eff_map.length)
    (hv : flip8_body c j u = Ctl.next v) :
    v.out_buf = u.out_buf ∧ v.len = u.len ∧ v.execs.length = u.execs.length + 1 ∧
    v.eff_map.length = u.eff_map.length ∧
    (∀ k, v.eff_map.getD k 0 = 0 → u.eff_map.getD k 0 = 0) ∧
    (v.eff_map.getD (EFF_APOS j) 0 = 0 →
      (c.harness u.execs.length
        ((u.out_buf.set j (u.out_buf.getD j 0 ^^^ 0xFF)).take u.len)).cksum = c.exec_cksum) := by
  obtain ⟨X, hXo, hXl, hXe, hXm, hXc, hX⟩ : ∃ X : FState,
      X.out_buf = u.out_buf.set j (u.out_buf.getD j 0 ^^^ 0xFF) ∧ X.len = u.len ∧
      X.execs.length = u.execs.length + 1 ∧ X.eff_map = u.eff_map ∧
      X.cksum = (c.harness u.execs.length
        ((u.out_buf.set j (u.out_buf.getD j 0 ^^^ 0xFF)).take u.len)).cksum ∧
      v = { eff_mark c j X with
        out_buf := (eff_mark c j X).out_buf.set j ((eff_mark c j X).out_buf.getD j 0 ^^^ 0xFF) } := by
    unfold flip8_body at hv
    rcases submit_cases c { u with
        stage_cur := j, stage_cur_byte := j
        out_buf := u.out_buf.set j (u.out_buf.getD j 0 ^^^ 0xFF) } with e | e
    · rw [e] at hv
      cases hv
    · rw [e] at hv
      simp only [Ctl.bind, Ctl.next.injEq] at hv
      exact ⟨(common_fuzz_stuff c { u with
          stage_cur := j, stage_cur_byte := j
          out_buf := u.out_buf.set j (u.out_buf.getD j 0 ^^^ 0xFF) }
          (u.out_buf.set j (u.out_buf.getD j 0 ^^^ 0xFF)) u.len).1,
        rfl, rfl, by simp [common_fuzz_stuff], rfl, rfl, hv.symm⟩
  have ho : v.out_buf = u.out_buf := by
    rw [hX]
    show (eff_mark c j X).out_buf.set j ((eff_mark c j X).out_buf.getD j 0 ^^^ 0xFF) = _
    rw [eff_mark_out_buf, hXo]
    exact flip8_twice u.out_buf j
  have hl : v.len = u.len := by
    rw [hX]
    show (eff_mark c j X).len = _
    rw [(eff_mark_frame c j X).1, hXl]
  have he : v.execs.length = u.execs.length + 1 := by
    rw [hX]
    show (eff_mark c j X).execs.length = _
    rw [(eff_mark_frame c j X).2, hXe]
  have hm : v.eff_map = (eff_mark c j X).eff_map := by rw [hX]
  rw [eff_mark_nondumb c j X hd (by rw [hXl]; exact hL), hXm, hXc] at hm
  refine ⟨ho, hl, he, ?_, ?_, ?_⟩
  · rw [hm]
    split_ifs
    · exact List.length_set _ _ _
    · exact hXm ▸ rfl
  · intro k h0
    rw [hm] at h0
    split_ifs at h0 with hc
    · have h1 : (u.eff_map.set (EFF_APOS j) 1).getD k 0 = 0 := h0
      rw [getD_set] at h1
      by_cases hk : EFF_APOS j = k ∧ EFF_APOS j < u.eff_map.length
      · rw [if_pos hk] at h1
        exact absurd h1 (by decide)
      · rw [if_neg hk] at h1
        exact h1
    · rw [hXm] at h0
      exact h0
  · intro h0
    rw [hm] at h0
    split_ifs at h0 with hc
    · have h1 : (u.eff_map.set (EFF_APOS j) 1).getD (EFF_APOS j) 0 = 0 := h0
      rw [getD_set, if_pos ⟨rfl, hA⟩] at h1
      exact absurd h1 (by decide)
    · rw [hXm] at h0
      by_contra hne
      exact hc ⟨h0, hne⟩

/-- The loop of `flip8` outside dumb mode on a seed of at least `EFF_MIN_LEN`
bytes, if it is not abandoned: every byte whose entry reads 0 at the end was
flipped in a run whose hash equals the baseline. -/
theorem flip8_loop_sound (c : Ctx) (hd : c.dumb_mode = false) (s u : FState)
    (hL : EFF_MIN_LEN ≤ s.len)
    (hu : for_loop (flip8_body c) 0 s.len
      { eff_init s with stage_max := (s.len : Int), orig_hit_cnt := s.new_hit_cnt }
        = Ctl.next u) :
    u.len = s.len ∧ u.eff_map.length = EFF_ALEN s.len ∧
    ∀ i, i < s.len → u.eff_map.getD (EFF_APOS i) 0 = 0 →
      (c.harness (s.execs.length + i)
        ((s.out_buf.set i (s.out_buf.getD i 0 ^^^ 0xFF)).take s.len)).cksum = c.exec_cksum := by
  have h := (for_range_may_abandon (flip8_body c)
    (fun j (u : FState) => u.out_buf = s.out_buf ∧ u.len = s.len ∧
      u.execs.length = s.execs.length + j ∧ u.eff_map.length = EFF_ALEN s.len ∧
      ∀ i, i < j → u.eff_map.getD (EFF_APOS i) 0 = 0 →
        (c.harness (s.execs.length + i)
          ((s.out_buf.set i (s.out_buf.getD i 0 ^^^ 0xFF)).take s.len)).cksum = c.exec_cksum)
    (fun _ => True) s.len 0
    (fun j _ hj u hP => ⟨fun v hv => ?_, fun _ _ => trivial⟩)
    { eff_init s with stage_max := (s.len : Int), orig_hit_cnt := s.new_hit_cnt } ?_).1 u hu
  · obtain ⟨_, h2, _, h4, h5⟩ := h
    exact ⟨h2, h4, fun i hi => h5 i (by omega)⟩
  · obtain ⟨h1, h2, h3, h4, h5⟩ := hP
    have hA : EFF_APOS j < u.eff_map.length := by
      rw [h4, EFF_ALEN_eq, EFF_APOS_eq]; omega
    obtain ⟨g1, g2, g3, g4, g5, g6⟩ := flip8_body_sound c hd j u v (by rw [h2]; exact hL) hA hv
    refine ⟨g1.trans h1, g2.trans h2, by rw [g3, h3]; omega, g4.trans h4, fun i hi h0 => ?_⟩
    by_cases hij : i = j
    · subst hij
      have := g6 h0
      rw [h1, h2, h3] at this
      exact this
    · exact h5 i (by omega) (g5 _ h0)
  · refine ⟨eff_init_out_buf s, (eff_init_frame s).1, ?_, eff_init_length s,
      fun i hi => absurd hi (by omega)⟩
    show (eff_init s).execs.length = _
    rw [(eff_init_frame s).2]
    rfl

/-- C34 (effector pruning soundness): outside dumb mode and for a seed of at
least `EFF_MIN_LEN` bytes, if entry `k` of the effector map is 0 after a
`flip8` stage that ran to its end, then for every byte offset `i` of window `k`
(`8k <= i < min(8k + 8, len)`) the hash of the run with byte `i` flipped, the
`i`-th run of the stage, equals the baseline `exec_cksum`. -/
theorem effector_pruning_sound (c : Ctx) (s t : FState) (k i : Nat)
    (hd : c.dumb_mode = false) (hL : EFF_MIN_LEN ≤ s.len)
    (ht : flip8_stage c s = Ctl.next t) (hk : t.eff_map.getD k 0 = 0)
    (hlo : 8 * k ≤ i) (hhi : i < 8 * k + 8) (hi : i < s.len) :
    (c.harness (s.execs.length + i)
      ((s.out_buf.set i (s.out_buf.getD i 0 ^^^ 0xFF)).take s.len)).cksum = c.exec_cksum := by
  unfold flip8_stage at ht
  simp only at ht
  cases hu : for_loop (flip8_body c) 0 s.len
      { eff_init s with stage_max := (s.len : Int), orig_hit_cnt := s.new_hit_cnt } with
  | abandon u =>
    rw [hu] at ht
    cases ht
  | next u =>
    rw [hu] at ht
    simp only [Ctl.bind, Ctl.next.injEq] at ht
    obtain ⟨h1, h2, h3⟩ := flip8_loop_sound c hd s u hL hu
    have hki : EFF_APOS i = k := by rw [EFF_APOS_eq]; omega
    refine h3 i hi ?_
    rw [hki]
    have hm : t.eff_map = (eff_saturate { u with stage_cur := u.stage_max }).eff_map := by
      rw [← ht]; rfl
    rw [eff_saturate_eff_map] at hm
    split_ifs at hm with hc
    · have h4 : t.eff_map.getD k 0 = 1 := by
        rw [hm]
        show (List.replicate (EFF_ALEN u.len) 1).getD k 0 = 1
        rw [List.getD_eq_getElem _ _ (by
          rw [List.length_replicate, h1, EFF_ALEN_eq]; omega)]
        simp
      rw [h4] at hk
      exact absurd hk (by decide)
    · rw [hm] at hk
      exact hk

set_option maxRecDepth 1000000

/-- The claim C34 on a seed of 128 zero bytes and a harness that always reports
the baseline hash: the stage runs to its end, entry 1 of the map is 0, and the
run with byte 8 flipped gave the baseline hash. -/
theorem effector_pruning_sound_witness :
    (∃ t, flip8_stage (quiet_ctx [] []) (init_state (List.replicate 128 0)) = Ctl.next t ∧
      t.eff_map.getD 1 0 = 0) ∧
    ((quiet_ctx [] []).harness ((init_state (List.replicate 128 0)).execs.length + 8)
      (((init_state (List.replicate 128 0)).out_buf.set 8
        ((init_state (List.replicate 128 0)).out_buf.getD 8 0 ^^^ 0xFF)).take
          (init_state (List.replicate 128 0)).len)).cksum = (quiet_ctx [] []).exec_cksum :=
  ⟨⟨(flip8_stage (quiet_ctx [] []) (init_state (List.replicate 128 0))).state, by rfl, by decide⟩,
   effector_pruning_sound (quiet_ctx [] []) (init_state (List.replicate 128 0))
     (flip8_stage (quiet_ctx [] []) (init_state (List.replicate 128 0))).state 1 8
     (by rfl) (by decide) (by rfl) (by decide) (by decide) (by decide) (by decide)⟩

/-! ## The inflation of the havoc budget is bounded -/

/-- A draw does not touch `stage_cur`. -/
theorem tick_stage_cur (t : FState) : (tick t).stage_cur = t.stage_cur := rfl

/-- Case 13 leaves `stage_cur` alone. -/
theorem havoc_case13_stage_cur (c : Ctx) (s : FState) :
    (havoc_case13 c s).stage_cur = s.stage_cur := by
  unfold havoc_case13
  simp only [apply_ite FState.stage_cur, tick_stage_cur, ite_self]

/-- Case 14 leaves `stage_cur` alone. -/
theorem havoc_case14_stage_cur (c : Ctx) (s : FState) :
    (havoc_case14 c s).stage_cur = s.stage_cur := by
  unfold havoc_case14
  simp only [apply_ite FState.stage_cur, tick_stage_cur, ite_self]

/-- Case 15 leaves `stage_cur` alone. -/
theorem havoc_case15_stage_cur (c : Ctx) (s : FState) :
    (havoc_case15 c s).stage_cur = s.stage_cur := by
  unfold havoc_case15 use_auto_tick
  simp only [apply_ite FState.stage_cur, tick_stage_cur, ite_self]

/-- Case 16 leaves `stage_cur` alone. -/
theorem havoc_case16_stage_cur (c : Ctx) (s : FState) :
    (havoc_case16 c s).stage_cur = s.stage_cur := by
  unfold havoc_case16 use_auto_tick
  simp only [apply_ite FState.stage_cur, tick_stage_cur, ite_self]

/-- One stacked mutation leaves `stage_cur` alone. -/
theorem havoc_op_stage_cur (c : Ctx) (s : FState) : (havoc_op c s).stage_cur = s.stage_cur := by
  unfold havoc_op
  simp only
  split
  · rfl
  · rfl
  · unfold havoc_case2; split_ifs <;> rfl
  · unfold havoc_case3; split_ifs <;> rfl
  · rfl
  · rfl
  · unfold havoc_case6; split_ifs <;> rfl
  · unfold havoc_case7; split_ifs <;> rfl
  · unfold havoc_case8; split_ifs <;> rfl
  · unfold havoc_case9; split_ifs <;> rfl
  · rfl
  · unfold havoc_case11; split_ifs <;> rfl
  · unfold havoc_case11; split_ifs <;> rfl
  · exact havoc_case13_stage_cur c (tick s)
  · exact havoc_case14_stage_cur c (tick s)
  · exact havoc_case15_stage_cur c (tick s)
  · exact havoc_case16_stage_cur c (tick s)
  · rfl

/-- The stacked mutations of one round leave `stage_cur` alone. -/
theorem havoc_stack_stage_cur (c : Ctx) (n : Nat) :
    ∀ s, (havoc_stack c n s).stage_cur = s.stage_cur := by
  induction n with
  | zero => intro s; rfl
  | succ n ih => intro s; exact (ih (havoc_op c s)).trans (havoc_op_stage_cur c s)

/-- A round of the havoc loop leaves `stage_cur` alone. -/
theorem havoc_iter_stage_cur (c : Ctx) (u : FState) :
    (havoc_iter c u).state.stage_cur = u.stage_cur := by
  have k := havoc_stack_stage_cur c (1 <<< (1 + UR_val c u HAVOC_STACK_POW2))
    { tick u with stage_cur_val := ((1 <<< (1 + UR_val c u HAVOC_STACK_POW2) : Nat) : Int) }
  unfold havoc_iter
  simp only
  generalize havoc_stack c (1 <<< (1 + UR_val c u HAVOC_STACK_POW2))
    { tick u with stage_cur_val := ((1 <<< (1 + UR_val c u HAVOC_STACK_POW2) : Nat) : Int) }
    = S1 at k ⊢
  have k2 : S1.stage_cur = u.stage_cur := k
  split_ifs
  · exact k2
  · show (havoc_restore (common_fuzz_stuff c S1 S1.out_buf S1.temp_len).1).stage_cur = _
    unfold havoc_restore
    simp only
    split_ifs <;> exact k2

/-- A power of two with exponent at most 11 is at most 2048. -/
theorem two_pow_le_2048 (d : Nat) (h : d ≤ 11) : 2 ^ d ≤ 2048 := by
  have := Nat.pow_le_pow_right (show 0 < 2 by decide) h
  simpa using this

/-- After ten doublings at most, a power of two is at most 1600. -/
theorem doublings_lt_11 (P0 d : Nat) (hP : 1 ≤ P0) (hd : d ≤ 11) (h : P0 * 2 ^ d ≤ 1600) :
    d + 1 ≤ 11 := by
  by_contra hc
  have e : d = 11 := by omega
  subst e
  have : P0 * 2048 ≤ 1600 := by simpa using h
  omega

/-- A round of the havoc loop keeps the account of the doublings. -/
theorem havoc_iter_inflation (c : Ctx) (P0 : Nat) (M0 : Int) (hP : 1 ≤ P0) (u : FState)
    (h : Inflation P0 M0 u) : Inflation P0 M0 (havoc_iter c u).state := by
  obtain ⟨ha, hb⟩ := havoc_iter_budget c u
  obtain ⟨d, hd, h1, h2, h3⟩ := h
  cases hit : havoc_iter c u with
  | abandon t =>
    obtain ⟨d1, d2⟩ := ha t hit
    exact ⟨d, hd, by show t.perf_score = _; rw [d2, h1],
      by show t.stage_max = _; rw [d1, h2], by
        rcases h3 with h3 | h3
        · exact Or.inl h3
        · exact Or.inr (by show t.perf_score ≤ 3200; rw [d2]; exact h3)⟩
  | next t =>
    obtain ⟨_, b2, b3⟩ := hb t hit
    by_cases hc : t.queued_paths ≠ u.havoc_queued ∧ u.perf_score ≤ 1600
    · obtain ⟨d1, d2⟩ := b2 hc
      refine ⟨d + 1, doublings_lt_11 P0 d hP hd (by rw [← h1]; exact hc.2), ?_, ?_, Or.inr ?_⟩
      · show t.perf_score = _
        rw [d2, h1, pow_succ, Nat.mul_assoc]
      · show t.stage_max = _
        rw [d1, h2, pow_succ, mul_assoc]
      · show t.perf_score ≤ 3200
        rw [d2]
        have := hc.2
        omega
    · obtain ⟨d1, d2⟩ := b3 hc
      exact ⟨d, hd, by show t.perf_score = _; rw [d2, h1],
        by show t.stage_max = _; rw [d1, h2], by
          rcases h3 with h3 | h3
          · exact Or.inl h3
          · exact Or.inr (by show t.perf_score ≤ 3200; rw [d2]; exact h3)⟩

/-- The budget never exceeds 2048 times its initial value. -/
theorem Inflation_stage_max_le (P0 : Nat) (M0 : Int) (hM : 0 ≤ M0) (u : FState)
    (h : Inflation P0 M0 u) : u.stage_max ≤ 2048 * M0 := by
  obtain ⟨d, hd, _, h2, _⟩ := h
  rw [h2]
  have h3 : ((2 : Int) ^ d) ≤ 2048 := by
    have := two_pow_le_2048 d hd
    exact_mod_cast this
  nlinarith

/-- The havoc loop, for any number of rounds: the account of the doublings
holds and `stage_cur` stays within 2048 times the initial budget. -/
theorem havoc_loop_inflation (c : Ctx) (P0 : Nat) (M0 : Int) (hP : 1 ≤ P0) (hM : 0 ≤ M0)
    (fuel : Nat) :
    ∀ u : FState, Inflation P0 M0 u → u.stage_cur ≤ 2048 * M0 →
      Inflation P0 M0 (havoc_loop c fuel u).state ∧
      (havoc_loop c fuel u).state.stage_cur ≤ 2048 * M0 := by
  induction fuel with
  | zero => intro u h1 h2; exact ⟨h1, h2⟩
  | succ n ih =>
    intro u h1 h2
    unfold havoc_loop
    split_ifs with hlt
    · have hi := havoc_iter_inflation c P0 M0 hP u h1
      have hc := havoc_iter_stage_cur c u
      cases hit : havoc_iter c u with
      | next t =>
        rw [hit] at hi hc
        simp only [Ctl.bind]
        refine ih { t with stage_cur := t.stage_cur + 1 } hi ?_
        show t.stage_cur + 1 ≤ 2048 * M0
        have e : t.stage_cur = u.stage_cur := hc
        have := Inflation_stage_max_le P0 M0 hM u h1
        omega
      | abandon t =>
        rw [hit] at hi hc
        simp only [Ctl.bind, Ctl.state]
        have e : t.stage_cur = u.stage_cur := hc
        exact ⟨hi, by rw [e]; exact h2⟩
    · exact ⟨h1, h2⟩

/-- With as many rounds allowed as 2048 times the initial budget, less the
rounds already made, the havoc loop runs to its end. -/
theorem havoc_loop_done (c : Ctx) (P0 : Nat) (M0 : Int) (hP : 1 ≤ P0) (hM : 0 ≤ M0)
    (fuel : Nat) :
    ∀ u : FState, Inflation P0 M0 u → 2048 * M0 - u.stage_cur ≤ (fuel : Int) →
      LoopDone (havoc_loop c fuel u) := by
  induction fuel with
  | zero =>
    intro u h1 h2
    have := Inflation_stage_max_le P0 M0 hM u h1
    show ¬ (u.stage_cur < u.stage_max)
    simp only [Nat.cast_zero] at h2
    omega
  | succ n ih =>
    intro u h1 h2
    unfold havoc_loop
    split_ifs with hlt
    · have hi := havoc_iter_inflation c P0 M0 hP u h1
      have hc := havoc_iter_stage_cur c u
      cases hit : havoc_iter c u with
      | next t =>
        rw [hit] at hi hc
        simp only [Ctl.bind]
        refine ih { t with stage_cur := t.stage_cur + 1 } hi ?_
        show 2048 * M0 - (t.stage_cur + 1) ≤ (n : Int)
        have e : t.stage_cur = u.stage_cur := hc
        push_cast at h2
        omega
      | abandon t => exact trivial
    · exact hlt

/-- Once the havoc loop has run to its end, allowing more rounds changes nothing. -/
theorem havoc_loop_stable (c : Ctx) (fuel : Nat) :
    ∀ u : FState, LoopDone (havoc_loop c fuel u) →
      ∀ k, havoc_loop c (fuel + k) u = havoc_loop c fuel u := by
  induction fuel with
  | zero =>
    intro u h k
    have h0 : ¬ (u.stage_cur < u.stage_max) := h
    cases k with
    | zero => rfl
    | succ k =>
      rw [Nat.zero_add]
      show havoc_loop c (k + 1) u = Ctl.next u
      unfold havoc_loop
      rw [if_neg h0]
  | succ n ih =>
    intro u h k
    have e : n + 1 + k = (n + k) + 1 := by omega
    rw [e]
    unfold havoc_loop at h ⊢
    split_ifs at h ⊢ with hlt
    · cases hit : havoc_iter c u with
      | next t =>
        rw [hit] at h
        simp only [Ctl.bind] at h ⊢
        exact ih _ h k
      | abandon t => rfl
    · rfl

/-- The clamp `if (stage_max < HAVOC_MIN) stage_max = HAVOC_MIN` leaves a budget
of at least `HAVOC_MIN` and does not touch `perf_score`. -/
theorem havoc_min_clamp (X : FState) :
    (HAVOC_MIN : Int) ≤
      (if X.stage_max < (HAVOC_MIN : Int) then { X with stage_max := (HAVOC_MIN : Int) }
        else X).stage_max ∧
    (if X.stage_max < (HAVOC_MIN : Int) then { X with stage_max := (HAVOC_MIN : Int) }
        else X).perf_score = X.perf_score := by
  split_ifs with h
  · exact ⟨le_refl _, rfl⟩
  · exact ⟨not_lt.mp h, rfl⟩

/-- The havoc stage is its loop, entered with `stage_cur = 0`, a budget of at
least `HAVOC_MIN` and the `perf_score` of the seed (`orig_perf` when
splicing), followed by the accounting. -/
theorem havoc_stage_entry (c : Ctx) (s : FState) :
    ∃ u : FState,
      u.perf_score = (if s.splice_cycle = 0 then s.perf_score else s.orig_perf) ∧
      u.stage_cur = 0 ∧ (HAVOC_MIN : Int) ≤ u.stage_max ∧
      ∀ fuel, havoc_stage c fuel s =
        (havoc_loop c fuel u).bind (fun t => Ctl.next
          (account (if t.splice_cycle = 0 then StageId.HAVOC else StageId.SPLICE)
            t.stage_max t)) := by
  refine ⟨?u, ?_, ?_, ?_, fun fuel => ?h⟩
  case h =>
    unfold havoc_stage
    exact rfl
  · refine (havoc_min_clamp _).2.trans ?_
    split_ifs <;> rfl
  · rfl
  · exact (havoc_min_clamp _).1

/-- C36 (bounded havoc inflation): let the havoc stage (or a splice-havoc
stage) start with `perf_score = P0 >= 1`. The stage is its loop entered in a
state `u` with `perf_score = P0`, `stage_cur = 0` and a budget
`stage_max >= HAVOC_MIN`; whatever the harness answers, after any number of
rounds `perf_score` and `stage_max` have been doubled `d <= 11` times,
`perf_score <= max(P0, 3200)`, `stage_max * P0 = stage_max0 * perf_score` and
at most `2^11 * stage_max0` rounds have been made; and with `2^11 * stage_max0`
rounds allowed the loop has run to its end, so that allowing more rounds
changes nothing. -/
theorem havoc_inflation_bounded (c : Ctx) (s : FState)
    (hP : 1 ≤ (if s.splice_cycle = 0 then s.perf_score else s.orig_perf)) :
    ∃ u : FState,
      (∀ fuel, havoc_stage c fuel s =
        (havoc_loop c fuel u).bind (fun t => Ctl.next
          (account (if t.splice_cycle = 0 then StageId.HAVOC else StageId.SPLICE)
            t.stage_max t))) ∧
      u.perf_score = (if s.splice_cycle = 0 then s.perf_score else s.orig_perf) ∧
      u.stage_cur = 0 ∧ (HAVOC_MIN : Int) ≤ u.stage_max ∧
      (∀ fuel, ∃ d : Nat, d ≤ 11 ∧
        (havoc_loop c fuel u).state.perf_score = u.perf_score * 2 ^ d ∧
        (havoc_loop c fuel u).state.stage_max = u.stage_max * (2 : Int) ^ d ∧
        (havoc_loop c fuel u).state.perf_score ≤ max u.perf_score 3200 ∧
        (havoc_loop c fuel u).state.stage_max * (u.perf_score : Int) =
          u.stage_max * ((havoc_loop c fuel u).state.perf_score : Int) ∧
        (havoc_loop c fuel u).state.stage_cur ≤ 2048 * u.stage_max) ∧
      LoopDone (havoc_loop c (2048 * u.stage_max).toNat u) ∧
      ∀ k, havoc_loop c ((2048 * u.stage_max).toNat + k) u =
        havoc_loop c (2048 * u.stage_max).toNat u := by
  obtain ⟨u, h1, h2, h3, h4⟩ := havoc_stage_entry c s
  have hP2 : 1 ≤ u.perf_score := by rw [h1]; exact hP
  have hM : (0 : Int) ≤ u.stage_max := le_trans (by decide) h3
  have h0 : Inflation u.perf_score u.stage_max u := ⟨0, by omega, by simp, by simp, Or.inl rfl⟩
  have hdone : LoopDone (havoc_loop c (2048 * u.stage_max).toNat u) :=
    havoc_loop_done c u.perf_score u.stage_max hP2 hM _ u h0 (by
      rw [h2, Int.toNat_of_nonneg (by omega)]; omega)
  refine ⟨u, h4, h1, h2, h3, fun fuel => ?_, hdone, havoc_loop_stable c _ u hdone⟩
  obtain ⟨⟨d, hd, e1, e2, e3⟩, hc⟩ :=
    havoc_loop_inflation c u.perf_score u.stage_max hP2 hM fuel u h0 (by rw [h2]; omega)
  refine ⟨d, hd, e1, e2, ?_, ?_, hc⟩
  · rcases e3 with e3 | e3
    · subst e3
      rw [e1]
      simp
    · exact le_trans e3 (le_max_right _ _)
  · rw [e1, e2]
    push_cast
    ring

/-- The claim C36 on the seed `01 02 03` with `perf_score = 100`: the loop is
entered with `stage_cur = 0` and has run to its end within `2^11 * stage_max`
rounds. -/
theorem havoc_inflation_bounded_witness :
    (1 ≤ (if (init_state [1, 2, 3]).splice_cycle = 0 then (init_state [1, 2, 3]).perf_score
      else (init_state [1, 2, 3]).orig_perf)) ∧
    ∃ u : FState, u.perf_score = 100 ∧ u.stage_cur = 0 ∧
      (∀ fuel, (havoc_loop (quiet_ctx [] []) fuel u).state.perf_score ≤ 3200) ∧
      LoopDone (havoc_loop (quiet_ctx [] []) (2048 * u.stage_max).toNat u) :=
  ⟨by decide,
   (havoc_inflation_bounded (quiet_ctx [] []) (init_state [1, 2, 3]) (by decide)).imp
     (fun u h => ⟨h.2.1, h.2.2.1,
       fun fuel => (h.2.2.2.2.1 fuel).elim (fun _ hd => by
         have h5 := hd.2.2.2.1
         rw [h.2.1] at h5
         exact h5),
       h.2.2.2.2.2.1⟩)⟩

/-! ## Havoc never works on an empty buffer -/

/-- A `memcpy` into a buffer never makes the list shorter. -/
theorem write_at_length_ge (dst : List Nat) (off : Nat) (src : List Nat) :
    dst.length ≤ (write_at dst off src).length := by
  unfold write_at
  simp only [List.length_append, List.length_take, List.length_drop]
  omega

/-- A 16-bit store keeps the length of the buffer. -/
theorem wr16_length (B : List Nat) (i v : Nat) : (wr16 B i v).length = B.length := by
  unfold wr16; simp

/-- A 32-bit store keeps the length of the buffer. -/
theorem wr32_length (B : List Nat) (i v : Nat) : (wr32 B i v).length = B.length := by
  unfold wr32; simp

/-- A state with the same working length and a buffer at least as large. -/
theorem HavocLive_of (s t : FState) (h : HavocLive s) (h1 : t.temp_len = s.temp_len)
    (h2 : s.out_buf.length ≤ t.out_buf.length) : HavocLive t :=
  ⟨by rw [h1]; exact h.1, by rw [h1]; exact h.2.1, by rw [h1]; exact le_trans h.2.2 h2⟩

/-- A drawn token is at most `MAX_DICT_FILE` bytes long when the tokens of both
dictionaries are. -/
theorem getD_tok_short (c : Ctx) (hd : ∀ tok ∈ c.extras ++ c.a_extras, tok.length ≤ MAX_DICT_FILE)
    (d : List (List Nat)) (h : d = c.a_extras ∨ d = c.extras) (k : Nat) :
    (d.getD k []).length ≤ MAX_DICT_FILE := by
  by_cases hk : k < d.length
  · rw [List.getD_eq_getElem _ _ hk]
    apply hd
    rcases h with h | h <;> subst h
    · exact List.mem_append_right _ (List.getElem_mem hk)
    · exact List.mem_append_left _ (List.getElem_mem hk)
  · rw [List.getD_eq_default _ _ (Nat.le_of_not_lt hk)]
    simp

/-- The draw of the dictionary test does not touch the buffer. -/
theorem use_auto_tick_out_buf (c : Ctx) (s : FState) :
    (use_auto_tick c s).out_buf = s.out_buf := by
  unfold use_auto_tick
  split_ifs <;> rfl

/-- The deletion of cases 11 and 12 on a buffer of at least two bytes: the
block has between 1 and `temp_len - 1` bytes, lies inside the buffer, and is
what `temp_len` loses. -/
theorem havoc_case11_delete (c : Ctx)
    (hc : ∀ k limit, 1 ≤ limit →
      1 ≤ c.choose_block_len k limit ∧ c.choose_block_len k limit ≤ limit)
    (s : FState) (h2 : 2 ≤ s.temp_len) :
    1 ≤ c.choose_block_len s.rnd (s.temp_len - 1) ∧
    c.choose_block_len s.rnd (s.temp_len - 1) ≤ s.temp_len - 1 ∧
    UR_val c (tick s) (s.temp_len - c.choose_block_len s.rnd (s.temp_len - 1) + 1) +
      c.choose_block_len s.rnd (s.temp_len - 1) ≤ s.temp_len ∧
    (havoc_case11 c s).temp_len = s.temp_len - c.choose_block_len s.rnd (s.temp_len - 1) := by
  have hb := hc s.rnd (s.temp_len - 1) (by omega)
  have hu : UR_val c (tick s) (s.temp_len - c.choose_block_len s.rnd (s.temp_len - 1) + 1) <
      s.temp_len - c.choose_block_len s.rnd (s.temp_len - 1) + 1 := by
    unfold UR_val
    exact Nat.mod_lt _ (by omega)
  refine ⟨hb.1, hb.2, by omega, ?_⟩
  unfold havoc_case11
  simp only
  rw [if_neg (by omega)]

/-- Cases 11 and 12 keep the working buffer non-empty. -/
theorem havoc_case11_live (c : Ctx)
    (hc : ∀ k limit, 1 ≤ limit →
      1 ≤ c.choose_block_len k limit ∧ c.choose_block_len k limit ≤ limit)
    (s : FState) (h : HavocLive s) : HavocLive (havoc_case11 c s) := by
  by_cases h2 : s.temp_len < 2
  · unfold havoc_case11
    simp only
    rw [if_pos h2]
    exact h
  · obtain ⟨d1, d2, _, d4⟩ := havoc_case11_delete c hc s (by omega)
    refine ⟨by rw [d4]; omega, by rw [d4]; have := h.2.1; omega, ?_⟩
    rw [d4]
    unfold havoc_case11
    simp only
    rw [if_neg h2]
    exact le_trans (le_trans (Nat.sub_le _ _) h.2.2) (write_at_length_ge _ _ _)

/-- Case 13 keeps the working buffer non-empty. -/
theorem havoc_case13_live (c : Ctx)
    (hc : ∀ k limit, 1 ≤ limit →
      1 ≤ c.choose_block_len k limit ∧ c.choose_block_len k limit ≤ limit)
    (s : FState) (h : HavocLive s) : HavocLive (havoc_case13 c s) := by
  unfold havoc_case13
  simp only
  split_ifs with h2 h3
  · have hb := hc (tick s).rnd s.temp_len h.1
    refine ⟨?_, ?_, ?_⟩
    · simp only; have := h.1; omega
    · simp only
      unfold HAVOC_BLK_XL MAX_FILE at h2
      omega
    · simp only
      exact le_trans (le_trans (le_trans (by simp) (write_at_length_ge _ _ _))
        (write_at_length_ge _ _ _)) (write_at_length_ge _ _ _)
  · have hb := hc (tick s).rnd HAVOC_BLK_XL (by decide)
    refine ⟨?_, ?_, ?_⟩
    · simp only; have := h.1; omega
    · simp only [HAVOC_BLK_XL, MAX_FILE] at h2 hb ⊢
      omega
    · simp only
      exact le_trans (le_trans (le_trans (by simp) (write_at_length_ge _ _ _))
        (write_at_length_ge _ _ _)) (write_at_length_ge _ _ _)
  · exact h

/-- Case 14 keeps the working buffer non-empty. -/
theorem havoc_case14_live (c : Ctx) (s : FState) (h : HavocLive s) :
    HavocLive (havoc_case14 c s) := by
  unfold havoc_case14
  simp only
  by_cases h1 : s.temp_len < 2
  · rw [if_pos h1]; exact h
  · rw [if_neg h1]
    split_ifs
    · exact HavocLive_of s _ h rfl (write_at_length_ge _ _ _)
    · exact HavocLive_of s _ h rfl (le_refl _)
    · exact HavocLive_of s _ h rfl (write_at_length_ge _ _ _)

/-- Case 15 keeps the working buffer non-empty. -/
theorem havoc_case15_live (c : Ctx) (s : FState) (h : HavocLive s) :
    HavocLive (havoc_case15 c s) := by
  obtain ⟨u1, _, _⟩ := use_auto_tick_frame c s
  have u4 := use_auto_tick_out_buf c s
  unfold havoc_case15
  simp only
  generalize use_auto_tick c s = s1 at u1 u4 ⊢
  generalize (if use_auto c s then c.a_extras else c.extras) = D
  split_ifs
  · exact HavocLive_of s _ h u1 (by show _ ≤ s1.out_buf.length; rw [u4])
  · exact HavocLive_of s _ h u1 (write_at_length_ge _ _ _)

/-- Case 16 keeps the working buffer non-empty. -/
theorem havoc_case16_live (c : Ctx)
    (hd : ∀ tok ∈ c.extras ++ c.a_extras, tok.length ≤ MAX_DICT_FILE)
    (s : FState) (h : HavocLive s) : HavocLive (havoc_case16 c s) := by
  obtain ⟨u1, _, _⟩ := use_auto_tick_frame c (tick s)
  have u4 := use_auto_tick_out_buf c (tick s)
  have hDm : (if use_auto c (tick s) then c.a_extras else c.extras) = c.a_extras ∨
      (if use_auto c (tick s) then c.a_extras else c.extras) = c.extras := by
    split_ifs
    · exact Or.inl rfl
    · exact Or.inr rfl
  have htok := getD_tok_short c hd _ hDm (UR_val c (use_auto_tick c (tick s))
    (if use_auto c (tick s) then c.a_extras else c.extras).length)
  unfold havoc_case16
  simp only
  generalize ((if use_auto c (tick s) then c.a_extras else c.extras).getD
    (UR_val c (use_auto_tick c (tick s))
      (if use_auto c (tick s) then c.a_extras else c.extras).length) []) = tok at htok ⊢
  obtain ⟨h1, h3, h4⟩ := h
  unfold MAX_DICT_FILE at htok
  have ea : add32 s.temp_len tok.length = s.temp_len + tok.length := by
    unfold add32 U32
    exact Nat.mod_eq_of_lt (by omega)
  by_cases h2 : add32 s.temp_len tok.length ≥ MAX_FILE
  · rw [if_pos h2]
    exact HavocLive_of s _ ⟨h1, h3, h4⟩ u1 (by
      show s.out_buf.length ≤ (use_auto_tick c (tick s)).out_buf.length
      rw [u4]; exact le_refl _)
  · rw [if_neg h2]
    rw [ea] at h2 ⊢
    unfold MAX_FILE at h2
    refine ⟨?_, ?_, ?_⟩
    · show 1 ≤ s.temp_len + tok.length
      omega
    · show s.temp_len + tok.length < 2147483648
      omega
    · show s.temp_len + tok.length ≤ _
      exact le_trans (le_trans (le_trans (by simp) (write_at_length_ge _ _ _))
        (write_at_length_ge _ _ _)) (write_at_length_ge _ _ _)

/-- One stacked mutation keeps the working buffer non-empty. -/
theorem havoc_op_live (c : Ctx)
    (hc : ∀ k limit, 1 ≤ limit →
      1 ≤ c.choose_block_len k limit ∧ c.choose_block_len k limit ≤ limit)
    (hd : ∀ tok ∈ c.extras ++ c.a_extras, tok.length ≤ MAX_DICT_FILE)
    (s : FState) (h : HavocLive s) : HavocLive (havoc_op c s) := by
  have ht : HavocLive (tick s) := h
  unfold havoc_op
  simp only
  split
  · exact HavocLive_of s _ h rfl (by
      show _ ≤ (FLIP_BIT _ _).length
      rw [FLIP_BIT_length]; exact le_refl _)
  · exact HavocLive_of s _ h rfl (by
      show _ ≤ (List.set _ _ _).length
      rw [List.length_set]; exact le_refl _)
  · unfold havoc_case2
    split_ifs
    · exact ht
    · exact HavocLive_of s _ h rfl (by
        show _ ≤ (wr16 _ _ _).length
        rw [wr16_length]; exact le_refl _)
  · unfold havoc_case3
    split_ifs
    · exact ht
    · exact HavocLive_of s _ h rfl (by
        show _ ≤ (wr32 _ _ _).length
        rw [wr32_length]; exact le_refl _)
  · exact HavocLive_of s _ h rfl (by
      show _ ≤ (List.set _ _ _).length
      rw [List.length_set]; exact le_refl _)
  · exact HavocLive_of s _ h rfl (by
      show _ ≤ (List.set _ _ _).length
      rw [List.length_set]; exact le_refl _)
  · unfold havoc_case6
    split_ifs
    · exact ht
    · exact HavocLive_of s _ h rfl (by
        show _ ≤ (wr16 _ _ _).length
        rw [wr16_length]; exact le_refl _)
  · unfold havoc_case7
    split_ifs
    · exact ht
    · exact HavocLive_of s _ h rfl (by
        show _ ≤ (wr16 _ _ _).length
        rw [wr16_length]; exact le_refl _)
  · unfold havoc_case8
    split_ifs
    · exact ht
    · exact HavocLive_of s _ h rfl (by
        show _ ≤ (wr32 _ _ _).length
        rw [wr32_length]; exact le_refl _)
  · unfold havoc_case9
    split_ifs
    · exact ht
    · exact HavocLive_of s _ h rfl (by
        show _ ≤ (wr32 _ _ _).length
        rw [wr32_length]; exact le_refl _)
  · exact HavocLive_of s _ h rfl (by
      show _ ≤ (List.set _ _ _).length
      rw [List.length_set]; exact le_refl _)
  · exact havoc_case11_live c hc (tick s) ht
  · exact havoc_case11_live c hc (tick s) ht
  · exact havoc_case13_live c hc (tick s) ht
  · exact havoc_case14_live c (tick s) ht
  · exact havoc_case15_live c (tick s) ht
  · exact havoc_case16_live c hd (tick s) ht
  · exact ht

/-- Every prefix of the stacked mutations keeps the working buffer non-empty. -/
theorem havoc_stack_live (c : Ctx)
    (hc : ∀ k limit, 1 ≤ limit →
      1 ≤ c.choose_block_len k limit ∧ c.choose_block_len k limit ≤ limit)
    (hd : ∀ tok ∈ c.extras ++ c.a_extras, tok.length ≤ MAX_DICT_FILE) (n : Nat) :
    ∀ s, HavocLive s → HavocLive (havoc_stack c n s) := by
  induction n with
  | zero => intro s h; exact h
  | succ n ih => intro s h; exact ih (havoc_op c s) (havoc_op_live c hc hd s h)

/-- A draw does not touch `len`. -/
theorem tick_len (t : FState) : (tick t).len = t.len := rfl

/-- Case 13 leaves `len` alone. -/
theorem havoc_case13_len (c : Ctx) (s : FState) : (havoc_case13 c s).len = s.len := by
  unfold havoc_case13
  simp only [apply_ite FState.len, tick_len, ite_self]

/-- Case 14 leaves `len` alone. -/
theorem havoc_case14_len (c : Ctx) (s : FState) : (havoc_case14 c s).len = s.len := by
  unfold havoc_case14
  simp only [apply_ite FState.len, tick_len, ite_self]

/-- Case 15 leaves `len` alone. -/
theorem havoc_case15_len (c : Ctx) (s : FState) : (havoc_case15 c s).len = s.len := by
  unfold havoc_case15 use_auto_tick
  simp only [apply_ite FState.len, tick_len, ite_self]

/-- Case 16 leaves `len` alone. -/
theorem havoc_case16_len (c : Ctx) (s : FState) : (havoc_case16 c s).len = s.len := by
  unfold havoc_case16 use_auto_tick
  simp only [apply_ite FState.len, tick_len, ite_self]

/-- One stacked mutation leaves `len` alone. -/
theorem havoc_op_len (c : Ctx) (s : FState) : (havoc_op c s).len = s.len := by
  unfold havoc_op
  simp only
  split
  · rfl
  · rfl
  · unfold havoc_case2; split_ifs <;> rfl
  · unfold havoc_case3; split_ifs <;> rfl
  · rfl
  · rfl
  · unfold havoc_case6; split_ifs <;> rfl
  · unfold havoc_case7; split_ifs <;> rfl
  · unfold havoc_case8; split_ifs <;> rfl
  · unfold havoc_case9; split_ifs <;> rfl
  · rfl
  · unfold havoc_case11; split_ifs <;> rfl
  · unfold havoc_case11; split_ifs <;> rfl
  · exact havoc_case13_len c (tick s)
  · exact havoc_case14_len c (tick s)
  · exact havoc_case15_len c (tick s)
  · exact havoc_case16_len c (tick s)
  · rfl

/-- The stacked mutations of one round leave `len` alone. -/
theorem havoc_stack_len (c : Ctx) (n : Nat) : ∀ s, (havoc_stack c n s).len = s.len := by
  induction n with
  | zero => intro s; rfl
  | succ n ih => intro s; exact (ih (havoc_op c s)).trans (havoc_op_len c s)

/-- A draw does not touch the record of harness calls. -/
theorem tick_execs (t : FState) : (tick t).execs = t.execs := rfl

/-- Case 13 leaves the record of harness calls alone. -/
theorem havoc_case13_execs (c : Ctx) (s : FState) : (havoc_case13 c s).execs = s.execs := by
  unfold havoc_case13
  simp only [apply_ite FState.execs, tick_execs, ite_self]

/-- Case 14 leaves the record of harness calls alone. -/
theorem havoc_case14_execs (c : Ctx) (s : FState) : (havoc_case14 c s).execs = s.execs := by
  unfold havoc_case14
  simp only [apply_ite FState.execs, tick_execs, ite_self]

/-- Case 15 leaves the record of harness calls alone. -/
theorem havoc_case15_execs (c : Ctx) (s : FState) : (havoc_case15 c s).execs = s.execs := by
  unfold havoc_case15 use_auto_tick
  simp only [apply_ite FState.execs, tick_execs, ite_self]

/-- Case 16 leaves the record of harness calls alone. -/
theorem havoc_case16_execs (c : Ctx) (s : FState) : (havoc_case16 c s).execs = s.execs := by
  unfold havoc_case16 use_auto_tick
  simp only [apply_ite FState.execs, tick_execs, ite_self]

/-- One stacked mutation leaves the record of harness calls alone. -/
theorem havoc_op_execs (c : Ctx) (s : FState) : (havoc_op c s).execs = s.execs := by
  unfold havoc_op
  simp only
  split
  · rfl
  · rfl
  · unfold havoc_case2; split_ifs <;> rfl
  · unfold havoc_case3; split_ifs <;> rfl
  · rfl
  · rfl
  · unfold havoc_case6; split_ifs <;> rfl
  · unfold havoc_case7; split_ifs <;> rfl
  · unfold havoc_case8; split_ifs <;> rfl
  · unfold havoc_case9; split_ifs <;> rfl
  · rfl
  · unfold havoc_case11; split_ifs <;> rfl
  · unfold havoc_case11; split_ifs <;> rfl
  · exact havoc_case13_execs c (tick s)
  · exact havoc_case14_execs c (tick s)
  · exact havoc_case15_execs c (tick s)
  · exact havoc_case16_execs c (tick s)
  · rfl

/-- The stacked mutations of one round leave the record of harness calls alone. -/
theorem havoc_stack_execs (c : Ctx) (n : Nat) : ∀ s, (havoc_stack c n s).execs = s.execs := by
  induction n with
  | zero => intro s; rfl
  | succ n ih => intro s; exact (ih (havoc_op c s)).trans (havoc_op_execs c s)

/-- The restoration after the harness call leaves a buffer of at least `len`
bytes when the working length was inside the buffer. -/
theorem havoc_restore_room (s : FState) (h : s.temp_len ≤ s.out_buf.length) :
    (havoc_restore s).len ≤ (havoc_restore s).out_buf.length := by
  have hb : s.len ≤ (if s.temp_len < s.len then (s.out_buf ++ List.replicate s.len 0).take s.len
      else s.out_buf).length := by
    split_ifs with h1
    · rw [List.length_take, List.length_append, List.length_replicate]
      omega
    · omega
  have e1 : (havoc_restore s).len = s.len := (havoc_restore_spec s).2.1
  have e2 : (havoc_restore s).out_buf =
      write_at (if s.temp_len < s.len then (s.out_buf ++ List.replicate s.len 0).take s.len
        else s.out_buf) 0 (slice s.in_buf 0 s.len) := by
    unfold havoc_restore
    simp only
    split_ifs <;> rfl
  rw [e1, e2]
  exact le_trans hb (write_at_length_ge _ _ _)

/-- C35 (havoc never works on an empty buffer): let a round of the havoc loop
start with `temp_len = len`, a seed length `len >= 1` (an `s32` value) inside
`out_buf`, a `choose_block_len(limit)` that returns a value in `[1, limit]`
and tokens of at most `MAX_DICT_FILE` bytes. Then after every stacked
mutation `temp_len >= 1`, `temp_len` does not exceed the size of `out_buf`,
and a draw `UR(temp_len)` is a position inside the buffer; the deletion, on a
buffer of at least two bytes, removes between 1 and `temp_len - 1` bytes with
`del_from + del_len <= temp_len`; and a round that is not abandoned hands the
same conditions to the next round. -/
theorem havoc_never_empty (c : Ctx) (s : FState)
    (hc : ∀ k limit, 1 ≤ limit →
      1 ≤ c.choose_block_len k limit ∧ c.choose_block_len k limit ≤ limit)
    (hd : ∀ tok ∈ c.extras ++ c.a_extras, tok.length ≤ MAX_DICT_FILE)
    (ht : s.temp_len = s.len) (hL : 1 ≤ s.len) (hU : s.len < 2147483648)
    (hB : s.len ≤ s.out_buf.length) :
    (∀ n, 1 ≤ (havoc_stack c n s).temp_len ∧
      (havoc_stack c n s).temp_len ≤ (havoc_stack c n s).out_buf.length ∧
      UR_val c (havoc_stack c n s) (havoc_stack c n s).temp_len <
        (havoc_stack c n s).temp_len) ∧
    (∀ t : FState, 2 ≤ t.temp_len →
      1 ≤ c.choose_block_len t.rnd (t.temp_len - 1) ∧
      c.choose_block_len t.rnd (t.temp_len - 1) ≤ t.temp_len - 1 ∧
      UR_val c (tick t) (t.temp_len - c.choose_block_len t.rnd (t.temp_len - 1) + 1) +
        c.choose_block_len t.rnd (t.temp_len - 1) ≤ t.temp_len ∧
      (havoc_case11 c t).temp_len =
        t.temp_len - c.choose_block_len t.rnd (t.temp_len - 1)) ∧
    (∀ t, havoc_iter c s = Ctl.next t →
      t.temp_len = t.len ∧ 1 ≤ t.len ∧ t.len < 2147483648 ∧ t.len ≤ t.out_buf.length) ∧
    (∀ e ∈ (havoc_iter c s).state.execs.drop s.execs.length, 1 ≤ e.2) := by
  have hs : HavocLive s := ⟨by rw [ht]; exact hL, by rw [ht]; exact hU, by rw [ht]; exact hB⟩
  have hlive := havoc_stack_live c hc hd (1 <<< (1 + UR_val c s HAVOC_STACK_POW2))
    { tick s with stage_cur_val := ((1 <<< (1 + UR_val c s HAVOC_STACK_POW2) : Nat) : Int) } hs
  have hlen := havoc_stack_len c (1 <<< (1 + UR_val c s HAVOC_STACK_POW2))
    { tick s with stage_cur_val := ((1 <<< (1 + UR_val c s HAVOC_STACK_POW2) : Nat) : Int) }
  have hex := (havoc_stack_execs c (1 <<< (1 + UR_val c s HAVOC_STACK_POW2))
    { tick s with stage_cur_val := ((1 <<< (1 + UR_val c s HAVOC_STACK_POW2) : Nat) : Int) })
  refine ⟨fun n => ?_, fun t h2 => havoc_case11_delete c hc t h2, ?_, ?_⟩
  · obtain ⟨a1, _, a3⟩ := havoc_stack_live c hc hd n s hs
    exact ⟨a1, a3, Nat.mod_lt _ (by omega)⟩
  · intro t h
    unfold havoc_iter at h
    simp only at h
    generalize havoc_stack c (1 <<< (1 + UR_val c s HAVOC_STACK_POW2))
      { tick s with stage_cur_val := ((1 <<< (1 + UR_val c s HAVOC_STACK_POW2) : Nat) : Int) }
      = S1 at hlive hlen hex h
    split_ifs at h
    cases h
    obtain ⟨r1, r2, _⟩ := havoc_restore_spec (common_fuzz_stuff c S1 S1.out_buf S1.temp_len).1
    have g : (common_fuzz_stuff c S1 S1.out_buf S1.temp_len).1.len = s.len := hlen
    refine ⟨by rw [r1, r2], by rw [r2, g]; exact hL, by rw [r2, g]; exact hU, ?_⟩
    exact havoc_restore_room _ hlive.2.2
  · intro e he
    unfold havoc_iter at he
    simp only at he
    generalize havoc_stack c (1 <<< (1 + UR_val c s HAVOC_STACK_POW2))
      { tick s with stage_cur_val := ((1 <<< (1 + UR_val c s HAVOC_STACK_POW2) : Nat) : Int) }
      = S1 at hlive hlen hex he
    have hx : S1.execs = s.execs := hex
    have key : (common_fuzz_stuff c S1 S1.out_buf S1.temp_len).1.execs.drop s.execs.length
        = [(S1.out_buf.take S1.temp_len, S1.temp_len)] := by
      show (S1.execs ++ [(S1.out_buf.take S1.temp_len, S1.temp_len)]).drop s.execs.length = _
      rw [hx, List.drop_left]
    split_ifs at he
    · simp only [Ctl.state] at he
      rw [key, List.mem_singleton] at he
      rw [he]
      exact hlive.1
    · simp only [Ctl.state] at he
      rw [(havoc_restore_spec _).2.2, key, List.mem_singleton] at he
      rw [he]
      exact hlive.1

/-- The claim C35 on the seed `01 02 03` with two small dictionaries and a
`choose_block_len` that always returns 1: after three stacked mutations the
working buffer is not empty and a draw `UR(temp_len)` lies inside it. -/
theorem havoc_never_empty_witness :
    (({ init_state [1, 2, 3] with temp_len := 3 } : FState).temp_len =
        ({ init_state [1, 2, 3] with temp_len := 3 } : FState).len ∧
      1 ≤ ({ init_state [1, 2, 3] with temp_len := 3 } : FState).len) ∧
    1 ≤ (havoc_stack (quiet_ctx [[1], [2, 3]] [[3, 4, 5]]) 3
      { init_state [1, 2, 3] with temp_len := 3 }).temp_len ∧
    (havoc_stack (quiet_ctx [[1], [2, 3]] [[3, 4, 5]]) 3
        { init_state [1, 2, 3] with temp_len := 3 }).temp_len ≤
      (havoc_stack (quiet_ctx [[1], [2, 3]] [[3, 4, 5]]) 3
        { init_state [1, 2, 3] with temp_len := 3 }).out_buf.length ∧
    UR_val (quiet_ctx [[1], [2, 3]] [[3, 4, 5]])
        (havoc_stack (quiet_ctx [[1], [2, 3]] [[3, 4, 5]]) 3
          { init_state [1, 2, 3] with temp_len := 3 })
        (havoc_stack (quiet_ctx [[1], [2, 3]] [[3, 4, 5]]) 3
          { init_state [1, 2, 3] with temp_len := 3 }).temp_len <
      (havoc_stack (quiet_ctx [[1], [2, 3]] [[3, 4, 5]]) 3
        { init_state [1, 2, 3] with temp_len := 3 }).temp_len :=
  ⟨⟨rfl, by decide⟩,
   (havoc_never_empty (quiet_ctx [[1], [2, 3]] [[3, 4, 5]])
      { init_state [1, 2, 3] with temp_len := 3 }
      (fun k limit h => ⟨le_refl 1, h⟩) (by decide) rfl (by decide) (by decide)
      (by decide)).1 3⟩

/-! ## Cycle/submission agreement -/

/-- A state update that touches neither the budget, nor `stage_cur`, nor the
record of harness calls, nor `stage_cycles` deals with no candidate. -/
theorem Tally_frame (u v : FState) (h1 : v.stage_max = u.stage_max)
    (h2 : v.stage_cur = u.stage_cur) (h3 : v.execs = u.execs)
    (h4 : v.stage_cycles = u.stage_cycles) : Tally 0 u v :=
  ⟨⟨[], by rw [h3, List.append_nil], by rw [h1]; simp, by rw [h2]; simp⟩, h4⟩

/-- Taking `d` candidates off `stage_max`. -/
theorem Tally_skip (d : Int) (u v : FState) (h1 : v.stage_max = u.stage_max - d)
    (h2 : v.stage_cur = u.stage_cur) (h3 : v.execs = u.execs)
    (h4 : v.stage_cycles = u.stage_cycles) : Tally d u v :=
  ⟨⟨[], by rw [h3, List.append_nil], by rw [h1]; simp, by rw [h2]; simp⟩, h4⟩

/-- Two blocks in sequence. -/
theorem Tally_comp (a b d : Int) (hd : d = a + b) (s t u : FState) (h1 : Tally a s t)
    (h2 : Tally b t u) : Tally d s u := by
  obtain ⟨⟨n1, e1, m1, c1⟩, y1⟩ := h1
  obtain ⟨⟨n2, e2, m2, c2⟩, y2⟩ := h2
  refine ⟨⟨n1 ++ n2, by rw [e2, e1, List.append_assoc], ?_, ?_⟩, y2.trans y1⟩
  · rw [m2, m1, hd, List.length_append]
    push_cast
    ring
  · rw [c2, c1, List.length_append]
    push_cast
    ring

/-- Two blocks in sequence, when the whole is not abandoned. -/
theorem bind_tally (x : Ctl FState) (f : FState → Ctl FState) (s : FState) (a b d : Int)
    (hd : d = a + b) (hx : ∀ t, x = Ctl.next t → Tally a s t)
    (hf : ∀ t u, f t = Ctl.next u → Tally b t u) :
    ∀ u, x.bind f = Ctl.next u → Tally d s u := by
  intro u hu
  cases x with
  | abandon t => cases hu
  | next t => exact Tally_comp a b d hd s t u (hx t rfl) (hf t u hu)

/-- A harness call that goes through, followed by a state update that
increments `stage_cur` and touches neither `stage_max`, nor the record, nor
`stage_cycles`, deals with one candidate. -/
theorem submit_tally (c : Ctx) (s : FState) (g : FState → FState)
    (hg : ∀ t, (g t).stage_max = t.stage_max ∧ (g t).stage_cur = t.stage_cur + 1 ∧
      (g t).execs = t.execs ∧ (g t).stage_cycles = t.stage_cycles) :
    ∀ v, (submit c s).bind (fun t => Ctl.next (g t)) = Ctl.next v → Tally 1 s v := by
  intro v hv
  rcases submit_cases c s with e | e
  · rw [e] at hv
    cases hv
  · rw [e] at hv
    simp only [Ctl.bind, Ctl.next.injEq] at hv
    obtain ⟨g1, g2, g3, g4⟩ := hg (common_fuzz_stuff c s s.out_buf s.len).1
    rw [← hv]
    refine ⟨⟨[(s.out_buf.take s.len, s.len)], ?_, ?_, ?_⟩, ?_⟩
    · rw [g3]; rfl
    · rw [g1]
      show s.stage_max = s.stage_max - 1 + _
      simp
    · rw [g2]
      show s.stage_cur + 1 = _
      simp
    · rw [g4]; rfl

/-- The block `attempt` deals with one candidate, whether it runs it or takes
it off `stage_max`. -/
theorem attempt_tally (c : Ctx) (cond : Bool) (buf : List Nat) (val : Int) (s : FState) :
    ∀ v, attempt c cond buf val s = Ctl.next v → Tally 1 s v := by
  cases cond
  · rw [attempt, if_neg (by simp)]
    intro v hv
    cases hv
    exact Tally_skip 1 _ _ rfl rfl rfl rfl
  · rw [attempt, if_pos rfl]
    exact submit_tally c { s with stage_cur_val := val, out_buf := buf }
      (fun u => { u with stage_cur := u.stage_cur + 1 }) (fun _ => ⟨rfl, rfl, rfl, rfl⟩)

/-- A loop over a list whose rounds each deal with `d` candidates. -/
theorem for_each_tally {α : Type} (body : α → FState → Ctl FState) (d : Int)
    (h : ∀ x u v, body x u = Ctl.next v → Tally d u v) :
    ∀ (xs : List α) (s t : FState), for_each body xs s = Ctl.next t →
      Tally (d * (xs.length : Int)) s t := by
  intro xs
  induction xs with
  | nil =>
    intro s t ht
    cases ht
    have e : d * (([] : List α).length : Int) = 0 := by simp
    rw [e]
    exact Tally_frame s s rfl rfl rfl rfl
  | cons x xs ih =>
    intro s t ht
    simp only [for_each] at ht
    cases hb : body x s with
    | abandon u =>
      rw [hb] at ht
      cases ht
    | next u =>
      rw [hb] at ht
      exact Tally_comp d (d * (xs.length : Int)) _ (by
        rw [List.length_cons]; push_cast; ring) s u t (h x s u hb) (ih u t ht)

/-- A stage made of a loop of `n` rounds that each deal with `d` candidates,
started with `stage_cur = 0` and `stage_max = d * n`, and of the accounting of
`stage_max`: if it runs to its end, `stage_max`, `stage_cur` and the amount
added to `stage_cycles` all equal the number of harness calls it made. -/
theorem stage_tally (body : Nat → FState → Ctl FState) (d : Int) (n : Nat)
    (hb : ∀ i u v, body i u = Ctl.next v → Tally d u v) (s s0 : FState) (id : StageId)
    (h0 : s0.stage_cur = 0) (h1 : s0.stage_max = d * (n : Int)) (h2 : s0.execs = s.execs)
    (h3 : s0.stage_cycles = s.stage_cycles) (t : FState)
    (ht : (for_loop body 0 n s0).bind (fun u => Ctl.next (account id u.stage_max u))
      = Ctl.next t) :
    ∃ new : List (List Nat × Nat), t.execs = s.execs ++ new ∧
      t.stage_max = (new.length : Int) ∧ t.stage_cur = (new.length : Int) ∧
      t.stage_cycles id = s.stage_cycles id + (new.length : Int) := by
  cases hu : for_loop body 0 n s0 with
  | abandon u =>
    rw [hu] at ht
    cases ht
  | next u =>
    rw [hu] at ht
    simp only [Ctl.bind, Ctl.next.injEq] at ht
    obtain ⟨⟨new, e1, e2, e3⟩, e4⟩ := for_each_tally body d hb (List.range' 0 n) s0 u hu
    rw [List.length_range'] at e2
    have m : u.stage_max = (new.length : Int) := by rw [e2, h1]; ring
    refine ⟨new, ?_, ?_, ?_, ?_⟩
    · rw [← ht]
      show u.execs = _
      rw [e1, h2]
    · rw [← ht]
      exact m
    · rw [← ht]
      show u.stage_cur = _
      rw [e3, h0]; ring
    · rw [← ht]
      simp only [account, if_true]
      rw [e4, h3, m]

/-- Every round of `flip16` and of `flip32` that is not abandoned deals with
one candidate. -/
theorem flip_body_tally (c : Ctx) (i : Nat) (s : FState) :
    (∀ v, flip16_body c i s = Ctl.next v → Tally 1 s v) ∧
    (∀ v, flip32_body c i s = Ctl.next v → Tally 1 s v) := by
  refine ⟨?_, ?_⟩
  · unfold flip16_body
    split_ifs
    · intro v hv
      cases hv
      exact Tally_skip 1 _ _ rfl rfl rfl rfl
    · exact submit_tally c { s with
        stage_cur_byte := i
        out_buf := wr16 s.out_buf i (rd16 s.out_buf i ^^^ 0xFFFF) }
        (fun u => { u with
          stage_cur := u.stage_cur + 1
          out_buf := wr16 u.out_buf i (rd16 u.out_buf i ^^^ 0xFFFF) })
        (fun _ => ⟨rfl, rfl, rfl, rfl⟩)
  · unfold flip32_body
    split_ifs
    · intro v hv
      cases hv
      exact Tally_skip 1 _ _ rfl rfl rfl rfl
    · exact submit_tally c { s with
        stage_cur_byte := i
        out_buf := wr32 s.out_buf i (rd32 s.out_buf i ^^^ 0xFFFFFFFF) }
        (fun u => { u with
          stage_cur := u.stage_cur + 1
          out_buf := wr32 u.out_buf i (rd32 u.out_buf i ^^^ 0xFFFFFFFF) })
        (fun _ => ⟨rfl, rfl, rfl, rfl⟩)

/-- The end of a chain of attempts: a store that restores the buffer. -/
theorem restore_tally (g : FState → FState)
    (hg : ∀ t, (g t).stage_max = t.stage_max ∧ (g t).stage_cur = t.stage_cur ∧
      (g t).execs = t.execs ∧ (g t).stage_cycles = t.stage_cycles) :
    ∀ t u, (Ctl.next (g t) : Ctl FState) = Ctl.next u → Tally 0 t u := by
  intro t u h
  cases h
  exact Tally_frame _ _ (hg t).1 (hg t).2.1 (hg t).2.2.1 (hg t).2.2.2

/-- Every round of the inner loops of the arithmetic stages that is not
abandoned deals with 2 (`arith8`) or 4 candidates. -/
theorem arith_inner_tally (c : Ctx) (i orig j : Nat) (s : FState) :
    (∀ v, arith8_inner c i orig j s = Ctl.next v → Tally 2 s v) ∧
    (∀ v, arith16_inner c i orig j s = Ctl.next v → Tally 4 s v) ∧
    (∀ v, arith32_inner c i orig j s = Ctl.next v → Tally 4 s v) := by
  refine ⟨?_, ?_, ?_⟩
  · unfold arith8_inner
    exact bind_tally _ _ s 1 1 2 (by norm_num) (attempt_tally c _ _ _ s) (fun t =>
      bind_tally _ _ t 1 0 1 (by norm_num) (attempt_tally c _ _ _ t)
        (restore_tally (fun u => { u with out_buf := u.out_buf.set i orig })
          (fun _ => ⟨rfl, rfl, rfl, rfl⟩)))
  · unfold arith16_inner
    simp only
    exact bind_tally _ _ s 1 3 4 (by norm_num) (attempt_tally c _ _ _ s) (fun t =>
      bind_tally _ _ t 1 2 3 (by norm_num) (attempt_tally c _ _ _ t) (fun t =>
      bind_tally _ _ t 1 1 2 (by norm_num) (attempt_tally c _ _ _ t) (fun t =>
      bind_tally _ _ t 1 0 1 (by norm_num) (attempt_tally c _ _ _ t)
        (restore_tally (fun u => { u with out_buf := wr16 u.out_buf i orig })
          (fun _ => ⟨rfl, rfl, rfl, rfl⟩)))))
  · unfold arith32_inner
    simp only
    exact bind_tally _ _ s 1 3 4 (by norm_num) (attempt_tally c _ _ _ s) (fun t =>
      bind_tally _ _ t 1 2 3 (by norm_num) (attempt_tally c _ _ _ t) (fun t =>
      bind_tally _ _ t 1 1 2 (by norm_num) (attempt_tally c _ _ _ t) (fun t =>
      bind_tally _ _ t 1 0 1 (by norm_num) (attempt_tally c _ _ _ t)
        (restore_tally (fun u => { u with out_buf := wr32 u.out_buf i orig })
          (fun _ => ⟨rfl, rfl, rfl, rfl⟩)))))

/-- Every round of the outer loops of the arithmetic stages that is not
abandoned deals with `2 * ARITH_MAX` (`arith8`) or `4 * ARITH_MAX` candidates. -/
theorem arith_body_tally (c : Ctx) (i : Nat) (s : FState) :
    (∀ v, arith8_body c i s = Ctl.next v → Tally (2 * (ARITH_MAX : Int)) s v) ∧
    (∀ v, arith16_body c i s = Ctl.next v → Tally (4 * (ARITH_MAX : Int)) s v) ∧
    (∀ v, arith32_body c i s = Ctl.next v → Tally (4 * (ARITH_MAX : Int)) s v) := by
  have hlen : ((List.range' 1 ARITH_MAX).length : Int) = (ARITH_MAX : Int) := by
    rw [List.length_range']
  refine ⟨?_, ?_, ?_⟩
  · unfold arith8_body for_loop
    simp only
    split_ifs
    · intro v hv
      cases hv
      exact Tally_skip _ _ _ rfl rfl rfl rfl
    · intro v hv
      have h := for_each_tally (arith8_inner c i (s.out_buf.getD i 0)) 2
        (fun j u => (arith_inner_tally c i _ j u).1) (List.range' 1 ARITH_MAX)
        { s with stage_cur_byte := i } v hv
      rw [hlen] at h
      exact h
  · unfold arith16_body for_loop
    simp only
    split_ifs
    · intro v hv
      cases hv
      exact Tally_skip _ _ _ rfl rfl rfl rfl
    · intro v hv
      have h := for_each_tally (arith16_inner c i (rd16 s.out_buf i)) 4
        (fun j u => (arith_inner_tally c i _ j u).2.1) (List.range' 1 ARITH_MAX)
        { s with stage_cur_byte := i } v hv
      rw [hlen] at h
      exact h
  · unfold arith32_body for_loop
    simp only
    split_ifs
    · intro v hv
      cases hv
      exact Tally_skip _ _ _ rfl rfl rfl rfl
    · intro v hv
      have h := for_each_tally (arith32_inner c i (rd32 s.out_buf i)) 4
        (fun j u => (arith_inner_tally c i _ j u).2.2) (List.range' 1 ARITH_MAX)
        { s with stage_cur_byte := i } v hv
      rw [hlen] at h
      exact h

/-- Every round of the inner loops of the interesting-value stages that is not
abandoned deals with 1 (`int8`) or 2 candidates. -/
theorem interest_inner_tally (c : Ctx) (i orig : Nat) (w : Int) (s : FState) :
    (∀ v, interest8_inner c i orig w s = Ctl.next v → Tally 1 s v) ∧
    (∀ v, interest16_inner c i orig w s = Ctl.next v → Tally 2 s v) ∧
    (∀ v, interest32_inner c i orig w s = Ctl.next v → Tally 2 s v) := by
  refine ⟨?_, ?_, ?_⟩
  · unfold interest8_inner
    split_ifs
    · intro v hv
      cases hv
      exact Tally_skip 1 _ _ rfl rfl rfl rfl
    · exact submit_tally c { s with stage_cur_val := w, out_buf := s.out_buf.set i (toU8 w) }
        (fun u => { u with out_buf := u.out_buf.set i orig, stage_cur := u.stage_cur + 1 })
        (fun _ => ⟨rfl, rfl, rfl, rfl⟩)
  · unfold interest16_inner
    exact bind_tally _ _ { s with stage_cur_val := w } 1 1 2 (by norm_num)
      (attempt_tally c _ _ _ { s with stage_cur_val := w })
      (fun t => attempt_tally c _ _ _ t)
  · unfold interest32_inner
    exact bind_tally _ _ { s with stage_cur_val := w } 1 1 2 (by norm_num)
      (attempt_tally c _ _ _ { s with stage_cur_val := w })
      (fun t => attempt_tally c _ _ _ t)

/-- Every round of the outer loops of the interesting-value stages that is not
abandoned deals with as many candidates as the table has entries (`int8`) or
twice as many. -/
theorem interest_body_tally (c : Ctx) (i : Nat) (s : FState) :
    (∀ v, interest8_body c i s = Ctl.next v →
      Tally (c.T.interesting_8.length : Int) s v) ∧
    (∀ v, interest16_body c i s = Ctl.next v →
      Tally (2 * (c.T.interesting_16.length : Int)) s v) ∧
    (∀ v, interest32_body c i s = Ctl.next v →
      Tally (2 * (c.T.interesting_32.length : Int)) s v) := by
  refine ⟨?_, ?_, ?_⟩
  · unfold interest8_body
    simp only
    split_ifs
    · intro v hv
      cases hv
      exact Tally_skip _ _ _ rfl rfl rfl rfl
    · intro v hv
      have h := for_each_tally (interest8_inner c i (s.out_buf.getD i 0)) 1
        (fun w u => (interest_inner_tally c i _ w u).1) c.T.interesting_8
        { s with stage_cur_byte := i } v hv
      rw [one_mul] at h
      exact h
  · unfold interest16_body
    simp only
    split_ifs
    · intro v hv
      cases hv
      exact Tally_skip _ _ _ rfl rfl rfl rfl
    · exact bind_tally _ _ s _ 0 _ (by rw [add_zero])
        (for_each_tally (interest16_inner c i (rd16 s.out_buf i)) 2
          (fun w u => (interest_inner_tally c i _ w u).2.1) c.T.interesting_16
          { s with stage_cur_byte := i })
        (restore_tally (fun u => { u with out_buf := wr16 u.out_buf i (rd16 s.out_buf i) })
          (fun _ => ⟨rfl, rfl, rfl, rfl⟩))
  · unfold interest32_body
    simp only
    split_ifs
    · intro v hv
      cases hv
      exact Tally_skip _ _ _ rfl rfl rfl rfl
    · exact bind_tally _ _ s _ 0 _ (by rw [add_zero])
        (for_each_tally (interest32_inner c i (rd32 s.out_buf i)) 2
          (fun w u => (interest_inner_tally c i _ w u).2.2) c.T.interesting_32
          { s with stage_cur_byte := i })
        (restore_tally (fun u => { u with out_buf := wr32 u.out_buf i (rd32 s.out_buf i) })
          (fun _ => ⟨rfl, rfl, rfl, rfl⟩))

/-- The store and the harness call of the overwrite stages deal with one
candidate. -/
theorem extras_write_tally (c : Ctx) (i : Nat) (tok : List Nat) (s : FState) :
    ∀ v, extras_write c i tok s = Ctl.next v → Tally 1 s v := by
  unfold extras_write
  exact submit_tally c { s with last_len := tok.length, out_buf := write_at s.out_buf i tok }
    (fun u => { u with stage_cur := u.stage_cur + 1 }) (fun _ => ⟨rfl, rfl, rfl, rfl⟩)

/-- Every round of the inner loops of the dictionary stages that is not
abandoned deals with one candidate. -/
theorem ext_inner_tally (c : Ctx) (i : Nat) (tok : List Nat) (s : FState) :
    (∀ v, ext_UO_inner c i tok s = Ctl.next v → Tally 1 s v) ∧
    (∀ v, ext_UI_inner c i tok s = Ctl.next v → Tally 1 s v) ∧
    (∀ v, ext_AO_inner c i tok s = Ctl.next v → Tally 1 s v) := by
  refine ⟨?_, ?_, ?_⟩
  · unfold ext_UO_inner
    simp only
    obtain ⟨s1, hs1, f1, f2, f3, f4⟩ : ∃ s1 : FState,
        (if decide (c.extras.length > MAX_DET_EXTRAS) = true then tick s else s) = s1 ∧
        s1.stage_max = s.stage_max ∧ s1.stage_cur = s.stage_cur ∧ s1.execs = s.execs ∧
        s1.stage_cycles = s.stage_cycles := by
      refine ⟨_, rfl, ?_⟩
      split_ifs <;> exact ⟨rfl, rfl, rfl, rfl⟩
    rw [hs1]
    have h0 : Tally 0 s s1 := Tally_frame s s1 f1 f2 f3 f4
    intro v hv
    split_ifs at hv
    · cases hv
      exact Tally_comp 0 1 1 (by norm_num) s s1 _ h0 (Tally_skip 1 _ _ rfl rfl rfl rfl)
    · exact Tally_comp 0 1 1 (by norm_num) s s1 _ h0 (extras_write_tally c i tok s1 v hv)
  · unfold ext_UI_inner
    simp only
    intro v hv
    split_ifs at hv with h1 h2
    · cases hv
      exact Tally_skip 1 _ _ rfl rfl rfl rfl
    · cases hv
      refine ⟨⟨[_], rfl, ?_, ?_⟩, rfl⟩
      · show s.stage_max = s.stage_max - 1 + _
        simp
      · show s.stage_cur + 1 = _
        simp
  · unfold ext_AO_inner
    split_ifs
    · intro v hv
      cases hv
      exact Tally_skip 1 _ _ rfl rfl rfl rfl
    · exact extras_write_tally c i tok s

/-- Every round of the outer loops of the dictionary stages that is not
abandoned deals with as many candidates as there are tokens. -/
theorem ext_body_tally (c : Ctx) (i : Nat) (s : FState) :
    (∀ v, ext_UO_body c i s = Ctl.next v → Tally (c.extras.length : Int) s v) ∧
    (∀ v, ext_UI_body c i s = Ctl.next v → Tally (c.extras.length : Int) s v) ∧
    (∀ v, ext_AO_body c i s = Ctl.next v → Tally ((auto_tokens c).length : Int) s v) := by
  refine ⟨?_, ?_, ?_⟩
  · unfold ext_UO_body
    exact bind_tally _ _ s (c.extras.length : Int) 0 _ (by rw [add_zero])
      (fun t ht => by
        have h := for_each_tally (ext_UO_inner c i) 1
          (fun tok u => (ext_inner_tally c i tok u).1) c.extras
          { s with last_len := 0, stage_cur_byte := i } t ht
        rw [one_mul] at h
        exact h)
      (restore_tally
        (fun u => { u with out_buf := write_at u.out_buf i (slice u.in_buf i u.last_len) })
        (fun _ => ⟨rfl, rfl, rfl, rfl⟩))
  · unfold ext_UI_body
    exact bind_tally _ _ s (c.extras.length : Int) 0 _ (by rw [add_zero])
      (fun t ht => by
        have h := for_each_tally (ext_UI_inner c i) 1
          (fun tok u => (ext_inner_tally c i tok u).2.1) c.extras
          { s with stage_cur_byte := i } t ht
        rw [one_mul] at h
        exact h)
      (restore_tally
        (fun u => { u with ex_tmp := u.ex_tmp.set i (u.out_buf.getD i 0) })
        (fun _ => ⟨rfl, rfl, rfl, rfl⟩))
  · unfold ext_AO_body
    exact bind_tally _ _ s ((auto_tokens c).length : Int) 0 _ (by rw [add_zero])
      (fun t ht => by
        have h := for_each_tally (ext_AO_inner c i) 1
          (fun tok u => (ext_inner_tally c i tok u).2.2) (auto_tokens c)
          { s with last_len := 0, stage_cur_byte := i } t ht
        rw [one_mul] at h
        exact h)
      (restore_tally
        (fun u => { u with out_buf := write_at u.out_buf i (slice u.in_buf i u.last_len) })
        (fun _ => ⟨rfl, rfl, rfl, rfl⟩))

/-- C33 (cycle/submission agreement): for each of `flip16`, `flip32`,
`arith8`, `arith16`, `arith32`, `int8`, `int16`, `int32`, `ext_UO`, `ext_UI`
and `ext_AO`, every environment (harness, effector map, tables, dictionaries)
and every state: if the stage is entered and runs to its end, then it has only
appended harness calls to the record, and the final `stage_max`, the final
`stage_cur` and the amount added to the stage's entry of `stage_cycles` all
equal the number of these calls. -/
theorem cycle_submission_agreement (k : CountedStage) (c : Ctx) (s t : FState)
    (he : k.entered c s = true) (ht : k.run c s = Ctl.next t) :
    ∃ new : List (List Nat × Nat), t.execs = s.execs ++ new ∧
      t.stage_max = (new.length : Int) ∧ t.stage_cur = (new.length : Int) ∧
      t.stage_cycles k.id = s.stage_cycles k.id + (new.length : Int) := by
  cases k with
  | flip16 =>
    have hg : ¬ s.len < 2 := of_decide_eq_true he
    have ht2 : flip16_stage c s = Ctl.next t := ht
    unfold flip16_stage at ht2
    rw [if_neg hg] at ht2
    refine stage_tally (flip16_body c) 1 _ (fun i u => (flip_body_tally c i u).1) s _
      StageId.FLIP16 ?_ ?_ ?_ ?_ t ht2
    · rfl
    rotate_left
    · rfl
    · rfl
    show (s.len : Int) - 1 = 1 * ((s.len - 1 : Nat) : Int)
    omega
  | flip32 =>
    have hg : ¬ s.len < 4 := of_decide_eq_true he
    have ht2 : flip32_stage c s = Ctl.next t := ht
    unfold flip32_stage at ht2
    rw [if_neg hg] at ht2
    refine stage_tally (flip32_body c) 1 _ (fun i u => (flip_body_tally c i u).2) s _
      StageId.FLIP32 ?_ ?_ ?_ ?_ t ht2
    · rfl
    rotate_left
    · rfl
    · rfl
    show (s.len : Int) - 3 = 1 * ((s.len - 3 : Nat) : Int)
    omega
  | arith8 =>
    have ht2 : arith8_stage c s = Ctl.next t := ht
    unfold arith8_stage at ht2
    refine stage_tally (arith8_body c) (2 * (ARITH_MAX : Int)) _
      (fun i u => (arith_body_tally c i u).1) s _ StageId.ARITH8 ?_ ?_ ?_ ?_ t ht2
    · rfl
    rotate_left
    · rfl
    · rfl
    show 2 * (s.len : Int) * (ARITH_MAX : Int) = 2 * (ARITH_MAX : Int) * (s.len : Int)
    ring
  | arith16 =>
    have hg : ¬ s.len < 2 := of_decide_eq_true he
    have ht2 : arith16_stage c s = Ctl.next t := ht
    unfold arith16_stage at ht2
    rw [if_neg hg] at ht2
    refine stage_tally (arith16_body c) (4 * (ARITH_MAX : Int)) _
      (fun i u => (arith_body_tally c i u).2.1) s _ StageId.ARITH16 ?_ ?_ ?_ ?_ t ht2
    · rfl
    rotate_left
    · rfl
    · rfl
    show 4 * ((s.len : Int) - 1) * (ARITH_MAX : Int)
      = 4 * (ARITH_MAX : Int) * ((s.len - 1 : Nat) : Int)
    rw [Nat.cast_sub (by omega)]
    push_cast
    ring
  | arith32 =>
    have hg : ¬ s.len < 4 := of_decide_eq_true he
    have ht2 : arith32_stage c s = Ctl.next t := ht
    unfold arith32_stage at ht2
    rw [if_neg hg] at ht2
    refine stage_tally (arith32_body c) (4 * (ARITH_MAX : Int)) _
      (fun i u => (arith_body_tally c i u).2.2) s _ StageId.ARITH32 ?_ ?_ ?_ ?_ t ht2
    · rfl
    rotate_left
    · rfl
    · rfl
    show 4 * ((s.len : Int) - 3) * (ARITH_MAX : Int)
      = 4 * (ARITH_MAX : Int) * ((s.len - 3 : Nat) : Int)
    rw [Nat.cast_sub (by omega)]
    push_cast
    ring
  | interest8 =>
    have ht2 : interest8_stage c s = Ctl.next t := ht
    unfold interest8_stage at ht2
    refine stage_tally (interest8_body c) (c.T.interesting_8.length : Int) _
      (fun i u => (interest_body_tally c i u).1) s _ StageId.INTEREST8 ?_ ?_ ?_ ?_ t ht2
    · rfl
    rotate_left
    · rfl
    · rfl
    show (s.len : Int) * (c.T.interesting_8.length : Int)
      = (c.T.interesting_8.length : Int) * (s.len : Int)
    ring
  | interest16 =>
    have hg : ¬ (c.no_arith = true ∨ s.len < 2) := of_decide_eq_true he
    have ht2 : interest16_stage c s = Ctl.next t := ht
    unfold interest16_stage at ht2
    rw [if_neg hg] at ht2
    refine stage_tally (interest16_body c) (2 * (c.T.interesting_16.length : Int)) _
      (fun i u => (interest_body_tally c i u).2.1) s _ StageId.INTEREST16 ?_ ?_ ?_ ?_ t ht2
    · rfl
    rotate_left
    · rfl
    · rfl
    show 2 * ((s.len : Int) - 1) * (c.T.interesting_16.length : Int)
      = 2 * (c.T.interesting_16.length : Int) * ((s.len - 1 : Nat) : Int)
    rw [Nat.cast_sub (by omega)]
    push_cast
    ring
  | interest32 =>
    have hg : ¬ (c.no_arith = true ∨ s.len < 2 ∨ s.len < 4) := of_decide_eq_true he
    have ht2 : interest32_stage c s = Ctl.next t := ht
    unfold interest32_stage at ht2
    rw [if_neg hg] at ht2
    refine stage_tally (interest32_body c) (2 * (c.T.interesting_32.length : Int)) _
      (fun i u => (interest_body_tally c i u).2.2) s _ StageId.INTEREST32 ?_ ?_ ?_ ?_ t ht2
    · rfl
    rotate_left
    · rfl
    · rfl
    show 2 * ((s.len : Int) - 3) * (c.T.interesting_32.length : Int)
      = 2 * (c.T.interesting_32.length : Int) * ((s.len - 3 : Nat) : Int)
    rw [Nat.cast_sub (by omega)]
    push_cast
    ring
  | ext_UO =>
    have hg : ¬ c.extras.length = 0 := of_decide_eq_true he
    have ht2 : ext_UO_stage c s = Ctl.next t := ht
    unfold ext_UO_stage at ht2
    rw [if_neg hg] at ht2
    refine stage_tally (ext_UO_body c) (c.extras.length : Int) _
      (fun i u => (ext_body_tally c i u).1) s _ StageId.EXTRAS_UO ?_ ?_ ?_ ?_ t ht2
    · rfl
    · rfl
    · rfl
    · rfl
  | ext_UI =>
    have hg : ¬ c.extras.length = 0 := of_decide_eq_true he
    have ht2 : ext_UI_stage c s = Ctl.next t := ht
    unfold ext_UI_stage at ht2
    rw [if_neg hg] at ht2
    refine stage_tally (ext_UI_body c) (c.extras.length : Int) _
      (fun i u => (ext_body_tally c i u).2.1) s _ StageId.EXTRAS_UI ?_ ?_ ?_ ?_ t ht2
    · rfl
    rotate_left
    · rfl
    · rfl
    show (c.extras.length : Int) * ((s.len : Int) + 1)
      = (c.extras.length : Int) * ((s.len + 1 : Nat) : Int)
    push_cast
    ring
  | ext_AO =>
    have hg : ¬ c.a_extras.length = 0 := of_decide_eq_true he
    have ht2 : ext_AO_stage c s = Ctl.next t := ht
    unfold ext_AO_stage at ht2
    rw [if_neg hg] at ht2
    refine stage_tally (ext_AO_body c) ((auto_tokens c).length : Int) _
      (fun i u => (ext_body_tally c i u).2.2) s _ StageId.EXTRAS_AO ?_ ?_ ?_ ?_ t ht2
    · rfl
    rotate_left
    · rfl
    · rfl
    show ((min c.a_extras.length USE_AUTO_EXTRAS : Nat) : Int) * (s.len : Int)
      = ((auto_tokens c).length : Int) * (s.len : Int)
    have e : (auto_tokens c).length = min c.a_extras.length USE_AUTO_EXTRAS := by
      unfold auto_tokens
      rw [List.length_take]
      omega
    rw [e]

set_option maxRecDepth 1000000

/-- The claim C33 on the stage `int16` for the seed `10 ff` with its effector
entry set and the upstream tables: the stage is entered, runs to its end, and
ends with `stage_max = stage_cur`, the number of harness calls. -/
theorem cycle_submission_agreement_witness :
    CountedStage.interest16.entered (quiet_ctx [] [])
      { init_state [0x10, 0xff] with eff_map := [1] } = true ∧
    ∃ t new, CountedStage.interest16.run (quiet_ctx [] [])
        { init_state [0x10, 0xff] with eff_map := [1] } = Ctl.next t ∧
      t.execs = ({ init_state [0x10, 0xff] with eff_map := [1] } : FState).execs ++ new ∧
      t.stage_max = (new.length : Int) ∧ t.stage_cur = (new.length : Int) :=
  have hr : CountedStage.interest16.run (quiet_ctx [] [])
      { init_state [0x10, 0xff] with eff_map := [1] } =
      Ctl.next (CountedStage.interest16.run (quiet_ctx [] [])
        { init_state [0x10, 0xff] with eff_map := [1] }).state := by rfl
  ⟨by decide, _,
   (cycle_submission_agreement CountedStage.interest16 (quiet_ctx [] [])
      { init_state [0x10, 0xff] with eff_map := [1] } _ (by decide) hr).imp
      (fun _ h => ⟨hr, h.1, h.2.1, h.2.2.1⟩)⟩

/-! ## `arith16` submits no candidate of `arith8` -/

/-- One test-and-execute block that stores a word at offset `i` of a buffer
that is the seed `B` with some word stored there: it appends the seed with the
new word if its test passes, whatever the harness answers. -/
theorem attempt16_submits (c : Ctx) (B : List Nat) (i a : Nat) (cond : Bool) (val : Int)
    (s : FState) (hs : (∃ x, s.out_buf = wr16 B i x) ∧ s.len = B.length) :
    Submits (attempt c cond (wr16 s.out_buf i a) val s) s
      (if cond = true then [(wr16 B i a, B.length)] else [])
      (fun t => (∃ x, t.out_buf = wr16 B i x) ∧ t.len = B.length) := by
  obtain ⟨⟨x, hx⟩, h2⟩ := hs
  have hw : wr16 s.out_buf i a = wr16 B i a := by rw [hx, wr16_wr16]
  have htk : (wr16 B i a).take B.length = wr16 B i a := take_full _ _ (by simp [wr16])
  refine Submits_congr _ _ _ _ _ _ (attempt_submits c cond (wr16 s.out_buf i a) val s) ?_ ?_
  · rw [hw, h2, htk]
  · intro t ht
    refine ⟨?_, ht.2.trans h2⟩
    rw [ht.1]
    split_ifs
    · exact ⟨_, hw⟩
    · exact ⟨x, hx⟩

/-- Round `j` of the inner loop of `arith16` at offset `i` of the seed `B`
appends the stores of the values it tries, whatever the harness answers. -/
theorem arith16_inner_submits (c : Ctx) (B : List Nat) (i orig j : Nat) (s : FState)
    (hs : (∃ x, s.out_buf = wr16 B i x) ∧ s.len = B.length) :
    Submits (arith16_inner c i orig j s) s
      ((arith16_tries orig j).map (fun x => (wr16 B i x, B.length)))
      (fun t => (∃ x, t.out_buf = wr16 B i x) ∧ t.len = B.length) := by
  have e : (arith16_tries orig j).map (fun x => (wr16 B i x, B.length)) =
      (if (decide ((orig &&& 0xff) + j > 0xff) &&
            !could_be_bitflip ((orig ^^^ (orig + j)) % 65536)) = true
        then [(wr16 B i ((orig + j) % 65536), B.length)] else []) ++
      ((if (decide ((orig &&& 0xff) < j) &&
            !could_be_bitflip ((orig ^^^ sub32 orig j) % 65536)) = true
        then [(wr16 B i ((sub32 orig j) % 65536), B.length)] else []) ++
      ((if (decide ((orig >>> 8) + j > 0xff) &&
            !could_be_bitflip ((orig ^^^ SWAP16 (SWAP16 orig + j)) % 65536)) = true
        then [(wr16 B i (SWAP16 (SWAP16 orig + j)), B.length)] else []) ++
      ((if (decide ((orig >>> 8) < j) &&
            !could_be_bitflip ((orig ^^^ SWAP16 (sub32 (SWAP16 orig) j)) % 65536)) = true
        then [(wr16 B i (SWAP16 (sub32 (SWAP16 orig) j)), B.length)] else []) ++ []))) := by
    unfold arith16_tries
    simp only [List.map_append, List.map_nil]
    congr 1
    · split_ifs <;> rfl
    · congr 1
      · split_ifs <;> rfl
      · congr 1
        · split_ifs <;> rfl
        · congr 1
          split_ifs <;> rfl
  rw [e]
  unfold arith16_inner
  simp only
  exact Submits_bind _ _ s _ _ _ _ (attempt16_submits c B i _ _ _ s hs) (fun t1 p1 =>
    Submits_bind _ _ t1 _ _ _ _ (attempt16_submits c B i _ _ _ t1 p1) (fun t2 p2 =>
    Submits_bind _ _ t2 _ _ _ _ (attempt16_submits c B i _ _ _ t2 p2) (fun t3 p3 =>
    Submits_bind _ _ t3 _ _ _ _ (attempt16_submits c B i _ _ _ t3 p3) (fun t4 p4 =>
      ⟨[], List.prefix_refl _, by simp [Ctl.state], fun u hu => by
        cases hu
        obtain ⟨⟨x, hx⟩, h2⟩ := p4
        exact ⟨rfl, ⟨orig, by show wr16 t4.out_buf i orig = _; rw [hx, wr16_wr16]⟩, h2⟩⟩))))

/-- A value tried by `arith16` comes from a round `j` in `[1, ARITH_MAX]` and
from one of the four candidates of that round whose carry test passes. -/
theorem mem_arith16_values (orig x : Nat) (hx : x ∈ arith16_values orig) :
    ∃ j, 1 ≤ j ∧ j ≤ ARITH_MAX ∧
      (((orig &&& 0xff) + j > 0xff ∧ x = (orig + j) % 65536) ∨
       ((orig &&& 0xff) < j ∧ x = (sub32 orig j) % 65536) ∨
       ((orig >>> 8) + j > 0xff ∧ x = SWAP16 (SWAP16 orig + j)) ∨
       ((orig >>> 8) < j ∧ x = SWAP16 (sub32 (SWAP16 orig) j))) := by
  unfold arith16_values at hx
  rw [List.mem_flatten] at hx
  obtain ⟨l, hl, hxl⟩ := hx
  rw [List.mem_map] at hl
  obtain ⟨j, hj, rfl⟩ := hl
  rw [List.mem_range'_1] at hj
  refine ⟨j, hj.1, by omega, ?_⟩
  unfold arith16_tries at hxl
  simp only [List.mem_append, List.not_mem_nil, or_false] at hxl
  rcases hxl with h | h | h | h
  · split_ifs at h with hc
    · rw [List.mem_singleton] at h
      rw [Bool.and_eq_true, decide_eq_true_eq] at hc
      exact Or.inl ⟨hc.1, h⟩
    · cases h
  · split_ifs at h with hc
    · rw [List.mem_singleton] at h
      rw [Bool.and_eq_true, decide_eq_true_eq] at hc
      exact Or.inr (Or.inl ⟨hc.1, h⟩)
    · cases h
  · split_ifs at h with hc
    · rw [List.mem_singleton] at h
      rw [Bool.and_eq_true, decide_eq_true_eq] at hc
      exact Or.inr (Or.inr (Or.inl ⟨hc.1, h⟩))
    · cases h
  · split_ifs at h with hc
    · rw [List.mem_singleton] at h
      rw [Bool.and_eq_true, decide_eq_true_eq] at hc
      exact Or.inr (Or.inr (Or.inr ⟨hc.1, h⟩))
    · cases h

/-- A buffer that differs from `B` at two offsets is not `B` with one byte
replaced. -/
theorem ne_set_of_two (B X : List Nat) (i : Nat) (h1 : X.getD i 0 ≠ B.getD i 0)
    (h2 : X.getD (i + 1) 0 ≠ B.getD (i + 1) 0) (k v : Nat) : X ≠ B.set k v := by
  intro e
  rw [e, getD_set] at h1 h2
  by_cases hk : k = i
  · rw [if_neg (by omega)] at h2
    exact h2 rfl
  · rw [if_neg (fun h => hk h.1)] at h1
    exact h1 rfl

/-- C24 (`arith16` does not duplicate `arith8`): let `B` be a seed of bytes and
`i` an offset with `i + 1 < |B|`, the harness being arbitrary. A round of the
outer loop of `arith16` that the effector map rules out submits nothing; any
other round submits the buffers with the values `arith16_values` stored at the
offset, in order, all of them unless a run asks to abandon, and these are the
candidates `orig + j`, `orig - j` and their byte-swapped variants that pass the
carry rule (and the bit-flip test). Every submitted buffer differs from `B` at
both offsets `i` and `i + 1`, so it is no buffer `B` with one byte replaced, as
`arith8` submits; and for every `j` in `[1, ARITH_MAX]` a candidate rejected by
the carry rule is `B` with the byte at `i` (at `i + 1` for the byte-swapped
variants) replaced by the `arith8` value `byte + j` or `byte - j` modulo 256,
while a candidate that passes it differs from `B` at both offsets. -/
theorem arith16_no_duplicate (c : Ctx) (B : List Nat) (s : FState) (i : Nat) (hB : Bytes B)
    (hs : s.out_buf = B ∧ s.len = B.length) (hi : i + 1 < B.length) :
    (eff_skip2 s i = true → ∃ t, arith16_body c i s = Ctl.next t ∧ t.execs = s.execs) ∧
    (eff_skip2 s i = false →
      ∃ p, p <+: (arith16_values (rd16 B i)).map (fun x => (wr16 B i x, B.length)) ∧
        (arith16_body c i s).state.execs = s.execs ++ p ∧
        ∀ t, arith16_body c i s = Ctl.next t →
          p = (arith16_values (rd16 B i)).map (fun x => (wr16 B i x, B.length))) ∧
    (∀ x ∈ arith16_values (rd16 B i),
      (wr16 B i x).getD i 0 ≠ B.getD i 0 ∧
      (wr16 B i x).getD (i + 1) 0 ≠ B.getD (i + 1) 0 ∧
      ∀ k v, wr16 B i x ≠ B.set k v) ∧
    (∀ j, 1 ≤ j → j ≤ ARITH_MAX →
      (¬ ((rd16 B i &&& 0xff) + j > 0xff) →
        wr16 B i ((rd16 B i + j) % 65536) = B.set i ((B.getD i 0 + j) % 256)) ∧
      ((rd16 B i &&& 0xff) + j > 0xff →
        (wr16 B i ((rd16 B i + j) % 65536)).getD i 0 ≠ B.getD i 0 ∧
        (wr16 B i ((rd16 B i + j) % 65536)).getD (i + 1) 0 ≠ B.getD (i + 1) 0) ∧
      (¬ ((rd16 B i &&& 0xff) < j) →
        wr16 B i (sub32 (rd16 B i) j % 65536) = B.set i (sub32 (B.getD i 0) j % 256)) ∧
      ((rd16 B i &&& 0xff) < j →
        (wr16 B i (sub32 (rd16 B i) j % 65536)).getD i 0 ≠ B.getD i 0 ∧
        (wr16 B i (sub32 (rd16 B i) j % 65536)).getD (i + 1) 0 ≠ B.getD (i + 1) 0) ∧
      (¬ ((rd16 B i >>> 8) + j > 0xff) →
        wr16 B i (SWAP16 (SWAP16 (rd16 B i) + j))
          = B.set (i + 1) ((B.getD (i + 1) 0 + j) % 256)) ∧
      ((rd16 B i >>> 8) + j > 0xff →
        (wr16 B i (SWAP16 (SWAP16 (rd16 B i) + j))).getD i 0 ≠ B.getD i 0 ∧
        (wr16 B i (SWAP16 (SWAP16 (rd16 B i) + j))).getD (i + 1) 0 ≠ B.getD (i + 1) 0) ∧
      (¬ ((rd16 B i >>> 8) < j) →
        wr16 B i (SWAP16 (sub32 (SWAP16 (rd16 B i)) j))
          = B.set (i + 1) (sub32 (B.getD (i + 1) 0) j % 256)) ∧
      ((rd16 B i >>> 8) < j →
        (wr16 B i (SWAP16 (sub32 (SWAP16 (rd16 B i)) j))).getD i 0 ≠ B.getD i 0 ∧
        (wr16 B i (SWAP16 (sub32 (SWAP16 (rd16 B i)) j))).getD (i + 1) 0
          ≠ B.getD (i + 1) 0)) := by
  have hboth : ∀ x ∈ arith16_values (rd16 B i),
      (wr16 B i x).getD i 0 ≠ B.getD i 0 ∧
      (wr16 B i x).getD (i + 1) 0 ≠ B.getD (i + 1) 0 := by
    intro x hx
    obtain ⟨j, hj1, hj, hc⟩ := mem_arith16_values (rd16 B i) x hx
    obtain ⟨_, a2, _, a4, _, a6, _, a8⟩ := arith16_carry_rule B i j hB hi hj1 hj
    rcases hc with ⟨h, rfl⟩ | ⟨h, rfl⟩ | ⟨h, rfl⟩ | ⟨h, rfl⟩
    · exact a2 h
    · exact a4 h
    · exact a6 h
    · exact a8 h
  refine ⟨fun he => ?_, fun he => ?_, fun x hx => ⟨(hboth x hx).1, (hboth x hx).2,
    ne_set_of_two B _ i (hboth x hx).1 (hboth x hx).2⟩,
    fun j hj1 hj => arith16_carry_rule B i j hB hi hj1 hj⟩
  · unfold arith16_body
    simp only
    rw [if_pos he]
    exact ⟨_, rfl, rfl⟩
  · obtain ⟨h1, h2⟩ := hs
    subst h1
    have hl := Submits_for_each (arith16_inner c i (rd16 s.out_buf i))
      (fun t : FState => (∃ x, t.out_buf = wr16 s.out_buf i x) ∧ t.len = s.out_buf.length)
      (fun j => (arith16_tries (rd16 s.out_buf i) j).map
        (fun x => (wr16 s.out_buf i x, s.out_buf.length)))
      (List.range' 1 ARITH_MAX)
      (fun j _ u hu => arith16_inner_submits c s.out_buf i (rd16 s.out_buf i) j u hu)
      { s with stage_cur_byte := i } ⟨⟨rd16 s.out_buf i, by rw [wr16_rd16 s.out_buf i hB]⟩, h2⟩
    have e : arith16_body c i s =
        for_each (arith16_inner c i (rd16 s.out_buf i)) (List.range' 1 ARITH_MAX)
          { s with stage_cur_byte := i } := by
      unfold arith16_body for_loop
      simp only
      rw [if_neg (by rw [he]; exact Bool.false_ne_true)]
    have ev : ((List.range' 1 ARITH_MAX).map (fun j =>
        (arith16_tries (rd16 s.out_buf i) j).map
          (fun x => (wr16 s.out_buf i x, s.out_buf.length)))).flatten =
        (arith16_values (rd16 s.out_buf i)).map
          (fun x => (wr16 s.out_buf i x, s.out_buf.length)) := by
      unfold arith16_values
      rw [List.map_flatten, List.map_map]
      rfl
    rw [← e, ev] at hl
    obtain ⟨p, p1, p2, p3⟩ := hl
    exact ⟨p, p1, p2, fun t ht => (p3 t ht).1⟩

/-- The claim C24 at offset 0 of the seed `f0 01` with its effector entry set:
the round is not ruled out, it submits stores of `arith16_values`, among them
`orig + 0x20 = 0x0210`, whose store `10 02` differs from the seed in both
bytes. -/
theorem arith16_no_duplicate_witness :
    eff_skip2 ({ init_state [0xf0, 0x01] with eff_map := [1] } : FState) 0 = false ∧
    (528 : Nat) ∈ arith16_values (rd16 [0xf0, 0x01] 0) ∧
    (∃ p, p <+: (arith16_values (rd16 [0xf0, 0x01] 0)).map
          (fun x => (wr16 [0xf0, 0x01] 0 x, [0xf0, 0x01].length)) ∧
      (arith16_body (quiet_ctx [] []) 0
        { init_state [0xf0, 0x01] with eff_map := [1] }).state.execs =
        ({ init_state [0xf0, 0x01] with eff_map := [1] } : FState).execs ++ p ∧
      ∀ t, arith16_body (quiet_ctx [] []) 0
          { init_state [0xf0, 0x01] with eff_map := [1] } = Ctl.next t →
        p = (arith16_values (rd16 [0xf0, 0x01] 0)).map
          (fun x => (wr16 [0xf0, 0x01] 0 x, [0xf0, 0x01].length))) ∧
    ((wr16 [0xf0, 0x01] 0 528).getD 0 0 ≠ [0xf0, 0x01].getD 0 0 ∧
      (wr16 [0xf0, 0x01] 0 528).getD (0 + 1) 0 ≠ [0xf0, 0x01].getD (0 + 1) 0 ∧
      ∀ k v, wr16 [0xf0, 0x01] 0 528 ≠ [0xf0, 0x01].set k v) :=
  ⟨by decide, by decide,
   (arith16_no_duplicate (quiet_ctx [] []) [0xf0, 0x01]
      { init_state [0xf0, 0x01] with eff_map := [1] } 0 (by simp [Bytes]) ⟨rfl, rfl⟩
      (by decide)).2.1 (by decide),
   (arith16_no_duplicate (quiet_ctx [] []) [0xf0, 0x01]
      { init_state [0xf0, 0x01] with eff_map := [1] } 0 (by simp [Bytes]) ⟨rfl, rfl⟩
      (by decide)).2.2.1 528 (by decide)⟩

/-- The reversibility of EXTRAS_UO and EXTRAS_AO applied to the seed
`10 ff 03 04` with its effector entry set, the sorted dictionary `01`, `01 02`,
`07 08 09` and the auto token `03 04 05`: EXTRAS_UO overwrites the buffer nine
times (first into `01 ff 03 04`) and EXTRAS_AO twice, and both end with
`out_buf` equal to the seed. -/
theorem extras_over_reversibility_witness :
    SortedByLen (quiet_ctx [[1], [1, 2], [7, 8, 9]] [[3, 4, 5]]).extras ∧
    SortedByLen (auto_tokens (quiet_ctx [[1], [1, 2], [7, 8, 9]] [[3, 4, 5]])) ∧
    (∃ t, ext_UO_stage (quiet_ctx [[1], [1, 2], [7, 8, 9]] [[3, 4, 5]])
        { init_state [0x10, 0xff, 3, 4] with eff_map := [1] } = Ctl.next t ∧
      t.out_buf = ({ init_state [0x10, 0xff, 3, 4] with eff_map := [1] } : FState).out_buf) ∧
    (ext_UO_stage (quiet_ctx [[1], [1, 2], [7, 8, 9]] [[3, 4, 5]])
        { init_state [0x10, 0xff, 3, 4] with eff_map := [1] }).state.execs.length = 9 ∧
    ([1, 0xff, 3, 4], 4) ∈ (ext_UO_stage (quiet_ctx [[1], [1, 2], [7, 8, 9]] [[3, 4, 5]])
        { init_state [0x10, 0xff, 3, 4] with eff_map := [1] }).state.execs ∧
    (∃ t, ext_AO_stage (quiet_ctx [[1], [1, 2], [7, 8, 9]] [[3, 4, 5]])
        { init_state [0x10, 0xff, 3, 4] with eff_map := [1] } = Ctl.next t ∧
      t.out_buf = ({ init_state [0x10, 0xff, 3, 4] with eff_map := [1] } : FState).out_buf) ∧
    (ext_AO_stage (quiet_ctx [[1], [1, 2], [7, 8, 9]] [[3, 4, 5]])
        { init_state [0x10, 0xff, 3, 4] with eff_map := [1] }).state.execs.length = 2 ∧
    ([3, 4, 5, 4], 4) ∈ (ext_AO_stage (quiet_ctx [[1], [1, 2], [7, 8, 9]] [[3, 4, 5]])
        { init_state [0x10, 0xff, 3, 4] with eff_map := [1] }).state.execs :=
  ⟨by simp [SortedByLen, quiet_ctx], by simp [SortedByLen, auto_tokens, quiet_ctx, USE_AUTO_EXTRAS],
   ((extras_over_reversibility (quiet_ctx [[1], [1, 2], [7, 8, 9]] [[3, 4, 5]])
      { init_state [0x10, 0xff, 3, 4] with eff_map := [1] } rfl rfl (fun _ _ => rfl)).1
        (by simp [SortedByLen, quiet_ctx])).1,
   by decide, by decide,
   ((extras_over_reversibility (quiet_ctx [[1], [1, 2], [7, 8, 9]] [[3, 4, 5]])
      { init_state [0x10, 0xff, 3, 4] with eff_map := [1] } rfl rfl (fun _ _ => rfl)).2
        (by simp [SortedByLen, auto_tokens, quiet_ctx, USE_AUTO_EXTRAS])).1,
   by decide, by decide⟩
end FuzzOne
